import Mathlib

/-!
# Compaction merge-filter (`CompactionIterator`)

A shallow embedding of `storage/smartengine/core/compact/compaction_iterator.cc`:
the iterator state is an explicit record, `NextFromInput`, `SeekToFirst` and
`Next` are state transformers, and the input source is a list of records
still to be read.
-/

namespace smartengine

/-- A byte string (`common::Slice`). -/
abbrev Slice := List Nat

/-- Modelled from the spec: the "maximum sequence" sentinel `kMaxSequenceNumber`
of `db/dbformat.h` (absent): the newest possible value, 56 bits of ones.
Sequence numbers (`SequenceNumber`, an unsigned 64-bit integer) are natural
numbers here: the filter only compares them. -/
def kMaxSequenceNumber : Nat := 2 ^ 56 - 1

/-- Modelled from the spec: the operation types of an internal record
(`ValueType` of `db/dbformat.h`, absent). -/
inductive ValueType where
  | kTypeDeletion
  | kTypeValue
  | kTypeMerge
  | kTypeSingleDeletion
  | kTypeValueLarge
  deriving DecidableEq, Repr

/-- Modelled from the spec: a decoded internal key (`ParsedInternalKey` of
`db/dbformat.h`, absent). -/
structure ParsedInternalKey where
  user_key : Slice
  sequence : Nat
  type : ValueType
  deriving DecidableEq, Repr

/-- Modelled from the spec: the bytes of a record key as the Internal Key Codec
sees them: either the encoding of a (user_key, sequence, type) triple or bytes
that do not decode. -/
inductive RawKey where
  | wellFormed (ik : ParsedInternalKey)
  | malformed (raw : Slice)
  deriving DecidableEq, Repr

/-- Modelled from the spec: `ParseInternalKey` of `db/dbformat.h` (absent):
decodes a key, failing on malformed bytes. -/
def ParseInternalKey : RawKey → Option ParsedInternalKey
  | RawKey.wellFormed ik => some ik
  | RawKey.malformed _ => none

/-- Size in bytes of a key: the user key and the 8-byte trailer. -/
def RawKey.size : RawKey → Nat
  | RawKey.wellFormed ik => ik.user_key.length + 8
  | RawKey.malformed raw => raw.length

/-- A record of the input source, and of the output. -/
structure Entry where
  key : RawKey
  value : Slice
  deriving DecidableEq, Repr

/-- Modelled from the spec: the caller-supplied user-key comparator
(`util::Comparator`, absent): `Compare` is negative, zero or positive, `Equal`
is its equality test. -/
structure Comparator where
  Compare : Slice → Slice → Int
  Equal : Slice → Slice → Bool

/-- The status codes the filter reports. `kIOError` stands for any error of the
input source. -/
inductive Status where
  | kOk
  | kCorruption
  | kShutdownInProgress
  | kCancelTask
  | kIOError
  deriving DecidableEq, Repr

/-- The test `Status::ok()`. -/
def Status.ok (s : Status) : Bool := s == Status.kOk

/-- Modelled from the spec: the Sorted Input Source (`table::InternalIterator`,
absent): the records from the current position on, and the status the source
reports once it is exhausted. -/
structure InternalIterator where
  rest : List Entry
  end_status : Status
  deriving DecidableEq, Repr

/-- The test `input_->Valid()`. -/
def InternalIterator.Valid (it : InternalIterator) : Bool := !it.rest.isEmpty

/-- The call `input_->Next()`. -/
def InternalIterator.Next (it : InternalIterator) : InternalIterator :=
  { it with rest := it.rest.tail }

/-- The call `input_->status()`: OK while positioned on a record. -/
def InternalIterator.status (it : InternalIterator) : Status :=
  if it.Valid then Status.kOk else it.end_status

/-- The counters `iter_stats_`. -/
structure IterStats where
  num_input_records : Nat
  num_input_deletion_records : Nat
  num_input_corrupt_records : Nat
  total_input_raw_key_bytes : Nat
  total_input_raw_value_bytes : Nat
  num_record_drop_user : Nat
  num_record_drop_hidden : Nat
  num_record_drop_obsolete : Nat
  num_single_del_mismatch : Nat
  num_single_del_fallthru : Nat
  deriving DecidableEq, Repr

/-- All counters zero. -/
def IterStats.zero : IterStats :=
  { num_input_records := 0, num_input_deletion_records := 0,
    num_input_corrupt_records := 0, total_input_raw_key_bytes := 0,
    total_input_raw_value_bytes := 0, num_record_drop_user := 0,
    num_record_drop_hidden := 0, num_record_drop_obsolete := 0,
    num_single_del_mismatch := 0, num_single_del_fallthru := 0 }

/-- The arguments of the constructor `CompactionIterator::CompactionIterator`
that stay fixed for the life of the filter. `task_type` is
`change_info_.task_type_`. -/
structure Config where
  cmp_ : Comparator
  last_sequence : Nat
  snapshots_ : List Nat
  earliest_write_conflict_snapshot_ : Nat
  expect_valid_internal_key_ : Bool
  l2_largest_key_ : Option Slice
  background_disable_merge_ : Bool
  task_type : Nat

/-- The member `visible_at_tip_` as the constructor sets it. -/
def Config.visible_at_tip_ (cfg : Config) : Bool := cfg.snapshots_.length == 0

/-- The member `earliest_snapshot_` as the constructor sets it. -/
def Config.earliest_snapshot_ (cfg : Config) : Nat :=
  if cfg.snapshots_.length == 0 then cfg.last_sequence else cfg.snapshots_.headD 0

/-- The member `latest_snapshot_` as the constructor sets it. -/
def Config.latest_snapshot_ (cfg : Config) : Nat :=
  if cfg.snapshots_.length == 0 then 0 else cfg.snapshots_.getLastD 0

/-- The externally owned flags, read at each call: `shutting_down_`,
`bg_stopped_` and the cancel word `cancel_type_` (absent when the pointer is
null; a 64-bit pattern otherwise). -/
structure Flags where
  shutting_down : Bool
  bg_stopped : Bool
  cancel_type : Option Nat
  deriving DecidableEq, Repr

/-- No flag set and no cancel word. -/
def Flags.unset : Flags :=
  { shutting_down := false, bg_stopped := false, cancel_type := none }

/-- The mutable members of `CompactionIterator`. -/
structure State where
  input_ : InternalIterator
  valid_ : Bool
  at_next_ : Bool
  status_ : Status
  key_ : RawKey
  value_ : Slice
  ikey_ : ParsedInternalKey
  has_current_user_key_ : Bool
  current_user_key_ : Slice
  current_user_key_sequence_ : Nat
  current_user_key_snapshot_ : Nat
  has_outputted_key_ : Bool
  clear_and_output_next_key_ : Bool
  iter_stats_ : IterStats
  deriving DecidableEq, Repr

/-- Modelled from the spec: the member initialisers of `compaction_iterator.h`
(absent). The state right after construction, the input positioned on its first
record: no current user key, nothing output, deferred-output flag clear, status
OK; `valid_` is false as the constructor sets it. -/
def State.init (input : InternalIterator) : State :=
  { input_ := input, valid_ := false, at_next_ := false, status_ := Status.kOk,
    key_ := RawKey.malformed [], value_ := [],
    ikey_ := { user_key := [], sequence := 0, type := ValueType.kTypeDeletion },
    has_current_user_key_ := false, current_user_key_ := [],
    current_user_key_sequence_ := 0, current_user_key_snapshot_ := 0,
    has_outputted_key_ := false, clear_and_output_next_key_ := false,
    iter_stats_ := IterStats.zero }

/-- The loop of `CompactionIterator::findEarliestVisibleSnapshot`, `prev` being
the local of that name; the result is the returned snapshot and the value
stored through `prev_snapshot`. -/
def findEarliestVisibleSnapshotLoop (seq : Nat) :
    List Nat → Nat → Nat × Nat
  | [], prev => (kMaxSequenceNumber, prev)
  | cur :: rest, prev =>
    if cur ≥ seq then
      (cur, if prev = kMaxSequenceNumber then 0 else prev)
    else
      findEarliestVisibleSnapshotLoop seq rest cur

/-- The function `CompactionIterator::findEarliestVisibleSnapshot`: the returned
snapshot and the value stored through `prev_snapshot`. -/
def findEarliestVisibleSnapshot (snapshots : List Nat) (seq : Nat) :
    Nat × Nat :=
  findEarliestVisibleSnapshotLoop seq snapshots kMaxSequenceNumber

/-- The pair (`current_user_key_snapshot_`, `prev_snapshot`) that
`NextFromInput` computes for a record of sequence `seq`. -/
def snapshotOf (cfg : Config) (seq : Nat) : Nat × Nat :=
  if cfg.visible_at_tip_ then (cfg.earliest_snapshot_, 0)
  else findEarliestVisibleSnapshot cfg.snapshots_ seq

/-- Modelled from the spec: the test `IsShuttingDown()` of
`compaction_iterator.h` (absent): the externally owned flag `shutting_down_`. -/
def IsShuttingDown (fl : Flags) : Bool := fl.shutting_down

/-- Modelled from the spec: the test `is_bg_stopped()` of
`compaction_iterator.h` (absent): the externally owned flag `bg_stopped_`. -/
def is_bg_stopped (fl : Flags) : Bool := fl.bg_stopped

/-- The function `CompactionIterator::is_canceled`. -/
def is_canceled (cfg : Config) (fl : Flags) : Bool :=
  match fl.cancel_type with
  | none => false
  | some w => (w &&& ((1 <<< cfg.task_type) % 2 ^ 64)) != 0

/-- The test `nullptr != l2_largest_key_ && seq <= earliest_snapshot_ &&
cmp_->Compare(user_key, *l2_largest_key_) > 0`. -/
def beyondHint (cfg : Config) (user_key : Slice) (seq : Nat) : Bool :=
  match cfg.l2_largest_key_ with
  | none => false
  | some hint => decide (seq ≤ cfg.earliest_snapshot_) && decide (cfg.cmp_.Compare user_key hint > 0)

/-- Increment of `num_record_drop_hidden`. -/
def IterStats.addHidden (s : IterStats) : IterStats :=
  { s with num_record_drop_hidden := s.num_record_drop_hidden + 1 }

/-- Increment of `num_record_drop_obsolete`. -/
def IterStats.addObsolete (s : IterStats) : IterStats :=
  { s with num_record_drop_obsolete := s.num_record_drop_obsolete + 1 }

/-- Increment of `num_single_del_mismatch`. -/
def IterStats.addMismatch (s : IterStats) : IterStats :=
  { s with num_single_del_mismatch := s.num_single_del_mismatch + 1 }

/-- Increment of `num_single_del_fallthru`. -/
def IterStats.addFallthru (s : IterStats) : IterStats :=
  { s with num_single_del_fallthru := s.num_single_del_fallthru + 1 }

/-- The lookahead test of the `kTypeSingleDeletion` branch, `input_->Valid() &&
ParseInternalKey(input_->key(), &next_ikey) && cmp_->Equal(ikey_.user_key,
next_ikey.user_key)`, on the input already advanced past the SingleDelete: the
parsed key `next_ikey` when the test holds. -/
def matchedSuccessor (cfg : Config) (user_key : Slice) (input : InternalIterator) :
    Option ParsedInternalKey :=
  match input.rest with
  | [] => none
  | nxt :: _ =>
    match ParseInternalKey nxt.key with
    | none => none
    | some next_ikey =>
      if cfg.cmp_.Equal user_key next_ikey.user_key then some next_ikey else none

/-- The `kTypeSingleDeletion` branch of `NextFromInput`, up to and including
`if (valid_) at_next_ = true`. On entry the input is still positioned on the
SingleDelete; `prev_snapshot` is the local of that name. -/
def singleDeleteBranch (cfg : Config) (st : State) (prev_snapshot : Nat) : State :=
  let st := { st with input_ := st.input_.Next }
  let st :=
    match matchedSuccessor cfg st.ikey_.user_key st.input_ with
    | some next_ikey =>
      if prev_snapshot = 0 ∨ next_ikey.sequence > prev_snapshot then
        if next_ikey.type = ValueType.kTypeSingleDeletion then
          { st with iter_stats_ := st.iter_stats_.addObsolete.addMismatch }
        else if st.ikey_.sequence ≤ cfg.earliest_write_conflict_snapshot_
            ∨ st.has_outputted_key_ = true then
          let stats :=
            if next_ikey.type ≠ ValueType.kTypeValue then st.iter_stats_.addMismatch
            else st.iter_stats_
          { st with iter_stats_ := stats.addHidden.addObsolete, input_ := st.input_.Next }
        else
          { st with valid_ := true, clear_and_output_next_key_ := true }
      else
        { st with valid_ := true }
    | none =>
      let st := { st with has_current_user_key_ := false }
      if beyondHint cfg st.ikey_.user_key st.ikey_.sequence then
        { st with iter_stats_ := st.iter_stats_.addObsolete.addFallthru }
      else
        { st with valid_ := true }
  if st.valid_ then { st with at_next_ := true } else st

/-- The statement `if (!has_current_user_key_ || !cmp_->Equal(ikey_.user_key,
current_user_key_)) ... else ...` of `NextFromInput`, `ikey` being the freshly
parsed `ikey_`. The buffer `current_key_` holds `current_user_key_` and the
8-byte trailer, so `UpdateInternalKey` yields the key of `current_user_key_`
with the new sequence and type. -/
def updateCurrentKey (cfg : Config) (st : State) (ikey : ParsedInternalKey) : State :=
  if st.has_current_user_key_ = false
      ∨ cfg.cmp_.Equal ikey.user_key st.current_user_key_ = false then
    { st with ikey_ := ikey, current_user_key_ := ikey.user_key,
              has_current_user_key_ := true, has_outputted_key_ := false,
              current_user_key_sequence_ := kMaxSequenceNumber,
              current_user_key_snapshot_ := 0 }
  else
    { st with key_ := RawKey.wellFormed
                { user_key := st.current_user_key_, sequence := ikey.sequence,
                  type := ikey.type },
              ikey_ := { ikey with user_key := st.current_user_key_ } }

/-- The chain `if (need_skip) ... else if (clear_and_output_next_key_) ... else
if (ikey_.type == kTypeSingleDeletion) ... else ...` of `NextFromInput`;
`last_snapshot` and `prev_snapshot` are the locals of those names (`need_skip`
is never set). -/
def applyRules (cfg : Config) (st : State) (last_snapshot prev_snapshot : Nat) : State :=
  if st.clear_and_output_next_key_ then
    { st with value_ := [], valid_ := true, clear_and_output_next_key_ := false }
  else if st.ikey_.type = ValueType.kTypeSingleDeletion then
    singleDeleteBranch cfg st prev_snapshot
  else if last_snapshot = st.current_user_key_snapshot_ then
    { st with iter_stats_ := st.iter_stats_.addHidden, input_ := st.input_.Next }
  else if st.ikey_.type = ValueType.kTypeDeletion
      ∧ beyondHint cfg st.ikey_.user_key st.ikey_.sequence = true then
    { st with iter_stats_ := st.iter_stats_.addObsolete, input_ := st.input_.Next }
  else if st.ikey_.type = ValueType.kTypeMerge then
    st
  else
    { st with valid_ := true }

/-- The part of the loop body of `NextFromInput` after the key parsed and the
input statistics were updated: `ikey` is the freshly parsed `ikey_`. The
boolean is true when the body left the loop through `break`. -/
def processParsed (cfg : Config) (st : State) (ikey : ParsedInternalKey) : State × Bool :=
  let st := updateCurrentKey cfg st ikey
  if cfg.background_disable_merge_ then
    ({ st with valid_ := true, status_ := st.input_.status }, true)
  else
    let last_snapshot := st.current_user_key_snapshot_
    let snap := snapshotOf cfg st.ikey_.sequence
    let st := { st with current_user_key_sequence_ := st.ikey_.sequence,
                        current_user_key_snapshot_ := snap.1 }
    let st := applyRules cfg st last_snapshot snap.2
    ({ st with status_ := st.input_.status }, false)

/-- The update of the input statistics in the loop body, for a record with
parsed key `ikey`, key `key` and value `value`. -/
def inputStats (stats : IterStats) (ikey : ParsedInternalKey) (key : RawKey)
    (value : Slice) : IterStats :=
  let stats :=
    if ikey.type = ValueType.kTypeDeletion ∨ ikey.type = ValueType.kTypeSingleDeletion then
      { stats with num_input_deletion_records := stats.num_input_deletion_records + 1 }
    else stats
  { stats with
    total_input_raw_key_bytes := stats.total_input_raw_key_bytes + key.size,
    total_input_raw_value_bytes := stats.total_input_raw_value_bytes + value.length }

/-- One pass through the body of the `while` loop of `NextFromInput`, the input
being positioned on record `e`. The boolean is true when the body left the loop
through `break`. -/
def NextFromInputBody (cfg : Config) (st : State) (e : Entry) : State × Bool :=
  let st := { st with key_ := e.key, value_ := e.value,
                      iter_stats_ := { st.iter_stats_ with
                        num_input_records := st.iter_stats_.num_input_records + 1 } }
  match ParseInternalKey st.key_ with
  | none =>
    if cfg.expect_valid_internal_key_ then
      ({ st with status_ := Status.kCorruption }, true)
    else
      ({ st with has_current_user_key_ := false,
                 current_user_key_sequence_ := kMaxSequenceNumber,
                 current_user_key_snapshot_ := 0,
                 iter_stats_ := { st.iter_stats_ with
                   num_input_corrupt_records := st.iter_stats_.num_input_corrupt_records + 1 },
                 valid_ := true }, true)
  | some ikey =>
    processParsed cfg
      { st with iter_stats_ := inputStats st.iter_stats_ ikey st.key_ st.value_ } ikey

/-- The condition of the `while` loop of `NextFromInput`. -/
def loopCond (fl : Flags) (st : State) : Bool :=
  !st.valid_ && st.status_.ok && st.input_.Valid && !IsShuttingDown fl && !is_bg_stopped fl

/-- The `while` loop of `NextFromInput`, run for at most `fuel` passes; `none`
when the passes do not suffice. -/
def NextFromInputLoop (cfg : Config) (fl : Flags) : Nat → State → Option State
  | 0, st => if loopCond fl st then none else some st
  | fuel + 1, st =>
    if loopCond fl st then
      match st.input_.rest with
      | [] => some st
      | e :: _ =>
        let r := NextFromInputBody cfg st e
        if r.2 then some r.1 else NextFromInputLoop cfg fl fuel r.1
    else some st

/-- The statements of `NextFromInput` that follow the loop. -/
def afterLoop (cfg : Config) (fl : Flags) (st : State) : State :=
  let st :=
    if st.valid_ = false ∧ (IsShuttingDown fl = true ∨ is_bg_stopped fl = true) then
      { st with status_ := Status.kShutdownInProgress }
    else st
  if st.status_.ok = true ∧ is_canceled cfg fl = true then
    { st with status_ := Status.kCancelTask }
  else st

/-- The function `CompactionIterator::NextFromInput`. Every pass of its loop
that neither ends it nor advances the input is followed by one that does, so
twice the number of records left, and one more, bounds the passes; the result
is `none` only if that bound is exceeded. -/
def NextFromInput (cfg : Config) (fl : Flags) (st : State) : Option State :=
  let st := { st with at_next_ := false, valid_ := false }
  (NextFromInputLoop cfg fl (2 * st.input_.rest.length + 2) st).map (afterLoop cfg fl)

/-- The function `CompactionIterator::PrepareOutput`, whose body is commented
out. -/
def PrepareOutput (st : State) : State := st

/-- The function `CompactionIterator::SeekToFirst`. -/
def SeekToFirst (cfg : Config) (fl : Flags) (st : State) : Option State :=
  (NextFromInput cfg fl st).map PrepareOutput

/-- The function `CompactionIterator::Next`. -/
def Next (cfg : Config) (fl : Flags) (st : State) : Option State :=
  let st :=
    if st.at_next_ = false then
      let input := st.input_.Next
      { st with input_ := input, status_ := input.status }
    else st
  (NextFromInput cfg fl st).map fun st =>
    let st := if st.valid_ then { st with has_outputted_key_ := true } else st
    PrepareOutput st

/-- Modelled from the spec: the accessor `Valid()` of `compaction_iterator.h`
(absent): true iff a record is available to read. -/
def State.Valid (st : State) : Bool := st.valid_

/-- The record the filter exposes through `key()` and `value()`. -/
def State.current (st : State) : Entry := { key := st.key_, value := st.value_ }

/-- The caller's loop `for (; c_iter->Valid(); c_iter->Next())`: the records
read from `st` on, calling `Next` at most `fuel` times; `none` when a call does
not return or the calls do not suffice. -/
def drain (cfg : Config) (fl : Flags) : Nat → State → Option (List Entry)
  | 0, st => if st.Valid then none else some []
  | fuel + 1, st =>
    if st.Valid then
      match Next cfg fl st with
      | none => none
      | some st' => (drain cfg fl fuel st').map fun out => st.current :: out
    else some []

/-- The final state of the caller's loop, under the same conventions as
`drain`. -/
def drainState (cfg : Config) (fl : Flags) : Nat → State → Option State
  | 0, st => if st.Valid then none else some st
  | fuel + 1, st =>
    if st.Valid then
      match Next cfg fl st with
      | none => none
      | some st' => drainState cfg fl fuel st'
    else some st

/-- The records emitted by `SeekToFirst` followed by `Next` until `Valid()` is
false, over an input source that holds `input` and ends without error. -/
def emitted (cfg : Config) (fl : Flags) (input : List Entry) : Option (List Entry) :=
  match SeekToFirst cfg fl (State.init { rest := input, end_status := Status.kOk }) with
  | none => none
  | some st => drain cfg fl (input.length + 1) st

/-- The state in which that run ends. -/
def finalState (cfg : Config) (fl : Flags) (input : List Entry) : Option State :=
  match SeekToFirst cfg fl (State.init { rest := input, end_status := Status.kOk }) with
  | none => none
  | some st => drainState cfg fl (input.length + 1) st

/-- The input position at which the loop of the next call to `Next` starts:
`Next` advances the input unless `at_next_` is set. -/
def State.pending (st : State) : List Entry :=
  if st.at_next_ then st.input_.rest else st.input_.rest.tail

/-- The bytewise comparison of two user keys. -/
def bytewiseCompare : Slice → Slice → Int
  | [], [] => 0
  | [], _ :: _ => -1
  | _ :: _, [] => 1
  | a :: as, b :: bs =>
    if a < b then -1 else if b < a then 1 else bytewiseCompare as bs

/-- The bytewise comparator. -/
def BytewiseComparator : Comparator :=
  { Compare := bytewiseCompare, Equal := fun a b => decide (a = b) }

/-- A record `Put(k, v)@seq`. -/
def mkPut (k : Slice) (v : Slice) (seq : Nat) : Entry :=
  { key := RawKey.wellFormed { user_key := k, sequence := seq, type := ValueType.kTypeValue },
    value := v }

/-- A record `Delete(k)@seq`. -/
def mkDelete (k : Slice) (seq : Nat) : Entry :=
  { key := RawKey.wellFormed { user_key := k, sequence := seq, type := ValueType.kTypeDeletion },
    value := [] }

/-- A record `SingleDelete(k)@seq`. -/
def mkSingleDelete (k : Slice) (seq : Nat) : Entry :=
  { key := RawKey.wellFormed
      { user_key := k, sequence := seq, type := ValueType.kTypeSingleDeletion },
    value := [] }

/-- A configuration with the bytewise comparator, non-strict parsing, merging
enabled and task type 0. -/
def mkConfig (snapshots : List Nat) (last_sequence ewcs : Nat)
    (hint : Option Slice) : Config :=
  { cmp_ := BytewiseComparator, last_sequence := last_sequence, snapshots_ := snapshots,
    earliest_write_conflict_snapshot_ := ewcs, expect_valid_internal_key_ := false,
    l2_largest_key_ := hint, background_disable_merge_ := false, task_type := 0 }

/-- The comparator contract: `Equal` is equality of user keys, `Compare` is zero
exactly on equal keys and is antisymmetric. -/
def Comparator.Lawful (c : Comparator) : Prop :=
  (∀ a b, c.Equal a b = true ↔ a = b) ∧ (∀ a b, c.Compare a b = 0 ↔ a = b) ∧
  (∀ a b, c.Compare a b < 0 → 0 < c.Compare b a)

/-- Shutdown and cancel flags unset: neither `shutting_down_` nor `bg_stopped_`
is set and the cancel bit of the task type is clear. -/
def FlagsUnset (cfg : Config) (fl : Flags) : Prop :=
  fl.shutting_down = false ∧ fl.bg_stopped = false ∧ is_canceled cfg fl = false

/-- The earliest visible snapshot (visibility class) the filter assigns to a
record of sequence `seq`: the value it stores in `current_user_key_snapshot_`. -/
def visibilityClass (cfg : Config) (seq : Nat) : Nat :=
  (snapshotOf cfg seq).1

/-- The key of a record parses, to a sequence number that fits the 56 bits the
encoding gives it. -/
def Entry.Parses (e : Entry) : Prop :=
  ∃ ik, ParseInternalKey e.key = some ik ∧ ik.sequence ≤ kMaxSequenceNumber

/-- The key of a record parses and its type is one of `ts`. -/
def Entry.HasType (ts : List ValueType) (e : Entry) : Prop :=
  ∃ ik, ParseInternalKey e.key = some ik ∧ ik.sequence ≤ kMaxSequenceNumber ∧ ik.type ∈ ts

/-- The order of two internal keys `x` before `y` of a sorted input: user key
ascending under the comparator, sequence descending within a user key. -/
def ikOrder (cmp : Comparator) (x y : ParsedInternalKey) : Prop :=
  cmp.Compare x.user_key y.user_key < 0
    ∨ (cmp.Compare x.user_key y.user_key = 0 ∧ y.sequence < x.sequence)

/-- The order of two records `a` before `b` of a sorted input: that of their
internal keys. Records that do not parse are not constrained. -/
def keyOrder (cmp : Comparator) (a b : Entry) : Prop :=
  match ParseInternalKey a.key, ParseInternalKey b.key with
  | some x, some y => ikOrder cmp x y
  | _, _ => True

/-- The input is sorted: every record precedes, in `keyOrder`, every later
one. -/
def InputSorted (cmp : Comparator) (input : List Entry) : Prop :=
  input.Pairwise (keyOrder cmp)

/-- The snapshot list is ascending. -/
def SnapshotsAscending (snapshots : List Nat) : Prop :=
  snapshots.Pairwise (fun a b => a ≤ b)

/-- The snapshot list is strictly ascending. -/
def SnapshotsStrict (snapshots : List Nat) : Prop :=
  snapshots.Pairwise (fun a b => a < b)

/-- The watermarks are positive, and so is `last_sequence` when there is no
watermark. -/
def WatermarksPositive (cfg : Config) : Prop :=
  (∀ w ∈ cfg.snapshots_, 0 < w) ∧ (cfg.snapshots_ = [] → 0 < cfg.last_sequence)

/-- The newest record of user key `k` with sequence at most `s` among
`records`: its parsed key and its value. -/
def newestVisible (k : Slice) (s : Nat) :
    List Entry → Option (ParsedInternalKey × Slice)
  | [] => none
  | e :: rest =>
    match ParseInternalKey e.key with
    | none => newestVisible k s rest
    | some ik =>
      if ik.user_key = k ∧ ik.sequence ≤ s then
        match newestVisible k s rest with
        | none => some (ik, e.value)
        | some later => if ik.sequence < later.1.sequence then some later else some (ik, e.value)
      else newestVisible k s rest

/-- What a reader gets from the record found for it: the value, or absent
(`none`) when the record is a Delete or there is no record. -/
def readResult : Option (ParsedInternalKey × Slice) → Option Slice
  | none => none
  | some (ik, v) => if ik.type = ValueType.kTypeDeletion then none else some v

/-- The read result for user key `k` at snapshot `s` over `records`: the value
of the newest record of `k` with sequence at most `s`, absent (`none`) when
that record is a Delete or there is no such record. -/
def readAt (k : Slice) (s : Nat) (records : List Entry) : Option Slice :=
  readResult (newestVisible k s records)

/-- The first record, in list order, of user key `k` with sequence at most
`s`. -/
def firstVisible (k : Slice) (s : Nat) : List Entry → Option (ParsedInternalKey × Slice)
  | [] => none
  | e :: rest =>
    match ParseInternalKey e.key with
    | none => firstVisible k s rest
    | some ik =>
      if ik.user_key = k ∧ ik.sequence ≤ s then some (ik, e.value) else firstVisible k s rest

/-- The value of `last_snapshot` in the loop pass on a record with parsed key
`ik`, when `prev` is the parsed key of the record of the previous pass (`none`
when `has_current_user_key_` is false). -/
def lastSnapshotFor (cfg : Config) (prev : Option ParsedInternalKey)
    (ik : ParsedInternalKey) : Nat :=
  match prev with
  | none => 0
  | some p => if p.user_key = ik.user_key then visibilityClass cfg p.sequence else 0

/-- The record is dropped in the hidden branch of the loop. -/
def plainHidden (cfg : Config) (prev : Option ParsedInternalKey) (ik : ParsedInternalKey) :
    Bool :=
  decide (lastSnapshotFor cfg prev ik = visibilityClass cfg ik.sequence)

/-- The record is dropped in the obsolete-Delete branch of the loop. -/
def plainObsolete (cfg : Config) (prev : Option ParsedInternalKey) (ik : ParsedInternalKey) :
    Bool :=
  !plainHidden cfg prev ik && decide (ik.type = ValueType.kTypeDeletion)
    && beyondHint cfg ik.user_key ik.sequence

/-- The record is a Merge that reaches the Merge branch of the loop; the pass
after it drops the record as hidden. -/
def plainMerge (cfg : Config) (prev : Option ParsedInternalKey) (ik : ParsedInternalKey) :
    Bool :=
  !plainHidden cfg prev ik && !plainObsolete cfg prev ik && decide (ik.type = ValueType.kTypeMerge)

/-- The branches of the loop, read as a function on lists: what the filter
emits over records that parse and are not SingleDeletes, `prev` as in
`lastSnapshotFor`. -/
def plainFilter (cfg : Config) : Option ParsedInternalKey → List Entry → List Entry
  | _, [] => []
  | prev, e :: l =>
    match ParseInternalKey e.key with
    | none => []
    | some ik =>
      if plainHidden cfg prev ik || plainObsolete cfg prev ik || plainMerge cfg prev ik then
        plainFilter cfg (some ik) l
      else e :: plainFilter cfg (some ik) l

/-- The number of increments of `num_record_drop_hidden` over the same
records. -/
def plainHiddenCount (cfg : Config) : Option ParsedInternalKey → List Entry → Nat
  | _, [] => 0
  | prev, e :: l =>
    match ParseInternalKey e.key with
    | none => 0
    | some ik =>
      (if plainHidden cfg prev ik || plainMerge cfg prev ik then 1 else 0)
        + plainHiddenCount cfg (some ik) l

/-- The number of increments of `num_record_drop_obsolete` over the same
records. -/
def plainObsoleteCount (cfg : Config) : Option ParsedInternalKey → List Entry → Nat
  | _, [] => 0
  | prev, e :: l =>
    match ParseInternalKey e.key with
    | none => 0
    | some ik =>
      (if plainObsolete cfg prev ik then 1 else 0) + plainObsoleteCount cfg (some ik) l

/-- The newest-per-class reference: the records that start a new user key or
whose visibility class differs from that of the preceding record of the same
user key; `prev` is the parsed key of the preceding record. -/
def newestPerClass (cfg : Config) : Option ParsedInternalKey → List Entry → List Entry
  | _, [] => []
  | prev, e :: l =>
    match ParseInternalKey e.key with
    | none => []
    | some ik =>
      let first : Bool :=
        match prev with
        | none => true
        | some p =>
          decide (p.user_key ≠ ik.user_key)
            || decide (visibilityClass cfg p.sequence ≠ visibilityClass cfg ik.sequence)
      if first then e :: newestPerClass cfg (some ik) l else newestPerClass cfg (some ik) l

/-- The next pass of the loop finds the record under the input in the
visibility class recorded for its user key (so a pass that does not emit it
drops it as hidden or as a SingleDelete). -/
def willHide (cfg : Config) (st : State) : Bool :=
  match st.input_.rest with
  | [] => false
  | e :: _ =>
    match ParseInternalKey e.key with
    | none => false
    | some ik =>
      st.has_current_user_key_ && cfg.cmp_.Equal ik.user_key st.current_user_key_
        && decide (st.current_user_key_snapshot_ = (snapshotOf cfg ik.sequence).1)

/-- A bound on the passes of the loop still to run: two per record left, less
one when the next pass is bound to advance. -/
def loopMeasure (cfg : Config) (st : State) : Nat :=
  2 * st.input_.rest.length + (if willHide cfg st then 0 else 1)

/-- The key of a record parses and the record is not a SingleDelete. -/
def Entry.Plain (e : Entry) : Prop :=
  ∃ ik, ParseInternalKey e.key = some ik ∧ ik.type ≠ ValueType.kTypeSingleDeletion

/-- The per-key members of the state are those a pass over a record with parsed
key `prev` leaves (`none`: `has_current_user_key_` is false). -/
def StateMatches (cfg : Config) (st : State) (prev : Option ParsedInternalKey) : Prop :=
  match prev with
  | none => st.has_current_user_key_ = false
  | some p =>
    st.has_current_user_key_ = true ∧ st.current_user_key_ = p.user_key
      ∧ st.current_user_key_snapshot_ = visibilityClass cfg p.sequence

/-- The state `st'` in which a call of `NextFromInput` ends over the records
`l`, none a SingleDelete, when `h` and `o` were the hidden and obsolete
counters on entry: either nothing is left and `plainFilter` keeps nothing, or
the filter stands on the first record `plainFilter` keeps. -/
def PlainPost (cfg : Config) (prev : Option ParsedInternalKey) (l : List Entry) (h o : Nat)
    (st' : State) : Prop :=
  st'.at_next_ = false ∧ st'.clear_and_output_next_key_ = false
    ∧ ((st'.valid_ = false ∧ plainFilter cfg prev l = [] ∧ st'.input_.rest = []
        ∧ st'.iter_stats_.num_record_drop_hidden = h + plainHiddenCount cfg prev l
        ∧ st'.iter_stats_.num_record_drop_obsolete = o + plainObsoleteCount cfg prev l)
      ∨ (st'.valid_ = true ∧ ∃ e ik l', st'.input_.rest = e :: l'
          ∧ (∀ x ∈ l', x.Plain) ∧ l'.length < l.length
          ∧ StateMatches cfg st' (some ik)
          ∧ st'.current = e
          ∧ plainFilter cfg prev l = e :: plainFilter cfg (some ik) l'
          ∧ st'.iter_stats_.num_record_drop_hidden + plainHiddenCount cfg (some ik) l'
              = h + plainHiddenCount cfg prev l
          ∧ st'.iter_stats_.num_record_drop_obsolete + plainObsoleteCount cfg (some ik) l'
              = o + plainObsoleteCount cfg prev l))

/-- No two records of `out` have the same user key and the same visibility
class. -/
def OnePerClass (cfg : Config) (out : List Entry) : Prop :=
  out.Pairwise fun a b =>
    match ParseInternalKey a.key, ParseInternalKey b.key with
    | some x, some y =>
      x.user_key = y.user_key → visibilityClass cfg x.sequence ≠ visibilityClass cfg y.sequence
    | _, _ => True

/-- The statement `status_ = input_->status()` that ends a pass of the loop. -/
def State.syncStatus (st : State) : State := { st with status_ := st.input_.status }

/-- The flag `has_outputted_key_` as the SingleDelete branch reads it in a pass
on a record of user key `k` that starts in state `st`: the stored flag when the
record continues the current user key, false when it starts a new one. -/
def outputtedFor (st : State) (k : Slice) : Bool :=
  if st.has_current_user_key_ = true ∧ st.current_user_key_ = k then st.has_outputted_key_
  else false

/-- The SingleDelete with parsed key `ik` has no matching successor in `rest`:
the input ends, or the next key does not parse, or it has another user key. -/
def Unmatched (ik : ParsedInternalKey) (rest : List Entry) : Prop :=
  match rest with
  | [] => True
  | nxt :: _ =>
    match ParseInternalKey nxt.key with
    | none => True
    | some nk => nk.user_key ≠ ik.user_key

/-- The state right after construction over an input source that holds `input`
and ends without error. -/
def State.start (input : List Entry) : State :=
  State.init { rest := input, end_status := Status.kOk }

/-- A record `Merge(k, v)@seq`. -/
def mkMerge (k : Slice) (v : Slice) (seq : Nat) : Entry :=
  { key := RawKey.wellFormed { user_key := k, sequence := seq, type := ValueType.kTypeMerge },
    value := v }

/-- A record whose key `raw` does not parse as an internal key. -/
def mkCorrupt (raw : Slice) (v : Slice) : Entry :=
  { key := RawKey.malformed raw, value := v }

/-- The state in which `NextFromInput` enters its loop: `at_next_ = false;
valid_ = false;`. -/
def State.enterLoop (st : State) : State := { st with at_next_ := false, valid_ := false }

/-- The state in which `Next` calls `NextFromInput`: the input is advanced and
`status_` takes the status of the input, unless `at_next_` is set. -/
def State.advance (st : State) : State :=
  if st.at_next_ = false then
    { st with input_ := st.input_.Next, status_ := st.input_.Next.status }
  else st

/-- The states the caller can see over the input source `it`, the flags being
`fl` at every call: the state `SeekToFirst` returns after construction, and
the states `Next` returns from those. -/
inductive Reachable (cfg : Config) (fl : Flags) (it : InternalIterator) : State → Prop
  | seek (st : State) : SeekToFirst cfg fl (State.init it) = some st → Reachable cfg fl it st
  | next (st st' : State) : Reachable cfg fl it st → Next cfg fl st = some st' →
      Reachable cfg fl it st'

/-- What `status_` can be in a state the caller sees, `es` being the end status
of the input source: with a record to read it is OK, `es`, or the cancel status
when the cancel bit is set; without one it can also be `Corruption`, or
`ShutdownInProgress` when a shutdown flag is set. -/
def StatusInv (cfg : Config) (fl : Flags) (es : Status) (st : State) : Prop :=
  (st.valid_ = true →
      st.status_ = Status.kOk ∨ st.status_ = es
        ∨ (st.status_ = Status.kCancelTask ∧ is_canceled cfg fl = true))
    ∧ (st.status_ = Status.kOk ∨ st.status_ = es
        ∨ (st.status_ = Status.kCorruption ∧ st.valid_ = false)
        ∨ (st.status_ = Status.kShutdownInProgress ∧ st.valid_ = false
            ∧ (fl.shutting_down = true ∨ fl.bg_stopped = true))
        ∨ (st.status_ = Status.kCancelTask ∧ is_canceled cfg fl = true))

/-- The records `mid` lie between the input position and a record that is the
first of user key `k`: none of them has user key `k`, the current user key of
the state, if any, is not `k`, and the deferred-output flag, if set, concerns
a record of `mid`. -/
def Fresh (k : Slice) (mid : List Entry) (st : State) : Prop :=
  (st.has_current_user_key_ = true → st.current_user_key_ ≠ k)
    ∧ (st.clear_and_output_next_key_ = true → mid ≠ [])
    ∧ ∀ x ∈ mid, ∃ kx, ParseInternalKey x.key = some kx ∧ kx.user_key ≠ k

/-- The assertions at the head of the deferred-output branch,
`assert(ikey_.type == kTypeValue || kTypeValueLarge == ikey_.type)` and
`assert(current_user_key_snapshot_ == last_snapshot)`, as they evaluate in the
pass of the loop that starts in state `st` on a record whose key parses to
`ikey`: the pair (type assertion, snapshot assertion). -/
def deferredAsserts (cfg : Config) (st : State) (ikey : ParsedInternalKey) : Bool × Bool :=
  let st := updateCurrentKey cfg st ikey
  let last_snapshot := st.current_user_key_snapshot_
  let snap := snapshotOf cfg st.ikey_.sequence
  let st := { st with current_user_key_sequence_ := st.ikey_.sequence,
                      current_user_key_snapshot_ := snap.1 }
  (decide (st.ikey_.type = ValueType.kTypeValue ∨ ValueType.kTypeValueLarge = st.ikey_.type),
   decide (st.current_user_key_snapshot_ = last_snapshot))

/-- The sequence number of every record of `l` whose key parses is at most
`L`. -/
def SeqBounded (L : Nat) (l : List Entry) : Prop :=
  ∀ e ∈ l, ∀ ik, ParseInternalKey e.key = some ik → ik.sequence ≤ L

/-- The configuration `cfg` with an empty snapshot set: the fast path. -/
def Config.noSnapshot (cfg : Config) : Config :=
  { cfg with snapshots_ := [] }

/-- The configuration `cfg` with the snapshot set `[last_sequence]`. -/
def Config.tipSnapshot (cfg : Config) : Config :=
  { cfg with snapshots_ := [cfg.last_sequence] }


/-- The records a state has still to emit or drop: the record it exposes and
those behind it when it exposes one, else those from the input position on. -/
def State.remaining (st : State) : Nat :=
  if st.valid_ then st.pending.length + 1 else st.input_.rest.length

/-- The sum of `num_record_drop_hidden` and `num_record_drop_obsolete`. -/
def State.dropped (st : State) : Nat :=
  st.iter_stats_.num_record_drop_hidden + st.iter_stats_.num_record_drop_obsolete


/-- The `has_outputted_key_` flag as a pass on a record of user key `k` reads
it, when the previous pass left the per-key members of a record with parsed key
`prev` (`none`: no current user key) and the flag `out`. -/
def effOut (prev : Option ParsedInternalKey) (out : Bool) (k : Slice) : Bool :=
  match prev with
  | none => false
  | some p => decide (p.user_key = k) && out

/-- The parsed key of the first record of `l` when it has user key `k`: the
lookahead of the SingleDelete branch under a lawful comparator. -/
def successorOf (k : Slice) (l : List Entry) : Option ParsedInternalKey :=
  match l with
  | [] => none
  | nxt :: _ =>
    match ParseInternalKey nxt.key with
    | none => none
    | some nk => if nk.user_key = k then some nk else none

/-- What the loop carries from one record to the next, read off the members of
`CompactionIterator`: `first` while no record has been emitted (the call in
progress is `SeekToFirst`, which leaves `has_outputted_key_` alone), `prev` and
`out` as in `effOut`, `clear` for `clear_and_output_next_key_`, and `skip` when
the SingleDelete branch has consumed the next record together with the
SingleDelete. -/
structure FilterState where
  first : Bool
  prev : Option ParsedInternalKey
  out : Bool
  clear : Bool
  skip : Bool
  deriving DecidableEq, Repr

/-- The state of the run before the first record. -/
def FilterState.start : FilterState :=
  { first := true, prev := none, out := false, clear := false, skip := false }

/-- The state after a pass that drops its record, `prev` being what the pass
leaves as current user key and `o` the flag it read. -/
def FilterState.dropTo (fs : FilterState) (prev : Option ParsedInternalKey) (o : Bool) :
    FilterState :=
  { fs with prev := prev, out := o, clear := false, skip := false }

/-- The state after a call that emits a record: `Next` sets
`has_outputted_key_`, `SeekToFirst` leaves it as the pass read it. -/
def FilterState.emitTo (fs : FilterState) (prev : Option ParsedInternalKey) (o : Bool)
    (clear : Bool) : FilterState :=
  { first := false, prev := prev, out := if fs.first then o else true, clear := clear,
    skip := false }

/-- The branches of the loop of `NextFromInput`, SingleDelete branch included,
read as a function on lists: what the run emits over records whose keys parse,
merging enabled, under a lawful comparator. -/
def fullFilter (cfg : Config) : FilterState → List Entry → List Entry
  | _, [] => []
  | fs, e :: l =>
    if fs.skip then fullFilter cfg { fs with skip := false } l
    else
      match ParseInternalKey e.key with
      | none => []
      | some ik =>
        let o := effOut fs.prev fs.out ik.user_key
        if fs.clear then
          { e with value := [] } :: fullFilter cfg (fs.emitTo (some ik) o false) l
        else if ik.type = ValueType.kTypeSingleDeletion then
          match successorOf ik.user_key l with
          | some nk =>
            if (snapshotOf cfg ik.sequence).2 = 0 ∨ nk.sequence > (snapshotOf cfg ik.sequence).2 then
              if nk.type = ValueType.kTypeSingleDeletion then
                fullFilter cfg (fs.dropTo (some ik) o) l
              else if ik.sequence ≤ cfg.earliest_write_conflict_snapshot_ ∨ o = true then
                fullFilter cfg { fs.dropTo (some ik) o with skip := true } l
              else
                e :: fullFilter cfg (fs.emitTo (some ik) o true) l
            else
              e :: fullFilter cfg (fs.emitTo (some ik) o false) l
          | none =>
            if beyondHint cfg ik.user_key ik.sequence then
              fullFilter cfg (fs.dropTo none o) l
            else
              e :: fullFilter cfg (fs.emitTo none o false) l
        else if plainHidden cfg fs.prev ik then
          fullFilter cfg (fs.dropTo (some ik) o) l
        else if ik.type = ValueType.kTypeDeletion
            ∧ beyondHint cfg ik.user_key ik.sequence = true then
          fullFilter cfg (fs.dropTo (some ik) o) l
        else if ik.type = ValueType.kTypeMerge then
          fullFilter cfg (fs.dropTo (some ik) o) l
        else
          e :: fullFilter cfg (fs.emitTo (some ik) o false) l

/-- The key of every record of `l` parses. -/
def AllParse (l : List Entry) : Prop :=
  ∀ x ∈ l, ∃ ik, ParseInternalKey x.key = some ik

/-- The state `st'` in which a call of `NextFromInput` ends over the records
`l`, entered in the loop state `fs`: either there is no record to read and
`fullFilter` keeps nothing, or the filter stands on the first record
`fullFilter` keeps, and `fullFilter` goes on from the input position of the
next call in the loop state the call leaves. -/
def FullPost (cfg : Config) (fs : FilterState) (l : List Entry) (st' : State) : Prop :=
  (st'.valid_ = false ∧ fullFilter cfg fs l = [])
    ∨ (st'.valid_ = true ∧ st'.status_ = st'.input_.status
        ∧ (st'.at_next_ = false → st'.input_.rest ≠ [])
        ∧ st'.pending.length < l.length ∧ AllParse st'.pending
        ∧ ∃ prev', StateMatches cfg st' prev'
          ∧ fullFilter cfg fs l
              = st'.current :: fullFilter cfg
                  (fs.emitTo prev' st'.has_outputted_key_ st'.clear_and_output_next_key_)
                  st'.pending)

/-- The state `st` the caller sees with a record to read corresponds to the
loop state `fs` from which `fullFilter` goes on over the records behind it. -/
def CallInv (cfg : Config) (st : State) (fs : FilterState) : Prop :=
  st.valid_ = true ∧ st.status_ = st.input_.status
    ∧ (st.at_next_ = false → st.input_.rest ≠ []) ∧ AllParse st.pending
    ∧ StateMatches cfg st fs.prev ∧ st.has_outputted_key_ = fs.out
    ∧ st.clear_and_output_next_key_ = fs.clear ∧ fs.skip = false ∧ fs.first = false


/-- The parsed key `p` precedes every record of `l` in the order of a sorted
input. -/
def Precedes (cmp : Comparator) (p : ParsedInternalKey) (l : List Entry) : Prop :=
  ∀ x ∈ l, ∀ xk, ParseInternalKey x.key = some xk → ikOrder cmp p xk

/-- The loop state `fs1` of a run that stands before the records `l`, and the
loop state `fs2` of a run over the records the first run emits, standing before
those it emits from `l`: the second run has seen the records the first has
emitted so far. -/
def FilterRel (cfg : Config) (fs1 fs2 : FilterState) (l : List Entry) : Prop :=
  fs1.first = fs2.first ∧ fs1.clear = fs2.clear ∧ fs2.skip = false
    ∧ (∀ d, fs1.prev = some d → Precedes cfg.cmp_ d l ∧ d.sequence ≤ kMaxSequenceNumber)
    ∧ (∀ p, fs2.prev = some p →
        Precedes cfg.cmp_ p l ∧ p.sequence ≤ kMaxSequenceNumber
          ∧ (∀ d, fs1.prev = some d → p = d ∨ ikOrder cfg.cmp_ p d)
          ∧ (fs1.prev = none →
              ∀ x ∈ l, ∀ xk, ParseInternalKey x.key = some xk → xk.user_key ≠ p.user_key))
    ∧ (∀ x ∈ fullFilter cfg fs1 l, ∀ xk, ParseInternalKey x.key = some xk →
        effOut fs1.prev fs1.out xk.user_key = effOut fs2.prev fs2.out xk.user_key)


/-- A record of user key `k` is among those the calls of `Next` have returned,
`out` being the records emitted so far: the first is the one `SeekToFirst`
returned, the others are those the calls of `Next` returned. -/
def OutputByNext (out : List Entry) (k : Slice) : Prop :=
  ∃ x ∈ out.tail, ∃ xk, ParseInternalKey x.key = some xk ∧ xk.user_key = k

/-- A record of the user key of `ik` that precedes `ik` in a sorted input (its
sequence is above that of `ik`) is among the records of `out` that calls of
`Next` returned. -/
def OutputBefore (out : List Entry) (ik : ParsedInternalKey) : Prop :=
  ∃ x ∈ out.tail, ∃ xk, ParseInternalKey x.key = some xk ∧ xk.user_key = ik.user_key
    ∧ ik.sequence < xk.sequence

/-- The loop state `fs` in which `fullFilter` stands before the records `L`,
having emitted the records `A` since the start of the run, as far as the user
key `k` is concerned: the flag read for `k` tells whether a call of `Next`
returned a record of `k`. -/
def PrefixInv (cfg : Config) (k : Slice) (fs : FilterState) (A L : List Entry) : Prop :=
  (fs.first = true → A = [] ∧ fs.out = false)
    ∧ (fs.first = false → A ≠ [])
    ∧ (fs.skip = true → fs.clear = false)
    ∧ ((fs.clear = true ∨ fs.skip = true) →
        ∃ e l ek, L = e :: l ∧ ParseInternalKey e.key = some ek
          ∧ ek.type ≠ ValueType.kTypeSingleDeletion)
    ∧ (effOut fs.prev fs.out k = true ↔ OutputByNext A k)
    ∧ (∀ x ∈ A, ∀ xk, ParseInternalKey x.key = some xk → Precedes cfg.cmp_ xk L)


/-! ## The snapshot search -/

theorem fevs_loop_fst (seq : Nat) :
    ∀ (l : List Nat) (prev : Nat), l.Pairwise (fun a b => a ≤ b) →
      ((∀ w ∈ l, w < seq) → (findEarliestVisibleSnapshotLoop seq l prev).1 = kMaxSequenceNumber) ∧
      (∀ w ∈ l, seq ≤ w →
        (findEarliestVisibleSnapshotLoop seq l prev).1 ∈ l
          ∧ seq ≤ (findEarliestVisibleSnapshotLoop seq l prev).1
          ∧ (findEarliestVisibleSnapshotLoop seq l prev).1 ≤ w) := by
  intro l
  induction l with
  | nil => intro prev _; simp [findEarliestVisibleSnapshotLoop]
  | cons cur rest ih =>
    intro prev hp
    rw [List.pairwise_cons] at hp
    obtain ⟨hcur, hrest⟩ := hp
    by_cases hc : cur ≥ seq
    · have e : findEarliestVisibleSnapshotLoop seq (cur :: rest) prev
          = (cur, if prev = kMaxSequenceNumber then 0 else prev) := by
        simp [findEarliestVisibleSnapshotLoop, hc]
      rw [e]
      refine ⟨?_, ?_⟩
      · intro h
        have := h cur (List.mem_cons_self _ _)
        omega
      · intro w hw _
        refine ⟨List.mem_cons_self _ _, hc, ?_⟩
        rcases List.mem_cons.mp hw with h | h
        · omega
        · exact hcur w h
    · have e : findEarliestVisibleSnapshotLoop seq (cur :: rest) prev
          = findEarliestVisibleSnapshotLoop seq rest cur := by
        simp [findEarliestVisibleSnapshotLoop, hc]
      rw [e]
      obtain ⟨ih1, ih2⟩ := ih cur hrest
      refine ⟨?_, ?_⟩
      · intro h
        exact ih1 (fun w hw => h w (List.mem_cons_of_mem _ hw))
      · intro w hw hsw
        rcases List.mem_cons.mp hw with h | h
        · omega
        · obtain ⟨a, b, c⟩ := ih2 w h hsw
          exact ⟨List.mem_cons_of_mem _ a, b, c⟩

theorem fevs_loop_snd (seq : Nat) (hseq : seq ≤ kMaxSequenceNumber) :
    ∀ (l : List Nat) (prev : Nat), l.Pairwise (fun a b => a ≤ b) →
      ((∀ w ∈ l, seq ≤ w) → l ≠ [] →
        (findEarliestVisibleSnapshotLoop seq l prev).2
          = if prev = kMaxSequenceNumber then 0 else prev) ∧
      ((∃ w ∈ l, w < seq) →
        (findEarliestVisibleSnapshotLoop seq l prev).2 ∈ l
          ∧ (findEarliestVisibleSnapshotLoop seq l prev).2 < seq
          ∧ ∀ w ∈ l, w < seq → w ≤ (findEarliestVisibleSnapshotLoop seq l prev).2) := by
  intro l
  induction l with
  | nil => intro prev _; simp
  | cons cur rest ih =>
    intro prev hp
    rw [List.pairwise_cons] at hp
    obtain ⟨hcur, hrest⟩ := hp
    by_cases hc : cur ≥ seq
    · have e : findEarliestVisibleSnapshotLoop seq (cur :: rest) prev
          = (cur, if prev = kMaxSequenceNumber then 0 else prev) := by
        simp [findEarliestVisibleSnapshotLoop, hc]
      rw [e]
      refine ⟨fun _ _ => rfl, ?_⟩
      rintro ⟨w, hw, hws⟩
      exfalso
      rcases List.mem_cons.mp hw with h | h
      · omega
      · have := hcur w h
        omega
    · have e : findEarliestVisibleSnapshotLoop seq (cur :: rest) prev
          = findEarliestVisibleSnapshotLoop seq rest cur := by
        simp [findEarliestVisibleSnapshotLoop, hc]
      rw [e]
      have hlt : cur < seq := by omega
      refine ⟨?_, ?_⟩
      · intro h
        have := h cur (List.mem_cons_self _ _)
        omega
      · intro _
        obtain ⟨ih1, ih2⟩ := ih cur hrest
        by_cases hex : ∃ w ∈ rest, w < seq
        · obtain ⟨a, b, c⟩ := ih2 hex
          refine ⟨List.mem_cons_of_mem _ a, b, ?_⟩
          intro w hw hws
          rcases List.mem_cons.mp hw with h | h
          · rw [h]; exact hcur _ a
          · exact c w h hws
        · have hall : ∀ w ∈ rest, seq ≤ w := by
            intro w hw
            by_contra hn
            exact hex ⟨w, hw, by omega⟩
          have h2 : (findEarliestVisibleSnapshotLoop seq rest cur).2 = cur := by
            cases rest with
            | nil => rfl
            | cons a t =>
              rw [ih1 hall (by simp)]
              have : cur ≠ kMaxSequenceNumber := by omega
              simp [this]
          rw [h2]
          refine ⟨List.mem_cons_self _ _, hlt, ?_⟩
          intro w hw hws
          rcases List.mem_cons.mp hw with h | h
          · omega
          · have := hall w h
            omega

/-- The snapshot search returns the smallest watermark at least `seq` (or
`kMaxSequenceNumber`) and stores the largest watermark below `seq` (or 0). -/
theorem findEarliestVisibleSnapshot_spec_aux (snapshots : List Nat)
    (seq : Nat) (hne : snapshots ≠ []) (hasc : SnapshotsAscending snapshots)
    (hseq : seq ≤ kMaxSequenceNumber) :
    ((∃ w ∈ snapshots, seq ≤ w) →
      (findEarliestVisibleSnapshot snapshots seq).1 ∈ snapshots
        ∧ seq ≤ (findEarliestVisibleSnapshot snapshots seq).1
        ∧ ∀ w ∈ snapshots, seq ≤ w → (findEarliestVisibleSnapshot snapshots seq).1 ≤ w) ∧
    ((∀ w ∈ snapshots, w < seq) →
      (findEarliestVisibleSnapshot snapshots seq).1 = kMaxSequenceNumber) ∧
    ((∃ w ∈ snapshots, w < seq) →
      (findEarliestVisibleSnapshot snapshots seq).2 ∈ snapshots
        ∧ (findEarliestVisibleSnapshot snapshots seq).2 < seq
        ∧ ∀ w ∈ snapshots, w < seq → w ≤ (findEarliestVisibleSnapshot snapshots seq).2) ∧
    ((∀ w ∈ snapshots, seq ≤ w) → (findEarliestVisibleSnapshot snapshots seq).2 = 0) := by
  unfold findEarliestVisibleSnapshot
  obtain ⟨f1, f2⟩ := fevs_loop_fst seq snapshots kMaxSequenceNumber hasc
  obtain ⟨s1, s2⟩ := fevs_loop_snd seq hseq snapshots kMaxSequenceNumber hasc
  refine ⟨?_, f1, s2, ?_⟩
  · rintro ⟨w, hw, hws⟩
    obtain ⟨a, b, _⟩ := f2 w hw hws
    exact ⟨a, b, fun w2 hw2 h2 => (f2 w2 hw2 h2).2.2⟩
  · intro h
    rw [s1 h hne]
    simp

/-- C5: for a non-empty ascending snapshot list and a sequence number `seq`,
`findEarliestVisibleSnapshot` returns the smallest watermark that is at least
`seq`, or `kMaxSequenceNumber` when there is none, and stores in
`prev_snapshot` the largest watermark below `seq`, or 0 when there is none. -/
theorem findEarliestVisibleSnapshot_spec (snapshots : List Nat)
    (seq : Nat) (hne : snapshots ≠ []) (hasc : SnapshotsAscending snapshots)
    (hseq : seq ≤ kMaxSequenceNumber) :
    ((∃ w ∈ snapshots, seq ≤ w) →
      (findEarliestVisibleSnapshot snapshots seq).1 ∈ snapshots
        ∧ seq ≤ (findEarliestVisibleSnapshot snapshots seq).1
        ∧ ∀ w ∈ snapshots, seq ≤ w → (findEarliestVisibleSnapshot snapshots seq).1 ≤ w) ∧
    ((∀ w ∈ snapshots, w < seq) →
      (findEarliestVisibleSnapshot snapshots seq).1 = kMaxSequenceNumber) ∧
    ((∃ w ∈ snapshots, w < seq) →
      (findEarliestVisibleSnapshot snapshots seq).2 ∈ snapshots
        ∧ (findEarliestVisibleSnapshot snapshots seq).2 < seq
        ∧ ∀ w ∈ snapshots, w < seq → w ≤ (findEarliestVisibleSnapshot snapshots seq).2) ∧
    ((∀ w ∈ snapshots, seq ≤ w) → (findEarliestVisibleSnapshot snapshots seq).2 = 0) :=
  findEarliestVisibleSnapshot_spec_aux snapshots seq hne hasc hseq

/-- C5 at the snapshot list [2, 5, 9] and sequence 4: the result is watermark 5
and `prev_snapshot` is 2. -/
theorem findEarliestVisibleSnapshot_spec_witness :
    (findEarliestVisibleSnapshot [2, 5, 9] 4).1 = 5
      ∧ (findEarliestVisibleSnapshot [2, 5, 9] 4).2 = 2
      ∧ ((∃ w ∈ [2, 5, 9], 4 ≤ w) →
          (findEarliestVisibleSnapshot [2, 5, 9] 4).1 ∈ [2, 5, 9]
            ∧ 4 ≤ (findEarliestVisibleSnapshot [2, 5, 9] 4).1
            ∧ ∀ w ∈ [2, 5, 9], 4 ≤ w → (findEarliestVisibleSnapshot [2, 5, 9] 4).1 ≤ w) :=
  ⟨by decide, by decide,
    (findEarliestVisibleSnapshot_spec [2, 5, 9] 4 (by decide)
      (by unfold SnapshotsAscending; decide) (by decide)).1⟩

/-! ## The loop of `NextFromInput` -/

theorem loop_exit (cfg : Config) (fl : Flags) (fuel : Nat) (st : State)
    (h : loopCond fl st = false) : NextFromInputLoop cfg fl fuel st = some st := by
  cases fuel <;> simp [NextFromInputLoop, h]

theorem loop_step (cfg : Config) (fl : Flags) (fuel : Nat) (st : State) (e : Entry)
    (l : List Entry) (h : loopCond fl st = true) (hin : st.input_.rest = e :: l) :
    NextFromInputLoop cfg fl (fuel + 1) st
      = if (NextFromInputBody cfg st e).2 then some (NextFromInputBody cfg st e).1
        else NextFromInputLoop cfg fl fuel (NextFromInputBody cfg st e).1 := by
  simp [NextFromInputLoop, h, hin]

theorem parse_eq_some {k : RawKey} {ik : ParsedInternalKey}
    (h : ParseInternalKey k = some ik) : k = RawKey.wellFormed ik := by
  cases k with
  | wellFormed x => simp [ParseInternalKey] at h; rw [h]
  | malformed r => simp [ParseInternalKey] at h

/-- The SingleDelete branch when the lookahead finds no matching record. -/
theorem singleDeleteBranch_none (cfg : Config) (st : State) (prev : Nat)
    (hv : st.valid_ = false)
    (hm : matchedSuccessor cfg st.ikey_.user_key st.input_.Next = none) :
    singleDeleteBranch cfg st prev
      = if beyondHint cfg st.ikey_.user_key st.ikey_.sequence then
          { st with input_ := st.input_.Next, has_current_user_key_ := false,
                    iter_stats_ := st.iter_stats_.addObsolete.addFallthru }
        else
          { st with input_ := st.input_.Next, has_current_user_key_ := false,
                    valid_ := true, at_next_ := true } := by
  unfold singleDeleteBranch
  simp only [hm]
  split_ifs <;> simp_all

/-- The SingleDelete branch when the lookahead finds a record of the same user
key. -/
theorem singleDeleteBranch_some (cfg : Config) (st : State) (prev : Nat)
    (nk : ParsedInternalKey) (hv : st.valid_ = false)
    (hm : matchedSuccessor cfg st.ikey_.user_key st.input_.Next = some nk) :
    singleDeleteBranch cfg st prev
      = if prev = 0 ∨ nk.sequence > prev then
          if nk.type = ValueType.kTypeSingleDeletion then
            { st with input_ := st.input_.Next,
                      iter_stats_ := st.iter_stats_.addObsolete.addMismatch }
          else if st.ikey_.sequence ≤ cfg.earliest_write_conflict_snapshot_
              ∨ st.has_outputted_key_ = true then
            { st with input_ := st.input_.Next.Next,
                      iter_stats_ :=
                        (if nk.type ≠ ValueType.kTypeValue then st.iter_stats_.addMismatch
                          else st.iter_stats_).addHidden.addObsolete }
          else
            { st with input_ := st.input_.Next, valid_ := true, at_next_ := true,
                      clear_and_output_next_key_ := true }
        else
          { st with input_ := st.input_.Next, valid_ := true, at_next_ := true } := by
  unfold singleDeleteBranch
  simp only [hm]
  split_ifs <;> simp_all

/-- What the SingleDelete branch leaves in the fields that position the
output. -/
theorem singleDeleteBranch_frame (cfg : Config) (st : State) (prev : Nat)
    (hv : st.valid_ = false) (han : st.at_next_ = false) :
    (singleDeleteBranch cfg st prev).key_ = st.key_
      ∧ (singleDeleteBranch cfg st prev).value_ = st.value_
      ∧ ((singleDeleteBranch cfg st prev).valid_ = true →
          (singleDeleteBranch cfg st prev).at_next_ = true
            ∧ (singleDeleteBranch cfg st prev).input_.rest = st.input_.rest.tail)
      ∧ ((singleDeleteBranch cfg st prev).valid_ = false →
          (singleDeleteBranch cfg st prev).at_next_ = false
            ∧ ((singleDeleteBranch cfg st prev).input_.rest = st.input_.rest.tail
              ∨ (singleDeleteBranch cfg st prev).input_.rest = st.input_.rest.tail.tail)) := by
  cases hm : matchedSuccessor cfg st.ikey_.user_key st.input_.Next with
  | none =>
    rw [singleDeleteBranch_none cfg st prev hv hm]
    split_ifs <;> simp [InternalIterator.Next, hv, han]
  | some nk =>
    rw [singleDeleteBranch_some cfg st prev nk hv hm]
    split_ifs <;> simp [InternalIterator.Next, hv, han]

theorem applyRules_frame (cfg : Config) (st : State) (last prev : Nat)
    (hv : st.valid_ = false) (han : st.at_next_ = false) :
    (applyRules cfg st last prev).key_ = st.key_
      ∧ ((applyRules cfg st last prev).valid_ = true →
          (applyRules cfg st last prev).pending = st.input_.rest.tail)
      ∧ ((applyRules cfg st last prev).valid_ = false →
          (applyRules cfg st last prev).at_next_ = false
            ∧ ((applyRules cfg st last prev).input_.rest = st.input_.rest
              ∨ (applyRules cfg st last prev).input_.rest = st.input_.rest.tail
              ∨ (applyRules cfg st last prev).input_.rest = st.input_.rest.tail.tail)) := by
  unfold applyRules
  split_ifs
  · simp [State.pending, han]
  · obtain ⟨a, _, b, c⟩ := singleDeleteBranch_frame cfg st prev hv han
    refine ⟨a, ?_, ?_⟩
    · intro h
      simp [State.pending, (b h).1, (b h).2]
    · intro h
      exact ⟨(c h).1, Or.inr (c h).2⟩
  · simp [State.pending, han, hv, InternalIterator.Next]
  · simp [State.pending, han, hv, InternalIterator.Next]
  · simp [State.pending, han, hv]
  · simp [State.pending, han, hv]

theorem updateCurrentKey_frame (cfg : Config) (st : State) (ik : ParsedInternalKey) :
    (updateCurrentKey cfg st ik).input_ = st.input_
      ∧ (updateCurrentKey cfg st ik).valid_ = st.valid_
      ∧ (updateCurrentKey cfg st ik).at_next_ = st.at_next_
      ∧ (updateCurrentKey cfg st ik).status_ = st.status_
      ∧ (updateCurrentKey cfg st ik).value_ = st.value_
      ∧ (updateCurrentKey cfg st ik).clear_and_output_next_key_ = st.clear_and_output_next_key_
      ∧ (updateCurrentKey cfg st ik).iter_stats_ = st.iter_stats_
      ∧ (updateCurrentKey cfg st ik).has_current_user_key_ = true := by
  unfold updateCurrentKey
  split_ifs <;> simp_all

theorem updateCurrentKey_key (cfg : Config) (hlaw : cfg.cmp_.Lawful) (st : State)
    (ik : ParsedInternalKey) (hk : st.key_ = RawKey.wellFormed ik) :
    (updateCurrentKey cfg st ik).key_ = RawKey.wellFormed ik
      ∧ (updateCurrentKey cfg st ik).ikey_ = ik
      ∧ (updateCurrentKey cfg st ik).current_user_key_ = ik.user_key := by
  obtain ⟨heq, _, _⟩ := hlaw
  unfold updateCurrentKey
  split_ifs with h
  · simp [hk]
  · simp only [not_or, Bool.not_eq_false] at h
    have := (heq _ _).mp h.2
    simp [← this]

theorem processParsed_emit (cfg : Config) (hlaw : cfg.cmp_.Lawful) (s0 : State)
    (ik : ParsedInternalKey) (hk : s0.key_ = RawKey.wellFormed ik) (hv : s0.valid_ = false)
    (han : s0.at_next_ = false) :
    ((processParsed cfg s0 ik).1.valid_ = true →
        (processParsed cfg s0 ik).1.key_ = RawKey.wellFormed ik
          ∧ (processParsed cfg s0 ik).1.pending = s0.input_.rest.tail) ∧
    ((processParsed cfg s0 ik).1.valid_ = false →
        (processParsed cfg s0 ik).1.at_next_ = false
          ∧ ((processParsed cfg s0 ik).1.input_.rest = s0.input_.rest
            ∨ (processParsed cfg s0 ik).1.input_.rest = s0.input_.rest.tail
            ∨ (processParsed cfg s0 ik).1.input_.rest = s0.input_.rest.tail.tail)) := by
  obtain ⟨f1, f2, f3, _, _, _, _, _⟩ := updateCurrentKey_frame cfg s0 ik
  obtain ⟨k1, _, _⟩ := updateCurrentKey_key cfg hlaw s0 ik hk
  unfold processParsed
  simp only
  generalize updateCurrentKey cfg s0 ik = s1 at *
  split_ifs
  · simp [State.pending, f1, f3, han, k1]
  · simp only
    generalize hs2 : ({ s1 with current_user_key_sequence_ := s1.ikey_.sequence, current_user_key_snapshot_ := (snapshotOf cfg s1.ikey_.sequence).1 } : State) = s2
    have hv2 : s2.valid_ = false := by rw [← hs2]; simp [f2, hv]
    have han2 : s2.at_next_ = false := by rw [← hs2]; simp [f3, han]
    have hin2 : s2.input_ = s0.input_ := by rw [← hs2]; simp [f1]
    have hk2 : s2.key_ = RawKey.wellFormed ik := by rw [← hs2]; simp [k1]
    obtain ⟨a, b, c⟩ := applyRules_frame cfg s2 s1.current_user_key_snapshot_
      (snapshotOf cfg s1.ikey_.sequence).2 hv2 han2
    rw [hin2] at b c
    refine ⟨fun h => ⟨by rw [a]; exact hk2, ?_⟩, fun h => ?_⟩
    · rw [← b h]
      simp [State.pending]
    · exact c h

theorem body_emit (cfg : Config) (hlaw : cfg.cmp_.Lawful) (st : State) (e : Entry)
    (l : List Entry) (hin : st.input_.rest = e :: l) (hv : st.valid_ = false)
    (han : st.at_next_ = false) :
    ((NextFromInputBody cfg st e).1.valid_ = true →
        (NextFromInputBody cfg st e).1.key_ = e.key
          ∧ (NextFromInputBody cfg st e).1.pending = l) ∧
    ((NextFromInputBody cfg st e).1.valid_ = false →
        (NextFromInputBody cfg st e).1.at_next_ = false
          ∧ ((NextFromInputBody cfg st e).1.input_.rest = e :: l
            ∨ (NextFromInputBody cfg st e).1.input_.rest = l
            ∨ (NextFromInputBody cfg st e).1.input_.rest = l.tail)) := by
  rcases e with ⟨k, v⟩
  cases k with
  | malformed r =>
    simp only [NextFromInputBody, ParseInternalKey]
    split <;> simp [State.pending, hin, han, hv]
  | wellFormed ik =>
    simp only [NextFromInputBody, ParseInternalKey]
    have := processParsed_emit cfg hlaw
      { st with key_ := RawKey.wellFormed ik, value_ := v,
                iter_stats_ := inputStats { st.iter_stats_ with
                    num_input_records := st.iter_stats_.num_input_records + 1 } ik
                  (RawKey.wellFormed ik) v }
      ik rfl hv han
    simp only [hin, List.tail_cons] at this
    exact this

/-! ## Termination of the loop -/

theorem updateCurrentKey_sequence (cfg : Config) (st : State) (ik : ParsedInternalKey) :
    (updateCurrentKey cfg st ik).ikey_.sequence = ik.sequence
      ∧ (updateCurrentKey cfg st ik).ikey_.type = ik.type := by
  unfold updateCurrentKey
  split_ifs <;> simp

theorem updateCurrentKey_equal (cfg : Config) (hrefl : ∀ a, cfg.cmp_.Equal a a = true)
    (st : State) (ik : ParsedInternalKey) :
    cfg.cmp_.Equal ik.user_key (updateCurrentKey cfg st ik).current_user_key_ = true := by
  unfold updateCurrentKey
  split_ifs with h
  · simp [hrefl]
  · simp only [not_or, Bool.not_eq_false] at h
    simpa using h.2

theorem updateCurrentKey_same (cfg : Config) (st : State) (ik : ParsedInternalKey)
    (h1 : st.has_current_user_key_ = true)
    (h2 : cfg.cmp_.Equal ik.user_key st.current_user_key_ = true) :
    (updateCurrentKey cfg st ik).current_user_key_snapshot_ = st.current_user_key_snapshot_
      ∧ (updateCurrentKey cfg st ik).current_user_key_ = st.current_user_key_
      ∧ (updateCurrentKey cfg st ik).has_outputted_key_ = st.has_outputted_key_ := by
  unfold updateCurrentKey
  simp [h1, h2]

theorem updateCurrentKey_first (cfg : Config) (st : State) (ik : ParsedInternalKey)
    (h : st.has_current_user_key_ = false
      ∨ cfg.cmp_.Equal ik.user_key st.current_user_key_ = false) :
    (updateCurrentKey cfg st ik).current_user_key_snapshot_ = 0
      ∧ (updateCurrentKey cfg st ik).current_user_key_ = ik.user_key
      ∧ (updateCurrentKey cfg st ik).has_outputted_key_ = false
      ∧ (updateCurrentKey cfg st ik).key_ = st.key_
      ∧ (updateCurrentKey cfg st ik).ikey_ = ik := by
  unfold updateCurrentKey
  simp [h]

theorem applyRules_measure (cfg : Config) (st : State) (last prev : Nat)
    (hv : st.valid_ = false) (han : st.at_next_ = false) (hne : st.input_.rest ≠ []) :
    (applyRules cfg st last prev).valid_ = true
      ∨ (applyRules cfg st last prev).input_.rest.length < st.input_.rest.length
      ∨ (applyRules cfg st last prev = st ∧ last ≠ st.current_user_key_snapshot_) := by
  obtain ⟨e, l, hl⟩ := List.exists_cons_of_ne_nil hne
  unfold applyRules
  split_ifs with h1 h2 h3 h4 h5
  · simp
  · obtain ⟨_, _, _, c⟩ := singleDeleteBranch_frame cfg st prev hv han
    by_cases hvv : (singleDeleteBranch cfg st prev).valid_ = true
    · exact Or.inl hvv
    · right; left
      simp only [Bool.not_eq_true] at hvv
      rcases (c hvv).2 with h | h <;> rw [h, hl] <;> simp
      omega
  · right; left; simp [hl, InternalIterator.Next]
  · right; left; simp [hl, InternalIterator.Next]
  · right; right; exact ⟨rfl, h3⟩
  · simp

theorem body_measure (cfg : Config) (hrefl : ∀ a, cfg.cmp_.Equal a a = true) (st : State)
    (e : Entry) (l : List Entry) (hin : st.input_.rest = e :: l) (hv : st.valid_ = false)
    (han : st.at_next_ = false) :
    (NextFromInputBody cfg st e).2 = true
      ∨ (NextFromInputBody cfg st e).1.valid_ = true
      ∨ loopMeasure cfg (NextFromInputBody cfg st e).1 < loopMeasure cfg st := by
  rcases e with ⟨k, v⟩
  cases k with
  | malformed r =>
    left
    simp only [NextFromInputBody, ParseInternalKey]
    split <;> rfl
  | wellFormed ik =>
    simp only [NextFromInputBody, ParseInternalKey, processParsed]
    generalize hs0 : ({ st with key_ := RawKey.wellFormed ik, value_ := v, iter_stats_ := inputStats { st.iter_stats_ with num_input_records := st.iter_stats_.num_input_records + 1 } ik (RawKey.wellFormed ik) v } : State) = s0
    have c0 : s0.has_current_user_key_ = st.has_current_user_key_ := by rw [← hs0]
    have c1 : s0.current_user_key_ = st.current_user_key_ := by rw [← hs0]
    have c2 : s0.current_user_key_snapshot_ = st.current_user_key_snapshot_ := by rw [← hs0]
    have c3 : s0.input_ = st.input_ := by rw [← hs0]
    have c4 : s0.valid_ = false := by rw [← hs0]; exact hv
    have c5 : s0.at_next_ = false := by rw [← hs0]; exact han
    obtain ⟨f1, f2, f3, _, _, _, _, f8⟩ := updateCurrentKey_frame cfg s0 ik
    obtain ⟨u1, _⟩ := updateCurrentKey_sequence cfg s0 ik
    have u2 := updateCurrentKey_equal cfg hrefl s0 ik
    have u3 := updateCurrentKey_same cfg s0 ik
    generalize updateCurrentKey cfg s0 ik = s1 at *
    split_ifs
    · left; rfl
    · right
      simp only
      generalize hs2 : ({ s1 with current_user_key_sequence_ := s1.ikey_.sequence, current_user_key_snapshot_ := (snapshotOf cfg s1.ikey_.sequence).1 } : State) = s2
      have hv2 : s2.valid_ = false := by rw [← hs2]; simp [f2, c4]
      have han2 : s2.at_next_ = false := by rw [← hs2]; simp [f3, c5]
      have hin2 : s2.input_.rest = { key := RawKey.wellFormed ik, value := v } :: l := by
        rw [← hs2]; simp [f1, c3, hin]
      rcases applyRules_measure cfg s2 s1.current_user_key_snapshot_
        (snapshotOf cfg s1.ikey_.sequence).2 hv2 han2 (by simp [hin2]) with h | h | h
      · left; exact h
      · right
        rw [hin2] at h
        simp only [loopMeasure, hin, List.length_cons] at h ⊢
        split_ifs <;> omega
      · right
        obtain ⟨h, hne⟩ := h
        rw [h]
        have w1 : willHide cfg { s2 with status_ := s2.input_.status } = true := by
          simp only [willHide, hin2, ParseInternalKey]
          rw [← hs2]
          simp [f8, u2, u1]
        have w2 : willHide cfg st = false := by
          by_contra hw
          simp only [willHide, hin, ParseInternalKey, Bool.not_eq_false, Bool.and_eq_true,
            decide_eq_true_eq] at hw
          obtain ⟨⟨a, b⟩, c⟩ := hw
          apply hne
          rw [← hs2]
          simp only
          rw [(u3 (by rw [c0]; exact a) (by rw [c1]; exact b)).1, c2, c, u1]
        simp only [loopMeasure, w1, w2, hin2, hin]
        simp

theorem body_at_next (cfg : Config) (st : State) (e : Entry) (hv : st.valid_ = false)
    (han : st.at_next_ = false) (h : (NextFromInputBody cfg st e).1.valid_ = false) :
    (NextFromInputBody cfg st e).1.at_next_ = false := by
  rcases e with ⟨k, v⟩
  cases k with
  | malformed r =>
    revert h
    simp only [NextFromInputBody, ParseInternalKey]
    split <;> simp [han]
  | wellFormed ik =>
    revert h
    simp only [NextFromInputBody, ParseInternalKey, processParsed]
    generalize hs0 : ({ st with key_ := RawKey.wellFormed ik, value_ := v, iter_stats_ := inputStats { st.iter_stats_ with num_input_records := st.iter_stats_.num_input_records + 1 } ik (RawKey.wellFormed ik) v } : State) = s0
    have c4 : s0.valid_ = false := by rw [← hs0]; exact hv
    have c5 : s0.at_next_ = false := by rw [← hs0]; exact han
    obtain ⟨_, f2, f3, _, _, _, _, _⟩ := updateCurrentKey_frame cfg s0 ik
    generalize updateCurrentKey cfg s0 ik = s1 at *
    split_ifs
    · simp
    · simp only
      generalize hs2 : ({ s1 with current_user_key_sequence_ := s1.ikey_.sequence, current_user_key_snapshot_ := (snapshotOf cfg s1.ikey_.sequence).1 } : State) = s2
      have hv2 : s2.valid_ = false := by rw [← hs2]; simp [f2, c4]
      have han2 : s2.at_next_ = false := by rw [← hs2]; simp [f3, c5]
      obtain ⟨_, _, c⟩ := applyRules_frame cfg s2 s1.current_user_key_snapshot_
        (snapshotOf cfg s1.ikey_.sequence).2 hv2 han2
      intro h
      exact (c h).1

theorem loopCond_true {fl : Flags} {st : State} (h : loopCond fl st = true) :
    st.valid_ = false ∧ st.status_ = Status.kOk ∧ st.input_.rest ≠ []
      ∧ fl.shutting_down = false ∧ fl.bg_stopped = false := by
  simp only [loopCond, Status.ok, InternalIterator.Valid, IsShuttingDown, is_bg_stopped,
    Bool.and_eq_true, Bool.not_eq_true', beq_iff_eq] at h
  obtain ⟨⟨⟨⟨a, b⟩, c⟩, d⟩, e⟩ := h
  refine ⟨a, b, ?_, d, e⟩
  intro hn
  simp [hn] at c

theorem loopCond_of_valid (fl : Flags) (st : State) (h : st.valid_ = true) :
    loopCond fl st = false := by
  simp [loopCond, h]

/-- The loop ends within `loopMeasure` passes and one more, whatever the
flags, provided `at_next_` is clear on entry. -/
theorem loop_terminates (cfg : Config) (fl : Flags)
    (hrefl : ∀ a, cfg.cmp_.Equal a a = true) :
    ∀ (n : Nat) (st : State), st.at_next_ = false → loopMeasure cfg st < n →
      ∃ st', NextFromInputLoop cfg fl n st = some st' := by
  intro n
  induction n with
  | zero => intro st _ h; omega
  | succ n ih =>
    intro st han hm
    by_cases hc : loopCond fl st = true
    · obtain ⟨hv, _, hne, _, _⟩ := loopCond_true hc
      obtain ⟨e, l, hl⟩ := List.exists_cons_of_ne_nil hne
      rw [loop_step cfg fl n st e l hc hl]
      rcases body_measure cfg hrefl st e l hl hv han with h | h | h
      · simp [h]
      · split_ifs
        · exact ⟨_, rfl⟩
        · exact ⟨_, loop_exit cfg fl n _ (loopCond_of_valid fl _ h)⟩
      · split_ifs
        · exact ⟨_, rfl⟩
        · by_cases hvv : (NextFromInputBody cfg st e).1.valid_ = true
          · exact ⟨_, loop_exit cfg fl n _ (loopCond_of_valid fl _ hvv)⟩
          · apply ih
            · exact body_at_next cfg st e hv han (by simpa using hvv)
            · omega
    · simp only [Bool.not_eq_true] at hc
      exact ⟨st, loop_exit cfg fl _ st hc⟩

/-! ## Emitted keys come from the input, in order -/

theorem Comparator.Lawful.refl {c : Comparator} (h : c.Lawful) : ∀ a, c.Equal a a = true :=
  fun a => (h.1 a a).mpr rfl

theorem loop_emit (cfg : Config) (fl : Flags) (hlaw : cfg.cmp_.Lawful) :
    ∀ (n : Nat) (st st' : State), st.valid_ = false → st.at_next_ = false →
      NextFromInputLoop cfg fl n st = some st' → st'.valid_ = true →
      ∃ pre e, st.input_.rest = pre ++ e :: st'.pending ∧ st'.key_ = e.key := by
  intro n
  induction n with
  | zero =>
    intro st st' hv _ h hv'
    simp only [NextFromInputLoop] at h
    split_ifs at h
    simp only [Option.some.injEq] at h
    rw [← h, hv] at hv'
    exact absurd hv' (by simp)
  | succ n ih =>
    intro st st' hv han h hv'
    by_cases hc : loopCond fl st = true
    · obtain ⟨_, _, hne, _, _⟩ := loopCond_true hc
      obtain ⟨e, l, hl⟩ := List.exists_cons_of_ne_nil hne
      rw [loop_step cfg fl n st e l hc hl] at h
      obtain ⟨b1, b2⟩ := body_emit cfg hlaw st e l hl hv han
      have done : (NextFromInputBody cfg st e).1 = st' →
          ∃ pre e, st.input_.rest = pre ++ e :: st'.pending ∧ st'.key_ = e.key := by
        intro heq
        rw [heq] at b1
        obtain ⟨k, p⟩ := b1 hv'
        exact ⟨[], e, by simp [hl, p], k⟩
      split_ifs at h
      · exact done (by simpa using h)
      · by_cases hvv : (NextFromInputBody cfg st e).1.valid_ = true
        · rw [loop_exit cfg fl n _ (loopCond_of_valid fl _ hvv)] at h
          exact done (by simpa using h)
        · simp only [Bool.not_eq_true] at hvv
          obtain ⟨a, b⟩ := b2 hvv
          obtain ⟨pre, e', hp, hk⟩ := ih _ st' hvv a h hv'
          rcases b with b | b | b
          · exact ⟨pre, e', by rw [hl, ← b, hp], hk⟩
          · exact ⟨e :: pre, e', by rw [hl, List.cons_append, ← hp, b], hk⟩
          · cases l with
            | nil =>
              rw [b] at hp
              simp at hp
            | cons x t =>
              refine ⟨e :: x :: pre, e', ?_, hk⟩
              rw [hl, List.cons_append, List.cons_append, ← hp, b]
              rfl
    · simp only [Bool.not_eq_true] at hc
      rw [loop_exit cfg fl _ st hc] at h
      simp only [Option.some.injEq] at h
      rw [← h, hv] at hv'
      exact absurd hv' (by simp)

theorem afterLoop_frame (cfg : Config) (fl : Flags) (st : State) :
    (afterLoop cfg fl st).valid_ = st.valid_
      ∧ (afterLoop cfg fl st).key_ = st.key_
      ∧ (afterLoop cfg fl st).value_ = st.value_
      ∧ (afterLoop cfg fl st).at_next_ = st.at_next_
      ∧ (afterLoop cfg fl st).input_ = st.input_
      ∧ (afterLoop cfg fl st).iter_stats_ = st.iter_stats_
      ∧ (afterLoop cfg fl st).has_current_user_key_ = st.has_current_user_key_
      ∧ (afterLoop cfg fl st).current_user_key_ = st.current_user_key_
      ∧ (afterLoop cfg fl st).current_user_key_snapshot_ = st.current_user_key_snapshot_
      ∧ (afterLoop cfg fl st).has_outputted_key_ = st.has_outputted_key_
      ∧ (afterLoop cfg fl st).clear_and_output_next_key_ = st.clear_and_output_next_key_ := by
  unfold afterLoop
  simp only
  split_ifs <;> simp

theorem afterLoop_pending (cfg : Config) (fl : Flags) (st : State) :
    (afterLoop cfg fl st).pending = st.pending := by
  obtain ⟨_, _, _, a, b, _⟩ := afterLoop_frame cfg fl st
  simp [State.pending, a, b]

/-- `NextFromInput` returns, whatever the state and the flags. -/
theorem NextFromInput_total (cfg : Config) (fl : Flags)
    (hrefl : ∀ a, cfg.cmp_.Equal a a = true) (st : State) :
    ∃ st', NextFromInput cfg fl st = some st' := by
  unfold NextFromInput
  simp only
  obtain ⟨st', h⟩ := loop_terminates cfg fl hrefl (2 * st.input_.rest.length + 2)
    { st with at_next_ := false, valid_ := false } rfl
    (by simp only [loopMeasure]; split_ifs <;> omega)
  exact ⟨afterLoop cfg fl st', by rw [h]; rfl⟩

theorem NextFromInput_emit (cfg : Config) (fl : Flags) (hlaw : cfg.cmp_.Lawful)
    (st st' : State) (h : NextFromInput cfg fl st = some st') (hv' : st'.valid_ = true) :
    ∃ pre e, st.input_.rest = pre ++ e :: st'.pending ∧ st'.key_ = e.key := by
  unfold NextFromInput at h
  simp only [Option.map_eq_some'] at h
  obtain ⟨s, hs, hs'⟩ := h
  obtain ⟨a, b, _⟩ := afterLoop_frame cfg fl s
  have hp := afterLoop_pending cfg fl s
  rw [hs'] at a b hp
  obtain ⟨pre, e, h1, h2⟩ := loop_emit cfg fl hlaw _ _ s rfl rfl hs (by rw [← a]; exact hv')
  exact ⟨pre, e, by rw [hp]; exact h1, by rw [b]; exact h2⟩

theorem SeekToFirst_eq (cfg : Config) (fl : Flags) (st : State) :
    SeekToFirst cfg fl st = NextFromInput cfg fl st := by
  unfold SeekToFirst PrepareOutput
  cases NextFromInput cfg fl st <;> rfl

/-- The state in which `Next` enters `NextFromInput`. -/
theorem Next_eq (cfg : Config) (fl : Flags) (st : State) :
    Next cfg fl st
      = (NextFromInput cfg fl
          (if st.at_next_ = false then
            { st with input_ := st.input_.Next, status_ := st.input_.Next.status }
           else st)).map
          (fun s => if s.valid_ then { s with has_outputted_key_ := true } else s) := by
  rfl

theorem Next_total (cfg : Config) (fl : Flags) (hrefl : ∀ a, cfg.cmp_.Equal a a = true)
    (st : State) : ∃ st', Next cfg fl st = some st' := by
  rw [Next_eq]
  obtain ⟨s, hs⟩ := NextFromInput_total cfg fl hrefl
    (if st.at_next_ = false then
      { st with input_ := st.input_.Next, status_ := st.input_.Next.status }
     else st)
  exact ⟨_, by rw [hs]; rfl⟩

theorem Next_emit (cfg : Config) (fl : Flags) (hlaw : cfg.cmp_.Lawful)
    (st st' : State) (h : Next cfg fl st = some st') (hv' : st'.valid_ = true) :
    ∃ pre e, st.pending = pre ++ e :: st'.pending ∧ st'.key_ = e.key := by
  rw [Next_eq] at h
  simp only [Option.map_eq_some'] at h
  obtain ⟨s, hs, hs'⟩ := h
  have hsv : s.valid_ = true := by
    rw [← hs'] at hv'
    split_ifs at hv' with hh
    · exact hh
    · exact hv'
  obtain ⟨pre, e, h1, h2⟩ := NextFromInput_emit cfg fl hlaw _ s hs hsv
  rw [if_pos hsv] at hs'
  subst hs'
  refine ⟨pre, e, ?_, h2⟩
  show st.pending = pre ++ e :: s.pending
  rw [← h1]
  unfold State.pending
  split_ifs <;> simp_all [InternalIterator.Next]

theorem drain_sublist (cfg : Config) (fl : Flags) (hlaw : cfg.cmp_.Lawful) :
    ∀ (n : Nat) (st : State), st.pending.length < n →
      ∃ out, drain cfg fl n st = some out
        ∧ (st.valid_ = false → out = [])
        ∧ (st.valid_ = true →
            (out.map Entry.key).Sublist (st.key_ :: st.pending.map Entry.key)) := by
  intro n
  induction n with
  | zero => intro st h; omega
  | succ n ih =>
    intro st hlen
    by_cases hv : st.valid_ = true
    · obtain ⟨st', hn⟩ := Next_total cfg fl hlaw.refl st
      by_cases hv' : st'.valid_ = true
      · obtain ⟨pre, e, hp, hk⟩ := Next_emit cfg fl hlaw st st' hn hv'
        have hlen' : st'.pending.length < n := by
          have := congrArg List.length hp
          simp at this
          omega
        obtain ⟨out, ho, _, h2⟩ := ih st' hlen'
        refine ⟨st.current :: out, ?_, by simp [hv], fun _ => ?_⟩
        · simp [drain, State.Valid, hv, hn, ho]
        · simp only [List.map_cons, State.current]
          apply List.Sublist.cons₂
          apply (h2 hv').trans
          rw [hp, hk]
          simp only [List.map_append, List.map_cons]
          exact List.sublist_append_right _ _
      · simp only [Bool.not_eq_true] at hv'
        have : drain cfg fl n st' = some [] := by
          cases n <;> simp [drain, State.Valid, hv']
        refine ⟨[st.current], ?_, by simp [hv], fun _ => ?_⟩
        · simp [drain, State.Valid, hv, hn, this]
        · simp [State.current]
    · simp only [Bool.not_eq_true] at hv
      exact ⟨[], by simp [drain, State.Valid, hv], fun _ => rfl, by simp [hv]⟩

/-- C4: for every input and every configuration whose comparator is lawful,
the run of `SeekToFirst` followed by `Next` until `Valid()` is false ends, and
the keys it emits form a subsequence of the keys of the input: nothing
fabricated, nothing twice, input order kept. -/
theorem emitted_keys_sublist (cfg : Config) (fl : Flags) (input : List Entry)
    (hlaw : cfg.cmp_.Lawful) :
    ∃ out, emitted cfg fl input = some out
      ∧ (out.map Entry.key).Sublist (input.map Entry.key) := by
  unfold emitted
  rw [SeekToFirst_eq]
  obtain ⟨st, hst⟩ := NextFromInput_total cfg fl hlaw.refl
    (State.init { rest := input, end_status := Status.kOk })
  rw [hst]
  simp only
  by_cases hv : st.valid_ = true
  · obtain ⟨pre, e, hp, hk⟩ := NextFromInput_emit cfg fl hlaw _ st hst hv
    simp only [State.init] at hp
    have hlen : st.pending.length < input.length + 1 := by
      have := congrArg List.length hp
      simp at this
      omega
    obtain ⟨out, ho, _, h2⟩ := drain_sublist cfg fl hlaw _ st hlen
    refine ⟨out, ho, (h2 hv).trans ?_⟩
    rw [hp, hk]
    simp only [List.map_append, List.map_cons]
    exact List.sublist_append_right _ _
  · simp only [Bool.not_eq_true] at hv
    refine ⟨[], ?_, by simp⟩
    simp [drain, State.Valid, hv]

/-! ## The bytewise comparator is lawful -/

theorem bytewiseCompare_eq_zero : ∀ a b : Slice, bytewiseCompare a b = 0 ↔ a = b := by
  intro a
  induction a with
  | nil => intro b; cases b <;> simp [bytewiseCompare]
  | cons x xs ih =>
    intro b
    cases b with
    | nil => simp [bytewiseCompare]
    | cons y ys =>
      simp only [bytewiseCompare, List.cons.injEq]
      split_ifs with h1 h2
      · simp; omega
      · simp; omega
      · rw [ih]
        have : x = y := by omega
        simp [this]

theorem bytewiseCompare_antisymm :
    ∀ a b : Slice, bytewiseCompare a b < 0 → 0 < bytewiseCompare b a := by
  intro a
  induction a with
  | nil => intro b; cases b <;> simp [bytewiseCompare]
  | cons x xs ih =>
    intro b
    cases b with
    | nil => simp [bytewiseCompare]
    | cons y ys =>
      simp only [bytewiseCompare]
      split_ifs <;> first | omega | simp | exact ih ys

theorem bytewise_lawful : BytewiseComparator.Lawful :=
  ⟨fun a b => by simp [BytewiseComparator], bytewiseCompare_eq_zero, bytewiseCompare_antisymm⟩

/-- C4 at the input [SingleDelete(k)@3, Put(k,v)@1] with snapshot set {2}: the
run ends and the emitted keys are a subsequence of the input keys. -/
theorem emitted_keys_sublist_witness :
    ∃ out, emitted (mkConfig [2] 10 0 none) Flags.unset
        [mkSingleDelete [1] 3, mkPut [1] [7] 1] = some out
      ∧ (out.map Entry.key).Sublist
          ([mkSingleDelete [1] 3, mkPut [1] [7] 1].map Entry.key) :=
  emitted_keys_sublist (mkConfig [2] 10 0 none) Flags.unset
    [mkSingleDelete [1] 3, mkPut [1] [7] 1] bytewise_lawful

/-! ## Records that are not SingleDeletes -/

theorem inputStats_frame (stats : IterStats) (ik : ParsedInternalKey) (k : RawKey)
    (v : Slice) :
    (inputStats stats ik k v).num_record_drop_hidden = stats.num_record_drop_hidden
      ∧ (inputStats stats ik k v).num_record_drop_obsolete = stats.num_record_drop_obsolete
      ∧ (inputStats stats ik k v).num_single_del_mismatch = stats.num_single_del_mismatch
      ∧ (inputStats stats ik k v).num_single_del_fallthru = stats.num_single_del_fallthru
      ∧ (inputStats stats ik k v).num_input_corrupt_records
          = stats.num_input_corrupt_records := by
  unfold inputStats
  simp only
  split_ifs <;> simp

theorem updateCurrentKey_last (cfg : Config) (hlaw : cfg.cmp_.Lawful) (st : State)
    (ik : ParsedInternalKey) (prev : Option ParsedInternalKey)
    (hm : StateMatches cfg st prev) :
    (updateCurrentKey cfg st ik).current_user_key_snapshot_ = lastSnapshotFor cfg prev ik := by
  obtain ⟨heq, _, _⟩ := hlaw
  cases prev with
  | none =>
    simp only [StateMatches] at hm
    simp [updateCurrentKey, hm, lastSnapshotFor]
  | some p =>
    obtain ⟨a, b, c⟩ := hm
    simp only [lastSnapshotFor]
    by_cases hk : p.user_key = ik.user_key
    · have : cfg.cmp_.Equal ik.user_key st.current_user_key_ = true := by
        rw [b, hk]; exact (heq _ _).mpr rfl
      simp [updateCurrentKey, a, this, hk, c]
    · have : cfg.cmp_.Equal ik.user_key st.current_user_key_ = false := by
        rw [b]
        cases h : cfg.cmp_.Equal ik.user_key p.user_key with
        | false => rfl
        | true => exact absurd ((heq _ _).mp h).symm hk
      simp [updateCurrentKey, this, hk]

theorem applyRules_plain (cfg : Config) (st : State) (last prev : Nat)
    (hc : st.clear_and_output_next_key_ = false)
    (ht : st.ikey_.type ≠ ValueType.kTypeSingleDeletion) :
    applyRules cfg st last prev
      = if last = st.current_user_key_snapshot_ then
          { st with iter_stats_ := st.iter_stats_.addHidden, input_ := st.input_.Next }
        else if st.ikey_.type = ValueType.kTypeDeletion
            ∧ beyondHint cfg st.ikey_.user_key st.ikey_.sequence = true then
          { st with iter_stats_ := st.iter_stats_.addObsolete, input_ := st.input_.Next }
        else if st.ikey_.type = ValueType.kTypeMerge then st
        else { st with valid_ := true } := by
  unfold applyRules
  simp [hc, ht]

theorem body_plain (cfg : Config) (hlaw : cfg.cmp_.Lawful)
    (hbdm : cfg.background_disable_merge_ = false) (st : State) (e : Entry)
    (l : List Entry) (ik : ParsedInternalKey) (prev : Option ParsedInternalKey)
    (hin : st.input_.rest = e :: l) (hv : st.valid_ = false) (han : st.at_next_ = false)
    (hc : st.clear_and_output_next_key_ = false) (hm : StateMatches cfg st prev)
    (hp : ParseInternalKey e.key = some ik) (ht : ik.type ≠ ValueType.kTypeSingleDeletion) :
    (NextFromInputBody cfg st e).2 = false
      ∧ (NextFromInputBody cfg st e).1.at_next_ = false
      ∧ (NextFromInputBody cfg st e).1.clear_and_output_next_key_ = false
      ∧ StateMatches cfg (NextFromInputBody cfg st e).1 (some ik)
      ∧ (NextFromInputBody cfg st e).1.status_ = (NextFromInputBody cfg st e).1.input_.status
      ∧ (NextFromInputBody cfg st e).1.valid_
          = !(plainHidden cfg prev ik || plainObsolete cfg prev ik || plainMerge cfg prev ik)
      ∧ (NextFromInputBody cfg st e).1.input_.rest
          = (if plainHidden cfg prev ik || plainObsolete cfg prev ik then l else e :: l)
      ∧ (NextFromInputBody cfg st e).1.iter_stats_.num_record_drop_hidden
          = st.iter_stats_.num_record_drop_hidden + (if plainHidden cfg prev ik then 1 else 0)
      ∧ (NextFromInputBody cfg st e).1.iter_stats_.num_record_drop_obsolete
          = st.iter_stats_.num_record_drop_obsolete
            + (if plainObsolete cfg prev ik then 1 else 0)
      ∧ (NextFromInputBody cfg st e).1.key_ = e.key
      ∧ (NextFromInputBody cfg st e).1.value_ = e.value := by
  rcases e with ⟨k, v⟩
  have hk := parse_eq_some hp
  simp only at hk
  subst hk
  simp only [NextFromInputBody, ParseInternalKey, processParsed, hbdm]
  generalize hs0 : ({ st with key_ := RawKey.wellFormed ik, value_ := v, iter_stats_ := inputStats { st.iter_stats_ with num_input_records := st.iter_stats_.num_input_records + 1 } ik (RawKey.wellFormed ik) v } : State) = s0
  have hm0 : StateMatches cfg s0 prev := by
    rw [← hs0]; cases prev <;> exact hm
  have c3 : s0.input_ = st.input_ := by rw [← hs0]
  have c4 : s0.valid_ = false := by rw [← hs0]; exact hv
  have c5 : s0.at_next_ = false := by rw [← hs0]; exact han
  have c6 : s0.clear_and_output_next_key_ = false := by rw [← hs0]; exact hc
  have c7 : s0.value_ = v := by rw [← hs0]
  have c8 : s0.iter_stats_.num_record_drop_hidden = st.iter_stats_.num_record_drop_hidden := by
    rw [← hs0]; exact (inputStats_frame _ _ _ _).1
  have c9 : s0.iter_stats_.num_record_drop_obsolete
      = st.iter_stats_.num_record_drop_obsolete := by
    rw [← hs0]; exact (inputStats_frame _ _ _ _).2.1
  obtain ⟨f1, f2, f3, _, f5, f6, f7, f8⟩ := updateCurrentKey_frame cfg s0 ik
  obtain ⟨k1, k2, k3⟩ := updateCurrentKey_key cfg hlaw s0 ik (by rw [← hs0])
  have k4 := updateCurrentKey_last cfg hlaw s0 ik prev hm0
  generalize updateCurrentKey cfg s0 ik = s1 at *
  simp only [Bool.false_eq_true, if_false]
  rw [applyRules_plain cfg _ _ _ (by simp [f6, c6]) (by simp [k2, ht])]
  simp only [k2, k4, f1, c3]
  by_cases h1 : lastSnapshotFor cfg prev ik = (snapshotOf cfg ik.sequence).1
  · have p1 : plainHidden cfg prev ik = true := by simp [plainHidden, visibilityClass, h1]
    simp [p1, h1, StateMatches, f8, k3, visibilityClass, f3, c5, f6, c6, f2, c4, hin,
      InternalIterator.Next, IterStats.addHidden, f7, c8, c9, plainObsolete, k1, f5, c7]
  · have p1 : plainHidden cfg prev ik = false := by simp [plainHidden, visibilityClass, h1]
    by_cases h2 : ik.type = ValueType.kTypeDeletion
        ∧ beyondHint cfg ik.user_key ik.sequence = true
    · have p2 : plainObsolete cfg prev ik = true := by simp [plainObsolete, p1, h2.1, h2.2]
      simp [p1, p2, h1, h2, StateMatches, f8, k3, visibilityClass, f3, c5, f6, c6, f2, c4, hin,
        InternalIterator.Next, IterStats.addObsolete, f7, c8, c9, k1, f5, c7]
    · have p2 : plainObsolete cfg prev ik = false := by
        simp only [plainObsolete, p1, Bool.not_false, Bool.true_and, Bool.and_eq_false_imp,
          decide_eq_true_eq]
        intro a
        by_contra hb
        exact h2 ⟨a, by simpa using hb⟩
      by_cases h3 : ik.type = ValueType.kTypeMerge
      · have p3 : plainMerge cfg prev ik = true := by simp [plainMerge, p1, p2, h3]
        simp [p1, p2, p3, h1, h2, h3, StateMatches, f8, k3, visibilityClass, f3, c5, f6, c6,
          f2, c4, hin, f7, c8, c9, k1, f5, c7]
      · have p3 : plainMerge cfg prev ik = false := by simp [plainMerge, p1, p2, h3]
        simp [p1, p2, p3, h1, h2, h3, StateMatches, f8, k3, visibilityClass, f3, c5, f6, c6,
          f2, c4, hin, f7, c8, c9, k1, f5, c7]

theorem plainHidden_self (cfg : Config) (ik : ParsedInternalKey) :
    plainHidden cfg (some ik) ik = true := by
  simp [plainHidden, lastSnapshotFor]

theorem loopCond_intro (fl : Flags) (st : State) (e : Entry) (l : List Entry)
    (h1 : fl.shutting_down = false) (h2 : fl.bg_stopped = false) (hv : st.valid_ = false)
    (hs : st.status_ = Status.kOk) (hin : st.input_.rest = e :: l) :
    loopCond fl st = true := by
  simp [loopCond, hv, hs, Status.ok, InternalIterator.Valid, hin, IsShuttingDown,
    is_bg_stopped, h1, h2]

theorem status_of_cons (it : InternalIterator) (e : Entry) (l : List Entry)
    (h : it.rest = e :: l) : it.status = Status.kOk := by
  simp [InternalIterator.status, InternalIterator.Valid, h]

/-- The loop over records that are not SingleDeletes: it ends on the first
record `plainFilter` keeps, or at the end of the input. -/
theorem loop_plain (cfg : Config) (fl : Flags) (hlaw : cfg.cmp_.Lawful)
    (hbdm : cfg.background_disable_merge_ = false) (hf1 : fl.shutting_down = false)
    (hf2 : fl.bg_stopped = false) :
    ∀ (l : List Entry) (prev : Option ParsedInternalKey) (st : State) (n : Nat),
      (∀ e ∈ l, e.Plain) → st.input_.rest = l → st.valid_ = false → st.at_next_ = false →
      st.clear_and_output_next_key_ = false → (l ≠ [] → st.status_ = Status.kOk) →
      StateMatches cfg st prev → 2 * l.length < n →
      ∃ st', NextFromInputLoop cfg fl n st = some st'
        ∧ st'.at_next_ = false ∧ st'.clear_and_output_next_key_ = false
        ∧ ((st'.valid_ = false ∧ plainFilter cfg prev l = [] ∧ st'.input_.rest = []
            ∧ st'.iter_stats_.num_record_drop_hidden
                = st.iter_stats_.num_record_drop_hidden + plainHiddenCount cfg prev l
            ∧ st'.iter_stats_.num_record_drop_obsolete
                = st.iter_stats_.num_record_drop_obsolete + plainObsoleteCount cfg prev l)
          ∨ (st'.valid_ = true ∧ ∃ e ik l', st'.input_.rest = e :: l'
              ∧ (∀ x ∈ l', x.Plain) ∧ l'.length < l.length
              ∧ StateMatches cfg st' (some ik)
              ∧ st'.current = e
              ∧ plainFilter cfg prev l = e :: plainFilter cfg (some ik) l'
              ∧ st'.iter_stats_.num_record_drop_hidden + plainHiddenCount cfg (some ik) l'
                  = st.iter_stats_.num_record_drop_hidden + plainHiddenCount cfg prev l
              ∧ st'.iter_stats_.num_record_drop_obsolete + plainObsoleteCount cfg (some ik) l'
                  = st.iter_stats_.num_record_drop_obsolete
                    + plainObsoleteCount cfg prev l)) := by
  intro l
  induction l with
  | nil =>
    intro prev st n _ hin hv han hc _ _ _
    refine ⟨st, loop_exit cfg fl n st ?_, han, hc, Or.inl ⟨hv, rfl, hin, rfl, rfl⟩⟩
    simp [loopCond, InternalIterator.Valid, hin]
  | cons e l ih =>
    intro prev st n hpl hin hv han hc hs hm hn
    obtain ⟨ik, hp, ht⟩ := hpl e (List.mem_cons_self _ _)
    have hpl' : ∀ x ∈ l, x.Plain := fun x hx => hpl x (List.mem_cons_of_mem _ hx)
    obtain ⟨m, rfl⟩ : ∃ m, n = m + 1 := ⟨n - 1, by omega⟩
    have hcond := loopCond_intro fl st e l hf1 hf2 hv (hs (by simp)) hin
    rw [loop_step cfg fl m st e l hcond hin]
    obtain ⟨b1, b2, b3, b4, b5, b6, b7, b8, b9, b10, b11⟩ :=
      body_plain cfg hlaw hbdm st e l ik prev hin hv han hc hm hp ht
    generalize (NextFromInputBody cfg st e) = r at *
    rw [b1]
    simp only [Bool.false_eq_true, if_false]
    by_cases hd : (plainHidden cfg prev ik || plainObsolete cfg prev ik) = true
    · -- dropped, input advanced
      rw [hd, if_pos rfl] at b7
      have bv : r.1.valid_ = false := by rw [b6, hd]; rfl
      obtain ⟨st', h1, h2, h3, h4⟩ := ih (some ik) r.1 m hpl' b7 bv b2 b3
        (by intro hne
            obtain ⟨x, t, hx⟩ := List.exists_cons_of_ne_nil hne
            rw [b5]; exact status_of_cons _ x t (by rw [b7, hx])) b4 (by simp at hn; omega)
      refine ⟨st', h1, h2, h3, ?_⟩
      have ef : plainFilter cfg prev (e :: l) = plainFilter cfg (some ik) l := by
        simp only [plainFilter, hp]
        rw [if_pos]
        simp only [Bool.or_eq_true] at hd ⊢
        exact Or.inl hd
      have hobs : plainObsolete cfg prev ik = true → plainHidden cfg prev ik = false := by
        intro h; simp [plainObsolete] at h; simp [h.1.1]
      have hmg : plainMerge cfg prev ik = false := by
        simp only [Bool.or_eq_true] at hd
        rcases hd with h | h <;> simp [plainMerge, h]
      have eh : plainHiddenCount cfg prev (e :: l)
          = (if plainHidden cfg prev ik then 1 else 0) + plainHiddenCount cfg (some ik) l := by
        simp [plainHiddenCount, hp, hmg]
      have eo : plainObsoleteCount cfg prev (e :: l)
          = (if plainObsolete cfg prev ik then 1 else 0)
            + plainObsoleteCount cfg (some ik) l := by
        simp [plainObsoleteCount, hp]
      rw [ef, eh, eo]
      rw [b8, b9] at h4
      rcases h4 with ⟨a, b, c, d, f⟩ | ⟨a, e', ik', l', b, c, c', d, f, g, h, i⟩
      · exact Or.inl ⟨a, b, c, by omega, by omega⟩
      · exact Or.inr ⟨a, e', ik', l', b, c, by simp; omega, d, f, g, by omega, by omega⟩
    · simp only [Bool.not_eq_true] at hd
      rw [hd] at b7
      simp only [Bool.false_eq_true, if_false] at b7
      have hh : plainHidden cfg prev ik = false := by
        simp only [Bool.or_eq_false_iff] at hd; exact hd.1
      have ho : plainObsolete cfg prev ik = false := by
        simp only [Bool.or_eq_false_iff] at hd; exact hd.2
      rw [hh] at b8
      rw [ho] at b9
      simp only [Bool.false_eq_true, if_false, Nat.add_zero] at b8 b9
      by_cases hmg : plainMerge cfg prev ik = true
      · -- Merge branch: a second pass drops the record as hidden
        have bv : r.1.valid_ = false := by rw [b6, hmg]; simp
        obtain ⟨m', rfl⟩ : ∃ m', m = m' + 1 := ⟨m - 1, by simp at hn; omega⟩
        have hcond2 := loopCond_intro fl r.1 e l hf1 hf2 bv
          (by rw [b5]; exact status_of_cons _ e l b7) b7
        rw [loop_step cfg fl m' r.1 e l hcond2 b7]
        obtain ⟨d1, d2, d3, d4, d5, d6, d7, d8, d9, _, _⟩ :=
          body_plain cfg hlaw hbdm r.1 e l ik (some ik) b7 bv b2 b3 b4 hp ht
        generalize (NextFromInputBody cfg r.1 e) = r2 at *
        rw [d1]
        simp only [Bool.false_eq_true, if_false]
        have hs2 := plainHidden_self cfg ik
        rw [hs2] at d6 d7 d8
        have ho2 : plainObsolete cfg (some ik) ik = false := by simp [plainObsolete, hs2]
        rw [ho2] at d9
        simp only [Bool.true_or, Bool.not_true, if_true, if_false, Bool.false_eq_true,
          Nat.add_zero] at d6 d7 d8 d9
        obtain ⟨st', h1, h2, h3, h4⟩ := ih (some ik) r2.1 m' hpl' d7 d6 d2 d3
          (by intro hne
              obtain ⟨x, t, hx⟩ := List.exists_cons_of_ne_nil hne
              rw [d5]; exact status_of_cons _ x t (by rw [d7, hx])) d4
          (by simp at hn; omega)
        refine ⟨st', h1, h2, h3, ?_⟩
        have ef : plainFilter cfg prev (e :: l) = plainFilter cfg (some ik) l := by
          simp [plainFilter, hp, hmg]
        have eh : plainHiddenCount cfg prev (e :: l)
            = 1 + plainHiddenCount cfg (some ik) l := by
          simp [plainHiddenCount, hp, hmg]
        have eo : plainObsoleteCount cfg prev (e :: l)
            = plainObsoleteCount cfg (some ik) l := by
          simp [plainObsoleteCount, hp, ho]
        rw [ef, eh, eo]
        rw [d8, d9, b8, b9] at h4
        rcases h4 with ⟨a, b, c, d, f⟩ | ⟨a, e', ik', l', b, c, c', d, f, g, h, i⟩
        · exact Or.inl ⟨a, b, c, by omega, by omega⟩
        · exact Or.inr ⟨a, e', ik', l', b, c, by simp; omega, d, f, g, by omega, by omega⟩
      · -- kept
        simp only [Bool.not_eq_true] at hmg
        have bv : r.1.valid_ = true := by rw [b6, hh, ho, hmg]; rfl
        refine ⟨r.1, loop_exit cfg fl m r.1 (loopCond_of_valid fl _ bv), b2, b3, Or.inr ?_⟩
        refine ⟨bv, e, ik, l, b7, hpl', by simp, b4, ?_, ?_, ?_, ?_⟩
        · simp [State.current, b10, b11]
        · simp [plainFilter, hp, hh, ho, hmg]
        · simp [plainHiddenCount, hp, hh, hmg, b8]
        · simp [plainObsoleteCount, hp, ho, b9]

theorem PlainPost_congr (cfg : Config) (prev : Option ParsedInternalKey) (l : List Entry)
    (h o : Nat) (s s' : State) (hp : PlainPost cfg prev l h o s)
    (e1 : s'.at_next_ = s.at_next_)
    (e2 : s'.clear_and_output_next_key_ = s.clear_and_output_next_key_)
    (e3 : s'.valid_ = s.valid_) (e4 : s'.input_ = s.input_)
    (e5 : s'.iter_stats_ = s.iter_stats_) (e6 : s'.key_ = s.key_)
    (e7 : s'.value_ = s.value_)
    (e8 : s'.has_current_user_key_ = s.has_current_user_key_)
    (e9 : s'.current_user_key_ = s.current_user_key_)
    (e10 : s'.current_user_key_snapshot_ = s.current_user_key_snapshot_) :
    PlainPost cfg prev l h o s' := by
  unfold PlainPost at hp ⊢
  simp only [State.current, StateMatches] at hp ⊢
  rw [e1, e2, e3, e4, e5, e6, e7, e8, e9, e10]
  exact hp

theorem NextFromInput_plain (cfg : Config) (fl : Flags) (hlaw : cfg.cmp_.Lawful)
    (hbdm : cfg.background_disable_merge_ = false) (hf1 : fl.shutting_down = false)
    (hf2 : fl.bg_stopped = false) (st : State) (prev : Option ParsedInternalKey)
    (hpl : ∀ e ∈ st.input_.rest, e.Plain) (hc : st.clear_and_output_next_key_ = false)
    (hs : st.input_.rest ≠ [] → st.status_ = Status.kOk) (hm : StateMatches cfg st prev) :
    ∃ st', NextFromInput cfg fl st = some st'
      ∧ PlainPost cfg prev st.input_.rest st.iter_stats_.num_record_drop_hidden
          st.iter_stats_.num_record_drop_obsolete st' := by
  obtain ⟨s, h1, h2, h3, h4⟩ := loop_plain cfg fl hlaw hbdm hf1 hf2 st.input_.rest prev
    { st with at_next_ := false, valid_ := false } (2 * st.input_.rest.length + 2)
    hpl rfl rfl rfl hc hs (by cases prev <;> exact hm) (by omega)
  refine ⟨afterLoop cfg fl s, ?_, ?_⟩
  · unfold NextFromInput
    simp only
    rw [h1]
    rfl
  · obtain ⟨a1, a2, a3, a4, a5, a6, a7, a8, a9, _, a11⟩ := afterLoop_frame cfg fl s
    exact PlainPost_congr cfg prev _ _ _ s _ ⟨h2, h3, h4⟩ a4 a11 a1 a5 a6 a2 a3 a7 a8 a9

theorem Next_plain (cfg : Config) (fl : Flags) (hlaw : cfg.cmp_.Lawful)
    (hbdm : cfg.background_disable_merge_ = false) (hf1 : fl.shutting_down = false)
    (hf2 : fl.bg_stopped = false) (st : State) (e : Entry) (l : List Entry)
    (ik : ParsedInternalKey) (han : st.at_next_ = false) (hin : st.input_.rest = e :: l)
    (hpl : ∀ x ∈ l, x.Plain) (hc : st.clear_and_output_next_key_ = false)
    (hm : StateMatches cfg st (some ik)) :
    ∃ st', Next cfg fl st = some st'
      ∧ PlainPost cfg (some ik) l st.iter_stats_.num_record_drop_hidden
          st.iter_stats_.num_record_drop_obsolete st' := by
  rw [Next_eq, if_pos han]
  obtain ⟨s, h1, h2⟩ := NextFromInput_plain cfg fl hlaw hbdm hf1 hf2
    { st with input_ := st.input_.Next, status_ := st.input_.Next.status } (some ik)
    (by simpa [InternalIterator.Next, hin] using hpl) hc
    (by intro hne
        simp only [InternalIterator.Next, hin, List.tail_cons] at hne
        obtain ⟨x, t, hx⟩ := List.exists_cons_of_ne_nil hne
        exact status_of_cons _ x t (by simp [InternalIterator.Next, hin, hx]))
    hm
  rw [h1]
  refine ⟨_, rfl, ?_⟩
  simp only [InternalIterator.Next, hin, List.tail_cons] at h2
  apply PlainPost_congr cfg (some ik) l _ _ s _ h2 <;> simp only <;> split_ifs <;> rfl

theorem drain_plain (cfg : Config) (fl : Flags) (hlaw : cfg.cmp_.Lawful)
    (hbdm : cfg.background_disable_merge_ = false) (hf1 : fl.shutting_down = false)
    (hf2 : fl.bg_stopped = false) :
    ∀ (n : Nat) (st : State) (e : Entry) (l : List Entry) (ik : ParsedInternalKey),
      st.valid_ = true → st.at_next_ = false → st.input_.rest = e :: l →
      (∀ x ∈ l, x.Plain) → st.clear_and_output_next_key_ = false →
      StateMatches cfg st (some ik) → l.length < n →
      drain cfg fl n st = some (st.current :: plainFilter cfg (some ik) l)
        ∧ ∃ stf, drainState cfg fl n st = some stf
          ∧ stf.iter_stats_.num_record_drop_hidden
              = st.iter_stats_.num_record_drop_hidden + plainHiddenCount cfg (some ik) l
          ∧ stf.iter_stats_.num_record_drop_obsolete
              = st.iter_stats_.num_record_drop_obsolete
                + plainObsoleteCount cfg (some ik) l := by
  intro n
  induction n with
  | zero => intro st e l ik _ _ _ _ _ _ h; omega
  | succ n ih =>
    intro st e l ik hv han hin hpl hc hm hn
    obtain ⟨st', h1, h2, h3, h4⟩ := Next_plain cfg fl hlaw hbdm hf1 hf2 st e l ik han hin
      hpl hc hm
    simp only [drain, drainState, State.Valid, hv, if_true, h1]
    rcases h4 with ⟨a, b, c, d, f⟩ | ⟨a, e', ik', l', b, c, c', d, f, g, h, i⟩
    · have d1 : drain cfg fl n st' = some [] := by
        cases n <;> simp [drain, State.Valid, a]
      have d2 : drainState cfg fl n st' = some st' := by
        cases n <;> simp [drainState, State.Valid, a]
      rw [d1, d2, b]
      exact ⟨rfl, st', rfl, d, f⟩
    · obtain ⟨r1, stf, r2, r3, r4⟩ := ih st' e' l' ik' a h2 b c h3 d (by omega)
      rw [r1, r2, g, f]
      exact ⟨rfl, stf, rfl, by omega, by omega⟩

/-- Over records that parse and are not SingleDeletes, with merging enabled and
no shutdown flag, the run emits what `plainFilter` keeps and counts the drops
as `plainHiddenCount` and `plainObsoleteCount` do. -/
theorem emitted_plain (cfg : Config) (fl : Flags) (input : List Entry)
    (hlaw : cfg.cmp_.Lawful) (hbdm : cfg.background_disable_merge_ = false)
    (hf1 : fl.shutting_down = false) (hf2 : fl.bg_stopped = false)
    (hpl : ∀ e ∈ input, e.Plain) :
    emitted cfg fl input = some (plainFilter cfg none input)
      ∧ ∃ stf, finalState cfg fl input = some stf
        ∧ stf.iter_stats_.num_record_drop_hidden = plainHiddenCount cfg none input
        ∧ stf.iter_stats_.num_record_drop_obsolete = plainObsoleteCount cfg none input := by
  unfold emitted finalState
  rw [SeekToFirst_eq]
  obtain ⟨st, h1, h2, h3, h4⟩ := NextFromInput_plain cfg fl hlaw hbdm hf1 hf2
    (State.init { rest := input, end_status := Status.kOk }) none hpl rfl (fun _ => rfl) rfl
  rw [h1]
  simp only [State.init, IterStats.zero, Nat.zero_add] at h4 ⊢
  rcases h4 with ⟨a, b, c, d, f⟩ | ⟨a, e', ik', l', b, c, c', d, f, g, h, i⟩
  · have d1 : drain cfg fl (input.length + 1) st = some [] := by
      simp [drain, State.Valid, a]
    have d2 : drainState cfg fl (input.length + 1) st = some st := by
      simp [drainState, State.Valid, a]
    rw [d1, d2, b]
    exact ⟨rfl, st, rfl, d, f⟩
  · obtain ⟨r1, stf, r2, r3, r4⟩ := drain_plain cfg fl hlaw hbdm hf1 hf2 (input.length + 1)
      st e' l' ik' a h2 b c h3 d (by omega)
    rw [r1, r2, g, f]
    exact ⟨rfl, stf, rfl, by omega, by omega⟩

/-! ## Visibility classes -/

theorem fevs_loop_mem (seq : Nat) :
    ∀ (l : List Nat) (prev : Nat),
      (findEarliestVisibleSnapshotLoop seq l prev).1 = kMaxSequenceNumber
        ∨ (findEarliestVisibleSnapshotLoop seq l prev).1 ∈ l := by
  intro l
  induction l with
  | nil => intro prev; simp [findEarliestVisibleSnapshotLoop]
  | cons cur rest ih =>
    intro prev
    by_cases hc : cur ≥ seq
    · simp [findEarliestVisibleSnapshotLoop, hc]
    · have e : findEarliestVisibleSnapshotLoop seq (cur :: rest) prev
          = findEarliestVisibleSnapshotLoop seq rest cur := by
        simp [findEarliestVisibleSnapshotLoop, hc]
      rw [e]
      rcases ih cur with h | h
      · exact Or.inl h
      · exact Or.inr (List.mem_cons_of_mem _ h)

theorem kMax_pos : 0 < kMaxSequenceNumber := by decide

theorem visibilityClass_tip (cfg : Config) (seq : Nat) (h : cfg.snapshots_ = []) :
    visibilityClass cfg seq = cfg.last_sequence := by
  simp [visibilityClass, snapshotOf, Config.visible_at_tip_, Config.earliest_snapshot_, h]

theorem visibilityClass_snap (cfg : Config) (seq : Nat) (h : cfg.snapshots_ ≠ []) :
    visibilityClass cfg seq = (findEarliestVisibleSnapshot cfg.snapshots_ seq).1 := by
  have : cfg.snapshots_.length ≠ 0 := by
    intro hn; exact h (List.length_eq_zero.mp hn)
  simp [visibilityClass, snapshotOf, Config.visible_at_tip_, this]

theorem visibilityClass_pos (cfg : Config) (hpos : WatermarksPositive cfg) (seq : Nat) :
    0 < visibilityClass cfg seq := by
  by_cases h : cfg.snapshots_ = []
  · rw [visibilityClass_tip cfg seq h]
    exact hpos.2 h
  · rw [visibilityClass_snap cfg seq h]
    rcases fevs_loop_mem seq cfg.snapshots_ kMaxSequenceNumber with h1 | h1
    · unfold findEarliestVisibleSnapshot
      rw [h1]; exact kMax_pos
    · exact hpos.1 _ h1

theorem visibilityClass_mono (cfg : Config) (hasc : SnapshotsAscending cfg.snapshots_)
    (a b : Nat) (hab : a ≤ b) (hb : b ≤ kMaxSequenceNumber) :
    visibilityClass cfg a ≤ visibilityClass cfg b := by
  by_cases h : cfg.snapshots_ = []
  · rw [visibilityClass_tip cfg a h, visibilityClass_tip cfg b h]
  · rw [visibilityClass_snap cfg a h, visibilityClass_snap cfg b h]
    unfold findEarliestVisibleSnapshot
    obtain ⟨a1, a2⟩ := fevs_loop_fst a cfg.snapshots_ kMaxSequenceNumber hasc
    obtain ⟨b1, b2⟩ := fevs_loop_fst b cfg.snapshots_ kMaxSequenceNumber hasc
    by_cases hex : ∃ w ∈ cfg.snapshots_, b ≤ w
    · obtain ⟨w, hw, hbw⟩ := hex
      obtain ⟨m, g, _⟩ := b2 w hw hbw
      exact (a2 _ m (by omega)).2.2
    · have hall : ∀ w ∈ cfg.snapshots_, w < b := by
        intro w hw
        by_contra hn
        exact hex ⟨w, hw, by omega⟩
      rw [b1 hall]
      rcases fevs_loop_mem a cfg.snapshots_ kMaxSequenceNumber with h1 | h1
      · rw [h1]
      · have := hall _ h1
        omega

/-- A watermark separates the classes of the sequences on its two sides. -/
theorem visibilityClass_separated (cfg : Config) (hasc : SnapshotsAscending cfg.snapshots_)
    (a b s : Nat) (hs : s ∈ cfg.snapshots_) (has : a ≤ s) (hsb : s < b)
    (hb : b ≤ kMaxSequenceNumber) :
    visibilityClass cfg a ≤ s ∧ s < visibilityClass cfg b := by
  have h : cfg.snapshots_ ≠ [] := List.ne_nil_of_mem hs
  rw [visibilityClass_snap cfg a h, visibilityClass_snap cfg b h]
  unfold findEarliestVisibleSnapshot
  obtain ⟨_, a2⟩ := fevs_loop_fst a cfg.snapshots_ kMaxSequenceNumber hasc
  obtain ⟨b1, b2⟩ := fevs_loop_fst b cfg.snapshots_ kMaxSequenceNumber hasc
  refine ⟨(a2 s hs has).2.2, ?_⟩
  by_cases hex : ∃ w ∈ cfg.snapshots_, b ≤ w
  · obtain ⟨w, hw, hbw⟩ := hex
    have := (b2 w hw hbw).2.1
    omega
  · have hall : ∀ w ∈ cfg.snapshots_, w < b := by
      intro w hw
      by_contra hn
      exact hex ⟨w, hw, by omega⟩
    rw [b1 hall]
    omega

theorem visibilityClass_earliest (cfg : Config) (seq : Nat)
    (h : seq ≤ cfg.earliest_snapshot_) :
    visibilityClass cfg seq = cfg.earliest_snapshot_ := by
  by_cases hs : cfg.snapshots_ = []
  · rw [visibilityClass_tip cfg seq hs]
    simp [Config.earliest_snapshot_, hs]
  · rw [visibilityClass_snap cfg seq hs]
    obtain ⟨w, rest, hw⟩ := List.exists_cons_of_ne_nil hs
    simp only [Config.earliest_snapshot_, hw, List.length_cons, List.headD_cons] at h ⊢
    simp only [Nat.add_one_ne_zero, beq_iff_eq, if_false] at h ⊢
    simp [findEarliestVisibleSnapshot, findEarliestVisibleSnapshotLoop, h]

/-! ## The newest record of each class -/

theorem beyondHint_none (cfg : Config) (h : cfg.l2_largest_key_ = none) (k : Slice)
    (seq : Nat) : beyondHint cfg k seq = false := by
  simp [beyondHint, h]

theorem plainFilter_eq_newestPerClass (cfg : Config) (hpos : WatermarksPositive cfg)
    (hhint : cfg.l2_largest_key_ = none) :
    ∀ (l : List Entry) (prev : Option ParsedInternalKey),
      (∀ e ∈ l, e.HasType
        [ValueType.kTypeDeletion, ValueType.kTypeValue, ValueType.kTypeValueLarge]) →
      plainFilter cfg prev l = newestPerClass cfg prev l
        ∧ plainHiddenCount cfg prev l + (newestPerClass cfg prev l).length = l.length := by
  intro l
  induction l with
  | nil => intro prev _; simp [plainFilter, newestPerClass, plainHiddenCount]
  | cons e l ih =>
    intro prev ht
    obtain ⟨ik, hp, _, hty⟩ := ht e (List.mem_cons_self _ _)
    obtain ⟨i1, i2⟩ := ih (some ik) (fun x hx => ht x (List.mem_cons_of_mem _ hx))
    have ho : plainObsolete cfg prev ik = false := by
      simp [plainObsolete, beyondHint_none cfg hhint]
    have hm : plainMerge cfg prev ik = false := by
      have : ik.type ≠ ValueType.kTypeMerge := by
        intro h; rw [h] at hty; simp at hty
      simp [plainMerge, this]
    have hcp := visibilityClass_pos cfg hpos ik.sequence
    simp only [plainFilter, newestPerClass, plainHiddenCount, hp, ho, hm, Bool.or_false, i1]
    cases prev with
    | none =>
      have hh : plainHidden cfg none ik = false := by
        simp only [plainHidden, lastSnapshotFor, decide_eq_false_iff_not]
        omega
      simp [hh]
      omega
    | some p =>
      by_cases hk : p.user_key = ik.user_key
      · by_cases hc : visibilityClass cfg p.sequence = visibilityClass cfg ik.sequence
        · have hh : plainHidden cfg (some p) ik = true := by
            simp [plainHidden, lastSnapshotFor, hk, hc]
          simp [hh, hk, hc]
          omega
        · have hh : plainHidden cfg (some p) ik = false := by
            simp [plainHidden, lastSnapshotFor, hk, hc]
          simp [hh, hk, hc]
          omega
      · have hh : plainHidden cfg (some p) ik = false := by
          simp only [plainHidden, lastSnapshotFor, hk, if_false, decide_eq_false_iff_not]
          omega
        simp [hh, hk]
        omega

theorem HasType.plain {ts : List ValueType} {e : Entry}
    (hts : ValueType.kTypeSingleDeletion ∉ ts) (h : e.HasType ts) : e.Plain := by
  obtain ⟨ik, hp, _, ht⟩ := h
  refine ⟨ik, hp, ?_⟩
  intro hsd
  rw [hsd] at ht
  exact hts ht

/-- C2: over an input whose keys parse, without SingleDelete or Merge records,
with no upper-bound hint, positive watermarks, flags unset and merging enabled,
the run emits exactly the records that start a new user key or whose visibility
class differs from that of the preceding record of the same user key, in input
order, and `hidden_drop` counts every other record. -/
theorem emitted_eq_newestPerClass (cfg : Config) (fl : Flags) (input : List Entry)
    (hlaw : cfg.cmp_.Lawful)
    (htypes : ∀ e ∈ input, e.HasType
      [ValueType.kTypeDeletion, ValueType.kTypeValue, ValueType.kTypeValueLarge])
    (hhint : cfg.l2_largest_key_ = none) (hpos : WatermarksPositive cfg)
    (hfl : FlagsUnset cfg fl) (hbdm : cfg.background_disable_merge_ = false) :
    emitted cfg fl input = some (newestPerClass cfg none input)
      ∧ ∃ stf, finalState cfg fl input = some stf
        ∧ stf.iter_stats_.num_record_drop_hidden + (newestPerClass cfg none input).length
            = input.length := by
  obtain ⟨h1, stf, h2, h3, _⟩ := emitted_plain cfg fl input hlaw hbdm hfl.1 hfl.2.1
    (fun e he => HasType.plain (by decide) (htypes e he))
  obtain ⟨e1, e2⟩ := plainFilter_eq_newestPerClass cfg hpos hhint input none htypes
  rw [h1, e1]
  exact ⟨rfl, stf, h2, by rw [h3]; exact e2⟩

/-- C2 at the input [Put(k,v2)@5, Put(k,v1)@3] with an empty snapshot set: only
Put(k,v2)@5 is emitted and one record is counted as hidden. -/
theorem emitted_eq_newestPerClass_witness :
    emitted (mkConfig [] 10 0 none) Flags.unset [mkPut [1] [2] 5, mkPut [1] [1] 3]
        = some [mkPut [1] [2] 5]
      ∧ ∃ stf, finalState (mkConfig [] 10 0 none) Flags.unset
            [mkPut [1] [2] 5, mkPut [1] [1] 3] = some stf
        ∧ stf.iter_stats_.num_record_drop_hidden + 1 = 2 :=
  emitted_eq_newestPerClass (mkConfig [] 10 0 none) Flags.unset
    [mkPut [1] [2] 5, mkPut [1] [1] 3] bytewise_lawful
    (by
      intro e he
      simp only [List.mem_cons, List.mem_singleton, List.not_mem_nil, or_false] at he
      rcases he with rfl | rfl
      · exact ⟨_, rfl, by decide, by decide⟩
      · exact ⟨_, rfl, by decide, by decide⟩)
    rfl
    ⟨by intro w hw; simp [mkConfig] at hw, by intro _; decide⟩
    ⟨rfl, rfl, rfl⟩ rfl

/-! ## One survivor per class -/

theorem plainFilter_sublist (cfg : Config) :
    ∀ (l : List Entry) (prev : Option ParsedInternalKey),
      (plainFilter cfg prev l).Sublist l := by
  intro l
  induction l with
  | nil => intro prev; simp [plainFilter]
  | cons e l ih =>
    intro prev
    simp only [plainFilter]
    split
    · simp
    · split_ifs
      · exact (ih _).cons _
      · exact (ih _).cons₂ _

theorem ikOrder_same_key (cmp : Comparator) (hlaw : cmp.Lawful) (x y : ParsedInternalKey)
    (h : ikOrder cmp x y) (hk : y.user_key = x.user_key) : y.sequence < x.sequence := by
  obtain ⟨_, h2, _⟩ := hlaw
  have : cmp.Compare x.user_key y.user_key = 0 := (h2 _ _).mpr hk.symm
  rcases h with h | h
  · omega
  · exact h.2

/-- In a sorted input the records of one user key are contiguous. -/
theorem ikOrder_contiguous (cmp : Comparator) (hlaw : cmp.Lawful)
    (p e x : ParsedInternalKey) (h1 : ikOrder cmp p e) (h2 : ikOrder cmp e x)
    (hk : x.user_key = p.user_key) : e.user_key = p.user_key := by
  obtain ⟨_, l2, l3⟩ := hlaw
  by_contra hne
  have hpe : cmp.Compare p.user_key e.user_key < 0 := by
    rcases h1 with h | h
    · exact h
    · exact absurd ((l2 _ _).mp h.1).symm hne
  unfold ikOrder at h2
  rw [hk] at h2
  rcases h2 with h | h
  · have := l3 _ _ h
    omega
  · exact hne ((l2 _ _).mp h.1)

theorem keyOrder_parsed {cmp : Comparator} {a b : Entry} {x y : ParsedInternalKey}
    (h : keyOrder cmp a b) (ha : ParseInternalKey a.key = some x)
    (hb : ParseInternalKey b.key = some y) : ikOrder cmp x y := by
  simp only [keyOrder, ha, hb] at h
  exact h

theorem plainFilter_onePerClass (cfg : Config) (hlaw : cfg.cmp_.Lawful)
    (hasc : SnapshotsAscending cfg.snapshots_) :
    ∀ (l : List Entry) (prev : Option ParsedInternalKey),
      (∀ e ∈ l, e.Parses) → InputSorted cfg.cmp_ l →
      (∀ p, prev = some p → p.sequence ≤ kMaxSequenceNumber
        ∧ ∀ y ∈ l, ∀ yk, ParseInternalKey y.key = some yk → ikOrder cfg.cmp_ p yk) →
      OnePerClass cfg (plainFilter cfg prev l)
        ∧ (∀ p, prev = some p → ∀ x ∈ plainFilter cfg prev l, ∀ xk,
            ParseInternalKey x.key = some xk → xk.user_key = p.user_key →
            visibilityClass cfg xk.sequence < visibilityClass cfg p.sequence) := by
  intro l
  induction l with
  | nil => intro prev _ _ _; simp [plainFilter, OnePerClass]
  | cons e l ih =>
    intro prev hps hso hprev
    obtain ⟨ik, hp, hseq⟩ := hps e (List.mem_cons_self _ _)
    unfold InputSorted at hso
    rw [List.pairwise_cons] at hso
    obtain ⟨hso1, hso2⟩ := hso
    have hnext : ∀ y ∈ l, ∀ yk, ParseInternalKey y.key = some yk → ikOrder cfg.cmp_ ik yk :=
      fun y hy yk hyk => keyOrder_parsed (hso1 y hy) hp hyk
    obtain ⟨i1, i2⟩ := ih (some ik) (fun x hx => hps x (List.mem_cons_of_mem _ hx)) hso2
      (by intro p hpp
          simp only [Option.some.injEq] at hpp
          subst hpp
          exact ⟨hseq, hnext⟩)
    have hsub := (plainFilter_sublist cfg l (some ik)).subset
    -- records kept later, of the user key of `prev`, are in a lower class
    have later : ∀ p, prev = some p → ∀ x ∈ plainFilter cfg (some ik) l, ∀ xk,
        ParseInternalKey x.key = some xk → xk.user_key = p.user_key →
        visibilityClass cfg xk.sequence < visibilityClass cfg p.sequence := by
      intro p hpp x hx xk hxk hk
      obtain ⟨hpseq, hpo⟩ := hprev p hpp
      have o1 := hpo e (List.mem_cons_self _ _) ik hp
      have o2 := hnext x (hsub hx) xk hxk
      have hek := ikOrder_contiguous cfg.cmp_ hlaw p ik xk o1 o2 hk
      have := i2 ik rfl x hx xk hxk (by rw [hk, hek])
      have hlt := ikOrder_same_key cfg.cmp_ hlaw p ik o1 hek
      have := visibilityClass_mono cfg hasc ik.sequence p.sequence (by omega) hpseq
      omega
    simp only [plainFilter, hp]
    split_ifs with hdrop
    · exact ⟨i1, later⟩
    · refine ⟨?_, ?_⟩
      · unfold OnePerClass
        rw [List.pairwise_cons]
        refine ⟨?_, i1⟩
        intro x hx
        simp only [hp]
        cases hx2 : ParseInternalKey x.key with
        | none => trivial
        | some xk =>
          simp only
          intro hk
          have := i2 ik rfl x hx xk hx2 hk.symm
          omega
      · intro p hpp x hx xk hxk hk
        rcases List.mem_cons.mp hx with rfl | hx
        · rw [hp] at hxk
          simp only [Option.some.injEq] at hxk
          subst hxk
          obtain ⟨hpseq, hpo⟩ := hprev p hpp
          have o1 := hpo _ (List.mem_cons_self _ _) ik hp
          have hlt := ikOrder_same_key cfg.cmp_ hlaw p ik o1 hk
          have hm := visibilityClass_mono cfg hasc ik.sequence p.sequence (by omega) hpseq
          have hne : visibilityClass cfg p.sequence ≠ visibilityClass cfg ik.sequence := by
            intro heq
            apply hdrop
            subst hpp
            simp [plainHidden, lastSnapshotFor, hk, heq]
          omega
        · exact later p hpp x hx xk hxk hk

/-- C3, the claim as stated, fails: over [SingleDelete(k)@5, Put(k,v)@3] with an
empty snapshot set and `earliest_write_conflict_snapshot` 0 the run emits both
records (the Put with its value cleared), and both are in the same visibility
class. -/
theorem onePerClass_counterexample :
    emitted (mkConfig [] 10 0 none) Flags.unset [mkSingleDelete [1] 5, mkPut [1] [7] 3]
        = some [mkSingleDelete [1] 5, mkPut [1] [] 3]
      ∧ ¬ OnePerClass (mkConfig [] 10 0 none) [mkSingleDelete [1] 5, mkPut [1] [] 3] := by
  refine ⟨by decide, ?_⟩
  unfold OnePerClass
  simp [mkSingleDelete, mkPut, ParseInternalKey, visibilityClass, snapshotOf,
    Config.visible_at_tip_, mkConfig]

/-- With a shutdown flag set the run emits nothing. -/
theorem emitted_of_shutdown (cfg : Config) (fl : Flags) (input : List Entry)
    (h : fl.shutting_down = true ∨ fl.bg_stopped = true) : emitted cfg fl input = some [] := by
  unfold emitted
  rw [SeekToFirst_eq]
  unfold NextFromInput
  simp only
  rw [loop_exit cfg fl _ _ (by
    rcases h with h | h <;> simp [loopCond, IsShuttingDown, is_bg_stopped, h])]
  simp only [Option.map_some']
  have hv := (afterLoop_frame cfg fl
    { (State.init { rest := input, end_status := Status.kOk }) with
        at_next_ := false, valid_ := false }).1
  simp only at hv
  simp [drain, State.Valid, hv]

/-- C3 as amended: over a sorted input whose keys parse and that holds no
SingleDelete record, with an ascending snapshot list and merging enabled,
whatever the flags, the emitted records never contain two records of the same
user key in the same visibility class. -/
theorem emitted_onePerClass (cfg : Config) (fl : Flags) (input : List Entry)
    (hlaw : cfg.cmp_.Lawful) (hsorted : InputSorted cfg.cmp_ input)
    (htypes : ∀ e ∈ input, e.HasType
      [ValueType.kTypeDeletion, ValueType.kTypeValue, ValueType.kTypeMerge,
        ValueType.kTypeValueLarge])
    (hasc : SnapshotsAscending cfg.snapshots_)
    (hbdm : cfg.background_disable_merge_ = false) :
    ∃ out, emitted cfg fl input = some out ∧ OnePerClass cfg out := by
  by_cases hf : fl.shutting_down = true ∨ fl.bg_stopped = true
  · exact ⟨[], emitted_of_shutdown cfg fl input hf, by simp [OnePerClass]⟩
  · simp only [not_or, Bool.not_eq_true] at hf
    obtain ⟨h1, _⟩ := emitted_plain cfg fl input hlaw hbdm hf.1 hf.2
      (fun e he => HasType.plain (by decide) (htypes e he))
    refine ⟨_, h1, ?_⟩
    exact (plainFilter_onePerClass cfg hlaw hasc input none
      (fun e he => by
        obtain ⟨ik, a, b, _⟩ := htypes e he
        exact ⟨ik, a, b⟩)
      hsorted (by intro p hp; simp at hp)).1

/-! ## Reads at a snapshot -/

theorem newestVisible_mem (k : Slice) (s : Nat) :
    ∀ (l : List Entry) (x : ParsedInternalKey) (v : Slice),
      newestVisible k s l = some (x, v) →
      ∃ e ∈ l, ParseInternalKey e.key = some x ∧ x.user_key = k := by
  intro l
  induction l with
  | nil => intro x v h; simp [newestVisible] at h
  | cons e l ih =>
    intro x v h
    simp only [newestVisible] at h
    cases hp : ParseInternalKey e.key with
    | none =>
      rw [hp] at h
      obtain ⟨e', he', h'⟩ := ih x v h
      exact ⟨e', List.mem_cons_of_mem _ he', h'⟩
    | some ik =>
      rw [hp] at h
      simp only at h
      split_ifs at h with hc
      · cases hn : newestVisible k s l with
        | none =>
          rw [hn] at h
          simp only [Option.some.injEq, Prod.mk.injEq] at h
          exact ⟨e, List.mem_cons_self _ _, by rw [hp, h.1], by rw [← h.1]; exact hc.1⟩
        | some later =>
          rw [hn] at h
          simp only at h
          split_ifs at h
          · simp only [Option.some.injEq] at h
            obtain ⟨e', he', h'⟩ := ih later.1 later.2 hn
            rw [h] at h'
            exact ⟨e', List.mem_cons_of_mem _ he', h'⟩
          · simp only [Option.some.injEq, Prod.mk.injEq] at h
            exact ⟨e, List.mem_cons_self _ _, by rw [hp, h.1], by rw [← h.1]; exact hc.1⟩
      · obtain ⟨e', he', h'⟩ := ih x v h
        exact ⟨e', List.mem_cons_of_mem _ he', h'⟩

/-- In a sorted list the newest record a reader sees is the first one. -/
theorem newestVisible_eq_firstVisible (cmp : Comparator) (hlaw : cmp.Lawful) (k : Slice)
    (s : Nat) :
    ∀ (l : List Entry), InputSorted cmp l → newestVisible k s l = firstVisible k s l := by
  intro l
  induction l with
  | nil => intro _; rfl
  | cons e l ih =>
    intro hso
    unfold InputSorted at hso
    rw [List.pairwise_cons] at hso
    obtain ⟨hso1, hso2⟩ := hso
    simp only [newestVisible, firstVisible]
    cases hp : ParseInternalKey e.key with
    | none => exact ih hso2
    | some ik =>
      simp only
      split_ifs with hc
      · cases hn : newestVisible k s l with
        | none => rfl
        | some later =>
          simp only
          obtain ⟨e', he', h1, h2⟩ := newestVisible_mem k s l later.1 later.2 hn
          have := ikOrder_same_key cmp hlaw ik later.1
            (keyOrder_parsed (hso1 e' he') hp h1) (by rw [h2, hc.1])
          rw [if_neg (by omega)]
      · exact ih hso2

theorem firstVisible_none (k : Slice) (s : Nat) :
    ∀ (l : List Entry),
      (∀ x ∈ l, ∀ xk, ParseInternalKey x.key = some xk → xk.user_key ≠ k) →
      firstVisible k s l = none := by
  intro l
  induction l with
  | nil => intro _; rfl
  | cons e l ih =>
    intro h
    simp only [firstVisible]
    cases hp : ParseInternalKey e.key with
    | none => exact ih (fun x hx => h x (List.mem_cons_of_mem _ hx))
    | some ik =>
      simp only
      rw [if_neg (fun hc => h e (List.mem_cons_self _ _) ik hp hc.1)]
      exact ih (fun x hx => h x (List.mem_cons_of_mem _ hx))

theorem beyondHint_le (cfg : Config) (k : Slice) (seq : Nat)
    (h : beyondHint cfg k seq = true) : seq ≤ cfg.earliest_snapshot_ := by
  unfold beyondHint at h
  split at h
  · simp at h
  · simp only [Bool.and_eq_true, decide_eq_true_eq] at h
    exact h.1

/-- After a record of user key `k` at or below the earliest snapshot, no later
record of `k` survives. -/
theorem plainFilter_below_earliest (cfg : Config) (hlaw : cfg.cmp_.Lawful) (k : Slice) :
    ∀ (l : List Entry) (q : ParsedInternalKey), q.user_key = k →
      q.sequence ≤ cfg.earliest_snapshot_ → InputSorted cfg.cmp_ l →
      (∀ y ∈ l, ∀ yk, ParseInternalKey y.key = some yk → ikOrder cfg.cmp_ q yk) →
      ∀ x ∈ plainFilter cfg (some q) l, ∀ xk, ParseInternalKey x.key = some xk →
        xk.user_key ≠ k := by
  intro l
  induction l with
  | nil => intro q _ _ _ _ x hx; simp [plainFilter] at hx
  | cons e l ih =>
    intro q hq hqs hso hord x hx xk hxk
    unfold InputSorted at hso
    rw [List.pairwise_cons] at hso
    obtain ⟨hso1, hso2⟩ := hso
    cases hp : ParseInternalKey e.key with
    | none => simp [plainFilter, hp] at hx
    | some ik =>
      have o1 := hord e (List.mem_cons_self _ _) ik hp
      by_cases hk : ik.user_key = k
      · have hlt := ikOrder_same_key cfg.cmp_ hlaw q ik o1 (by rw [hk, hq])
        have hh : plainHidden cfg (some q) ik = true := by
          simp only [plainHidden, lastSnapshotFor, hq, hk, if_true, decide_eq_true_eq]
          rw [visibilityClass_earliest cfg _ hqs, visibilityClass_earliest cfg _ (by omega)]
        simp only [plainFilter, hp, hh, Bool.true_or, if_true] at hx
        exact ih ik hk (by omega) hso2
          (fun y hy yk hyk => keyOrder_parsed (hso1 y hy) hp hyk) x hx xk hxk
      · have hsub := (plainFilter_sublist cfg (e :: l) (some q)).subset hx
        rcases List.mem_cons.mp hsub with rfl | hxl
        · rw [hp] at hxk
          simp only [Option.some.injEq] at hxk
          rw [← hxk]; exact hk
        · intro hxk2
          apply hk
          have o2 := keyOrder_parsed (hso1 x hxl) hp hxk
          rw [← hq]
          exact ikOrder_contiguous cfg.cmp_ hlaw q ik xk o1 o2 (by rw [hxk2, hq])

/-- Over Puts and Deletes the filter keeps, for each user key and each snapshot
that separates visibility classes, the first record a reader sees, or drops a
Delete together with everything below it. -/
theorem plainFilter_read (cfg : Config) (hlaw : cfg.cmp_.Lawful)
    (hpos : WatermarksPositive cfg) (k : Slice) (s : Nat)
    (hsep : ∀ a b, a ≤ s → s < b → b ≤ kMaxSequenceNumber →
      visibilityClass cfg a ≠ visibilityClass cfg b) :
    ∀ (l : List Entry) (prev : Option ParsedInternalKey),
      (∀ e ∈ l, e.HasType [ValueType.kTypeValue, ValueType.kTypeDeletion]) →
      InputSorted cfg.cmp_ l →
      (∀ p, prev = some p → p.sequence ≤ kMaxSequenceNumber
        ∧ (∀ y ∈ l, ∀ yk, ParseInternalKey y.key = some yk → ikOrder cfg.cmp_ p yk)
        ∧ (p.user_key = k → s < p.sequence)) →
      readResult (firstVisible k s (plainFilter cfg prev l))
        = readResult (firstVisible k s l) := by
  intro l
  induction l with
  | nil => intro prev _ _ _; rfl
  | cons e l ih =>
    intro prev hty hso hprev
    obtain ⟨ik, hp, hseq, htype⟩ := hty e (List.mem_cons_self _ _)
    have hso' := hso
    unfold InputSorted at hso
    rw [List.pairwise_cons] at hso
    obtain ⟨hso1, hso2⟩ := hso
    have hnext : ∀ y ∈ l, ∀ yk, ParseInternalKey y.key = some yk → ikOrder cfg.cmp_ ik yk :=
      fun y hy yk hyk => keyOrder_parsed (hso1 y hy) hp hyk
    have hmg : plainMerge cfg prev ik = false := by
      have : ik.type ≠ ValueType.kTypeMerge := by
        intro h; rw [h] at htype; simp at htype
      simp [plainMerge, this]
    by_cases hc : ik.user_key = k ∧ ik.sequence ≤ s
    · have hcp := visibilityClass_pos cfg hpos ik.sequence
      have hh : plainHidden cfg prev ik = false := by
        simp only [plainHidden, decide_eq_false_iff_not]
        cases prev with
        | none => simp only [lastSnapshotFor]; omega
        | some p =>
          simp only [lastSnapshotFor]
          obtain ⟨hps, _, hpk⟩ := hprev p rfl
          split_ifs with hk
          · exact fun h => hsep ik.sequence p.sequence hc.2 (hpk (by rw [hk, hc.1])) hps h.symm
          · omega
      have fv : firstVisible k s (e :: l) = some (ik, e.value) := by
        simp [firstVisible, hp, hc]
      rw [fv]
      by_cases ho : plainObsolete cfg prev ik = true
      · have hdel : ik.type = ValueType.kTypeDeletion := by
          simp only [plainObsolete, Bool.and_eq_true, decide_eq_true_eq] at ho
          exact ho.1.2
        have hbh : beyondHint cfg ik.user_key ik.sequence = true := by
          simp only [plainObsolete, Bool.and_eq_true] at ho
          exact ho.2
        have : plainFilter cfg prev (e :: l) = plainFilter cfg (some ik) l := by
          simp [plainFilter, hp, ho]
        rw [this, firstVisible_none k s _
          (plainFilter_below_earliest cfg hlaw k l ik hc.1 (beyondHint_le cfg _ _ hbh)
            hso2 hnext)]
        simp [readResult, hdel]
      · simp only [Bool.not_eq_true] at ho
        have : plainFilter cfg prev (e :: l) = e :: plainFilter cfg (some ik) l := by
          simp [plainFilter, hp, hh, ho, hmg]
        rw [this]
        simp [firstVisible, hp, hc]
    · have fv : firstVisible k s (e :: l) = firstVisible k s l := by
        simp only [firstVisible, hp]
        rw [if_neg hc]
      have fo : firstVisible k s (plainFilter cfg prev (e :: l))
          = firstVisible k s (plainFilter cfg (some ik) l) := by
        simp only [plainFilter, hp]
        split_ifs
        · rfl
        · simp only [firstVisible, hp]
          rw [if_neg hc]
      rw [fv, fo]
      apply ih (some ik) (fun x hx => hty x (List.mem_cons_of_mem _ hx)) hso2
      intro p hpp
      simp only [Option.some.injEq] at hpp
      subst hpp
      refine ⟨hseq, hnext, ?_⟩
      intro hk
      by_contra hn
      exact hc ⟨hk, by omega⟩

/-- C1: over a sorted input of Put and Delete records whose keys parse, with a
strictly ascending list of positive watermarks (or none and a positive
`last_sequence`), any hint and any `earliest_write_conflict_snapshot`, flags
unset and merging enabled, the run ends and, for every user key and for every
watermark as well as for the tip, a read over the emitted records gives what it
gives over the input. -/
theorem read_equivalence (cfg : Config) (fl : Flags) (input : List Entry)
    (hlaw : cfg.cmp_.Lawful) (hsorted : InputSorted cfg.cmp_ input)
    (htypes : ∀ e ∈ input, e.HasType [ValueType.kTypeValue, ValueType.kTypeDeletion])
    (hstrict : SnapshotsStrict cfg.snapshots_) (hpos : WatermarksPositive cfg)
    (hfl : FlagsUnset cfg fl) (hbdm : cfg.background_disable_merge_ = false) :
    ∃ out, emitted cfg fl input = some out
      ∧ ∀ (k : Slice) (s : Nat), s ∈ cfg.snapshots_ ∨ s = kMaxSequenceNumber →
          readAt k s out = readAt k s input := by
  obtain ⟨h1, _⟩ := emitted_plain cfg fl input hlaw hbdm hfl.1 hfl.2.1
    (fun e he => HasType.plain (by decide) (htypes e he))
  refine ⟨_, h1, ?_⟩
  intro k s hs
  have hasc : SnapshotsAscending cfg.snapshots_ :=
    List.Pairwise.imp (fun h => Nat.le_of_lt h) hstrict
  have hsep : ∀ a b, a ≤ s → s < b → b ≤ kMaxSequenceNumber →
      visibilityClass cfg a ≠ visibilityClass cfg b := by
    intro a b ha hb hbk
    rcases hs with hs | hs
    · have := visibilityClass_separated cfg hasc a b s hs ha hb hbk
      omega
    · omega
  have hout : InputSorted cfg.cmp_ (plainFilter cfg none input) :=
    List.Pairwise.sublist (plainFilter_sublist cfg input none) hsorted
  unfold readAt
  rw [newestVisible_eq_firstVisible cfg.cmp_ hlaw k s _ hout,
    newestVisible_eq_firstVisible cfg.cmp_ hlaw k s _ hsorted]
  exact plainFilter_read cfg hlaw hpos k s hsep input none htypes hsorted
    (by intro p hp; simp at hp)

/-! ## The same-class test of the SingleDelete branch -/

theorem prev_snapshot_cases (cfg : Config) (hasc : SnapshotsAscending cfg.snapshots_)
    (b : Nat) (hb : b ≤ kMaxSequenceNumber) :
    ((snapshotOf cfg b).2 = 0 ∧ (cfg.snapshots_ = [] ∨ ∀ w ∈ cfg.snapshots_, b ≤ w))
      ∨ ((snapshotOf cfg b).2 ∈ cfg.snapshots_ ∧ (snapshotOf cfg b).2 < b
          ∧ ∀ w ∈ cfg.snapshots_, w < b → w ≤ (snapshotOf cfg b).2) := by
  by_cases h : cfg.snapshots_ = []
  · left
    simp [snapshotOf, Config.visible_at_tip_, h]
  · have hlen : cfg.snapshots_.length ≠ 0 := fun hn => h (List.length_eq_zero.mp hn)
    have e : snapshotOf cfg b = findEarliestVisibleSnapshot cfg.snapshots_ b := by
      simp [snapshotOf, Config.visible_at_tip_, hlen]
    rw [e]
    obtain ⟨_, _, s3, s4⟩ := findEarliestVisibleSnapshot_spec_aux cfg.snapshots_ b h hasc hb
    by_cases hex : ∃ w ∈ cfg.snapshots_, w < b
    · exact Or.inr (s3 hex)
    · left
      have hall : ∀ w ∈ cfg.snapshots_, b ≤ w := by
        intro w hw
        by_contra hn
        exact hex ⟨w, hw, by omega⟩
      exact ⟨s4 hall, Or.inr hall⟩

/-- The test `prev_snapshot == 0 || next_ikey.sequence > prev_snapshot` holds
exactly when the two records are in the same visibility class. -/
theorem same_class_iff (cfg : Config) (hasc : SnapshotsAscending cfg.snapshots_)
    (hpos : ∀ w ∈ cfg.snapshots_, 0 < w) (a b : Nat) (hab : a ≤ b)
    (hb : b ≤ kMaxSequenceNumber) :
    ((snapshotOf cfg b).2 = 0 ∨ a > (snapshotOf cfg b).2)
      ↔ visibilityClass cfg a = visibilityClass cfg b := by
  have hnone : ((snapshotOf cfg b).2 = 0 ∨ a > (snapshotOf cfg b).2)
      ↔ ¬ ∃ w ∈ cfg.snapshots_, a ≤ w ∧ w < b := by
    rcases prev_snapshot_cases cfg hasc b hb with ⟨p0, hh⟩ | ⟨p1, p2, p3⟩
    · simp only [p0, true_or, true_iff]
      rintro ⟨w, hw, _, h2⟩
      rcases hh with hh | hh
      · rw [hh] at hw; simp at hw
      · have := hh w hw
        omega
    · have := hpos _ p1
      constructor
      · rintro (h | h)
        · omega
        · rintro ⟨w, hw, h1, h2⟩
          have := p3 w hw h2
          omega
      · intro h
        right
        by_contra hn
        exact h ⟨_, p1, by omega, p2⟩
  rw [hnone]
  constructor
  · intro hno
    by_cases h : cfg.snapshots_ = []
    · rw [visibilityClass_tip cfg a h, visibilityClass_tip cfg b h]
    · rw [visibilityClass_snap cfg a h, visibilityClass_snap cfg b h]
      unfold findEarliestVisibleSnapshot
      obtain ⟨a1, a2⟩ := fevs_loop_fst a cfg.snapshots_ kMaxSequenceNumber hasc
      obtain ⟨b1, b2⟩ := fevs_loop_fst b cfg.snapshots_ kMaxSequenceNumber hasc
      by_cases hex : ∃ w ∈ cfg.snapshots_, b ≤ w
      · obtain ⟨w, hw, hbw⟩ := hex
        obtain ⟨m1, m2, _⟩ := b2 w hw hbw
        obtain ⟨n1, n2, n3⟩ := a2 _ m1 (by omega)
        have : b ≤ (findEarliestVisibleSnapshotLoop a cfg.snapshots_ kMaxSequenceNumber).1 := by
          by_contra hn
          exact hno ⟨_, n1, n2, by omega⟩
        have := (b2 _ n1 this).2.2
        omega
      · have hall : ∀ w ∈ cfg.snapshots_, w < b := by
          intro w hw
          by_contra hn
          exact hex ⟨w, hw, by omega⟩
        rw [b1 hall, a1]
        intro w hw
        by_contra hn
        exact hno ⟨w, hw, by omega, hall w hw⟩
  · rintro heq ⟨w, hw, h1, h2⟩
    have := visibilityClass_separated cfg hasc a b w hw h1 h2 hb
    omega

/-! ## A pass of the loop on a parsed record -/

/-- A pass on a record whose key parses, merging enabled: the rule chain runs
on a state `s2` whose per-key members describe the record. -/
theorem body_rules (cfg : Config) (hlaw : cfg.cmp_.Lawful)
    (hbdm : cfg.background_disable_merge_ = false) (st : State) (e : Entry)
    (ik : ParsedInternalKey) (hp : ParseInternalKey e.key = some ik) :
    ∃ (s2 : State) (last : Nat),
      NextFromInputBody cfg st e
          = ((applyRules cfg s2 last (snapshotOf cfg ik.sequence).2).syncStatus, false)
        ∧ s2.input_ = st.input_ ∧ s2.valid_ = st.valid_ ∧ s2.at_next_ = st.at_next_
        ∧ s2.key_ = e.key ∧ s2.value_ = e.value ∧ s2.ikey_ = ik
        ∧ s2.has_current_user_key_ = true ∧ s2.current_user_key_ = ik.user_key
        ∧ s2.current_user_key_snapshot_ = visibilityClass cfg ik.sequence
        ∧ s2.clear_and_output_next_key_ = st.clear_and_output_next_key_
        ∧ s2.has_outputted_key_ = outputtedFor st ik.user_key
        ∧ last = (if st.has_current_user_key_ = true ∧ st.current_user_key_ = ik.user_key
                  then st.current_user_key_snapshot_ else 0)
        ∧ s2.iter_stats_.num_record_drop_hidden = st.iter_stats_.num_record_drop_hidden
        ∧ s2.iter_stats_.num_record_drop_obsolete = st.iter_stats_.num_record_drop_obsolete
        ∧ s2.iter_stats_.num_single_del_mismatch = st.iter_stats_.num_single_del_mismatch
        ∧ s2.iter_stats_.num_single_del_fallthru
            = st.iter_stats_.num_single_del_fallthru := by
  rcases e with ⟨k, v⟩
  have hk := parse_eq_some hp
  simp only at hk
  subst hk
  simp only [NextFromInputBody, ParseInternalKey, processParsed, hbdm]
  generalize hs0 : ({ st with key_ := RawKey.wellFormed ik, value_ := v, iter_stats_ := inputStats { st.iter_stats_ with num_input_records := st.iter_stats_.num_input_records + 1 } ik (RawKey.wellFormed ik) v } : State) = s0
  have c1 : s0.input_ = st.input_ := by rw [← hs0]
  have c2 : s0.valid_ = st.valid_ := by rw [← hs0]
  have c3 : s0.at_next_ = st.at_next_ := by rw [← hs0]
  have c4 : s0.clear_and_output_next_key_ = st.clear_and_output_next_key_ := by rw [← hs0]
  have c5 : s0.value_ = v := by rw [← hs0]
  have c6 : s0.has_current_user_key_ = st.has_current_user_key_ := by rw [← hs0]
  have c7 : s0.current_user_key_ = st.current_user_key_ := by rw [← hs0]
  have c8 : s0.has_outputted_key_ = st.has_outputted_key_ := by rw [← hs0]
  have c9 : s0.current_user_key_snapshot_ = st.current_user_key_snapshot_ := by rw [← hs0]
  obtain ⟨i1, i2, i3, i4, _⟩ := inputStats_frame { st.iter_stats_ with
    num_input_records := st.iter_stats_.num_input_records + 1 } ik (RawKey.wellFormed ik) v
  have c10 : s0.iter_stats_ = inputStats { st.iter_stats_ with
      num_input_records := st.iter_stats_.num_input_records + 1 } ik (RawKey.wellFormed ik) v := by
    rw [← hs0]
  obtain ⟨f1, f2, f3, _, f5, f6, f7, f8⟩ := updateCurrentKey_frame cfg s0 ik
  obtain ⟨k1, k2, k3⟩ := updateCurrentKey_key cfg hlaw s0 ik (by rw [← hs0])
  have hsame := updateCurrentKey_same cfg s0 ik
  have hfirst := updateCurrentKey_first cfg s0 ik
  have heq := hlaw.1
  have hcase : (updateCurrentKey cfg s0 ik).has_outputted_key_ = outputtedFor st ik.user_key
      ∧ (updateCurrentKey cfg s0 ik).current_user_key_snapshot_
          = (if st.has_current_user_key_ = true ∧ st.current_user_key_ = ik.user_key
              then st.current_user_key_snapshot_ else 0) := by
    by_cases hc : st.has_current_user_key_ = true ∧ st.current_user_key_ = ik.user_key
    · obtain ⟨a, b, c⟩ := hsame (by rw [c6]; exact hc.1)
        (by rw [c7, hc.2]; exact (heq _ _).mpr rfl)
      simp only [outputtedFor, hc, and_self, if_true]
      exact ⟨by rw [c, c8], by rw [a, c9]⟩
    · obtain ⟨a, _, c, _⟩ := hfirst (by
        rw [c6, c7]
        by_cases h1 : st.has_current_user_key_ = true
        · right
          have h2 : ¬ st.current_user_key_ = ik.user_key := fun h => hc ⟨h1, h⟩
          cases h3 : cfg.cmp_.Equal ik.user_key st.current_user_key_ with
          | false => rfl
          | true => exact absurd ((heq _ _).mp h3).symm h2
        · left; simpa using h1)
      simp only [outputtedFor, hc, if_false]
      exact ⟨c, a⟩
  generalize updateCurrentKey cfg s0 ik = s1 at *
  simp only [Bool.false_eq_true, if_false]
  refine ⟨{ s1 with current_user_key_sequence_ := s1.ikey_.sequence,
                    current_user_key_snapshot_ := (snapshotOf cfg s1.ikey_.sequence).1 },
    s1.current_user_key_snapshot_, ?_, ?_⟩
  · rw [k2]; rfl
  · simp only [k2, visibilityClass]
    refine ⟨by rw [f1, c1], by rw [f2, c2], by rw [f3, c3], k1, by rw [f5, c5], trivial,
      f8, k3, trivial, by rw [f6, c4], hcase.1, hcase.2, ?_, ?_, ?_, ?_⟩
    · rw [f7, c10, i1]
    · rw [f7, c10, i2]
    · rw [f7, c10, i3]
    · rw [f7, c10, i4]

theorem matchedSuccessor_none (cfg : Config) (hlaw : cfg.cmp_.Lawful)
    (ik : ParsedInternalKey) (it : InternalIterator) (h : Unmatched ik it.rest) :
    matchedSuccessor cfg ik.user_key it = none := by
  unfold matchedSuccessor
  unfold Unmatched at h
  cases hr : it.rest with
  | nil => rfl
  | cons nxt t =>
    rw [hr] at h
    simp only at h ⊢
    cases hp : ParseInternalKey nxt.key with
    | none => rfl
    | some nk =>
      rw [hp] at h
      simp only at h ⊢
      have : cfg.cmp_.Equal ik.user_key nk.user_key = false := by
        cases h3 : cfg.cmp_.Equal ik.user_key nk.user_key with
        | false => rfl
        | true => exact absurd ((hlaw.1 _ _).mp h3).symm h
      simp [this]

theorem matchedSuccessor_some (cfg : Config) (hlaw : cfg.cmp_.Lawful)
    (ik nk : ParsedInternalKey) (it : InternalIterator) (nxt : Entry) (t : List Entry)
    (hr : it.rest = nxt :: t) (hp : ParseInternalKey nxt.key = some nk)
    (hk : nk.user_key = ik.user_key) :
    matchedSuccessor cfg ik.user_key it = some nk := by
  unfold matchedSuccessor
  simp [hr, hp, hk, hlaw.refl]

/-! ## A pass of the loop on a SingleDelete -/

theorem beyondHint_iff (cfg : Config) (k : Slice) (seq : Nat) :
    beyondHint cfg k seq = true
      ↔ ∃ hint, cfg.l2_largest_key_ = some hint ∧ seq ≤ cfg.earliest_snapshot_
          ∧ 0 < cfg.cmp_.Compare k hint := by
  unfold beyondHint
  cases cfg.l2_largest_key_ with
  | none => simp
  | some hint => simp

theorem syncStatus_frame (s : State) :
    s.syncStatus.valid_ = s.valid_ ∧ s.syncStatus.at_next_ = s.at_next_
      ∧ s.syncStatus.input_ = s.input_ ∧ s.syncStatus.key_ = s.key_
      ∧ s.syncStatus.value_ = s.value_
      ∧ s.syncStatus.clear_and_output_next_key_ = s.clear_and_output_next_key_
      ∧ s.syncStatus.iter_stats_ = s.iter_stats_
      ∧ s.syncStatus.has_current_user_key_ = s.has_current_user_key_
      ∧ s.syncStatus.current_user_key_ = s.current_user_key_
      ∧ s.syncStatus.current_user_key_snapshot_ = s.current_user_key_snapshot_
      ∧ s.syncStatus.has_outputted_key_ = s.has_outputted_key_
      ∧ s.syncStatus.status_ = s.input_.status :=
  ⟨rfl, rfl, rfl, rfl, rfl, rfl, rfl, rfl, rfl, rfl, rfl, rfl⟩

/-- A pass on a SingleDelete without a matching successor. -/
theorem body_sd_unmatched (cfg : Config) (hlaw : cfg.cmp_.Lawful)
    (hbdm : cfg.background_disable_merge_ = false) (st : State) (sd : Entry)
    (rest : List Entry) (ik : ParsedInternalKey) (hin : st.input_.rest = sd :: rest)
    (hv : st.valid_ = false) (han : st.at_next_ = false)
    (hc : st.clear_and_output_next_key_ = false)
    (hp : ParseInternalKey sd.key = some ik)
    (ht : ik.type = ValueType.kTypeSingleDeletion) (hun : Unmatched ik rest) :
    (NextFromInputBody cfg st sd).2 = false
      ∧ (NextFromInputBody cfg st sd).1.input_.rest = rest
      ∧ (NextFromInputBody cfg st sd).1.key_ = sd.key
      ∧ (NextFromInputBody cfg st sd).1.value_ = sd.value
      ∧ (NextFromInputBody cfg st sd).1.has_current_user_key_ = false
      ∧ (NextFromInputBody cfg st sd).1.clear_and_output_next_key_ = false
      ∧ (NextFromInputBody cfg st sd).1.valid_
          = !beyondHint cfg ik.user_key ik.sequence
      ∧ (NextFromInputBody cfg st sd).1.at_next_
          = !beyondHint cfg ik.user_key ik.sequence
      ∧ (NextFromInputBody cfg st sd).1.iter_stats_.num_record_drop_obsolete
          = st.iter_stats_.num_record_drop_obsolete
            + (if beyondHint cfg ik.user_key ik.sequence then 1 else 0)
      ∧ (NextFromInputBody cfg st sd).1.iter_stats_.num_single_del_fallthru
          = st.iter_stats_.num_single_del_fallthru
            + (if beyondHint cfg ik.user_key ik.sequence then 1 else 0)
      ∧ (NextFromInputBody cfg st sd).1.iter_stats_.num_record_drop_hidden
          = st.iter_stats_.num_record_drop_hidden := by
  obtain ⟨s2, last, hb, g1, g2, g3, g4, g5, g6, g7, g8, g9, g10, g11, g12, g13, g14, g15,
    g16⟩ := body_rules cfg hlaw hbdm st sd ik hp
  rw [hb]
  have hm : matchedSuccessor cfg s2.ikey_.user_key s2.input_.Next = none := by
    rw [g6]
    apply matchedSuccessor_none cfg hlaw
    simp only [InternalIterator.Next, g1, hin, List.tail_cons]
    exact hun
  have e : applyRules cfg s2 last (snapshotOf cfg ik.sequence).2
      = singleDeleteBranch cfg s2 (snapshotOf cfg ik.sequence).2 := by
    unfold applyRules
    simp [g10, hc, g6, ht]
  rw [e, singleDeleteBranch_none cfg s2 _ (by rw [g2, hv]) hm, g6]
  cases hbh : beyondHint cfg ik.user_key ik.sequence with
  | true =>
    simp [State.syncStatus, InternalIterator.Next, g1, hin, g4, g5, g10, hc, g3, han, g2, hv,
      IterStats.addObsolete, IterStats.addFallthru, g13, g14, g16]
  | false =>
    simp [State.syncStatus, InternalIterator.Next, g1, hin, g4, g5, g10, hc, g14, g16, g13]

/-- A pass on a SingleDelete followed by a record of its user key that is not a
SingleDelete and passes the same-class test. -/
theorem body_sd_matched (cfg : Config) (hlaw : cfg.cmp_.Lawful)
    (hbdm : cfg.background_disable_merge_ = false) (st : State) (sd nxt : Entry)
    (rest : List Entry) (ik nk : ParsedInternalKey)
    (hin : st.input_.rest = sd :: nxt :: rest) (hv : st.valid_ = false)
    (han : st.at_next_ = false) (hc : st.clear_and_output_next_key_ = false)
    (hp : ParseInternalKey sd.key = some ik) (ht : ik.type = ValueType.kTypeSingleDeletion)
    (hpn : ParseInternalKey nxt.key = some nk) (hk : nk.user_key = ik.user_key)
    (hnt : nk.type ≠ ValueType.kTypeSingleDeletion)
    (htest : (snapshotOf cfg ik.sequence).2 = 0 ∨ nk.sequence > (snapshotOf cfg ik.sequence).2) :
    (NextFromInputBody cfg st sd).2 = false
      ∧ (NextFromInputBody cfg st sd).1.key_ = sd.key
      ∧ (NextFromInputBody cfg st sd).1.value_ = sd.value
      ∧ (NextFromInputBody cfg st sd).1.has_current_user_key_ = true
      ∧ (NextFromInputBody cfg st sd).1.current_user_key_ = ik.user_key
      ∧ (NextFromInputBody cfg st sd).1.current_user_key_snapshot_
          = visibilityClass cfg ik.sequence
      ∧ ((ik.sequence ≤ cfg.earliest_write_conflict_snapshot_
            ∨ outputtedFor st ik.user_key = true) →
          (NextFromInputBody cfg st sd).1.valid_ = false
            ∧ (NextFromInputBody cfg st sd).1.at_next_ = false
            ∧ (NextFromInputBody cfg st sd).1.input_.rest = rest
            ∧ (NextFromInputBody cfg st sd).1.clear_and_output_next_key_ = false
            ∧ (NextFromInputBody cfg st sd).1.iter_stats_.num_record_drop_hidden
                = st.iter_stats_.num_record_drop_hidden + 1
            ∧ (NextFromInputBody cfg st sd).1.iter_stats_.num_record_drop_obsolete
                = st.iter_stats_.num_record_drop_obsolete + 1)
      ∧ (¬ (ik.sequence ≤ cfg.earliest_write_conflict_snapshot_
            ∨ outputtedFor st ik.user_key = true) →
          (NextFromInputBody cfg st sd).1.valid_ = true
            ∧ (NextFromInputBody cfg st sd).1.at_next_ = true
            ∧ (NextFromInputBody cfg st sd).1.input_.rest = nxt :: rest
            ∧ (NextFromInputBody cfg st sd).1.clear_and_output_next_key_ = true
            ∧ (NextFromInputBody cfg st sd).1.status_ = Status.kOk) := by
  obtain ⟨s2, last, hb, g1, g2, g3, g4, g5, g6, g7, g8, g9, g10, g11, g12, g13, g14, g15,
    g16⟩ := body_rules cfg hlaw hbdm st sd ik hp
  rw [hb]
  have hm : matchedSuccessor cfg s2.ikey_.user_key s2.input_.Next = some nk := by
    rw [g6]
    exact matchedSuccessor_some cfg hlaw ik nk _ nxt rest
      (by simp [InternalIterator.Next, g1, hin]) hpn hk
  have e : applyRules cfg s2 last (snapshotOf cfg ik.sequence).2
      = singleDeleteBranch cfg s2 (snapshotOf cfg ik.sequence).2 := by
    unfold applyRules
    simp [g10, hc, g6, ht]
  rw [e, singleDeleteBranch_some cfg s2 _ nk (by rw [g2, hv]) hm, g6, g11, if_pos htest,
    if_neg hnt]
  by_cases hd : ik.sequence ≤ cfg.earliest_write_conflict_snapshot_
      ∨ outputtedFor st ik.user_key = true
  · rw [if_pos hd]
    simp [State.syncStatus, InternalIterator.Next, g1, hin, g4, g5, g7, g8, g9, g10, hc, g3,
      han, g2, hv, hd, IterStats.addObsolete, IterStats.addHidden, g13, g14]
    split_ifs <;> simp [IterStats.addMismatch, g13, g14]
  · rw [if_neg hd]
    simp [State.syncStatus, InternalIterator.Next, g1, hin, g4, g5, g7, g8, g9, hd,
      InternalIterator.status, InternalIterator.Valid]

/-- A pass on a SingleDelete followed by a record of its user key that fails
the same-class test. -/
theorem body_sd_older (cfg : Config) (hlaw : cfg.cmp_.Lawful)
    (hbdm : cfg.background_disable_merge_ = false) (st : State) (sd nxt : Entry)
    (rest : List Entry) (ik nk : ParsedInternalKey)
    (hin : st.input_.rest = sd :: nxt :: rest) (hv : st.valid_ = false)
    (hc : st.clear_and_output_next_key_ = false)
    (hp : ParseInternalKey sd.key = some ik) (ht : ik.type = ValueType.kTypeSingleDeletion)
    (hpn : ParseInternalKey nxt.key = some nk) (hk : nk.user_key = ik.user_key)
    (htest : ¬ ((snapshotOf cfg ik.sequence).2 = 0
      ∨ nk.sequence > (snapshotOf cfg ik.sequence).2)) :
    (NextFromInputBody cfg st sd).2 = false
      ∧ (NextFromInputBody cfg st sd).1.key_ = sd.key
      ∧ (NextFromInputBody cfg st sd).1.value_ = sd.value
      ∧ (NextFromInputBody cfg st sd).1.has_current_user_key_ = true
      ∧ (NextFromInputBody cfg st sd).1.current_user_key_ = ik.user_key
      ∧ (NextFromInputBody cfg st sd).1.current_user_key_snapshot_
          = visibilityClass cfg ik.sequence
      ∧ (NextFromInputBody cfg st sd).1.valid_ = true
      ∧ (NextFromInputBody cfg st sd).1.at_next_ = true
      ∧ (NextFromInputBody cfg st sd).1.input_.rest = nxt :: rest
      ∧ (NextFromInputBody cfg st sd).1.clear_and_output_next_key_ = false
      ∧ (NextFromInputBody cfg st sd).1.status_ = Status.kOk := by
  obtain ⟨s2, last, hb, g1, g2, g3, g4, g5, g6, g7, g8, g9, g10, g11, g12, g13, g14, g15,
    g16⟩ := body_rules cfg hlaw hbdm st sd ik hp
  rw [hb]
  have hm : matchedSuccessor cfg s2.ikey_.user_key s2.input_.Next = some nk := by
    rw [g6]
    exact matchedSuccessor_some cfg hlaw ik nk _ nxt rest
      (by simp [InternalIterator.Next, g1, hin]) hpn hk
  have e : applyRules cfg s2 last (snapshotOf cfg ik.sequence).2
      = singleDeleteBranch cfg s2 (snapshotOf cfg ik.sequence).2 := by
    unfold applyRules
    simp [g10, hc, g6, ht]
  rw [e, singleDeleteBranch_some cfg s2 _ nk (by rw [g2, hv]) hm, if_neg htest]
  simp [State.syncStatus, InternalIterator.Next, g1, hin, g4, g5, g7, g8, g9, g10, hc,
    InternalIterator.status, InternalIterator.Valid]

/-! ## SingleDelete elimination -/

/-- C10, the claim as stated, fails: with snapshot set {3} and the hint [0],
the lone SingleDelete([1])@5 is emitted although a hint is supplied and its
user key compares greater than the hint. -/
theorem unmatched_singleDelete_counterexample :
    emitted (mkConfig [3] 10 0 (some [0])) Flags.unset [mkSingleDelete [1] 5]
        = some [mkSingleDelete [1] 5]
      ∧ (mkConfig [3] 10 0 (some [0])).l2_largest_key_ = some [0]
      ∧ 0 < (mkConfig [3] 10 0 (some [0])).cmp_.Compare [1] [0] := by
  decide

/-- C10 as amended: in a pass of the loop on a SingleDelete that has no next
record, or whose next record has another user key or does not parse (deferred
flag clear, merging enabled), the SingleDelete is dropped if and only if a hint
is supplied, its sequence is at most `earliest_snapshot_` and its user key
compares greater than the hint; otherwise it is emitted. When it is dropped,
`obsolete_drop` and `single_del_fallthru` increase by one. -/
theorem unmatched_singleDelete_dropped_iff (cfg : Config) (st : State) (sd : Entry)
    (rest : List Entry) (ik : ParsedInternalKey) (hlaw : cfg.cmp_.Lawful)
    (hbdm : cfg.background_disable_merge_ = false)
    (hin : st.input_.rest = sd :: rest) (hv : st.valid_ = false)
    (han : st.at_next_ = false) (hc : st.clear_and_output_next_key_ = false)
    (hp : ParseInternalKey sd.key = some ik) (ht : ik.type = ValueType.kTypeSingleDeletion)
    (hun : Unmatched ik rest) :
    ((NextFromInputBody cfg st sd).1.valid_ = false
      ↔ ∃ hint, cfg.l2_largest_key_ = some hint ∧ ik.sequence ≤ cfg.earliest_snapshot_
          ∧ 0 < cfg.cmp_.Compare ik.user_key hint)
    ∧ ((NextFromInputBody cfg st sd).1.valid_ = true →
        (NextFromInputBody cfg st sd).1.current = sd
          ∧ (NextFromInputBody cfg st sd).1.pending = rest)
    ∧ ((NextFromInputBody cfg st sd).1.valid_ = false →
        (NextFromInputBody cfg st sd).1.input_.rest = rest
          ∧ (NextFromInputBody cfg st sd).1.iter_stats_.num_record_drop_obsolete
              = st.iter_stats_.num_record_drop_obsolete + 1
          ∧ (NextFromInputBody cfg st sd).1.iter_stats_.num_single_del_fallthru
              = st.iter_stats_.num_single_del_fallthru + 1
          ∧ (NextFromInputBody cfg st sd).1.iter_stats_.num_record_drop_hidden
              = st.iter_stats_.num_record_drop_hidden) := by
  obtain ⟨_, b2, b3, b4, _, _, b7, b8, b9, b10, b11⟩ :=
    body_sd_unmatched cfg hlaw hbdm st sd rest ik hin hv han hc hp ht hun
  rw [← beyondHint_iff]
  refine ⟨?_, ?_, ?_⟩
  · rw [b7]
    cases beyondHint cfg ik.user_key ik.sequence <;> simp
  · intro h
    rw [b7] at h
    have hb : beyondHint cfg ik.user_key ik.sequence = false := by
      cases hh : beyondHint cfg ik.user_key ik.sequence with
      | false => rfl
      | true => rw [hh] at h; exact absurd h (by simp)
    refine ⟨by simp [State.current, b3, b4], ?_⟩
    simp [State.pending, b8, hb, b2]
  · intro h
    rw [b7] at h
    have hb : beyondHint cfg ik.user_key ik.sequence = true := by
      cases hh : beyondHint cfg ik.user_key ik.sequence with
      | true => rfl
      | false => rw [hh] at h; exact absurd h (by simp)
    rw [hb] at b9 b10
    exact ⟨b2, by simpa using b9, by simpa using b10, b11⟩

/-! ## Calls that emit the record under the input -/

theorem afterLoop_unset (cfg : Config) (fl : Flags) (hfl : FlagsUnset cfg fl) (s : State) :
    afterLoop cfg fl s = s := by
  obtain ⟨h1, h2, h3⟩ := hfl
  unfold afterLoop
  simp [IsShuttingDown, is_bg_stopped, h1, h2, h3]

/-- A call of `NextFromInput` whose first pass emits. -/
theorem NextFromInput_first_pass (cfg : Config) (fl : Flags) (hfl : FlagsUnset cfg fl)
    (st : State) (e : Entry) (l : List Entry) (hin : st.input_.rest = e :: l)
    (hs : st.status_ = Status.kOk)
    (hv : (NextFromInputBody cfg { st with at_next_ := false, valid_ := false } e).1.valid_
      = true) :
    NextFromInput cfg fl st
      = some (NextFromInputBody cfg { st with at_next_ := false, valid_ := false } e).1 := by
  unfold NextFromInput
  simp only
  have hcond : loopCond fl { st with at_next_ := false, valid_ := false } = true :=
    loopCond_intro fl _ e l hfl.1 hfl.2.1 rfl hs hin
  rw [show 2 * st.input_.rest.length + 2 = (2 * st.input_.rest.length + 1) + 1 from rfl,
    loop_step cfg fl _ _ e l hcond hin]
  split_ifs
  · simp [afterLoop_unset cfg fl hfl]
  · rw [loop_exit cfg fl _ _ (loopCond_of_valid fl _ hv)]
    simp [afterLoop_unset cfg fl hfl]

/-- A pass with the deferred-output flag set: the record is emitted with its
value cleared. -/
theorem body_clear (cfg : Config) (hlaw : cfg.cmp_.Lawful)
    (hbdm : cfg.background_disable_merge_ = false) (st : State) (e : Entry)
    (ik : ParsedInternalKey) (hp : ParseInternalKey e.key = some ik)
    (hc : st.clear_and_output_next_key_ = true) :
    (NextFromInputBody cfg st e).1.valid_ = true
      ∧ (NextFromInputBody cfg st e).1.key_ = e.key
      ∧ (NextFromInputBody cfg st e).1.value_ = []
      ∧ (NextFromInputBody cfg st e).1.clear_and_output_next_key_ = false
      ∧ (NextFromInputBody cfg st e).1.at_next_ = st.at_next_
      ∧ (NextFromInputBody cfg st e).1.input_ = st.input_ := by
  obtain ⟨s2, last, hb, g1, g2, g3, g4, g5, g6, g7, g8, g9, g10, _⟩ :=
    body_rules cfg hlaw hbdm st e ik hp
  rw [hb]
  have e1 : applyRules cfg s2 last (snapshotOf cfg ik.sequence).2
      = { s2 with value_ := [], valid_ := true, clear_and_output_next_key_ := false } := by
    unfold applyRules
    simp [g10, hc]
  rw [e1]
  simp [State.syncStatus, g1, g3, g4]

/-- A pass with merging disabled: the record is emitted as it is. -/
theorem body_bdm (cfg : Config) (hlaw : cfg.cmp_.Lawful)
    (hbdm : cfg.background_disable_merge_ = true) (st : State) (e : Entry)
    (ik : ParsedInternalKey) (hp : ParseInternalKey e.key = some ik) :
    (NextFromInputBody cfg st e).1.valid_ = true
      ∧ (NextFromInputBody cfg st e).1.key_ = e.key
      ∧ (NextFromInputBody cfg st e).1.value_ = e.value
      ∧ (NextFromInputBody cfg st e).1.at_next_ = st.at_next_
      ∧ (NextFromInputBody cfg st e).1.input_ = st.input_ := by
  rcases e with ⟨k, v⟩
  have hk := parse_eq_some hp
  simp only at hk
  subst hk
  simp only [NextFromInputBody, ParseInternalKey, processParsed, hbdm, if_true]
  generalize hs0 : ({ st with key_ := RawKey.wellFormed ik, value_ := v, iter_stats_ := inputStats { st.iter_stats_ with num_input_records := st.iter_stats_.num_input_records + 1 } ik (RawKey.wellFormed ik) v } : State) = s0
  obtain ⟨f1, _, f3, _, f5, _⟩ := updateCurrentKey_frame cfg s0 ik
  obtain ⟨k1, _, _⟩ := updateCurrentKey_key cfg hlaw s0 ik (by rw [← hs0])
  refine ⟨trivial, k1, ?_, ?_, ?_⟩
  · show (updateCurrentKey cfg s0 ik).value_ = v
    rw [f5, ← hs0]
  · show (updateCurrentKey cfg s0 ik).at_next_ = st.at_next_
    rw [f3, ← hs0]
  · show (updateCurrentKey cfg s0 ik).input_ = st.input_
    rw [f1, ← hs0]

/-- C7: when a SingleDelete is followed by a record of the same user key and
visibility class that is not a SingleDelete, and the pair cannot be dropped
(its sequence is above `earliest_write_conflict_snapshot_` and nothing was
output for the key), the call emits the SingleDelete, and the next call to
`Next` (whether `SeekToFirst` or `Next` made the first call, hence any value
`b` of `has_outputted_key_`) emits the successor with its key unchanged and an
empty value; after it the deferred-output flag is clear and the input stands
on the successor, so the following `Next` moves on to the record after it. -/
theorem deferred_output (cfg : Config) (fl : Flags) (st : State) (sd nxt : Entry)
    (rest : List Entry) (ik nk : ParsedInternalKey) (hlaw : cfg.cmp_.Lawful)
    (hfl : FlagsUnset cfg fl) (hbdm : cfg.background_disable_merge_ = false)
    (hasc : SnapshotsAscending cfg.snapshots_) (hpos : ∀ w ∈ cfg.snapshots_, 0 < w)
    (hin : st.input_.rest = sd :: nxt :: rest) (hs : st.status_ = Status.kOk)
    (hc : st.clear_and_output_next_key_ = false)
    (hp : ParseInternalKey sd.key = some ik) (ht : ik.type = ValueType.kTypeSingleDeletion)
    (hpn : ParseInternalKey nxt.key = some nk) (hk : nk.user_key = ik.user_key)
    (hnt : nk.type ≠ ValueType.kTypeSingleDeletion) (hseq : nk.sequence ≤ ik.sequence)
    (hmax : ik.sequence ≤ kMaxSequenceNumber)
    (hcls : visibilityClass cfg nk.sequence = visibilityClass cfg ik.sequence)
    (hew : cfg.earliest_write_conflict_snapshot_ < ik.sequence)
    (hout : outputtedFor st ik.user_key = false) :
    ∃ st1, NextFromInput cfg fl st = some st1 ∧ st1.valid_ = true ∧ st1.current = sd
      ∧ ∀ b : Bool, ∃ st2, Next cfg fl { st1 with has_outputted_key_ := b } = some st2
          ∧ st2.valid_ = true ∧ st2.key_ = nxt.key ∧ st2.value_ = []
          ∧ st2.clear_and_output_next_key_ = false ∧ st2.at_next_ = false
          ∧ st2.input_.rest = nxt :: rest := by
  have htest := (same_class_iff cfg hasc hpos nk.sequence ik.sequence hseq hmax).mpr hcls
  have hnd : ¬ (ik.sequence ≤ cfg.earliest_write_conflict_snapshot_
      ∨ outputtedFor { st with at_next_ := false, valid_ := false } ik.user_key = true) := by
    have : outputtedFor { st with at_next_ := false, valid_ := false } ik.user_key
        = outputtedFor st ik.user_key := rfl
    rw [this, hout]
    simp only [Bool.false_eq_true, or_false]
    omega
  obtain ⟨_, b2, b3, _, _, _, _, b8⟩ := body_sd_matched cfg hlaw hbdm
    { st with at_next_ := false, valid_ := false } sd nxt rest ik nk hin rfl rfl hc hp ht hpn
    hk hnt htest
  obtain ⟨v1, v2, v3, v4, v5⟩ := b8 hnd
  have h1 := NextFromInput_first_pass cfg fl hfl st sd (nxt :: rest) hin hs v1
  generalize (NextFromInputBody cfg { st with at_next_ := false, valid_ := false } sd).1
    = st1 at *
  refine ⟨st1, h1, v1, by simp [State.current, b2, b3], ?_⟩
  intro b
  rw [Next_eq]
  have hat : ({ st1 with has_outputted_key_ := b } : State).at_next_ = true := v2
  rw [if_neg (by rw [hat]; simp)]
  obtain ⟨c1, c2, c3, c4, c5, c6⟩ := body_clear cfg hlaw hbdm
    { ({ st1 with has_outputted_key_ := b } : State) with at_next_ := false, valid_ := false }
    nxt nk hpn v4
  have h2 := NextFromInput_first_pass cfg fl hfl { st1 with has_outputted_key_ := b } nxt rest
    v3 v5 c1
  rw [h2]
  refine ⟨_, rfl, ?_⟩
  simp only
  split_ifs with hh
  · exact ⟨c1, c2, c3, c4, c5, by rw [c6]; exact v3⟩
  · exact absurd c1 hh

/-- A call of `NextFromInput` whose first pass drops what is left of the
input. -/
theorem NextFromInput_first_pass_end (cfg : Config) (fl : Flags) (hfl : FlagsUnset cfg fl)
    (st : State) (e : Entry) (l : List Entry) (hin : st.input_.rest = e :: l)
    (hs : st.status_ = Status.kOk)
    (hb : (NextFromInputBody cfg { st with at_next_ := false, valid_ := false } e).2 = false)
    (hr : (NextFromInputBody cfg { st with at_next_ := false, valid_ := false } e).1.input_.rest
      = []) :
    NextFromInput cfg fl st
      = some (NextFromInputBody cfg { st with at_next_ := false, valid_ := false } e).1 := by
  unfold NextFromInput
  simp only
  have hcond : loopCond fl { st with at_next_ := false, valid_ := false } = true :=
    loopCond_intro fl _ e l hfl.1 hfl.2.1 rfl hs hin
  rw [show 2 * st.input_.rest.length + 2 = (2 * st.input_.rest.length + 1) + 1 from rfl,
    loop_step cfg fl _ _ e l hcond hin, hb]
  simp only [Bool.false_eq_true, if_false]
  rw [loop_exit cfg fl _ _ (by simp [loopCond, InternalIterator.Valid, hr])]
  simp [afterLoop_unset cfg fl hfl]

/-- C8, the claim as stated, fails: with snapshot set {0}, over
[SingleDelete(k)@1, Put(k,v)@0] the watermark 0 has next.seq <= 0 < sd.seq, so
the Put lies in an older visibility class (0, against the class of the tip for
the SingleDelete); yet `prev_snapshot` is 0 for the SingleDelete, which the
same-class test reads as no previous snapshot: the lookahead pairs the Put with
the SingleDelete and the Put is emitted with its value cleared. -/
theorem singleDelete_older_class_counterexample :
    emitted (mkConfig [0] 10 0 none) Flags.unset [mkSingleDelete [1] 1, mkPut [1] [7] 0]
        = some [mkSingleDelete [1] 1, mkPut [1] [] 0]
      ∧ (∃ w ∈ (mkConfig [0] 10 0 none).snapshots_, 0 ≤ w ∧ w < 1)
      ∧ visibilityClass (mkConfig [0] 10 0 none) 0 = 0
      ∧ visibilityClass (mkConfig [0] 10 0 none) 1 = kMaxSequenceNumber
      ∧ (snapshotOf (mkConfig [0] 10 0 none) 1).2 = 0 :=
  ⟨by decide, ⟨0, by decide, by decide, by decide⟩, by decide, by decide, by decide⟩

/-- C8 as amended: when the record after a SingleDelete has the same user key
but lies in an older visibility class (some positive watermark `w` has
next.seq <= w < sd.seq), the call emits the SingleDelete and leaves the
successor as the next record to evaluate; the following `Next` (whatever
`has_outputted_key_` is by then) returns, and when the successor is a Put it
emits it with its value intact. -/
theorem singleDelete_older_class (cfg : Config) (fl : Flags) (st : State) (sd nxt : Entry)
    (rest : List Entry) (ik nk : ParsedInternalKey) (hlaw : cfg.cmp_.Lawful)
    (hfl : FlagsUnset cfg fl) (hasc : SnapshotsAscending cfg.snapshots_)
    (hin : st.input_.rest = sd :: nxt :: rest) (hs : st.status_ = Status.kOk)
    (hc : st.clear_and_output_next_key_ = false)
    (hp : ParseInternalKey sd.key = some ik) (ht : ik.type = ValueType.kTypeSingleDeletion)
    (hpn : ParseInternalKey nxt.key = some nk) (hk : nk.user_key = ik.user_key)
    (hmax : ik.sequence ≤ kMaxSequenceNumber)
    (hw : ∃ w ∈ cfg.snapshots_, 0 < w ∧ nk.sequence ≤ w ∧ w < ik.sequence) :
    ∃ st1, NextFromInput cfg fl st = some st1 ∧ st1.valid_ = true ∧ st1.current = sd
      ∧ st1.pending = nxt :: rest
      ∧ ∀ b : Bool, ∃ st2, Next cfg fl { st1 with has_outputted_key_ := b } = some st2
          ∧ (nk.type = ValueType.kTypeValue → st2.valid_ = true ∧ st2.current = nxt) := by
  obtain ⟨w, hw1, hw0, hw2, hw3⟩ := hw
  have hsep := visibilityClass_separated cfg hasc nk.sequence ik.sequence w hw1 hw2 hw3 hmax
  cases hbdm : cfg.background_disable_merge_ with
  | true =>
    obtain ⟨v1, v2, v3, v4, v5⟩ := body_bdm cfg hlaw hbdm
      { st with at_next_ := false, valid_ := false } sd ik hp
    have h1 := NextFromInput_first_pass cfg fl hfl st sd (nxt :: rest) hin hs v1
    generalize (NextFromInputBody cfg { st with at_next_ := false, valid_ := false } sd).1
      = st1 at *
    simp only at v4 v5
    refine ⟨st1, h1, v1, by simp [State.current, v2, v3], by simp [State.pending, v4, v5, hin],
      ?_⟩
    intro b
    obtain ⟨st2, h2⟩ := Next_total cfg fl hlaw.refl { st1 with has_outputted_key_ := b }
    refine ⟨st2, h2, ?_⟩
    intro _
    rw [Next_eq] at h2
    have hat : ({ st1 with has_outputted_key_ := b } : State).at_next_ = false := v4
    rw [if_pos hat] at h2
    obtain ⟨c1, c2, c3, _, _⟩ := body_bdm cfg hlaw hbdm
      { ({ ({ st1 with has_outputted_key_ := b } : State) with
            input_ := st1.input_.Next, status_ := st1.input_.Next.status } : State) with
          at_next_ := false, valid_ := false } nxt nk hpn
    have h3 := NextFromInput_first_pass cfg fl hfl
      { ({ st1 with has_outputted_key_ := b } : State) with
          input_ := st1.input_.Next, status_ := st1.input_.Next.status } nxt rest
      (by simp [InternalIterator.Next, v5, hin])
      (status_of_cons _ nxt rest (by simp [InternalIterator.Next, v5, hin])) c1
    rw [h3] at h2
    simp only [Option.map_some', Option.some.injEq] at h2
    rw [← h2]
    split_ifs with hh
    · exact ⟨c1, by simp [State.current, c2, c3]⟩
    · exact absurd c1 hh
  | false =>
    have hne : ¬ ((snapshotOf cfg ik.sequence).2 = 0
        ∨ nk.sequence > (snapshotOf cfg ik.sequence).2) := by
      rcases prev_snapshot_cases cfg hasc ik.sequence hmax with ⟨_, hh⟩ | ⟨_, _, p3⟩
      · rcases hh with hh | hh
        · rw [hh] at hw1
          simp at hw1
        · have := hh w hw1
          omega
      · have := p3 w hw1 hw3
        omega
    obtain ⟨_, b2, b3, b4, b5, b6, v1, v2, v3, v4, v5⟩ := body_sd_older cfg hlaw hbdm
      { st with at_next_ := false, valid_ := false } sd nxt rest ik nk hin rfl hc hp ht hpn
      hk hne
    have h1 := NextFromInput_first_pass cfg fl hfl st sd (nxt :: rest) hin hs v1
    generalize (NextFromInputBody cfg { st with at_next_ := false, valid_ := false } sd).1
      = st1 at *
    refine ⟨st1, h1, v1, by simp [State.current, b2, b3], by simp [State.pending, v2, v3], ?_⟩
    intro b
    obtain ⟨st2, h2⟩ := Next_total cfg fl hlaw.refl { st1 with has_outputted_key_ := b }
    refine ⟨st2, h2, ?_⟩
    intro hty
    rw [Next_eq] at h2
    have hat : ({ st1 with has_outputted_key_ := b } : State).at_next_ = true := v2
    rw [if_neg (by rw [hat]; simp)] at h2
    obtain ⟨_, _, _, _, _, c6, _, _, _, c10, c11⟩ := body_plain cfg hlaw hbdm
      { ({ st1 with has_outputted_key_ := b } : State) with at_next_ := false, valid_ := false }
      nxt rest nk (some ik) v3 rfl rfl v4 ⟨b4, b5, b6⟩ hpn (by rw [hty]; decide)
    have hh1 : plainHidden cfg (some ik) nk = false := by
      simp only [plainHidden, lastSnapshotFor, hk, if_true, decide_eq_false_iff_not]
      omega
    have hh2 : plainObsolete cfg (some ik) nk = false := by
      simp [plainObsolete, hty]
    have hh3 : plainMerge cfg (some ik) nk = false := by
      simp [plainMerge, hty]
    rw [hh1, hh2, hh3] at c6
    have c1 : (NextFromInputBody cfg
        { ({ st1 with has_outputted_key_ := b } : State) with
            at_next_ := false, valid_ := false } nxt).1.valid_ = true := by
      rw [c6]; rfl
    have h3 := NextFromInput_first_pass cfg fl hfl { st1 with has_outputted_key_ := b } nxt
      rest v3 v5 c1
    rw [h3] at h2
    simp only [Option.map_some', Option.some.injEq] at h2
    rw [← h2]
    split_ifs with hh
    · exact ⟨c1, by simp [State.current, c10, c11]⟩
    · exact absurd c1 hh

/-- C9, the claim as stated, fails: with an empty snapshot set and
`earliest_write_conflict_snapshot` 0, the input [SingleDelete(k)@2, Put(k,v)@1]
is not emptied: both records are emitted, the Put with its value cleared. -/
theorem singleDelete_pairing_counterexample :
    emitted (mkConfig [] 10 0 none) Flags.unset [mkSingleDelete [1] 2, mkPut [1] [7] 1]
      = some [mkSingleDelete [1] 2, mkPut [1] [] 1] := by
  decide

/-- C9 as amended: for every user key `k` and value `v`, with an empty snapshot
set, `earliest_write_conflict_snapshot` at least 2, flags unset and merging
enabled, the input [SingleDelete(k)@2, Put(k,v)@1] yields no record. -/
theorem singleDelete_pairing (cfg : Config) (fl : Flags) (k v : Slice)
    (hlaw : cfg.cmp_.Lawful) (hfl : FlagsUnset cfg fl)
    (hbdm : cfg.background_disable_merge_ = false) (hsnap : cfg.snapshots_ = [])
    (hew : 2 ≤ cfg.earliest_write_conflict_snapshot_) :
    emitted cfg fl [mkSingleDelete k 2, mkPut k v 1] = some [] := by
  unfold emitted
  rw [SeekToFirst_eq]
  obtain ⟨st0, hst0⟩ : ∃ st0, st0 = State.init
      { rest := [mkSingleDelete k 2, mkPut k v 1], end_status := Status.kOk } := ⟨_, rfl⟩
  rw [← hst0]
  have hin : st0.input_.rest = [mkSingleDelete k 2, mkPut k v 1] := by rw [hst0]; rfl
  have hs : st0.status_ = Status.kOk := by rw [hst0]; rfl
  have hc : st0.clear_and_output_next_key_ = false := by rw [hst0]; rfl
  have htest : (snapshotOf cfg 2).2 = 0 ∨ 1 > (snapshotOf cfg 2).2 := by
    left
    simp [snapshotOf, Config.visible_at_tip_, hsnap]
  obtain ⟨b1, _, _, _, _, _, b7, _⟩ := body_sd_matched cfg hlaw hbdm
    { st0 with at_next_ := false, valid_ := false }
    (mkSingleDelete k 2) (mkPut k v 1) []
    { user_key := k, sequence := 2, type := ValueType.kTypeSingleDeletion }
    { user_key := k, sequence := 1, type := ValueType.kTypeValue }
    hin rfl rfl hc rfl rfl rfl rfl (by simp) htest
  obtain ⟨d1, _, d3, _⟩ := b7 (Or.inl hew)
  rw [NextFromInput_first_pass_end cfg fl hfl st0 (mkSingleDelete k 2) [mkPut k v 1] hin hs
    b1 d3]
  simp [drain, State.Valid, d1]

/-! ## The theorems at concrete inputs -/

theorem mkConfig_ascending_single (w ls ew : Nat) (hint : Option Slice) :
    SnapshotsAscending (mkConfig [w] ls ew hint).snapshots_ := by
  simp [SnapshotsAscending, mkConfig]

theorem mkConfig_ascending_nil (ls ew : Nat) (hint : Option Slice) :
    SnapshotsAscending (mkConfig [] ls ew hint).snapshots_ := by
  simp [SnapshotsAscending, mkConfig]

/-- C1 at the input [Put(k,v2)@5, Delete(k)@3, Put(k,v1)@2] with snapshot set
{4} and a hint below `k`: reads at 4 and at the tip are preserved. -/
theorem read_equivalence_witness :
    ∃ out, emitted (mkConfig [4] 10 0 (some [0])) Flags.unset
        [mkPut [1] [2] 5, mkDelete [1] 3, mkPut [1] [9] 2] = some out
      ∧ ∀ (k : Slice) (s : Nat),
          s ∈ (mkConfig [4] 10 0 (some [0])).snapshots_ ∨ s = kMaxSequenceNumber →
          readAt k s out = readAt k s [mkPut [1] [2] 5, mkDelete [1] 3, mkPut [1] [9] 2] :=
  read_equivalence (mkConfig [4] 10 0 (some [0])) Flags.unset
    [mkPut [1] [2] 5, mkDelete [1] 3, mkPut [1] [9] 2] bytewise_lawful
    (by simp [InputSorted, keyOrder, ikOrder, mkPut, mkDelete, ParseInternalKey, mkConfig,
          BytewiseComparator, bytewiseCompare])
    (by
      intro e he
      simp only [List.mem_cons, List.mem_singleton, List.not_mem_nil, or_false] at he
      rcases he with rfl | rfl | rfl
      · exact ⟨_, rfl, by decide, by decide⟩
      · exact ⟨_, rfl, by decide, by decide⟩
      · exact ⟨_, rfl, by decide, by decide⟩)
    (by simp [SnapshotsStrict, mkConfig])
    ⟨by intro w hw; simp [mkConfig] at hw; omega, by intro h; simp [mkConfig] at h⟩
    ⟨rfl, rfl, rfl⟩ rfl

/-- C3 as amended at the input [Put(k,v2)@5, Put(k,v1)@3, Delete(j)@4] with
snapshot set {4}. -/
theorem emitted_onePerClass_witness :
    ∃ out, emitted (mkConfig [4] 10 0 none) Flags.unset
        [mkPut [1] [2] 5, mkPut [1] [1] 3, mkDelete [2] 4] = some out
      ∧ OnePerClass (mkConfig [4] 10 0 none) out :=
  emitted_onePerClass (mkConfig [4] 10 0 none) Flags.unset
    [mkPut [1] [2] 5, mkPut [1] [1] 3, mkDelete [2] 4] bytewise_lawful
    (by simp [InputSorted, keyOrder, ikOrder, mkPut, mkDelete, ParseInternalKey, mkConfig,
          BytewiseComparator, bytewiseCompare])
    (by
      intro e he
      simp only [List.mem_cons, List.mem_singleton, List.not_mem_nil, or_false] at he
      rcases he with rfl | rfl | rfl
      · exact ⟨_, rfl, by decide, by decide⟩
      · exact ⟨_, rfl, by decide, by decide⟩
      · exact ⟨_, rfl, by decide, by decide⟩)
    (mkConfig_ascending_single 4 10 0 none) rfl

/-- C7 at [SingleDelete(k)@5, Put(k,v)@3] with an empty snapshot set and
`earliest_write_conflict_snapshot` 0: the SingleDelete is emitted, then the
Put with an empty value. -/
theorem deferred_output_witness :
    ∃ st1, NextFromInput (mkConfig [] 10 0 none) Flags.unset
        (State.start [mkSingleDelete [1] 5, mkPut [1] [8] 3]) = some st1
      ∧ st1.valid_ = true ∧ st1.current = mkSingleDelete [1] 5
      ∧ ∀ b : Bool, ∃ st2, Next (mkConfig [] 10 0 none) Flags.unset
            { st1 with has_outputted_key_ := b } = some st2
          ∧ st2.valid_ = true ∧ st2.key_ = (mkPut [1] [8] 3).key ∧ st2.value_ = []
          ∧ st2.clear_and_output_next_key_ = false ∧ st2.at_next_ = false
          ∧ st2.input_.rest = [mkPut [1] [8] 3] :=
  deferred_output (mkConfig [] 10 0 none) Flags.unset
    (State.start [mkSingleDelete [1] 5, mkPut [1] [8] 3]) (mkSingleDelete [1] 5)
    (mkPut [1] [8] 3) []
    { user_key := [1], sequence := 5, type := ValueType.kTypeSingleDeletion }
    { user_key := [1], sequence := 3, type := ValueType.kTypeValue }
    bytewise_lawful ⟨rfl, rfl, rfl⟩ rfl (mkConfig_ascending_nil 10 0 none)
    (by intro w hw; simp [mkConfig] at hw) rfl rfl rfl rfl rfl rfl rfl (by decide)
    (by decide) (by decide) (by decide) (by decide) (by decide)

/-- C8 as amended at the input [SingleDelete(k)@3, Put(k,v)@1] with snapshot
set {2}: both records are emitted, the Put with its value. -/
theorem singleDelete_older_class_witness :
    emitted (mkConfig [2] 10 0 none) Flags.unset [mkSingleDelete [1] 3, mkPut [1] [7] 1]
        = some [mkSingleDelete [1] 3, mkPut [1] [7] 1]
      ∧ ∃ st1, NextFromInput (mkConfig [2] 10 0 none) Flags.unset
          (State.start [mkSingleDelete [1] 3, mkPut [1] [7] 1]) = some st1
        ∧ st1.valid_ = true ∧ st1.current = mkSingleDelete [1] 3
        ∧ st1.pending = [mkPut [1] [7] 1]
        ∧ ∀ b : Bool, ∃ st2, Next (mkConfig [2] 10 0 none) Flags.unset
              { st1 with has_outputted_key_ := b } = some st2
            ∧ (ValueType.kTypeValue = ValueType.kTypeValue →
                st2.valid_ = true ∧ st2.current = mkPut [1] [7] 1) :=
  ⟨by decide,
    singleDelete_older_class (mkConfig [2] 10 0 none) Flags.unset
      (State.start [mkSingleDelete [1] 3, mkPut [1] [7] 1]) (mkSingleDelete [1] 3)
      (mkPut [1] [7] 1) []
      { user_key := [1], sequence := 3, type := ValueType.kTypeSingleDeletion }
      { user_key := [1], sequence := 1, type := ValueType.kTypeValue }
      bytewise_lawful ⟨rfl, rfl, rfl⟩ (mkConfig_ascending_single 2 10 0 none)
      rfl rfl rfl rfl rfl rfl rfl (by decide)
      ⟨2, by simp [mkConfig], by decide, by decide, by decide⟩⟩

/-- C9 as amended at user key [1], value [7] and
`earliest_write_conflict_snapshot` 5. -/
theorem singleDelete_pairing_witness :
    emitted (mkConfig [] 10 5 none) Flags.unset [mkSingleDelete [1] 2, mkPut [1] [7] 1]
      = some [] :=
  singleDelete_pairing (mkConfig [] 10 5 none) Flags.unset [1] [7] bytewise_lawful
    ⟨rfl, rfl, rfl⟩ rfl rfl (by decide)

/-- C10 as amended at the first pass over the lone SingleDelete([1])@5 with an
empty snapshot set, `last_sequence` 10 and the hint [0]: the SingleDelete is
dropped and `obsolete_drop` becomes 1. -/
theorem unmatched_singleDelete_dropped_iff_witness :
    (NextFromInputBody (mkConfig [] 10 0 (some [0])) (State.start [mkSingleDelete [1] 5])
        (mkSingleDelete [1] 5)).1.valid_ = false
      ∧ (NextFromInputBody (mkConfig [] 10 0 (some [0])) (State.start [mkSingleDelete [1] 5])
        (mkSingleDelete [1] 5)).1.iter_stats_.num_record_drop_obsolete = 1 :=
  have h := unmatched_singleDelete_dropped_iff (mkConfig [] 10 0 (some [0]))
    (State.start [mkSingleDelete [1] 5]) (mkSingleDelete [1] 5) []
    { user_key := [1], sequence := 5, type := ValueType.kTypeSingleDeletion }
    bytewise_lawful rfl rfl rfl rfl rfl rfl rfl trivial
  have hv := h.1.mpr ⟨[0], rfl, by decide, by decide⟩
  ⟨hv, (h.2.2 hv).2.1⟩


/-! ## Shutdown -/

/-- With a shutdown flag set the loop of `NextFromInput` is not entered and the
call reports `ShutdownInProgress`, whatever the cancel word. -/
theorem NextFromInput_shutdown (cfg : Config) (fl : Flags) (st : State)
    (h : fl.shutting_down = true ∨ fl.bg_stopped = true) :
    NextFromInput cfg fl st
      = some { st with at_next_ := false, valid_ := false,
                       status_ := Status.kShutdownInProgress } := by
  unfold NextFromInput
  simp only
  rw [loop_exit cfg fl _ _ (by
    rcases h with h | h <;> simp [loopCond, IsShuttingDown, is_bg_stopped, h])]
  simp only [Option.map_some', Option.some.injEq]
  unfold afterLoop
  rcases h with h | h <;> simp [IsShuttingDown, is_bg_stopped, h, Status.ok]

/-- C16: if `shutting_down` or `bg_stopped` is set when `SeekToFirst` or `Next`
is called, in whatever state, over whatever input and with whatever cancel
word, the call returns with `Valid()` false and status `ShutdownInProgress`; no
record is emitted and no statistic counter changes. -/
theorem shutdown_call (cfg : Config) (fl : Flags) (st : State)
    (h : fl.shutting_down = true ∨ fl.bg_stopped = true) :
    (∃ st', SeekToFirst cfg fl st = some st' ∧ st'.Valid = false
        ∧ st'.status_ = Status.kShutdownInProgress ∧ st'.iter_stats_ = st.iter_stats_)
      ∧ (∃ st', Next cfg fl st = some st' ∧ st'.Valid = false
        ∧ st'.status_ = Status.kShutdownInProgress ∧ st'.iter_stats_ = st.iter_stats_) := by
  constructor
  · rw [SeekToFirst_eq, NextFromInput_shutdown cfg fl st h]
    exact ⟨_, rfl, rfl, rfl, rfl⟩
  · rw [Next_eq, NextFromInput_shutdown cfg fl _ h]
    refine ⟨_, rfl, ?_⟩
    split_ifs <;> exact ⟨rfl, rfl, rfl⟩

/-- C16 at the input [Put([1],[8])@3] with `shutting_down` set and the cancel
bit of the task type set as well. -/
theorem shutdown_call_witness :
    (∃ st', SeekToFirst (mkConfig [] 10 0 none)
          { shutting_down := true, bg_stopped := false, cancel_type := some 1 }
          (State.start [mkPut [1] [8] 3]) = some st' ∧ st'.Valid = false
        ∧ st'.status_ = Status.kShutdownInProgress
        ∧ st'.iter_stats_ = (State.start [mkPut [1] [8] 3]).iter_stats_)
      ∧ (∃ st', Next (mkConfig [] 10 0 none)
          { shutting_down := true, bg_stopped := false, cancel_type := some 1 }
          (State.start [mkPut [1] [8] 3]) = some st' ∧ st'.Valid = false
        ∧ st'.status_ = Status.kShutdownInProgress
        ∧ st'.iter_stats_ = (State.start [mkPut [1] [8] 3]).iter_stats_) :=
  shutdown_call (mkConfig [] 10 0 none)
    { shutting_down := true, bg_stopped := false, cancel_type := some 1 }
    (State.start [mkPut [1] [8] 3]) (Or.inl rfl)


/-! ## Strict corruption mode -/

/-- A pass on a record whose key does not parse, in strict mode. -/
theorem body_corrupt_strict (cfg : Config) (st : State) (e : Entry)
    (hstrict : cfg.expect_valid_internal_key_ = true) (hp : ParseInternalKey e.key = none) :
    NextFromInputBody cfg st e
      = ({ st with key_ := e.key, value_ := e.value,
                   iter_stats_ := { st.iter_stats_ with
                     num_input_records := st.iter_stats_.num_input_records + 1 },
                   status_ := Status.kCorruption }, true) := by
  simp [NextFromInputBody, hp, hstrict]

/-- A call of `NextFromInput` in strict mode with the input on a record whose
key does not parse. -/
theorem NextFromInput_corrupt_strict (cfg : Config) (fl : Flags) (st : State) (e : Entry)
    (l : List Entry) (hstrict : cfg.expect_valid_internal_key_ = true)
    (hfl : FlagsUnset cfg fl) (hp : ParseInternalKey e.key = none)
    (hin : st.input_.rest = e :: l) (hs : st.status_ = Status.kOk) :
    ∃ st', NextFromInput cfg fl st = some st' ∧ st'.valid_ = false
      ∧ st'.status_ = Status.kCorruption
      ∧ st'.iter_stats_.num_input_corrupt_records = st.iter_stats_.num_input_corrupt_records
      ∧ st'.has_outputted_key_ = st.has_outputted_key_ := by
  unfold NextFromInput
  simp only
  have hcond : loopCond fl { st with at_next_ := false, valid_ := false } = true :=
    loopCond_intro fl _ e l hfl.1 hfl.2.1 rfl hs hin
  rw [show 2 * st.input_.rest.length + 2 = (2 * st.input_.rest.length + 1) + 1 from rfl,
    loop_step cfg fl _ _ e l hcond hin, body_corrupt_strict cfg _ e hstrict hp]
  simp only [if_true, Option.map_some', afterLoop_unset cfg fl hfl]
  exact ⟨_, rfl, rfl, rfl, rfl, rfl⟩

/-- C13: with `expect_valid_internal_key_` true and the shutdown and cancel
flags unset, when the key at the input position fails to parse, the call ends
with `Valid()` false and status `Corruption`, and `input_corrupt_records` is
not incremented. For `SeekToFirst` the input position is that of the state,
whose status is OK; for `Next` it is the position the call starts from
(`pending`), the status being OK if `at_next_` is set (otherwise `Next` takes
it from the input). -/
theorem strict_corruption (cfg : Config) (fl : Flags) (st : State) (e : Entry)
    (l : List Entry) (hstrict : cfg.expect_valid_internal_key_ = true)
    (hfl : FlagsUnset cfg fl) (hp : ParseInternalKey e.key = none) :
    (st.input_.rest = e :: l → st.status_ = Status.kOk →
        ∃ st', SeekToFirst cfg fl st = some st' ∧ st'.Valid = false
          ∧ st'.status_ = Status.kCorruption
          ∧ st'.iter_stats_.num_input_corrupt_records
              = st.iter_stats_.num_input_corrupt_records)
      ∧ (st.pending = e :: l → (st.at_next_ = true → st.status_ = Status.kOk) →
        ∃ st', Next cfg fl st = some st' ∧ st'.Valid = false
          ∧ st'.status_ = Status.kCorruption
          ∧ st'.iter_stats_.num_input_corrupt_records
              = st.iter_stats_.num_input_corrupt_records) := by
  constructor
  · intro hin hs
    rw [SeekToFirst_eq]
    obtain ⟨st', h, a, b, c, _⟩ :=
      NextFromInput_corrupt_strict cfg fl st e l hstrict hfl hp hin hs
    exact ⟨st', h, a, b, c⟩
  · intro hin hs
    rw [Next_eq]
    have key : ∀ s0 : State, s0.input_.rest = e :: l → s0.status_ = Status.kOk →
        s0.iter_stats_ = st.iter_stats_ →
        ∃ st', (NextFromInput cfg fl s0).map
            (fun s => if s.valid_ then { s with has_outputted_key_ := true } else s) = some st'
          ∧ st'.Valid = false ∧ st'.status_ = Status.kCorruption
          ∧ st'.iter_stats_.num_input_corrupt_records
              = st.iter_stats_.num_input_corrupt_records := by
      intro s0 h1 h2 h3
      obtain ⟨st', h, a, b, c, _⟩ :=
        NextFromInput_corrupt_strict cfg fl s0 e l hstrict hfl hp h1 h2
      rw [h]
      refine ⟨_, rfl, ?_⟩
      simp only [a, Bool.false_eq_true, if_false]
      exact ⟨a, b, by rw [c, h3]⟩
    unfold State.pending at hin
    by_cases han : st.at_next_ = true
    · rw [if_neg (by rw [han]; simp)]
      rw [if_pos han] at hin
      exact key st hin (hs han) rfl
    · simp only [Bool.not_eq_true] at han
      rw [if_pos han]
      rw [if_neg (by rw [han]; simp)] at hin
      exact key _ (by simpa [InternalIterator.Next] using hin)
        (by simp [InternalIterator.status, InternalIterator.Valid, InternalIterator.Next, hin])
        rfl

/-- C13 at the input [corrupt, Put([1],[8])@3] for `SeekToFirst`, and for
`Next` with the input on the Put of [Put([1],[8])@3, corrupt]. -/
theorem strict_corruption_witness :
    (∃ st', SeekToFirst { mkConfig [] 10 0 none with expect_valid_internal_key_ := true }
          Flags.unset (State.start [mkCorrupt [9] [4], mkPut [1] [8] 3]) = some st'
      ∧ st'.Valid = false ∧ st'.status_ = Status.kCorruption
      ∧ st'.iter_stats_.num_input_corrupt_records = 0)
    ∧ (∃ st', Next { mkConfig [] 10 0 none with expect_valid_internal_key_ := true }
          Flags.unset (State.start [mkPut [1] [8] 3, mkCorrupt [9] [4]]) = some st'
      ∧ st'.Valid = false ∧ st'.status_ = Status.kCorruption
      ∧ st'.iter_stats_.num_input_corrupt_records = 0) :=
  ⟨(strict_corruption { mkConfig [] 10 0 none with expect_valid_internal_key_ := true }
      Flags.unset (State.start [mkCorrupt [9] [4], mkPut [1] [8] 3]) (mkCorrupt [9] [4])
      [mkPut [1] [8] 3] rfl ⟨rfl, rfl, rfl⟩ rfl).1 rfl rfl,
   (strict_corruption { mkConfig [] 10 0 none with expect_valid_internal_key_ := true }
      Flags.unset (State.start [mkPut [1] [8] 3, mkCorrupt [9] [4]]) (mkCorrupt [9] [4])
      [] rfl ⟨rfl, rfl, rfl⟩ rfl).2 rfl (by intro h; exact absurd h (by decide))⟩


/-! ## Two SingleDeletes in a row -/

/-- Records of one visibility class pass the test `prev_snapshot == 0 ||
next_ikey.sequence > prev_snapshot`. -/
theorem same_class_test (cfg : Config) (hasc : SnapshotsAscending cfg.snapshots_)
    (a b : Nat) (hb : b ≤ kMaxSequenceNumber)
    (heq : visibilityClass cfg a = visibilityClass cfg b) :
    (snapshotOf cfg b).2 = 0 ∨ a > (snapshotOf cfg b).2 := by
  rcases prev_snapshot_cases cfg hasc b hb with ⟨p0, _⟩ | ⟨p1, p2, _⟩
  · exact Or.inl p0
  · right
    by_contra hn
    have := visibilityClass_separated cfg hasc a b _ p1 (by omega) p2 hb
    omega

/-- A pass on a SingleDelete followed by a SingleDelete of its user key that
passes the same-class test. -/
theorem body_sd_double (cfg : Config) (hlaw : cfg.cmp_.Lawful)
    (hbdm : cfg.background_disable_merge_ = false) (st : State) (sd nxt : Entry)
    (rest : List Entry) (ik nk : ParsedInternalKey)
    (hin : st.input_.rest = sd :: nxt :: rest) (hv : st.valid_ = false)
    (han : st.at_next_ = false) (hc : st.clear_and_output_next_key_ = false)
    (hp : ParseInternalKey sd.key = some ik) (ht : ik.type = ValueType.kTypeSingleDeletion)
    (hpn : ParseInternalKey nxt.key = some nk) (hk : nk.user_key = ik.user_key)
    (hnt : nk.type = ValueType.kTypeSingleDeletion)
    (htest : (snapshotOf cfg ik.sequence).2 = 0 ∨ nk.sequence > (snapshotOf cfg ik.sequence).2) :
    (NextFromInputBody cfg st sd).2 = false
      ∧ (NextFromInputBody cfg st sd).1.valid_ = false
      ∧ (NextFromInputBody cfg st sd).1.at_next_ = false
      ∧ (NextFromInputBody cfg st sd).1.input_.rest = nxt :: rest
      ∧ (NextFromInputBody cfg st sd).1.clear_and_output_next_key_ = false
      ∧ (NextFromInputBody cfg st sd).1.status_ = Status.kOk
      ∧ (NextFromInputBody cfg st sd).1.has_current_user_key_ = true
      ∧ (NextFromInputBody cfg st sd).1.current_user_key_ = ik.user_key
      ∧ (NextFromInputBody cfg st sd).1.current_user_key_snapshot_
          = visibilityClass cfg ik.sequence
      ∧ (NextFromInputBody cfg st sd).1.iter_stats_.num_record_drop_obsolete
          = st.iter_stats_.num_record_drop_obsolete + 1
      ∧ (NextFromInputBody cfg st sd).1.iter_stats_.num_single_del_mismatch
          = st.iter_stats_.num_single_del_mismatch + 1
      ∧ (NextFromInputBody cfg st sd).1.iter_stats_.num_record_drop_hidden
          = st.iter_stats_.num_record_drop_hidden := by
  obtain ⟨s2, last, hb, g1, g2, g3, g4, g5, g6, g7, g8, g9, g10, g11, g12, g13, g14, g15,
    g16⟩ := body_rules cfg hlaw hbdm st sd ik hp
  rw [hb]
  have hm : matchedSuccessor cfg s2.ikey_.user_key s2.input_.Next = some nk := by
    rw [g6]
    exact matchedSuccessor_some cfg hlaw ik nk _ nxt rest
      (by simp [InternalIterator.Next, g1, hin]) hpn hk
  have e : applyRules cfg s2 last (snapshotOf cfg ik.sequence).2
      = singleDeleteBranch cfg s2 (snapshotOf cfg ik.sequence).2 := by
    unfold applyRules
    simp [g10, hc, g6, ht]
  rw [e, singleDeleteBranch_some cfg s2 _ nk (by rw [g2, hv]) hm, if_pos htest, if_pos hnt]
  simp [State.syncStatus, InternalIterator.Next, g1, hin, g2, hv, g3, han, g7, g8, g9, g10, hc,
    InternalIterator.status, InternalIterator.Valid, IterStats.addObsolete,
    IterStats.addMismatch, g13, g14, g15]

/-- C20: in a pass of the loop (merging enabled, deferred-output flag clear)
on a SingleDelete that is immediately followed by another SingleDelete of the
same user key in the same visibility class, the first is not emitted,
`obsolete_drop` and `single_delete_mismatch` each increase by exactly one,
`hidden_drop` does not change and the input is left on the second
SingleDelete; the loop goes on (status OK, shutdown flags unset) and its next
pass evaluates the second as the current record by the SingleDelete rule. -/
theorem double_singleDelete (cfg : Config) (fl : Flags) (st : State) (sd nxt : Entry)
    (rest : List Entry) (ik nk : ParsedInternalKey) (hlaw : cfg.cmp_.Lawful)
    (hbdm : cfg.background_disable_merge_ = false)
    (hasc : SnapshotsAscending cfg.snapshots_)
    (hf1 : fl.shutting_down = false) (hf2 : fl.bg_stopped = false)
    (hin : st.input_.rest = sd :: nxt :: rest) (hv : st.valid_ = false)
    (han : st.at_next_ = false) (hs : st.status_ = Status.kOk)
    (hc : st.clear_and_output_next_key_ = false)
    (hp : ParseInternalKey sd.key = some ik) (ht : ik.type = ValueType.kTypeSingleDeletion)
    (hpn : ParseInternalKey nxt.key = some nk) (hk : nk.user_key = ik.user_key)
    (hnt : nk.type = ValueType.kTypeSingleDeletion) (hmax : ik.sequence ≤ kMaxSequenceNumber)
    (hcls : visibilityClass cfg nk.sequence = visibilityClass cfg ik.sequence) :
    (NextFromInputBody cfg st sd).2 = false
      ∧ (NextFromInputBody cfg st sd).1.valid_ = false
      ∧ (NextFromInputBody cfg st sd).1.input_.rest = nxt :: rest
      ∧ (NextFromInputBody cfg st sd).1.iter_stats_.num_record_drop_obsolete
          = st.iter_stats_.num_record_drop_obsolete + 1
      ∧ (NextFromInputBody cfg st sd).1.iter_stats_.num_single_del_mismatch
          = st.iter_stats_.num_single_del_mismatch + 1
      ∧ (NextFromInputBody cfg st sd).1.iter_stats_.num_record_drop_hidden
          = st.iter_stats_.num_record_drop_hidden
      ∧ loopCond fl (NextFromInputBody cfg st sd).1 = true
      ∧ (∃ s2 : State, NextFromInputBody cfg (NextFromInputBody cfg st sd).1 nxt
            = ((singleDeleteBranch cfg s2 (snapshotOf cfg nk.sequence).2).syncStatus, false)
          ∧ s2.ikey_ = nk ∧ s2.key_ = nxt.key ∧ s2.input_.rest = nxt :: rest)
      ∧ ∀ n, NextFromInputLoop cfg fl (n + 2) st
          = NextFromInputLoop cfg fl n
              (NextFromInputBody cfg (NextFromInputBody cfg st sd).1 nxt).1 := by
  have htest := same_class_test cfg hasc nk.sequence ik.sequence hmax hcls
  obtain ⟨b1, b2, b3, b4, b5, b6, _, _, _, b10, b11, b12⟩ := body_sd_double cfg hlaw hbdm st
    sd nxt rest ik nk hin hv han hc hp ht hpn hk hnt htest
  have hcond0 : loopCond fl st = true := loopCond_intro fl st sd _ hf1 hf2 hv hs hin
  have hcond : loopCond fl (NextFromInputBody cfg st sd).1 = true :=
    loopCond_intro fl _ nxt rest hf1 hf2 b2 b6 b4
  obtain ⟨s2, last, hb, g1, _, _, g4, _, g6, _, _, _, g10, _⟩ :=
    body_rules cfg hlaw hbdm (NextFromInputBody cfg st sd).1 nxt nk hpn
  have e : applyRules cfg s2 last (snapshotOf cfg nk.sequence).2
      = singleDeleteBranch cfg s2 (snapshotOf cfg nk.sequence).2 := by
    unfold applyRules
    simp [g10, b5, g6, hnt]
  rw [e] at hb
  refine ⟨b1, b2, b4, b10, b11, b12, hcond, ⟨s2, hb, g6, g4, by rw [g1, b4]⟩, ?_⟩
  intro n
  rw [loop_step cfg fl (n + 1) st sd _ hcond0 hin, b1]
  simp only [Bool.false_eq_true, if_false]
  rw [loop_step cfg fl n _ nxt rest hcond b4, hb]
  simp

/-- C20 at the first pass over [SingleDelete([1])@5, SingleDelete([1])@3] with
an empty snapshot set. -/
theorem double_singleDelete_witness :
    (NextFromInputBody (mkConfig [] 10 0 none)
        (State.start [mkSingleDelete [1] 5, mkSingleDelete [1] 3])
        (mkSingleDelete [1] 5)).1.valid_ = false
      ∧ (NextFromInputBody (mkConfig [] 10 0 none)
        (State.start [mkSingleDelete [1] 5, mkSingleDelete [1] 3])
        (mkSingleDelete [1] 5)).1.input_.rest = [mkSingleDelete [1] 3]
      ∧ (NextFromInputBody (mkConfig [] 10 0 none)
        (State.start [mkSingleDelete [1] 5, mkSingleDelete [1] 3])
        (mkSingleDelete [1] 5)).1.iter_stats_.num_single_del_mismatch = 0 + 1 :=
  have h := double_singleDelete (mkConfig [] 10 0 none) Flags.unset
    (State.start [mkSingleDelete [1] 5, mkSingleDelete [1] 3]) (mkSingleDelete [1] 5)
    (mkSingleDelete [1] 3) []
    { user_key := [1], sequence := 5, type := ValueType.kTypeSingleDeletion }
    { user_key := [1], sequence := 3, type := ValueType.kTypeSingleDeletion }
    bytewise_lawful rfl (mkConfig_ascending_nil 10 0 none) rfl rfl rfl rfl rfl rfl rfl rfl rfl
    rfl rfl rfl (by decide) (by decide)
  ⟨h.2.1, h.2.2.1, h.2.2.2.2.1⟩


/-! ## A pass of the loop on a record that is not a SingleDelete -/

/-- A pass, merging enabled and deferred-output flag clear, on a record that
parses and is not a SingleDelete: the four branches hidden, obsolete Delete,
Merge and keep, `last` being the local `last_snapshot`. -/
theorem body_other (cfg : Config) (hlaw : cfg.cmp_.Lawful)
    (hbdm : cfg.background_disable_merge_ = false) (st : State) (e : Entry) (l : List Entry)
    (ik : ParsedInternalKey) (last : Nat) (hin : st.input_.rest = e :: l)
    (hv : st.valid_ = false) (han : st.at_next_ = false)
    (hc : st.clear_and_output_next_key_ = false) (hp : ParseInternalKey e.key = some ik)
    (ht : ik.type ≠ ValueType.kTypeSingleDeletion)
    (hlast : last = (if st.has_current_user_key_ = true ∧ st.current_user_key_ = ik.user_key
      then st.current_user_key_snapshot_ else 0)) :
    (NextFromInputBody cfg st e).2 = false
      ∧ (NextFromInputBody cfg st e).1.at_next_ = false
      ∧ (NextFromInputBody cfg st e).1.clear_and_output_next_key_ = false
      ∧ (NextFromInputBody cfg st e).1.has_current_user_key_ = true
      ∧ (NextFromInputBody cfg st e).1.current_user_key_ = ik.user_key
      ∧ (NextFromInputBody cfg st e).1.current_user_key_snapshot_
          = visibilityClass cfg ik.sequence
      ∧ (NextFromInputBody cfg st e).1.has_outputted_key_ = outputtedFor st ik.user_key
      ∧ (NextFromInputBody cfg st e).1.key_ = e.key
      ∧ (NextFromInputBody cfg st e).1.value_ = e.value
      ∧ (NextFromInputBody cfg st e).1.status_ = (NextFromInputBody cfg st e).1.input_.status
      ∧ (last = visibilityClass cfg ik.sequence →
          (NextFromInputBody cfg st e).1.valid_ = false
            ∧ (NextFromInputBody cfg st e).1.input_.rest = l
            ∧ (NextFromInputBody cfg st e).1.iter_stats_.num_record_drop_hidden
                = st.iter_stats_.num_record_drop_hidden + 1
            ∧ (NextFromInputBody cfg st e).1.iter_stats_.num_record_drop_obsolete
                = st.iter_stats_.num_record_drop_obsolete)
      ∧ (last ≠ visibilityClass cfg ik.sequence →
          (NextFromInputBody cfg st e).1.iter_stats_.num_record_drop_hidden
              = st.iter_stats_.num_record_drop_hidden
          ∧ ((ik.type = ValueType.kTypeDeletion ∧ beyondHint cfg ik.user_key ik.sequence = true) →
            (NextFromInputBody cfg st e).1.valid_ = false
              ∧ (NextFromInputBody cfg st e).1.input_.rest = l
              ∧ (NextFromInputBody cfg st e).1.iter_stats_.num_record_drop_obsolete
                  = st.iter_stats_.num_record_drop_obsolete + 1)
          ∧ (¬ (ik.type = ValueType.kTypeDeletion
                ∧ beyondHint cfg ik.user_key ik.sequence = true) →
            (NextFromInputBody cfg st e).1.input_.rest = e :: l
              ∧ (NextFromInputBody cfg st e).1.iter_stats_.num_record_drop_obsolete
                  = st.iter_stats_.num_record_drop_obsolete
              ∧ (NextFromInputBody cfg st e).1.valid_
                  = !decide (ik.type = ValueType.kTypeMerge))) := by
  obtain ⟨s2, last', hb, g1, g2, g3, g4, g5, g6, g7, g8, g9, g10, g11, g12, g13, g14, g15,
    g16⟩ := body_rules cfg hlaw hbdm st e ik hp
  rw [← hlast] at g12
  subst g12
  rw [hb, applyRules_plain cfg s2 _ _ (by rw [g10, hc]) (by rw [g6]; exact ht), g6, g9]
  by_cases h1 : last' = visibilityClass cfg ik.sequence
  · rw [if_pos h1]
    simp [State.syncStatus, InternalIterator.Next, g1, hin, g2, hv, g3, han, g4, g5, g7, g8, g9,
      g10, hc, g11, h1, IterStats.addHidden, g13, g14]
  · rw [if_neg h1]
    by_cases h2 : ik.type = ValueType.kTypeDeletion
        ∧ beyondHint cfg ik.user_key ik.sequence = true
    · rw [if_pos h2]
      simp [State.syncStatus, InternalIterator.Next, g1, hin, g2, hv, g3, han, g4, g5, g7, g8,
        g9, g10, hc, g11, h1, h2, IterStats.addObsolete, g13, g14]
    · rw [if_neg h2]
      by_cases h3 : ik.type = ValueType.kTypeMerge
      · rw [if_pos h3]
        simp [State.syncStatus, g1, hin, g2, hv, g3, han, g4, g5, g7, g8, g9, g10, hc, g11, h1,
          h2, h3, g13, g14]
      · rw [if_neg h3]
        simp [State.syncStatus, g1, hin, g2, hv, g3, han, g4, g5, g7, g8, g9, g10, hc, g11, h1,
          h2, h3, g13, g14]

/-! ## Obsolete Delete elimination -/

/-- C11, the claim as stated, fails: with an empty snapshot set,
`last_sequence` 0 and the hint [0], the single-record input [Delete([1])@0]
has no preceding record, its sequence is at most the earliest snapshot (0 <= 0)
and its user key compares greater than the hint; the Delete is not emitted, but
it is dropped by the hidden branch, its class 0 being the value that
`current_user_key_snapshot_` takes for a new user key: `hidden_drop` is 1 and
`obsolete_drop` stays 0. -/
theorem obsolete_delete_counterexample :
    emitted (mkConfig [] 0 0 (some [0])) Flags.unset [mkDelete [1] 0] = some []
      ∧ (finalState (mkConfig [] 0 0 (some [0])) Flags.unset [mkDelete [1] 0]).map
          (fun s => (s.iter_stats_.num_record_drop_hidden,
            s.iter_stats_.num_record_drop_obsolete)) = some (1, 0)
      ∧ (0 : Nat) ≤ (mkConfig [] 0 0 (some [0])).earliest_snapshot_
      ∧ (mkConfig [] 0 0 (some [0])).l2_largest_key_ = some [0]
      ∧ 0 < (mkConfig [] 0 0 (some [0])).cmp_.Compare [1] [0] := by
  decide

/-- C11 as amended: in a pass of the loop (merging enabled, deferred-output
flag clear) on a Delete record that is not in the visibility class of a
preceding record of its user key (the state does not hold its user key together
with its class), whose sequence is at most the earliest snapshot
(`last_sequence` when the snapshot set is empty), that earliest snapshot being
positive, and whose user key compares greater than the hint, the Delete is not
emitted, the input moves past it and `obsolete_drop` increases by one while
`hidden_drop` does not change. In particular the single-record input
Delete(k)@1 with an empty snapshot set and such a hint yields empty output,
whatever `last_sequence` and the flags are. -/
theorem obsolete_delete (cfg : Config) (fl : Flags) (hint : Slice) (hlaw : cfg.cmp_.Lawful)
    (hbdm : cfg.background_disable_merge_ = false)
    (hh : cfg.l2_largest_key_ = some hint) :
    (∀ (st : State) (d : Entry) (l : List Entry) (ik : ParsedInternalKey),
        0 < cfg.earliest_snapshot_ → st.input_.rest = d :: l → st.valid_ = false →
        st.at_next_ = false → st.clear_and_output_next_key_ = false →
        ParseInternalKey d.key = some ik → ik.type = ValueType.kTypeDeletion →
        ¬ (st.has_current_user_key_ = true ∧ st.current_user_key_ = ik.user_key
            ∧ st.current_user_key_snapshot_ = visibilityClass cfg ik.sequence) →
        ik.sequence ≤ cfg.earliest_snapshot_ → 0 < cfg.cmp_.Compare ik.user_key hint →
        (NextFromInputBody cfg st d).2 = false
          ∧ (NextFromInputBody cfg st d).1.valid_ = false
          ∧ (NextFromInputBody cfg st d).1.input_.rest = l
          ∧ (NextFromInputBody cfg st d).1.iter_stats_.num_record_drop_obsolete
              = st.iter_stats_.num_record_drop_obsolete + 1
          ∧ (NextFromInputBody cfg st d).1.iter_stats_.num_record_drop_hidden
              = st.iter_stats_.num_record_drop_hidden)
      ∧ (∀ k : Slice, cfg.snapshots_ = [] → 0 < cfg.cmp_.Compare k hint →
          emitted cfg fl [mkDelete k 1] = some []) := by
  constructor
  · intro st d l ik hpos hin hv han hc hp ht hclass hseq hgt
    have hbh : beyondHint cfg ik.user_key ik.sequence = true :=
      (beyondHint_iff cfg _ _).mpr ⟨hint, hh, hseq, hgt⟩
    have hcp : 0 < visibilityClass cfg ik.sequence := by
      rw [visibilityClass_earliest cfg ik.sequence hseq]
      exact hpos
    obtain ⟨b1, _, _, _, _, _, _, _, _, _, _, b12⟩ := body_other cfg hlaw hbdm st d l ik _ hin
      hv han hc hp (by rw [ht]; decide) rfl
    have hne : (if st.has_current_user_key_ = true ∧ st.current_user_key_ = ik.user_key
        then st.current_user_key_snapshot_ else 0) ≠ visibilityClass cfg ik.sequence := by
      split_ifs with h
      · exact fun h' => hclass ⟨h.1, h.2, h'⟩
      · omega
    obtain ⟨c1, c2, _⟩ := b12 hne
    obtain ⟨d1, d2, d3⟩ := c2 ⟨ht, hbh⟩
    exact ⟨b1, d1, d2, d3, c1⟩
  · intro k hs hgt
    by_cases hf : fl.shutting_down = true ∨ fl.bg_stopped = true
    · exact emitted_of_shutdown cfg fl _ hf
    · simp only [not_or, Bool.not_eq_true] at hf
      rw [(emitted_plain cfg fl [mkDelete k 1] hlaw hbdm hf.1 hf.2 (by
        intro e he
        simp only [List.mem_singleton] at he
        subst he
        exact ⟨_, rfl, by simp⟩)).1]
      have hcl : visibilityClass cfg 1 = cfg.last_sequence := visibilityClass_tip cfg 1 hs
      have hes : cfg.earliest_snapshot_ = cfg.last_sequence := by
        simp [Config.earliest_snapshot_, hs]
      by_cases h0 : cfg.last_sequence = 0
      · simp [plainFilter, mkDelete, ParseInternalKey, plainHidden, lastSnapshotFor, hcl, h0]
      · have hbh : beyondHint cfg k 1 = true :=
          (beyondHint_iff cfg _ _).mpr ⟨hint, hh, by rw [hes]; omega, hgt⟩
        simp [plainFilter, mkDelete, ParseInternalKey, plainHidden, plainObsolete,
          lastSnapshotFor, hcl, hbh]

/-- C11 as amended at the hint [0] with an empty snapshot set and
`last_sequence` 10: the first pass over [Delete([1])@1] drops the Delete as
obsolete, and the run over it emits nothing. -/
theorem obsolete_delete_witness :
    ((NextFromInputBody (mkConfig [] 10 0 (some [0])) (State.start [mkDelete [1] 1])
          (mkDelete [1] 1)).1.valid_ = false
        ∧ (NextFromInputBody (mkConfig [] 10 0 (some [0])) (State.start [mkDelete [1] 1])
          (mkDelete [1] 1)).1.iter_stats_.num_record_drop_obsolete = 0 + 1)
      ∧ emitted (mkConfig [] 10 0 (some [0])) Flags.unset [mkDelete [1] 1] = some [] :=
  have h := obsolete_delete (mkConfig [] 10 0 (some [0])) Flags.unset [0] bytewise_lawful rfl rfl
  have h1 := h.1 (State.start [mkDelete [1] 1]) (mkDelete [1] 1) []
    { user_key := [1], sequence := 1, type := ValueType.kTypeDeletion }
    (by decide) rfl rfl rfl rfl rfl rfl
    (by intro hn; exact absurd hn.1 (by decide)) (by decide) (by decide)
  ⟨⟨h1.2.1, h1.2.2.2.1⟩, h.2 [1] rfl (by decide)⟩


/-! ## Records whose key does not parse -/

/-- A pass on a record whose key does not parse, strict mode off. -/
theorem body_corrupt_pass (cfg : Config) (st : State) (e : Entry)
    (hnon : cfg.expect_valid_internal_key_ = false) (hp : ParseInternalKey e.key = none) :
    NextFromInputBody cfg st e
      = ({ st with key_ := e.key, value_ := e.value, has_current_user_key_ := false,
                   current_user_key_sequence_ := kMaxSequenceNumber,
                   current_user_key_snapshot_ := 0,
                   iter_stats_ := { st.iter_stats_ with
                     num_input_records := st.iter_stats_.num_input_records + 1,
                     num_input_corrupt_records :=
                       st.iter_stats_.num_input_corrupt_records + 1 },
                   valid_ := true }, true) := by
  simp [NextFromInputBody, hp, hnon]

/-- C12, the claim as stated, fails: with an empty snapshot set and
`last_sequence` 10, over [Put([1],[7])@5, corrupt, Merge([1],[8])@3] the Merge
that follows the corrupt record is not emitted, and `hidden_drop` ends at 1:
its first pass treats it as a first occurrence and leaves it in place, its
second pass drops it in the hidden branch. -/
theorem corrupt_successor_counterexample :
    emitted (mkConfig [] 10 0 none) Flags.unset
        [mkPut [1] [7] 5, mkCorrupt [9] [4], mkMerge [1] [8] 3]
        = some [mkPut [1] [7] 5, mkCorrupt [9] [4]]
      ∧ (finalState (mkConfig [] 10 0 none) Flags.unset
          [mkPut [1] [7] 5, mkCorrupt [9] [4], mkMerge [1] [8] 3]).map
            (fun s => s.iter_stats_.num_record_drop_hidden) = some 1 := by
  decide

/-- C12 as amended: with strict mode off (flags unset, status OK), a record
whose key fails to parse is emitted with key and value identical to the input
and `input_corrupt_records` increases by one; the call leaves
`has_current_user_key_` false, so the pass of the following `Next` on the
record after it treats that record as the first occurrence of its user key
whatever preceded the corrupt one: with positive watermarks and merging
enabled, when that record is a Put, a LargeValuePut or a Delete, the pass does
not change `hidden_drop`, and unless the record is a Delete past the hint
(dropped as obsolete) the call emits it with its value. -/
theorem corrupt_pass_through (cfg : Config) (fl : Flags) (st : State) (e : Entry)
    (l : List Entry) (hlaw : cfg.cmp_.Lawful) (hfl : FlagsUnset cfg fl)
    (hnon : cfg.expect_valid_internal_key_ = false)
    (hin : st.input_.rest = e :: l) (hs : st.status_ = Status.kOk)
    (hp : ParseInternalKey e.key = none) :
    ∃ st1, NextFromInput cfg fl st = some st1 ∧ st1.valid_ = true ∧ st1.current = e
      ∧ st1.iter_stats_.num_input_corrupt_records
          = st.iter_stats_.num_input_corrupt_records + 1
      ∧ st1.has_current_user_key_ = false
      ∧ ∀ (f : Entry) (t : List Entry) (fk : ParsedInternalKey) (b : Bool),
          l = f :: t → cfg.background_disable_merge_ = false → WatermarksPositive cfg →
          st.clear_and_output_next_key_ = false → ParseInternalKey f.key = some fk →
          (fk.type = ValueType.kTypeValue ∨ fk.type = ValueType.kTypeValueLarge
            ∨ fk.type = ValueType.kTypeDeletion) →
          ({ st1 with has_outputted_key_ := b } : State).advance.enterLoop.input_.rest = f :: t
          ∧ (NextFromInputBody cfg
                ({ st1 with has_outputted_key_ := b } : State).advance.enterLoop
                f).1.iter_stats_.num_record_drop_hidden
              = st1.iter_stats_.num_record_drop_hidden
          ∧ (¬ (fk.type = ValueType.kTypeDeletion
                ∧ beyondHint cfg fk.user_key fk.sequence = true) →
              ∃ st2, Next cfg fl { st1 with has_outputted_key_ := b } = some st2
                ∧ st2.valid_ = true ∧ st2.current = f
                ∧ st2.iter_stats_.num_record_drop_hidden
                    = st1.iter_stats_.num_record_drop_hidden) := by
  have hb := body_corrupt_pass cfg { st with at_next_ := false, valid_ := false } e hnon hp
  have h1 := NextFromInput_first_pass cfg fl hfl st e l hin hs (by rw [hb])
  have a1 : (NextFromInputBody cfg { st with at_next_ := false, valid_ := false } e).1.valid_
      = true := by rw [hb]
  have a2 : (NextFromInputBody cfg { st with at_next_ := false, valid_ := false } e).1.current
      = e := by rw [hb]; rfl
  have a3 : (NextFromInputBody cfg { st with at_next_ := false, valid_ := false }
      e).1.iter_stats_.num_input_corrupt_records
        = st.iter_stats_.num_input_corrupt_records + 1 := by rw [hb]
  have a4 : (NextFromInputBody cfg { st with at_next_ := false, valid_ := false }
      e).1.has_current_user_key_ = false := by rw [hb]
  have a5 : (NextFromInputBody cfg { st with at_next_ := false, valid_ := false } e).1.at_next_
      = false := by rw [hb]
  have a6 : (NextFromInputBody cfg { st with at_next_ := false, valid_ := false } e).1.input_
      = st.input_ := by rw [hb]
  have a7 : (NextFromInputBody cfg { st with at_next_ := false, valid_ := false }
      e).1.clear_and_output_next_key_ = st.clear_and_output_next_key_ := by rw [hb]
  generalize (NextFromInputBody cfg { st with at_next_ := false, valid_ := false } e).1 = st1
    at h1 a1 a2 a3 a4 a5 a6 a7
  refine ⟨st1, h1, a1, a2, a3, a4, ?_⟩
  intro f t fk b hl hbdm hpos hc hpf htf
  subst hl
  rw [hc] at a7
  obtain ⟨sA, hsA⟩ : ∃ sA : State, sA = { st1 with has_outputted_key_ := b, input_ := st1.input_.Next, status_ := st1.input_.Next.status } := ⟨_, rfl⟩
  have hadv : ({ st1 with has_outputted_key_ := b } : State).advance = sA := by
    rw [hsA]; simp [State.advance, a5]
  have hrest : sA.input_.rest = f :: t := by
    rw [hsA]; simp [InternalIterator.Next, a6, hin]
  have hstat : sA.status_ = Status.kOk := by
    rw [hsA]
    exact status_of_cons _ f t (by simp [InternalIterator.Next, a6, hin])
  have hcl : sA.clear_and_output_next_key_ = false := by rw [hsA]; exact a7
  have hcur : sA.has_current_user_key_ = false := by rw [hsA]; exact a4
  have hst : sA.iter_stats_ = st1.iter_stats_ := by rw [hsA]
  rw [hadv]
  have hcp := visibilityClass_pos cfg hpos fk.sequence
  have htsd : fk.type ≠ ValueType.kTypeSingleDeletion := by
    rcases htf with h | h | h <;> rw [h] <;> decide
  have htm : fk.type ≠ ValueType.kTypeMerge := by
    rcases htf with h | h | h <;> rw [h] <;> decide
  obtain ⟨b1, _, _, _, _, _, _, b8, b9, _, _, b12⟩ := body_other cfg hlaw hbdm sA.enterLoop
    f t fk 0 hrest rfl rfl hcl hpf htsd (by simp [State.enterLoop, hcur])
  obtain ⟨c1, _, c3⟩ := b12 (by omega)
  have c1' : (NextFromInputBody cfg sA.enterLoop f).1.iter_stats_.num_record_drop_hidden
      = st1.iter_stats_.num_record_drop_hidden := by
    rw [c1]; show sA.iter_stats_.num_record_drop_hidden = _; rw [hst]
  refine ⟨hrest, c1', ?_⟩
  intro hno
  obtain ⟨d1, d2, d3⟩ := c3 hno
  have hv2 : (NextFromInputBody cfg sA.enterLoop f).1.valid_ = true := by
    rw [d3]; simp [htm]
  rw [Next_eq, if_pos (show ({ st1 with has_outputted_key_ := b } : State).at_next_ = false
    from a5), ← hsA]
  have h2 := NextFromInput_first_pass cfg fl hfl sA f t hrest hstat hv2
  rw [h2]
  refine ⟨_, rfl, ?_⟩
  simp only
  split_ifs with hh
  · refine ⟨hv2, ?_, c1'⟩
    show State.current (NextFromInputBody cfg sA.enterLoop f).1 = f
    simp only [State.current]
    rw [b8, b9]
  · exact absurd hv2 hh

/-- C12 as amended at the input [corrupt, Put([1],[8])@3] with an empty
snapshot set and `last_sequence` 10: the corrupt record is emitted and counted,
then the Put is emitted. -/
theorem corrupt_pass_through_witness :
    ∃ st1, NextFromInput (mkConfig [] 10 0 none) Flags.unset
        (State.start [mkCorrupt [9] [4], mkPut [1] [8] 3]) = some st1
      ∧ st1.valid_ = true ∧ st1.current = mkCorrupt [9] [4]
      ∧ st1.iter_stats_.num_input_corrupt_records = 0 + 1
      ∧ ∀ b : Bool, ∃ st2, Next (mkConfig [] 10 0 none) Flags.unset
            { st1 with has_outputted_key_ := b } = some st2
          ∧ st2.valid_ = true ∧ st2.current = mkPut [1] [8] 3 := by
  obtain ⟨st1, h1, h2, h3, h4, _, h6⟩ := corrupt_pass_through (mkConfig [] 10 0 none)
    Flags.unset (State.start [mkCorrupt [9] [4], mkPut [1] [8] 3]) (mkCorrupt [9] [4])
    [mkPut [1] [8] 3] bytewise_lawful ⟨rfl, rfl, rfl⟩ rfl rfl rfl rfl
  refine ⟨st1, h1, h2, h3, h4, fun b => ?_⟩
  obtain ⟨st2, a, c, d, _⟩ := (h6 (mkPut [1] [8] 3) []
    { user_key := [1], sequence := 3, type := ValueType.kTypeValue } b rfl rfl
    ⟨by intro w hw; simp [mkConfig] at hw, by intro _; decide⟩ rfl rfl (Or.inl rfl)).2.2
    (fun h => absurd h.1 (by decide))
  exact ⟨st2, a, c, d⟩

/-! ## Merge records -/

/-- C18: the run over the sorted input [SingleDelete([1])@5, Merge([1],[8])@3],
whose keys parse, with an empty snapshot set, `last_sequence` 10,
`earliest_write_conflict_snapshot` 0 and merging enabled, emits a record of
type Merge: the SingleDelete cannot be dropped with its successor, so it is
emitted and the deferred-output flag is set, and the next call emits the Merge
with its value cleared, through the branch whose assertion expects a Put. -/
theorem merge_emitted_after_singleDelete :
    emitted (mkConfig [] 10 0 none) Flags.unset [mkSingleDelete [1] 5, mkMerge [1] [8] 3]
        = some [mkSingleDelete [1] 5, mkMerge [1] [] 3]
      ∧ InputSorted (mkConfig [] 10 0 none).cmp_ [mkSingleDelete [1] 5, mkMerge [1] [8] 3]
      ∧ (mkConfig [] 10 0 none).background_disable_merge_ = false
      ∧ ParseInternalKey (mkMerge [1] [] 3).key
          = some { user_key := [1], sequence := 3, type := ValueType.kTypeMerge } := by
  refine ⟨by decide, ?_, rfl, rfl⟩
  simp [InputSorted, keyOrder, ikOrder, mkSingleDelete, mkMerge, ParseInternalKey, mkConfig,
    BytewiseComparator, bytewiseCompare]


/-! ## The status a pass leaves -/

theorem singleDeleteBranch_end_status (cfg : Config) (st : State) (prev : Nat) :
    (singleDeleteBranch cfg st prev).input_.end_status = st.input_.end_status := by
  cases hm : matchedSuccessor cfg st.ikey_.user_key st.input_.Next with
  | none =>
    simp only [singleDeleteBranch, hm]
    split_ifs <;> simp [InternalIterator.Next]
  | some nk =>
    simp only [singleDeleteBranch, hm]
    split_ifs <;> simp [InternalIterator.Next]

theorem applyRules_end_status (cfg : Config) (st : State) (last prev : Nat) :
    (applyRules cfg st last prev).input_.end_status = st.input_.end_status := by
  unfold applyRules
  split_ifs
  · rfl
  · exact singleDeleteBranch_end_status cfg st prev
  · rfl
  · rfl
  · rfl
  · rfl

/-- A pass on a record whose key parses ends with `status_` equal to the
status of the input, and keeps the end status of the input source. -/
theorem body_parsed_status (cfg : Config) (st : State) (e : Entry) (ik : ParsedInternalKey)
    (hp : ParseInternalKey e.key = some ik) :
    (NextFromInputBody cfg st e).1.status_ = (NextFromInputBody cfg st e).1.input_.status
      ∧ (NextFromInputBody cfg st e).1.input_.end_status = st.input_.end_status := by
  simp only [NextFromInputBody, hp, processParsed]
  split_ifs
  · refine ⟨rfl, ?_⟩
    simp [(updateCurrentKey_frame cfg _ ik).1]
  · refine ⟨rfl, ?_⟩
    simp only
    rw [applyRules_end_status]
    simp [(updateCurrentKey_frame cfg _ ik).1]

/-- The status a pass of the loop leaves: the one it found (a key that does
not parse, strict mode off), `Corruption` without a record to read (strict
mode), or the status of the input. -/
theorem body_status (cfg : Config) (st : State) (e : Entry) :
    (NextFromInputBody cfg st e).1.input_.end_status = st.input_.end_status
      ∧ ((NextFromInputBody cfg st e).1.status_ = st.status_
        ∨ ((NextFromInputBody cfg st e).1.status_ = Status.kCorruption
            ∧ (NextFromInputBody cfg st e).1.valid_ = st.valid_
            ∧ (NextFromInputBody cfg st e).2 = true)
        ∨ (NextFromInputBody cfg st e).1.status_
            = (NextFromInputBody cfg st e).1.input_.status) := by
  cases hp : ParseInternalKey e.key with
  | some ik =>
    obtain ⟨a, b⟩ := body_parsed_status cfg st e ik hp
    exact ⟨b, Or.inr (Or.inr a)⟩
  | none =>
    cases hs : cfg.expect_valid_internal_key_ with
    | true =>
      rw [body_corrupt_strict cfg st e hs hp]
      exact ⟨rfl, Or.inr (Or.inl ⟨rfl, rfl, rfl⟩)⟩
    | false =>
      rw [body_corrupt_pass cfg st e hs hp]
      exact ⟨rfl, Or.inl rfl⟩

theorem status_cases (it : InternalIterator) :
    it.status = Status.kOk ∨ it.status = it.end_status := by
  unfold InternalIterator.status
  split_ifs
  · exact Or.inl rfl
  · exact Or.inr rfl


/-- What the loop of `NextFromInput` leaves in `status_`: with a record to
read, OK or the end status of the input source. -/
theorem loop_status (cfg : Config) (fl : Flags) :
    ∀ (n : Nat) (st st' : State), st.valid_ = false →
      NextFromInputLoop cfg fl n st = some st' →
      st'.input_.end_status = st.input_.end_status
        ∧ (st'.valid_ = true →
            st'.status_ = Status.kOk ∨ st'.status_ = st.input_.end_status)
        ∧ (st'.status_ = st.status_ ∨ st'.status_ = Status.kOk
            ∨ st'.status_ = st.input_.end_status
            ∨ (st'.status_ = Status.kCorruption ∧ st'.valid_ = false)) := by
  intro n
  induction n with
  | zero =>
    intro st st' hv h
    simp only [NextFromInputLoop] at h
    split_ifs at h
    simp only [Option.some.injEq] at h
    subst h
    exact ⟨rfl, fun h => absurd h (by rw [hv]; simp), Or.inl rfl⟩
  | succ n ih =>
    intro st st' hv h
    by_cases hc : loopCond fl st = true
    · obtain ⟨_, hs, hne, _, _⟩ := loopCond_true hc
      obtain ⟨e, l, hl⟩ := List.exists_cons_of_ne_nil hne
      rw [loop_step cfg fl n st e l hc hl] at h
      obtain ⟨b1, b2⟩ := body_status cfg st e
      have hst := status_cases (NextFromInputBody cfg st e).1.input_
      rw [b1] at hst
      have done : (NextFromInputBody cfg st e).1 = st' →
          st'.input_.end_status = st.input_.end_status
            ∧ (st'.valid_ = true →
                st'.status_ = Status.kOk ∨ st'.status_ = st.input_.end_status)
            ∧ (st'.status_ = st.status_ ∨ st'.status_ = Status.kOk
                ∨ st'.status_ = st.input_.end_status
                ∨ (st'.status_ = Status.kCorruption ∧ st'.valid_ = false)) := by
        intro heq
        rw [heq] at b1 b2 hst
        refine ⟨b1, fun hv' => ?_, ?_⟩
        · rcases b2 with b | ⟨_, b, _⟩ | b
          · exact Or.inl (by rw [b, hs])
          · rw [hv, hv'] at b
            exact absurd b (by simp)
          · rw [b]; exact hst
        · rcases b2 with b | ⟨b, c, _⟩ | b
          · exact Or.inl b
          · exact Or.inr (Or.inr (Or.inr ⟨b, by rw [c, hv]⟩))
          · rw [b]
            rcases hst with h1 | h1
            · exact Or.inr (Or.inl h1)
            · exact Or.inr (Or.inr (Or.inl h1))
      split_ifs at h with hbrk
      · exact done (by simpa using h)
      · by_cases hvv : (NextFromInputBody cfg st e).1.valid_ = true
        · rw [loop_exit cfg fl n _ (loopCond_of_valid fl _ hvv)] at h
          exact done (by simpa using h)
        · simp only [Bool.not_eq_true] at hvv
          obtain ⟨i1, i2, i3⟩ := ih _ st' hvv h
          rw [b1] at i1 i2 i3
          refine ⟨i1, i2, ?_⟩
          rcases i3 with i | i | i | i
          · rw [i]
            rcases b2 with b | ⟨_, _, b⟩ | b
            · exact Or.inl b
            · exact absurd b (by simpa using hbrk)
            · rw [b]
              rcases hst with h1 | h1
              · exact Or.inr (Or.inl h1)
              · exact Or.inr (Or.inr (Or.inl h1))
          · exact Or.inr (Or.inl i)
          · exact Or.inr (Or.inr (Or.inl i))
          · exact Or.inr (Or.inr (Or.inr i))
    · simp only [Bool.not_eq_true] at hc
      rw [loop_exit cfg fl _ st hc] at h
      simp only [Option.some.injEq] at h
      subst h
      exact ⟨rfl, fun h => absurd h (by rw [hv]; simp), Or.inl rfl⟩

/-- What a call of `NextFromInput` leaves in `status_`. -/
theorem NextFromInput_status (cfg : Config) (fl : Flags) (st st' : State)
    (h : NextFromInput cfg fl st = some st') :
    st'.input_.end_status = st.input_.end_status
      ∧ (st'.valid_ = true →
          st'.status_ = Status.kOk ∨ st'.status_ = st.input_.end_status
            ∨ (st'.status_ = Status.kCancelTask ∧ is_canceled cfg fl = true))
      ∧ (st'.status_ = Status.kOk ∨ st'.status_ = st.input_.end_status
          ∨ (st'.status_ = st.status_ ∧ st'.valid_ = false)
          ∨ (st'.status_ = Status.kCorruption ∧ st'.valid_ = false)
          ∨ (st'.status_ = Status.kShutdownInProgress ∧ st'.valid_ = false
              ∧ (fl.shutting_down = true ∨ fl.bg_stopped = true))
          ∨ (st'.status_ = Status.kCancelTask ∧ is_canceled cfg fl = true)) := by
  unfold NextFromInput at h
  simp only [Option.map_eq_some'] at h
  obtain ⟨s, hs, hs'⟩ := h
  obtain ⟨l1, l2, l3⟩ := loop_status cfg fl _ _ s rfl hs
  simp only at l1 l2 l3
  subst hs'
  unfold afterLoop
  simp only [IsShuttingDown, is_bg_stopped]
  by_cases hsh : s.valid_ = false ∧ (fl.shutting_down = true ∨ fl.bg_stopped = true)
  · rw [if_pos hsh]
    simp only [Status.ok]
    rw [if_neg (by simp)]
    refine ⟨l1, fun hv => ?_, ?_⟩
    · rw [hsh.1] at hv; exact absurd hv (by simp)
    · exact Or.inr (Or.inr (Or.inr (Or.inr (Or.inl ⟨rfl, hsh.1, hsh.2⟩))))
  · rw [if_neg hsh]
    by_cases hcn : s.status_.ok = true ∧ is_canceled cfg fl = true
    · rw [if_pos hcn]
      exact ⟨l1, fun _ => Or.inr (Or.inr ⟨rfl, hcn.2⟩),
        Or.inr (Or.inr (Or.inr (Or.inr (Or.inr ⟨rfl, hcn.2⟩))))⟩
    · rw [if_neg hcn]
      refine ⟨l1, fun hv => ?_, ?_⟩
      · rcases l2 hv with a | a
        · exact Or.inl a
        · exact Or.inr (Or.inl a)
      · by_cases hv : s.valid_ = true
        · rcases l2 hv with a | a
          · exact Or.inl a
          · exact Or.inr (Or.inl a)
        · simp only [Bool.not_eq_true] at hv
          rcases l3 with a | a | a | a
          · exact Or.inr (Or.inr (Or.inl ⟨a, hv⟩))
          · exact Or.inl a
          · exact Or.inr (Or.inl a)
          · exact Or.inr (Or.inr (Or.inr (Or.inl a)))

theorem advance_frame (st : State) :
    st.advance.input_.end_status = st.input_.end_status
      ∧ (st.advance.status_ = st.status_ ∨ st.advance.status_ = Status.kOk
          ∨ st.advance.status_ = st.input_.end_status) := by
  unfold State.advance
  split_ifs
  · refine ⟨rfl, Or.inr ?_⟩
    exact status_cases st.input_.Next
  · exact ⟨rfl, Or.inl rfl⟩

theorem Next_advance (cfg : Config) (fl : Flags) (st : State) :
    Next cfg fl st
      = (NextFromInput cfg fl st.advance).map
          (fun s => if s.valid_ then { s with has_outputted_key_ := true } else s) := by
  rfl

/-- What a call of `Next` leaves in `status_`. -/
theorem Next_status (cfg : Config) (fl : Flags) (st st' : State)
    (h : Next cfg fl st = some st') :
    st'.input_.end_status = st.input_.end_status
      ∧ (st'.valid_ = true →
          st'.status_ = Status.kOk ∨ st'.status_ = st.input_.end_status
            ∨ (st'.status_ = Status.kCancelTask ∧ is_canceled cfg fl = true))
      ∧ (st'.status_ = Status.kOk ∨ st'.status_ = st.input_.end_status
          ∨ (st'.status_ = st.status_ ∧ st'.valid_ = false)
          ∨ (st'.status_ = Status.kCorruption ∧ st'.valid_ = false)
          ∨ (st'.status_ = Status.kShutdownInProgress ∧ st'.valid_ = false
              ∧ (fl.shutting_down = true ∨ fl.bg_stopped = true))
          ∨ (st'.status_ = Status.kCancelTask ∧ is_canceled cfg fl = true)) := by
  rw [Next_advance] at h
  simp only [Option.map_eq_some'] at h
  obtain ⟨s, hs, hs'⟩ := h
  obtain ⟨a1, a2, a3⟩ := NextFromInput_status cfg fl _ s hs
  obtain ⟨f1, f2⟩ := advance_frame st
  rw [f1] at a1 a2 a3
  have e1 : st'.status_ = s.status_ := by rw [← hs']; split_ifs <;> rfl
  have e2 : st'.valid_ = s.valid_ := by rw [← hs']; split_ifs <;> rfl
  have e3 : st'.input_ = s.input_ := by rw [← hs']; split_ifs <;> rfl
  rw [e1, e2, e3]
  refine ⟨a1, a2, ?_⟩
  rcases a3 with a | a | ⟨a, b⟩ | a | a | a
  · exact Or.inl a
  · exact Or.inr (Or.inl a)
  · rcases f2 with f | f | f
    · exact Or.inr (Or.inr (Or.inl ⟨by rw [a, f], b⟩))
    · exact Or.inl (by rw [a, f])
    · exact Or.inr (Or.inl (by rw [a, f]))
  · exact Or.inr (Or.inr (Or.inr (Or.inl a)))
  · exact Or.inr (Or.inr (Or.inr (Or.inr (Or.inl a))))
  · exact Or.inr (Or.inr (Or.inr (Or.inr (Or.inr a))))

/-- Every state the caller sees keeps the end status of the input source and
satisfies `StatusInv`. -/
theorem reachable_status (cfg : Config) (fl : Flags) (it : InternalIterator) (st : State)
    (hr : Reachable cfg fl it st) :
    st.input_.end_status = it.end_status ∧ StatusInv cfg fl it.end_status st := by
  induction hr with
  | seek st h =>
    rw [SeekToFirst_eq] at h
    obtain ⟨a1, a2, a3⟩ := NextFromInput_status cfg fl _ st h
    simp only [State.init] at a1 a2 a3
    refine ⟨a1, a2, ?_⟩
    rcases a3 with a | a | ⟨a, _⟩ | a | a | a
    · exact Or.inl a
    · exact Or.inr (Or.inl a)
    · exact Or.inl a
    · exact Or.inr (Or.inr (Or.inl a))
    · exact Or.inr (Or.inr (Or.inr (Or.inl a)))
    · exact Or.inr (Or.inr (Or.inr (Or.inr a)))
  | next st st' _ h ih =>
    obtain ⟨i1, _, i3⟩ := ih
    obtain ⟨a1, a2, a3⟩ := Next_status cfg fl st st' h
    rw [i1] at a1 a2 a3
    refine ⟨a1, a2, ?_⟩
    rcases a3 with a | a | ⟨a, b⟩ | a | a | a
    · exact Or.inl a
    · exact Or.inr (Or.inl a)
    · rw [← a] at i3
      rcases i3 with i | i | ⟨i, _⟩ | ⟨i, _, j⟩ | i
      · exact Or.inl i
      · exact Or.inr (Or.inl i)
      · exact Or.inr (Or.inr (Or.inl ⟨i, b⟩))
      · exact Or.inr (Or.inr (Or.inr (Or.inl ⟨i, b, j⟩)))
      · exact Or.inr (Or.inr (Or.inr (Or.inr i)))
    · exact Or.inr (Or.inr (Or.inl a))
    · exact Or.inr (Or.inr (Or.inr (Or.inl a)))
    · exact Or.inr (Or.inr (Or.inr (Or.inr a)))


/-! ## The cancel word -/

/-- The test of `is_canceled` on a 64-bit cancel word `w` reads bit `t` of
it. -/
theorem cancel_bit_iff (w t : Nat) (hw : w < 2 ^ 64) :
    (w &&& ((1 <<< t) % 2 ^ 64)) ≠ 0 ↔ w.testBit t = true := by
  rw [Nat.one_shiftLeft]
  by_cases ht : t < 64
  · rw [Nat.mod_eq_of_lt (Nat.pow_lt_pow_right (by decide) ht), Nat.and_two_pow]
    cases h : w.testBit t <;> simp
  · have hd : 2 ^ t % 2 ^ 64 = 0 :=
      Nat.mod_eq_zero_of_dvd (Nat.pow_dvd_pow 2 (by omega))
    have hlt : w < 2 ^ t :=
      Nat.lt_of_lt_of_le hw (Nat.pow_le_pow_right (by decide) (by omega))
    rw [hd, Nat.testBit_lt_two_pow hlt]
    simp

/-- The loop of `NextFromInput` reads the shutdown flags only. -/
theorem loop_flags_congr (cfg : Config) (fl fl2 : Flags)
    (h1 : fl.shutting_down = fl2.shutting_down) (h2 : fl.bg_stopped = fl2.bg_stopped) :
    ∀ (n : Nat) (st : State),
      NextFromInputLoop cfg fl n st = NextFromInputLoop cfg fl2 n st := by
  have hc : ∀ st, loopCond fl st = loopCond fl2 st := by
    intro st
    simp [loopCond, IsShuttingDown, is_bg_stopped, h1, h2]
  intro n
  induction n with
  | zero => intro st; simp [NextFromInputLoop, hc]
  | succ n ih =>
    intro st
    simp only [NextFromInputLoop, hc, ih]

/-- Calls under flags that agree on the shutdown flags and on `is_canceled`
return the same state. -/
theorem calls_flags_congr (cfg : Config) (fl fl2 : Flags)
    (h1 : fl.shutting_down = fl2.shutting_down) (h2 : fl.bg_stopped = fl2.bg_stopped)
    (h3 : is_canceled cfg fl = is_canceled cfg fl2) (st : State) :
    NextFromInput cfg fl st = NextFromInput cfg fl2 st
      ∧ SeekToFirst cfg fl st = SeekToFirst cfg fl2 st
      ∧ Next cfg fl st = Next cfg fl2 st := by
  have ha : ∀ s, afterLoop cfg fl s = afterLoop cfg fl2 s := by
    intro s
    simp [afterLoop, IsShuttingDown, is_bg_stopped, h1, h2, h3]
  have hn : ∀ s, NextFromInput cfg fl s = NextFromInput cfg fl2 s := by
    intro s
    unfold NextFromInput
    simp only
    rw [loop_flags_congr cfg fl fl2 h1 h2]
    cases NextFromInputLoop cfg fl2 (2 * s.input_.rest.length + 2)
      { s with at_next_ := false, valid_ := false } with
    | none => rfl
    | some x => simp [ha]
  refine ⟨hn st, ?_, ?_⟩
  · rw [SeekToFirst_eq, SeekToFirst_eq, hn]
  · rw [Next_eq, Next_eq, hn]

theorem drain_flags_congr (cfg : Config) (fl fl2 : Flags)
    (h : ∀ st, Next cfg fl st = Next cfg fl2 st) :
    ∀ (n : Nat) (st : State), drain cfg fl n st = drain cfg fl2 n st
      ∧ drainState cfg fl n st = drainState cfg fl2 n st := by
  intro n
  induction n with
  | zero => intro st; simp [drain, drainState]
  | succ n ih =>
    intro st
    simp only [drain, drainState, h]
    constructor
    · split_ifs
      · cases Next cfg fl2 st with
        | none => rfl
        | some s => simp [(ih s).1]
      · rfl
    · split_ifs
      · cases Next cfg fl2 st with
        | none => rfl
        | some s => simp [(ih s).2]
      · rfl

/-- C17: `is_canceled` is true exactly when a cancel word is supplied and its
bit `task_type` is set (the word being a 64-bit pattern). Consequently, when
that bit is clear or no word is supplied, every call returns the state it
returns without a cancel word, so that for every input the emitted records,
the statistics and the status are those of the run without a cancel word, and
over an input source that does not report it the status is never Cancelled. -/
theorem cancel_keyed_by_task_type (cfg : Config) (fl : Flags)
    (hw : ∀ w, fl.cancel_type = some w → w < 2 ^ 64) :
    (is_canceled cfg fl = true
        ↔ ∃ w, fl.cancel_type = some w ∧ w.testBit cfg.task_type = true)
      ∧ (is_canceled cfg fl = false →
          (∀ st, SeekToFirst cfg fl st = SeekToFirst cfg { fl with cancel_type := none } st
              ∧ Next cfg fl st = Next cfg { fl with cancel_type := none } st)
          ∧ (∀ input, emitted cfg fl input = emitted cfg { fl with cancel_type := none } input
              ∧ finalState cfg fl input
                  = finalState cfg { fl with cancel_type := none } input)
          ∧ (∀ it st, it.end_status ≠ Status.kCancelTask → Reachable cfg fl it st →
              st.status_ ≠ Status.kCancelTask)) := by
  constructor
  · unfold is_canceled
    cases hc : fl.cancel_type with
    | none => simp
    | some w =>
      simp only [bne_iff_ne, Option.some.injEq, exists_eq_left']
      exact cancel_bit_iff w cfg.task_type (hw w hc)
  · intro hcan
    have hcalls := calls_flags_congr cfg fl { fl with cancel_type := none } rfl rfl
      (by rw [hcan]; rfl)
    refine ⟨fun st => (hcalls st).2, fun input => ?_, ?_⟩
    · obtain hd := drain_flags_congr cfg fl { fl with cancel_type := none }
        (fun st => (hcalls st).2.2)
      unfold emitted finalState
      rw [(hcalls _).2.1]
      cases SeekToFirst cfg { fl with cancel_type := none }
        (State.init { rest := input, end_status := Status.kOk }) with
      | none => exact ⟨rfl, rfl⟩
      | some s => exact ⟨(hd _ s).1, (hd _ s).2⟩
    · intro it st he hr
      obtain ⟨_, _, i⟩ := reachable_status cfg fl it st hr
      rcases i with i | i | ⟨i, _⟩ | ⟨i, _⟩ | ⟨_, i⟩
      · rw [i]; decide
      · rw [i]; exact he
      · rw [i]; decide
      · rw [i]; decide
      · rw [hcan] at i
        exact absurd i (by simp)

/-- C17 at task type 0 with the cancel word 2, whose only bit is that of task
type 1: `is_canceled` is false, and over [Put([1],[8])@3, Put([1],[7])@2] the
run emits what it emits without a cancel word. -/
theorem cancel_keyed_by_task_type_witness :
    is_canceled (mkConfig [] 10 0 none)
        { shutting_down := false, bg_stopped := false, cancel_type := some 2 } = false
      ∧ emitted (mkConfig [] 10 0 none)
          { shutting_down := false, bg_stopped := false, cancel_type := some 2 }
          [mkPut [1] [8] 3, mkPut [1] [7] 2]
        = emitted (mkConfig [] 10 0 none)
          { shutting_down := false, bg_stopped := false, cancel_type := none }
          [mkPut [1] [8] 3, mkPut [1] [7] 2] :=
  ⟨by decide,
    (((cancel_keyed_by_task_type (mkConfig [] 10 0 none)
      { shutting_down := false, bg_stopped := false, cancel_type := some 2 }
      (by
        intro w h
        have hw : w = 2 := (Option.some.inj h).symm
        subst hw
        decide)).2 (by decide)).2.1 [mkPut [1] [8] 3, mkPut [1] [7] 2]).1⟩


/-! ## Terminal statuses -/

/-- C14, the claim as stated, fails. Over the input [SingleDelete([1])@3] of a
source that ends with an I/O error, `SeekToFirst` returns with the
SingleDelete to read (`Valid()` true) and the error as status: the lookahead
of the SingleDelete branch exhausted the input. And in strict mode over
[corrupt, Put([1],[8])@3], `SeekToFirst` returns with `Valid()` false and
status `Corruption`, after which `Next` returns with `Valid()` true, the Put
to read and status OK. -/
theorem terminal_status_counterexample :
    (SeekToFirst (mkConfig [] 10 0 none) Flags.unset
        (State.init { rest := [mkSingleDelete [1] 3], end_status := Status.kIOError })).map
          (fun s => (s.Valid, s.status_, s.current))
        = some (true, Status.kIOError, mkSingleDelete [1] 3)
      ∧ (SeekToFirst { mkConfig [] 10 0 none with expect_valid_internal_key_ := true }
          Flags.unset (State.start [mkCorrupt [9] [4], mkPut [1] [8] 3])).map
            (fun s => (s.Valid, s.status_)) = some (false, Status.kCorruption)
      ∧ ((SeekToFirst { mkConfig [] 10 0 none with expect_valid_internal_key_ := true }
          Flags.unset (State.start [mkCorrupt [9] [4], mkPut [1] [8] 3])).bind
            (Next { mkConfig [] 10 0 none with expect_valid_internal_key_ := true }
              Flags.unset)).map (fun s => (s.Valid, s.status_, s.current))
        = some (true, Status.kOk, mkPut [1] [8] 3) := by
  decide

/-- With a shutdown flag set every state the caller sees has `Valid()` false
and status `ShutdownInProgress`. -/
theorem reachable_shutdown (cfg : Config) (fl : Flags) (it : InternalIterator) (st : State)
    (h : fl.shutting_down = true ∨ fl.bg_stopped = true) (hr : Reachable cfg fl it st) :
    st.valid_ = false ∧ st.status_ = Status.kShutdownInProgress := by
  cases hr with
  | seek _ hs =>
    rw [SeekToFirst_eq, NextFromInput_shutdown cfg fl _ h] at hs
    simp only [Option.some.injEq] at hs
    rw [← hs]
    exact ⟨rfl, rfl⟩
  | next s _ _ hs =>
    rw [Next_eq, NextFromInput_shutdown cfg fl _ h] at hs
    simp only [Option.map_some', Option.some.injEq] at hs
    rw [← hs]
    split_ifs <;> exact ⟨rfl, rfl⟩

/-- C14 as amended: over an input source whose end status is neither
`Corruption` nor `ShutdownInProgress`, in every state reachable by
`SeekToFirst` and any number of `Next` calls, if `status()` is `Corruption` or
`ShutdownInProgress` then `Valid()` is false; and if it is
`ShutdownInProgress`, a shutdown flag is set and, the flags staying as they
are, every state the caller sees has `Valid()` false and that status. -/
theorem terminal_status (cfg : Config) (fl : Flags) (it : InternalIterator) (st : State)
    (hr : Reachable cfg fl it st) (he1 : it.end_status ≠ Status.kCorruption)
    (he2 : it.end_status ≠ Status.kShutdownInProgress) :
    ((st.status_ = Status.kCorruption ∨ st.status_ = Status.kShutdownInProgress) →
        st.Valid = false)
      ∧ (st.status_ = Status.kShutdownInProgress →
          (fl.shutting_down = true ∨ fl.bg_stopped = true)
            ∧ ∀ st', Reachable cfg fl it st' →
                st'.Valid = false ∧ st'.status_ = Status.kShutdownInProgress) := by
  obtain ⟨_, i1, i2⟩ := reachable_status cfg fl it st hr
  constructor
  · intro hs
    cases hv : st.valid_ with
    | false => exact hv
    | true =>
      rcases i1 hv with a | a | ⟨a, _⟩
      · rw [a] at hs; rcases hs with hs | hs <;> exact absurd hs (by decide)
      · rw [a] at hs; rcases hs with hs | hs
        · exact absurd hs he1
        · exact absurd hs he2
      · rw [a] at hs; rcases hs with hs | hs <;> exact absurd hs (by decide)
  · intro hs
    have hfl : fl.shutting_down = true ∨ fl.bg_stopped = true := by
      rcases i2 with a | a | ⟨a, _⟩ | ⟨_, _, a⟩ | ⟨a, _⟩
      · rw [a] at hs; exact absurd hs (by decide)
      · rw [a] at hs; exact absurd hs he2
      · rw [a] at hs; exact absurd hs (by decide)
      · exact a
      · rw [a] at hs; exact absurd hs (by decide)
    exact ⟨hfl, fun st' hr' => reachable_shutdown cfg fl it st' hfl hr'⟩

/-- C14 as amended at the state `SeekToFirst` returns in strict mode over
[corrupt, Put([1],[8])@3]: its status is `Corruption` and `Valid()` is
false. -/
theorem terminal_status_witness :
    ∃ st, Reachable { mkConfig [] 10 0 none with expect_valid_internal_key_ := true }
          Flags.unset { rest := [mkCorrupt [9] [4], mkPut [1] [8] 3], end_status := Status.kOk }
          st
      ∧ st.status_ = Status.kCorruption ∧ st.Valid = false := by
  obtain ⟨st, hst⟩ : ∃ st, SeekToFirst
      { mkConfig [] 10 0 none with expect_valid_internal_key_ := true } Flags.unset
      (State.init { rest := [mkCorrupt [9] [4], mkPut [1] [8] 3], end_status := Status.kOk })
        = some st := ⟨_, rfl⟩
  have hs : st.status_ = Status.kCorruption := by
    have h2 : (SeekToFirst { mkConfig [] 10 0 none with expect_valid_internal_key_ := true }
        Flags.unset (State.start [mkCorrupt [9] [4], mkPut [1] [8] 3])).map State.status_
          = some Status.kCorruption := by
      decide
    unfold State.start at h2
    rw [hst] at h2
    simpa using h2
  have hr := Reachable.seek st hst
  exact ⟨st, hr, hs,
    (terminal_status _ _ _ st hr (by decide) (by decide)).1 (Or.inl hs)⟩


/-! ## Cancellation -/

/-- Over records whose keys parse, from a source that ends without error, the
loop of `NextFromInput` ends with status OK. -/
theorem loop_parsed_status_ok (cfg : Config) (fl : Flags) (hlaw : cfg.cmp_.Lawful) :
    ∀ (n : Nat) (st st' : State), st.valid_ = false → st.at_next_ = false →
      st.status_ = Status.kOk → st.input_.end_status = Status.kOk →
      (∀ e ∈ st.input_.rest, ∃ ik, ParseInternalKey e.key = some ik) →
      NextFromInputLoop cfg fl n st = some st' → st'.status_ = Status.kOk := by
  intro n
  induction n with
  | zero =>
    intro st st' _ _ hs _ _ h
    simp only [NextFromInputLoop] at h
    split_ifs at h
    simp only [Option.some.injEq] at h
    rw [← h]; exact hs
  | succ n ih =>
    intro st st' hv han hs he hwf h
    by_cases hc : loopCond fl st = true
    · obtain ⟨_, _, hne, _, _⟩ := loopCond_true hc
      obtain ⟨e, l, hl⟩ := List.exists_cons_of_ne_nil hne
      rw [loop_step cfg fl n st e l hc hl] at h
      obtain ⟨ik, hp⟩ := hwf e (by rw [hl]; exact List.mem_cons_self _ _)
      obtain ⟨p1, p2⟩ := body_parsed_status cfg st e ik hp
      rw [he] at p2
      have hok : (NextFromInputBody cfg st e).1.status_ = Status.kOk := by
        rw [p1]
        rcases status_cases (NextFromInputBody cfg st e).1.input_ with a | a
        · exact a
        · rw [a, p2]
      obtain ⟨_, b2⟩ := body_emit cfg hlaw st e l hl hv han
      split_ifs at h
      · simp only [Option.some.injEq] at h
        rw [← h]; exact hok
      · by_cases hvv : (NextFromInputBody cfg st e).1.valid_ = true
        · rw [loop_exit cfg fl n _ (loopCond_of_valid fl _ hvv)] at h
          simp only [Option.some.injEq] at h
          rw [← h]; exact hok
        · simp only [Bool.not_eq_true] at hvv
          obtain ⟨a, b⟩ := b2 hvv
          refine ih _ st' hvv a hok p2 ?_ h
          intro x hx
          apply hwf
          rw [hl]
          rcases b with b | b | b
          · rw [b] at hx; exact hx
          · rw [b] at hx; exact List.mem_cons_of_mem _ hx
          · rw [b] at hx; exact List.mem_cons_of_mem _ (List.mem_of_mem_tail hx)
    · simp only [Bool.not_eq_true] at hc
      rw [loop_exit cfg fl _ st hc] at h
      simp only [Option.some.injEq] at h
      rw [← h]; exact hs

/-- C15, the claim as stated, fails: with the cancel bit of the task type set
before the first call (task type 0, cancel word 1) and the shutdown flags
unset, `SeekToFirst` over the input [Put([1],[8])@3] returns with status
Cancelled but `Valid()` true, the Put being readable. -/
theorem cancelled_seek_counterexample :
    is_canceled (mkConfig [] 10 0 none)
        { shutting_down := false, bg_stopped := false, cancel_type := some 1 } = true
      ∧ (SeekToFirst (mkConfig [] 10 0 none)
          { shutting_down := false, bg_stopped := false, cancel_type := some 1 }
          (State.start [mkPut [1] [8] 3])).map (fun s => (s.Valid, s.status_, s.current))
        = some (true, Status.kCancelTask, mkPut [1] [8] 3) := by
  decide

/-- C15 as amended: if the cancel bit of the task type is set before the first
call and the shutdown flags are unset, then `SeekToFirst` on any input whose
keys parse returns with status Cancelled, and otherwise in the state `s0` in
which it returns without a cancel word, whose status is OK: `Valid()` is true
exactly when a record of the input survives the first call, and that record
is readable. -/
theorem cancelled_seek (cfg : Config) (fl : Flags) (input : List Entry)
    (hlaw : cfg.cmp_.Lawful) (hcan : is_canceled cfg fl = true)
    (hf1 : fl.shutting_down = false) (hf2 : fl.bg_stopped = false)
    (hwf : ∀ e ∈ input, ∃ ik, ParseInternalKey e.key = some ik) :
    ∃ s0, SeekToFirst cfg { fl with cancel_type := none } (State.start input) = some s0
      ∧ s0.status_ = Status.kOk
      ∧ SeekToFirst cfg fl (State.start input)
          = some { s0 with status_ := Status.kCancelTask } := by
  rw [SeekToFirst_eq, SeekToFirst_eq]
  unfold NextFromInput
  simp only
  rw [loop_flags_congr cfg { fl with cancel_type := none } fl rfl rfl]
  obtain ⟨s, hs⟩ := loop_terminates cfg fl hlaw.refl
    (2 * (State.start input).input_.rest.length + 2)
    { (State.start input) with at_next_ := false, valid_ := false } rfl
    (by simp only [loopMeasure]; split_ifs <;> omega)
  have hok := loop_parsed_status_ok cfg fl hlaw _ _ s rfl rfl rfl rfl hwf hs
  rw [hs]
  refine ⟨s, ?_, hok, ?_⟩
  · simp only [Option.map_some', Option.some.injEq]
    exact afterLoop_unset cfg { fl with cancel_type := none } ⟨hf1, hf2, rfl⟩ s
  · simp only [Option.map_some', Option.some.injEq]
    unfold afterLoop
    simp [IsShuttingDown, is_bg_stopped, hf1, hf2, hok, Status.ok, hcan]

/-- C15 as amended at the input [Put([1],[8])@3] with task type 0 and cancel
word 1. -/
theorem cancelled_seek_witness :
    ∃ s0, SeekToFirst (mkConfig [] 10 0 none)
          { shutting_down := false, bg_stopped := false, cancel_type := none }
          (State.start [mkPut [1] [8] 3]) = some s0
      ∧ s0.status_ = Status.kOk
      ∧ SeekToFirst (mkConfig [] 10 0 none)
          { shutting_down := false, bg_stopped := false, cancel_type := some 1 }
          (State.start [mkPut [1] [8] 3])
          = some { s0 with status_ := Status.kCancelTask } :=
  cancelled_seek (mkConfig [] 10 0 none)
    { shutting_down := false, bg_stopped := false, cancel_type := some 1 }
    [mkPut [1] [8] 3] bytewise_lawful (by decide) rfl rfl
    (by
      intro e he
      simp only [List.mem_singleton] at he
      subst he
      exact ⟨_, rfl⟩)


/-! ## What a pass leaves for the passes after it -/

theorem matchedSuccessor_inv (cfg : Config) (hlaw : cfg.cmp_.Lawful) (uk : Slice)
    (it : InternalIterator) (nk : ParsedInternalKey)
    (h : matchedSuccessor cfg uk it = some nk) :
    ∃ nxt t, it.rest = nxt :: t ∧ ParseInternalKey nxt.key = some nk ∧ nk.user_key = uk := by
  unfold matchedSuccessor at h
  cases hr : it.rest with
  | nil => rw [hr] at h; simp at h
  | cons nxt t =>
    rw [hr] at h
    simp only at h
    cases hp : ParseInternalKey nxt.key with
    | none => rw [hp] at h; simp at h
    | some k =>
      rw [hp] at h
      simp only at h
      split_ifs at h with he
      simp only [Option.some.injEq] at h
      subst h
      exact ⟨nxt, t, rfl, hp, ((hlaw.1 _ _).mp he).symm⟩

theorem singleDeleteBranch_summary (cfg : Config) (st : State) (prev : Nat)
    (hv : st.valid_ = false) :
    (singleDeleteBranch cfg st prev).current_user_key_ = st.current_user_key_
      ∧ ((singleDeleteBranch cfg st prev).clear_and_output_next_key_ = true →
          st.clear_and_output_next_key_ = true
            ∨ ∃ nk, matchedSuccessor cfg st.ikey_.user_key st.input_.Next = some nk)
      ∧ ((singleDeleteBranch cfg st prev).valid_ = false →
          (singleDeleteBranch cfg st prev).clear_and_output_next_key_
            = st.clear_and_output_next_key_)
      ∧ ((singleDeleteBranch cfg st prev).input_.rest = st.input_.rest.tail
          ∨ ∃ nk, matchedSuccessor cfg st.ikey_.user_key st.input_.Next = some nk
              ∧ (singleDeleteBranch cfg st prev).input_.rest = st.input_.rest.tail.tail) := by
  cases hm : matchedSuccessor cfg st.ikey_.user_key st.input_.Next with
  | none =>
    rw [singleDeleteBranch_none cfg st prev hv hm]
    split_ifs <;> simp [InternalIterator.Next]
  | some nk =>
    rw [singleDeleteBranch_some cfg st prev nk hv hm]
    split_ifs <;> simp [InternalIterator.Next]

theorem applyRules_summary (cfg : Config) (st : State) (last prev : Nat)
    (hv : st.valid_ = false) :
    (applyRules cfg st last prev).current_user_key_ = st.current_user_key_
      ∧ ((applyRules cfg st last prev).clear_and_output_next_key_ = true →
          ∃ nk, matchedSuccessor cfg st.ikey_.user_key st.input_.Next = some nk)
      ∧ ((applyRules cfg st last prev).valid_ = false →
          (applyRules cfg st last prev).clear_and_output_next_key_ = false)
      ∧ ((applyRules cfg st last prev).input_.rest = st.input_.rest
          ∨ (applyRules cfg st last prev).input_.rest = st.input_.rest.tail
          ∨ ∃ nk, matchedSuccessor cfg st.ikey_.user_key st.input_.Next = some nk
              ∧ (applyRules cfg st last prev).input_.rest = st.input_.rest.tail.tail) := by
  cases hc : st.clear_and_output_next_key_ with
  | true =>
    have e : applyRules cfg st last prev
        = { st with value_ := [], valid_ := true, clear_and_output_next_key_ := false } := by
      unfold applyRules
      simp [hc]
    rw [e]
    simp
  | false =>
    by_cases ht : st.ikey_.type = ValueType.kTypeSingleDeletion
    · have e : applyRules cfg st last prev = singleDeleteBranch cfg st prev := by
        unfold applyRules
        simp [hc, ht]
      rw [e]
      obtain ⟨a, b, c, d⟩ := singleDeleteBranch_summary cfg st prev hv
      refine ⟨a, fun h => ?_, fun h => by rw [c h, hc], ?_⟩
      · rcases b h with b | b
        · rw [hc] at b; exact absurd b (by simp)
        · exact b
      · rcases d with d | d
        · exact Or.inr (Or.inl d)
        · exact Or.inr (Or.inr d)
    · rw [applyRules_plain cfg st last prev hc ht]
      split_ifs <;> simp [InternalIterator.Next, hc]

/-- A pass, merging enabled, on a record whose key parses: what it leaves in
the members the later passes read. -/
theorem body_summary (cfg : Config) (hlaw : cfg.cmp_.Lawful)
    (hbdm : cfg.background_disable_merge_ = false) (st : State) (x : Entry) (l : List Entry)
    (kx : ParsedInternalKey) (hin : st.input_.rest = x :: l) (hv : st.valid_ = false)
    (han : st.at_next_ = false) (hp : ParseInternalKey x.key = some kx) :
    (NextFromInputBody cfg st x).2 = false
      ∧ (NextFromInputBody cfg st x).1.status_ = (NextFromInputBody cfg st x).1.input_.status
      ∧ (NextFromInputBody cfg st x).1.current_user_key_ = kx.user_key
      ∧ ((NextFromInputBody cfg st x).1.valid_ = true →
          (NextFromInputBody cfg st x).1.key_ = x.key
            ∧ (NextFromInputBody cfg st x).1.pending = l)
      ∧ ((NextFromInputBody cfg st x).1.clear_and_output_next_key_ = true →
          ∃ nxt t nk, l = nxt :: t ∧ ParseInternalKey nxt.key = some nk
            ∧ nk.user_key = kx.user_key)
      ∧ ((NextFromInputBody cfg st x).1.valid_ = false →
          (NextFromInputBody cfg st x).1.at_next_ = false
            ∧ (NextFromInputBody cfg st x).1.clear_and_output_next_key_ = false
            ∧ ((NextFromInputBody cfg st x).1.input_.rest = x :: l
              ∨ (NextFromInputBody cfg st x).1.input_.rest = l
              ∨ ∃ nxt t nk, l = nxt :: t ∧ ParseInternalKey nxt.key = some nk
                  ∧ nk.user_key = kx.user_key
                  ∧ (NextFromInputBody cfg st x).1.input_.rest = t)) := by
  obtain ⟨e1, e2⟩ := body_emit cfg hlaw st x l hin hv han
  obtain ⟨s2, last, hb, g1, g2, _, _, _, g6, _, g8, _⟩ := body_rules cfg hlaw hbdm st x kx hp
  obtain ⟨a1, a2, a3, a4⟩ := applyRules_summary cfg s2 last (snapshotOf cfg kx.sequence).2
    (by rw [g2, hv])
  have hmatch : ∀ nk, matchedSuccessor cfg s2.ikey_.user_key s2.input_.Next = some nk →
      ∃ nxt t, l = nxt :: t ∧ ParseInternalKey nxt.key = some nk
        ∧ nk.user_key = kx.user_key := by
    intro nk hm
    obtain ⟨nxt, t, h1, h2, h3⟩ := matchedSuccessor_inv cfg hlaw _ _ nk hm
    refine ⟨nxt, t, ?_, h2, by rw [h3, g6]⟩
    simpa [InternalIterator.Next, g1, hin] using h1
  rw [hb] at e1 e2 ⊢
  simp only [State.syncStatus] at e1 e2 ⊢
  refine ⟨trivial, trivial, by rw [a1, g8], e1, ?_, ?_⟩
  · intro h
    obtain ⟨nk, hm⟩ := a2 h
    obtain ⟨nxt, t, h1, h2, h3⟩ := hmatch nk hm
    exact ⟨nxt, t, nk, h1, h2, h3⟩
  · intro h
    refine ⟨(e2 h).1, a3 h, ?_⟩
    rcases a4 with a | a | ⟨nk, hm, a⟩
    · exact Or.inl (by rw [a, g1, hin])
    · exact Or.inr (Or.inl (by rw [a, g1, hin]; rfl))
    · obtain ⟨nxt, t, h1, h2, h3⟩ := hmatch nk hm
      refine Or.inr (Or.inr ⟨nxt, t, nk, h1, h2, h3, ?_⟩)
      rw [a, g1, hin, h1]; rfl


/-! ## The first record of a user key -/

theorem status_of_append (it : InternalIterator) (a b : List Entry) (e : Entry)
    (h : it.rest = a ++ e :: b) : it.status = Status.kOk := by
  cases a with
  | nil => exact status_of_cons it e b h
  | cons x t => exact status_of_cons it x (t ++ e :: b) h

/-- The loop of `NextFromInput`, started before a Put that is the first record
of its user key: it ends on a record before the Put, leaving the Put still to
come, or on the Put itself. -/
theorem loop_first_put (cfg : Config) (fl : Flags) (hlaw : cfg.cmp_.Lawful)
    (hf1 : fl.shutting_down = false) (hf2 : fl.bg_stopped = false)
    (hbdm : cfg.background_disable_merge_ = false) (hpos : WatermarksPositive cfg)
    (e : Entry) (post : List Entry) (ik : ParsedInternalKey)
    (hp : ParseInternalKey e.key = some ik) (ht : ik.type = ValueType.kTypeValue) :
    ∀ (n : Nat) (st st' : State) (mid : List Entry), st.valid_ = false →
      st.at_next_ = false → st.status_ = Status.kOk → st.input_.rest = mid ++ e :: post →
      Fresh ik.user_key mid st → NextFromInputLoop cfg fl n st = some st' →
      st'.valid_ = true
        ∧ (st'.current = e
          ∨ ∃ mid', st'.pending = mid' ++ e :: post ∧ Fresh ik.user_key mid' st'
              ∧ st'.status_ = Status.kOk) := by
  intro n
  induction n with
  | zero =>
    intro st st' mid hv _ hs hin _ h
    have hc : loopCond fl st = true := by
      cases mid with
      | nil => exact loopCond_intro fl st e post hf1 hf2 hv hs hin
      | cons x t => exact loopCond_intro fl st x (t ++ e :: post) hf1 hf2 hv hs hin
    simp [NextFromInputLoop, hc] at h
  | succ n ih =>
    intro st st' mid hv han hs hin hfr h
    obtain ⟨fr1, fr2, fr3⟩ := hfr
    cases mid with
    | nil =>
      have hc : loopCond fl st = true := loopCond_intro fl st e post hf1 hf2 hv hs hin
      rw [loop_step cfg fl n st e post hc hin] at h
      have hcl : st.clear_and_output_next_key_ = false := by
        cases hh : st.clear_and_output_next_key_ with
        | false => rfl
        | true => exact absurd rfl (fr2 hh)
      obtain ⟨b1, _, _, _, _, _, _, b8, b9, _, _, b12⟩ := body_other cfg hlaw hbdm st e post
        ik 0 hin hv han hcl hp (by rw [ht]; decide)
        (by rw [if_neg]; exact fun hh => fr1 hh.1 hh.2)
      have hcp := visibilityClass_pos cfg hpos ik.sequence
      obtain ⟨_, _, c3⟩ := b12 (by omega)
      obtain ⟨_, _, d3⟩ := c3 (by rw [ht]; simp)
      have hvv : (NextFromInputBody cfg st e).1.valid_ = true := by
        rw [d3, ht]; decide
      rw [b1] at h
      simp only [Bool.false_eq_true, if_false] at h
      rw [loop_exit cfg fl n _ (loopCond_of_valid fl _ hvv)] at h
      simp only [Option.some.injEq] at h
      subst h
      refine ⟨hvv, Or.inl ?_⟩
      simp only [State.current]
      rw [b8, b9]
    | cons x mid1 =>
      have hin' : st.input_.rest = x :: (mid1 ++ e :: post) := hin
      have hc : loopCond fl st = true := loopCond_intro fl st x _ hf1 hf2 hv hs hin'
      rw [loop_step cfg fl n st x _ hc hin'] at h
      obtain ⟨kx, hpx, hkx⟩ := fr3 x (List.mem_cons_self _ _)
      obtain ⟨s1, s2, s3, s4, s5, s6⟩ := body_summary cfg hlaw hbdm st x _ kx hin' hv han hpx
      have hmem : ∀ y ∈ mid1, ∃ ky, ParseInternalKey y.key = some ky
          ∧ ky.user_key ≠ ik.user_key := fun y hy => fr3 y (List.mem_cons_of_mem _ hy)
      have hnot : ∀ nxt t nk, mid1 ++ e :: post = nxt :: t →
          ParseInternalKey nxt.key = some nk → nk.user_key = kx.user_key →
          ∃ mid2, mid1 = nxt :: mid2 ∧ t = mid2 ++ e :: post := by
        intro nxt t nk h1 h2 h3
        cases mid1 with
        | nil =>
          simp only [List.nil_append, List.cons.injEq] at h1
          rw [← h1.1, hp] at h2
          simp only [Option.some.injEq] at h2
          rw [← h2] at h3
          exact absurd h3.symm hkx
        | cons y mid2 =>
          simp only [List.cons_append, List.cons.injEq] at h1
          exact ⟨mid2, by rw [h1.1], h1.2.symm⟩
      rw [s1] at h
      simp only [Bool.false_eq_true, if_false] at h
      by_cases hvv : (NextFromInputBody cfg st x).1.valid_ = true
      · rw [loop_exit cfg fl n _ (loopCond_of_valid fl _ hvv)] at h
        simp only [Option.some.injEq] at h
        subst h
        obtain ⟨_, hpend⟩ := s4 hvv
        refine ⟨hvv, Or.inr ⟨mid1, hpend, ⟨fun _ => by rw [s3]; exact hkx, ?_, hmem⟩, ?_⟩⟩
        · intro hcl
          obtain ⟨nxt, t, nk, h1, h2, h3⟩ := s5 hcl
          obtain ⟨mid2, h4, _⟩ := hnot nxt t nk h1 h2 h3
          rw [h4]; simp
        · rw [s2]
          unfold State.pending at hpend
          split_ifs at hpend
          · exact status_of_append _ mid1 post e hpend
          · cases hr : (NextFromInputBody cfg st x).1.input_.rest with
            | nil => rw [hr] at hpend; simp at hpend
            | cons a b => exact status_of_cons _ a b hr
      · simp only [Bool.not_eq_true] at hvv
        obtain ⟨t1, t2, t3⟩ := s6 hvv
        have hcur : (NextFromInputBody cfg st x).1.has_current_user_key_ = true →
            (NextFromInputBody cfg st x).1.current_user_key_ ≠ ik.user_key :=
          fun _ => by rw [s3]; exact hkx
        have hclr : (NextFromInputBody cfg st x).1.clear_and_output_next_key_ = true →
            ∀ m : List Entry, m ≠ [] := by
          intro hh; rw [t2] at hh; exact absurd hh (by simp)
        rcases t3 with t | t | ⟨nxt, t, nk, h1, h2, h3, h4⟩
        · exact ih _ st' (x :: mid1) hvv t1 (by rw [s2]; exact status_of_cons _ x _ t) t
            ⟨hcur, fun hh => hclr hh _, fr3⟩ h
        · exact ih _ st' mid1 hvv t1 (by rw [s2]; exact status_of_append _ mid1 post e t) t
            ⟨hcur, fun hh => hclr hh _, hmem⟩ h
        · obtain ⟨mid2, h5, h6⟩ := hnot nxt t nk h1 h2 h3
          rw [h6] at h4
          exact ih _ st' mid2 hvv t1 (by rw [s2]; exact status_of_append _ mid2 post e h4) h4
            ⟨hcur, fun hh => hclr hh _,
              fun y hy => hmem y (by rw [h5]; exact List.mem_cons_of_mem _ hy)⟩ h

theorem NextFromInput_first_put (cfg : Config) (fl : Flags) (hlaw : cfg.cmp_.Lawful)
    (hfl : FlagsUnset cfg fl) (hbdm : cfg.background_disable_merge_ = false)
    (hpos : WatermarksPositive cfg) (e : Entry) (post : List Entry) (ik : ParsedInternalKey)
    (hp : ParseInternalKey e.key = some ik) (ht : ik.type = ValueType.kTypeValue)
    (st : State) (mid : List Entry) (hs : st.status_ = Status.kOk)
    (hin : st.input_.rest = mid ++ e :: post) (hfr : Fresh ik.user_key mid st) :
    ∃ st', NextFromInput cfg fl st = some st' ∧ st'.valid_ = true
      ∧ (st'.current = e
        ∨ ∃ mid', st'.pending = mid' ++ e :: post ∧ Fresh ik.user_key mid' st'
            ∧ st'.status_ = Status.kOk) := by
  obtain ⟨st', h⟩ := NextFromInput_total cfg fl hlaw.refl st
  refine ⟨st', h, ?_⟩
  unfold NextFromInput at h
  simp only [Option.map_eq_some'] at h
  obtain ⟨s, h1, h2⟩ := h
  rw [afterLoop_unset cfg fl hfl] at h2
  subst h2
  exact loop_first_put cfg fl hlaw hfl.1 hfl.2.1 hbdm hpos e post ik hp ht _ st.enterLoop s mid
    rfl rfl hs hin hfr h1

theorem Next_first_put (cfg : Config) (fl : Flags) (hlaw : cfg.cmp_.Lawful)
    (hfl : FlagsUnset cfg fl) (hbdm : cfg.background_disable_merge_ = false)
    (hpos : WatermarksPositive cfg) (e : Entry) (post : List Entry) (ik : ParsedInternalKey)
    (hp : ParseInternalKey e.key = some ik) (ht : ik.type = ValueType.kTypeValue)
    (st : State) (mid : List Entry) (hs : st.status_ = Status.kOk)
    (hin : st.pending = mid ++ e :: post) (hfr : Fresh ik.user_key mid st) :
    ∃ st', Next cfg fl st = some st' ∧ st'.valid_ = true
      ∧ (st'.current = e
        ∨ ∃ mid', st'.pending = mid' ++ e :: post ∧ Fresh ik.user_key mid' st'
            ∧ st'.status_ = Status.kOk) := by
  have hadv : st.advance.input_.rest = mid ++ e :: post
      ∧ st.advance.status_ = Status.kOk ∧ Fresh ik.user_key mid st.advance := by
    unfold State.pending at hin
    unfold State.advance
    by_cases han : st.at_next_ = true
    · rw [if_pos han] at hin
      rw [if_neg (by rw [han]; simp)]
      exact ⟨hin, hs, hfr⟩
    · simp only [Bool.not_eq_true] at han
      rw [if_neg (by rw [han]; simp)] at hin
      rw [if_pos han]
      exact ⟨hin, status_of_append _ mid post e hin, hfr⟩
  obtain ⟨s, h1, h2, h3⟩ := NextFromInput_first_put cfg fl hlaw hfl hbdm hpos e post ik hp ht
    st.advance mid hadv.2.1 hadv.1 hadv.2.2
  rw [Next_advance, h1]
  refine ⟨_, rfl, ?_⟩
  simp only
  split_ifs
  refine ⟨h2, ?_⟩
  rcases h3 with h3 | ⟨mid', a, b, c⟩
  · exact Or.inl h3
  · exact Or.inr ⟨mid', a, b, c⟩

theorem drain_head (cfg : Config) (fl : Flags) (n : Nat) (st : State) (out : List Entry)
    (hv : st.valid_ = true) (h : drain cfg fl n st = some out) : st.current ∈ out := by
  cases n with
  | zero => simp [drain, State.Valid, hv] at h
  | succ n =>
    simp only [drain, State.Valid, hv, if_true] at h
    cases hn : Next cfg fl st with
    | none => rw [hn] at h; simp at h
    | some s =>
      rw [hn] at h
      simp only [Option.map_eq_some'] at h
      obtain ⟨o, _, ho⟩ := h
      rw [← ho]
      exact List.mem_cons_self _ _

theorem drain_first_put (cfg : Config) (fl : Flags) (hlaw : cfg.cmp_.Lawful)
    (hfl : FlagsUnset cfg fl) (hbdm : cfg.background_disable_merge_ = false)
    (hpos : WatermarksPositive cfg) (e : Entry) (post : List Entry) (ik : ParsedInternalKey)
    (hp : ParseInternalKey e.key = some ik) (ht : ik.type = ValueType.kTypeValue) :
    ∀ (n : Nat) (st : State) (mid : List Entry), st.valid_ = true →
      st.status_ = Status.kOk → st.pending = mid ++ e :: post → Fresh ik.user_key mid st →
      st.pending.length < n → ∃ out, drain cfg fl n st = some out ∧ e ∈ out := by
  intro n
  induction n with
  | zero => intro st mid _ _ _ _ h; omega
  | succ n ih =>
    intro st mid hv hs hin hfr hlen
    obtain ⟨st', h1, h2, h3⟩ := Next_first_put cfg fl hlaw hfl hbdm hpos e post ik hp ht st mid
      hs hin hfr
    obtain ⟨pre, e', hpe, _⟩ := Next_emit cfg fl hlaw st st' h1 h2
    have hlen' : st'.pending.length < n := by
      have := congrArg List.length hpe
      simp at this
      omega
    have hd : drain cfg fl (n + 1) st = (drain cfg fl n st').map (fun o => st.current :: o) := by
      simp [drain, State.Valid, hv, h1]
    rw [hd]
    rcases h3 with h3 | ⟨mid', a, b, c⟩
    · obtain ⟨out, ho, _⟩ := drain_sublist cfg fl hlaw n st' hlen'
      have := drain_head cfg fl n st' out h2 ho
      rw [h3] at this
      exact ⟨st.current :: out, by rw [ho]; rfl, List.mem_cons_of_mem _ this⟩
    · obtain ⟨out, ho, hm⟩ := ih st' mid' h2 c a b hlen'
      exact ⟨st.current :: out, by rw [ho]; rfl, List.mem_cons_of_mem _ hm⟩

/-- C19, the claim as stated, fails: with an empty snapshot set and
`last_sequence` 0, over the input [Put([1],[7])@0] the Put, the first record
of its user key, is not emitted: its visibility class is 0, the value that
`current_user_key_snapshot_` takes for a new user key, so the hidden branch
drops it. -/
theorem first_put_counterexample :
    emitted (mkConfig [] 0 0 none) Flags.unset [mkPut [1] [7] 0] = some []
      ∧ (finalState (mkConfig [] 0 0 none) Flags.unset [mkPut [1] [7] 0]).map
          (fun s => s.iter_stats_.num_record_drop_hidden) = some 1 := by
  decide

/-- C19 as amended: with positive watermarks (a positive `last_sequence` when
the snapshot set is empty), for every snapshot set and every input (flags
unset, merging enabled), a Put that is the first record of its user key, the
keys of the records before it parsing and being other user keys, is emitted
with its value. -/
theorem first_put_emitted (cfg : Config) (fl : Flags) (pre post : List Entry) (e : Entry)
    (ik : ParsedInternalKey) (hlaw : cfg.cmp_.Lawful) (hfl : FlagsUnset cfg fl)
    (hbdm : cfg.background_disable_merge_ = false) (hpos : WatermarksPositive cfg)
    (hp : ParseInternalKey e.key = some ik) (ht : ik.type = ValueType.kTypeValue)
    (hpre : ∀ x ∈ pre, ∃ kx, ParseInternalKey x.key = some kx
      ∧ kx.user_key ≠ ik.user_key) :
    ∃ out, emitted cfg fl (pre ++ e :: post) = some out ∧ e ∈ out := by
  unfold emitted
  rw [SeekToFirst_eq]
  obtain ⟨st1, h1, h2, h3⟩ := NextFromInput_first_put cfg fl hlaw hfl hbdm hpos e post ik hp ht
    (State.init { rest := pre ++ e :: post, end_status := Status.kOk }) pre rfl rfl
    ⟨fun h => absurd h (by simp [State.init]), fun h => absurd h (by simp [State.init]), hpre⟩
  rw [h1]
  simp only
  obtain ⟨p, e', hpe, _⟩ := NextFromInput_emit cfg fl hlaw _ st1 h1 h2
  have hlen : st1.pending.length < (pre ++ e :: post).length + 1 := by
    have := congrArg List.length hpe
    simp [State.init] at this ⊢
    omega
  rcases h3 with h3 | ⟨mid', a, b, c⟩
  · obtain ⟨out, ho, _⟩ := drain_sublist cfg fl hlaw _ st1 hlen
    have := drain_head cfg fl _ st1 out h2 ho
    rw [h3] at this
    exact ⟨out, ho, this⟩
  · exact drain_first_put cfg fl hlaw hfl hbdm hpos e post ik hp ht _ st1 mid' h2 c a b hlen

/-- C19 as amended at the input [SingleDelete([1])@5, Put([2],[7])@3] with
snapshot set {4}: the Put, first record of user key [2], is emitted. -/
theorem first_put_emitted_witness :
    ∃ out, emitted (mkConfig [4] 10 0 none) Flags.unset
        ([mkSingleDelete [1] 5] ++ mkPut [2] [7] 3 :: []) = some out
      ∧ mkPut [2] [7] 3 ∈ out :=
  first_put_emitted (mkConfig [4] 10 0 none) Flags.unset [mkSingleDelete [1] 5] []
    (mkPut [2] [7] 3) { user_key := [2], sequence := 3, type := ValueType.kTypeValue }
    bytewise_lawful ⟨rfl, rfl, rfl⟩ rfl
    ⟨by intro w hw; simp [mkConfig] at hw; omega, by intro h; simp [mkConfig] at h⟩ rfl rfl
    (by
      intro x hx
      simp only [List.mem_singleton] at hx
      subst hx
      exact ⟨_, rfl, by decide⟩)


/-! ## Monotonicity of the snapshot search -/

theorem fevs_mono (snapshots : List Nat) (a b : Nat) (hne : snapshots ≠ [])
    (hasc : SnapshotsAscending snapshots) (hab : a ≤ b) (hb : b ≤ kMaxSequenceNumber) :
    (findEarliestVisibleSnapshot snapshots a).1 ≤ (findEarliestVisibleSnapshot snapshots b).1
      ∧ (findEarliestVisibleSnapshot snapshots a).2
          ≤ (findEarliestVisibleSnapshot snapshots b).2 := by
  obtain ⟨a1, a2, a3, a4⟩ :=
    findEarliestVisibleSnapshot_spec_aux snapshots a hne hasc (by omega)
  obtain ⟨b1, b2, b3, b4⟩ := findEarliestVisibleSnapshot_spec_aux snapshots b hne hasc hb
  constructor
  · by_cases hex : ∃ w ∈ snapshots, b ≤ w
    · obtain ⟨m1, m2, _⟩ := b1 hex
      exact (a1 ⟨_, m1, by omega⟩).2.2 _ m1 (by omega)
    · have hall : ∀ w ∈ snapshots, w < b := by
        intro w hw
        by_contra hn
        exact hex ⟨w, hw, by omega⟩
      rw [b2 hall]
      by_cases hexa : ∃ w ∈ snapshots, a ≤ w
      · have := hall _ (a1 hexa).1
        omega
      · have halla : ∀ w ∈ snapshots, w < a := by
          intro w hw
          by_contra hn
          exact hexa ⟨w, hw, by omega⟩
        rw [a2 halla]
  · by_cases hex : ∃ w ∈ snapshots, w < a
    · obtain ⟨m1, m2, _⟩ := a3 hex
      exact (b3 ⟨_, m1, by omega⟩).2.2 _ m1 (by omega)
    · have hall : ∀ w ∈ snapshots, a ≤ w := by
        intro w hw
        by_contra hn
        exact hex ⟨w, hw, by omega⟩
      rw [a4 hall]
      exact Nat.zero_le _

/-- C30: for every non-empty ascending snapshot list and all sequence numbers
a <= b (b a sequence number, at most `kMaxSequenceNumber`), the snapshot
search is monotone in both results: the earliest visible snapshot of `a` is at
most that of `b`, and the previous snapshot computed for `a` is at most the one
computed for `b`. So along descending sequences the class never increases, and
records of equal class are contiguous: a sequence between two sequences of one
class is in that class. -/
theorem visibility_monotone (snapshots : List Nat) (a b : Nat) (hne : snapshots ≠ [])
    (hasc : SnapshotsAscending snapshots) (hab : a ≤ b) (hb : b ≤ kMaxSequenceNumber) :
    (findEarliestVisibleSnapshot snapshots a).1 ≤ (findEarliestVisibleSnapshot snapshots b).1
      ∧ (findEarliestVisibleSnapshot snapshots a).2
          ≤ (findEarliestVisibleSnapshot snapshots b).2
      ∧ ∀ c, a ≤ c → c ≤ b →
          (findEarliestVisibleSnapshot snapshots a).1
            = (findEarliestVisibleSnapshot snapshots b).1 →
          (findEarliestVisibleSnapshot snapshots c).1
            = (findEarliestVisibleSnapshot snapshots a).1 := by
  obtain ⟨m1, m2⟩ := fevs_mono snapshots a b hne hasc hab hb
  refine ⟨m1, m2, ?_⟩
  intro c hac hcb heq
  have h1 := (fevs_mono snapshots a c hne hasc hac (by omega)).1
  have h2 := (fevs_mono snapshots c b hne hasc hcb hb).1
  omega

/-- C30 at the snapshot list [2, 5] and the sequences 3 <= 7. -/
theorem visibility_monotone_witness :
    (findEarliestVisibleSnapshot [2, 5] 3).1 ≤ (findEarliestVisibleSnapshot [2, 5] 7).1
      ∧ (findEarliestVisibleSnapshot [2, 5] 3).2 ≤ (findEarliestVisibleSnapshot [2, 5] 7).2 :=
  have h := visibility_monotone [2, 5] 3 7 (by simp) (by simp [SnapshotsAscending])
    (by decide) (by decide)
  ⟨h.1, h.2.1⟩


/-! ## The pass that sets the deferred-output flag -/

theorem not_unmatched (ik : ParsedInternalKey) (l : List Entry) (h : ¬ Unmatched ik l) :
    ∃ nxt t nk, l = nxt :: t ∧ ParseInternalKey nxt.key = some nk
      ∧ nk.user_key = ik.user_key := by
  unfold Unmatched at h
  cases l with
  | nil => exact absurd trivial h
  | cons nxt t =>
    simp only at h
    cases hp : ParseInternalKey nxt.key with
    | none => rw [hp] at h; exact absurd trivial h
    | some nk =>
      rw [hp] at h
      simp only [ne_eq, not_not] at h
      exact ⟨nxt, t, nk, rfl, hp, h⟩

/-- A pass, merging enabled, that leaves the deferred-output flag set: it ran
on a SingleDelete whose successor has its user key, is not a SingleDelete and
passed the same-class test, and which could not be dropped with it. -/
theorem body_sets_clear (cfg : Config) (hlaw : cfg.cmp_.Lawful)
    (hbdm : cfg.background_disable_merge_ = false) (st : State) (e : Entry) (l : List Entry)
    (ik : ParsedInternalKey) (hin : st.input_.rest = e :: l) (hv : st.valid_ = false)
    (han : st.at_next_ = false) (hp : ParseInternalKey e.key = some ik)
    (hset : (NextFromInputBody cfg st e).1.clear_and_output_next_key_ = true) :
    st.clear_and_output_next_key_ = false ∧ ik.type = ValueType.kTypeSingleDeletion
      ∧ ∃ nxt t nk, l = nxt :: t ∧ ParseInternalKey nxt.key = some nk
          ∧ nk.user_key = ik.user_key ∧ nk.type ≠ ValueType.kTypeSingleDeletion
          ∧ ((snapshotOf cfg ik.sequence).2 = 0
              ∨ nk.sequence > (snapshotOf cfg ik.sequence).2)
          ∧ ¬ (ik.sequence ≤ cfg.earliest_write_conflict_snapshot_
              ∨ outputtedFor st ik.user_key = true)
          ∧ (NextFromInputBody cfg st e).1.valid_ = true
          ∧ (NextFromInputBody cfg st e).1.at_next_ = true
          ∧ (NextFromInputBody cfg st e).1.input_.rest = nxt :: t
          ∧ (NextFromInputBody cfg st e).1.has_current_user_key_ = true
          ∧ (NextFromInputBody cfg st e).1.current_user_key_ = ik.user_key
          ∧ (NextFromInputBody cfg st e).1.current_user_key_snapshot_
              = visibilityClass cfg ik.sequence
          ∧ (NextFromInputBody cfg st e).1.status_ = Status.kOk := by
  cases hc : st.clear_and_output_next_key_ with
  | true =>
    obtain ⟨_, _, _, c4, _⟩ := body_clear cfg hlaw hbdm st e ik hp hc
    rw [c4] at hset
    exact absurd hset (by simp)
  | false =>
    by_cases ht : ik.type = ValueType.kTypeSingleDeletion
    · refine ⟨rfl, ht, ?_⟩
      by_cases hun : Unmatched ik l
      · obtain ⟨_, _, _, _, _, c6, _⟩ := body_sd_unmatched cfg hlaw hbdm st e l ik hin hv han hc
          hp ht hun
        rw [c6] at hset
        exact absurd hset (by simp)
      · obtain ⟨nxt, t, nk, h1, h2, h3⟩ := not_unmatched ik l hun
        subst h1
        by_cases htest : (snapshotOf cfg ik.sequence).2 = 0
            ∨ nk.sequence > (snapshotOf cfg ik.sequence).2
        · by_cases hnt : nk.type = ValueType.kTypeSingleDeletion
          · obtain ⟨_, _, _, _, c5, _⟩ := body_sd_double cfg hlaw hbdm st e nxt t ik nk hin hv
              han hc hp ht h2 h3 hnt htest
            rw [c5] at hset
            exact absurd hset (by simp)
          · obtain ⟨_, _, _, c4, c5, c6, c7, c8⟩ := body_sd_matched cfg hlaw hbdm st e nxt t ik
              nk hin hv han hc hp ht h2 h3 hnt htest
            by_cases hd : ik.sequence ≤ cfg.earliest_write_conflict_snapshot_
                ∨ outputtedFor st ik.user_key = true
            · obtain ⟨_, _, _, d4, _⟩ := c7 hd
              rw [d4] at hset
              exact absurd hset (by simp)
            · obtain ⟨d1, d2, d3, _, d5⟩ := c8 hd
              exact ⟨nxt, t, nk, rfl, h2, h3, hnt, htest, hd, d1, d2, d3, c4, c5, c6, d5⟩
        · obtain ⟨_, _, _, _, _, _, _, _, _, c10, _⟩ := body_sd_older cfg hlaw hbdm st e nxt t ik
            nk hin hv hc hp ht h2 h3 htest
          rw [c10] at hset
          exact absurd hset (by simp)
    · obtain ⟨_, _, c3, _⟩ := body_other cfg hlaw hbdm st e l ik _ hin hv han hc hp ht rfl
      rw [c3] at hset
      exact absurd hset (by simp)

/-- The assertions of the deferred-output branch in a pass on a record that
continues the current user key. -/
theorem deferredAsserts_same (cfg : Config) (hlaw : cfg.cmp_.Lawful) (st : State)
    (nk : ParsedInternalKey) (h1 : st.has_current_user_key_ = true)
    (h2 : st.current_user_key_ = nk.user_key) :
    deferredAsserts cfg st nk
      = (decide (nk.type = ValueType.kTypeValue ∨ ValueType.kTypeValueLarge = nk.type),
         decide (visibilityClass cfg nk.sequence = st.current_user_key_snapshot_)) := by
  have he : cfg.cmp_.Equal nk.user_key st.current_user_key_ = true := by
    rw [h2]; exact hlaw.refl _
  obtain ⟨a, _, _⟩ := updateCurrentKey_same cfg st nk h1 he
  obtain ⟨b1, b2⟩ := updateCurrentKey_sequence cfg st nk
  simp only [deferredAsserts, a, b1, b2, visibilityClass]

/-- The same-class test fails exactly when a watermark separates the two
sequences. -/
theorem same_class_test_iff_none (cfg : Config) (hasc : SnapshotsAscending cfg.snapshots_)
    (hpos : ∀ w ∈ cfg.snapshots_, 0 < w) (a b : Nat) (hab : a ≤ b)
    (hb : b ≤ kMaxSequenceNumber) :
    visibilityClass cfg a = visibilityClass cfg b
      ↔ ¬ ∃ w ∈ cfg.snapshots_, a ≤ w ∧ w < b := by
  rw [← same_class_iff cfg hasc hpos a b hab hb]
  rcases prev_snapshot_cases cfg hasc b hb with ⟨p0, hh⟩ | ⟨p1, p2, p3⟩
  · simp only [p0, true_or, true_iff]
    rintro ⟨w, hw, _, h2⟩
    rcases hh with hh | hh
    · rw [hh] at hw; simp at hw
    · have := hh w hw
      omega
  · have := hpos _ p1
    constructor
    · rintro (h | h)
      · omega
      · rintro ⟨w, hw, h1, h2⟩
        have := p3 w hw h2
        omega
    · intro h
      right
      by_contra hn
      exact h ⟨_, p1, by omega, p2⟩

/-- C21: for every ascending list of positive watermarks and all sequence
numbers next <= cur (cur a sequence number, at most `kMaxSequenceNumber`),
with prev the previous snapshot computed for cur, the test `prev == 0 || next >
prev` holds if and only if next and cur have the same earliest visible
snapshot, that is if and only if no watermark w satisfies next <= w < cur.
Hence, whenever a pass of the loop (merging enabled) leaves the
deferred-output flag set, the record under the input has the user key of the
SingleDelete, and if its sequence is at most that of the SingleDelete (sorted
input), the assertion `current_user_key_snapshot_ == last_snapshot` holds in
the pass that the following `Next` runs on it. -/
theorem same_class_test_is_class_equality (cfg : Config) (hlaw : cfg.cmp_.Lawful)
    (hbdm : cfg.background_disable_merge_ = false)
    (hasc : SnapshotsAscending cfg.snapshots_) (hpos : ∀ w ∈ cfg.snapshots_, 0 < w) :
    (∀ next cur : Nat, next ≤ cur → cur ≤ kMaxSequenceNumber →
        (((snapshotOf cfg cur).2 = 0 ∨ next > (snapshotOf cfg cur).2)
            ↔ visibilityClass cfg next = visibilityClass cfg cur)
          ∧ (visibilityClass cfg next = visibilityClass cfg cur
            ↔ ¬ ∃ w ∈ cfg.snapshots_, next ≤ w ∧ w < cur))
      ∧ (∀ (st : State) (e : Entry) (l : List Entry) (ik : ParsedInternalKey),
          st.input_.rest = e :: l → st.valid_ = false → st.at_next_ = false →
          ParseInternalKey e.key = some ik →
          (NextFromInputBody cfg st e).1.clear_and_output_next_key_ = true →
          ∃ nxt t nk, l = nxt :: t ∧ ParseInternalKey nxt.key = some nk
            ∧ nk.user_key = ik.user_key
            ∧ (NextFromInputBody cfg st e).1.input_.rest = nxt :: t
            ∧ (nk.sequence ≤ ik.sequence → ik.sequence ≤ kMaxSequenceNumber →
                ∀ b : Bool,
                  (deferredAsserts cfg
                    ({ (NextFromInputBody cfg st e).1 with
                        has_outputted_key_ := b } : State).advance.enterLoop nk).2
                    = true)) := by
  constructor
  · intro next cur h1 h2
    exact ⟨same_class_iff cfg hasc hpos next cur h1 h2,
      same_class_test_iff_none cfg hasc hpos next cur h1 h2⟩
  · intro st e l ik hin hv han hp hset
    obtain ⟨_, _, nxt, t, nk, h1, h2, h3, _, h5, _, _, h8, h9, h10, h11, h12, _⟩ :=
      body_sets_clear cfg hlaw hbdm st e l ik hin hv han hp hset
    refine ⟨nxt, t, nk, h1, h2, h3, h9, ?_⟩
    intro hseq hmax b
    have hcls := (same_class_iff cfg hasc hpos nk.sequence ik.sequence hseq hmax).mp h5
    generalize (NextFromInputBody cfg st e).1 = r at *
    have e1 : ({ r with has_outputted_key_ := b } : State).advance.enterLoop.has_current_user_key_
        = true := by
      simp [State.advance, State.enterLoop, h8, h10]
    have e2 : ({ r with has_outputted_key_ := b } : State).advance.enterLoop.current_user_key_
        = nk.user_key := by
      simp [State.advance, State.enterLoop, h8, h11, h3]
    have e3 : ({ r with has_outputted_key_ := b }
        : State).advance.enterLoop.current_user_key_snapshot_
          = visibilityClass cfg ik.sequence := by
      simp [State.advance, State.enterLoop, h8, h12]
    rw [deferredAsserts_same cfg hlaw _ nk e1 e2, e3]
    simp [hcls]

/-- C21 at the snapshot list [4] and the sequences 2 <= 3: the test holds and
the classes are equal. -/
theorem same_class_test_is_class_equality_witness :
    (((snapshotOf (mkConfig [4] 10 0 none) 3).2 = 0
        ∨ 2 > (snapshotOf (mkConfig [4] 10 0 none) 3).2)
      ↔ visibilityClass (mkConfig [4] 10 0 none) 2
          = visibilityClass (mkConfig [4] 10 0 none) 3) :=
  ((same_class_test_is_class_equality (mkConfig [4] 10 0 none) bytewise_lawful rfl
    (mkConfig_ascending_single 4 10 0 none)
    (by intro w hw; simp [mkConfig] at hw; omega)).1 2 3 (by decide) (by decide)).1


/-! ## The type assertion of the deferred-output branch -/

/-- C22: over the sorted input [SingleDelete([1])@5, Delete([1])@3], whose
keys parse, with an empty snapshot set, `last_sequence` 10,
`earliest_write_conflict_snapshot` 0 and merging enabled, the first call
returns with the deferred-output flag set and the input on the Delete, and the
type assertion of the deferred-output branch is false in the pass that the
next call runs on it: the record emitted by that branch is the Delete, not a
Put or LargeValuePut. -/
theorem deferred_type_assertion_fails :
    (NextFromInput (mkConfig [] 10 0 none) Flags.unset
        (State.start [mkSingleDelete [1] 5, mkDelete [1] 3])).map
        (fun s => (s.valid_, s.clear_and_output_next_key_, s.input_.rest,
          (deferredAsserts (mkConfig [] 10 0 none) s.advance.enterLoop
            { user_key := [1], sequence := 3, type := ValueType.kTypeDeletion }).1))
        = some (true, true, [mkDelete [1] 3], false)
      ∧ emitted (mkConfig [] 10 0 none) Flags.unset [mkSingleDelete [1] 5, mkDelete [1] 3]
          = some [mkSingleDelete [1] 5, mkDelete [1] 3]
      ∧ InputSorted (mkConfig [] 10 0 none).cmp_ [mkSingleDelete [1] 5, mkDelete [1] 3] := by
  refine ⟨by decide, by decide, ?_⟩
  simp [InputSorted, keyOrder, ikOrder, mkSingleDelete, mkDelete, ParseInternalKey, mkConfig,
    BytewiseComparator, bytewiseCompare]

/-! ## Precedence of the hidden rule -/

theorem applyRules_value (cfg : Config) (st : State) (last prev : Nat)
    (hv : st.valid_ = false) (han : st.at_next_ = false) :
    (applyRules cfg st last prev).value_
      = if st.clear_and_output_next_key_ then [] else st.value_ := by
  unfold applyRules
  split_ifs <;> try rfl
  exact (singleDeleteBranch_frame cfg st prev hv han).2.1

/-- The value a pass of the loop leaves: the value of the record under the
input, except in the deferred-output branch, which clears it. -/
theorem body_value (cfg : Config) (st : State) (e : Entry) (hv : st.valid_ = false)
    (han : st.at_next_ = false) :
    (NextFromInputBody cfg st e).1.value_ = e.value
      ∨ (st.clear_and_output_next_key_ = true ∧ cfg.background_disable_merge_ = false
          ∧ (∃ ik, ParseInternalKey e.key = some ik)
          ∧ (NextFromInputBody cfg st e).1.value_ = []
          ∧ (NextFromInputBody cfg st e).1.valid_ = true) := by
  cases hp : ParseInternalKey e.key with
  | none =>
    left
    simp only [NextFromInputBody, hp]
    split_ifs <;> rfl
  | some ik =>
    simp only [NextFromInputBody, hp, processParsed]
    split_ifs with hb
    · left
      simp [(updateCurrentKey_frame cfg _ ik).2.2.2.2.1]
    · simp only
      obtain ⟨f1, f2, f3, _, f5, f6, _⟩ := updateCurrentKey_frame cfg { st with key_ := e.key, value_ := e.value, iter_stats_ := inputStats { st.iter_stats_ with num_input_records := st.iter_stats_.num_input_records + 1 } ik e.key e.value } ik
      generalize updateCurrentKey cfg { st with key_ := e.key, value_ := e.value, iter_stats_ := inputStats { st.iter_stats_ with num_input_records := st.iter_stats_.num_input_records + 1 } ik e.key e.value } ik = s1 at *
      simp only at f2 f3 f5 f6
      rw [applyRules_value cfg _ _ _ (by simp [f2, hv]) (by simp [f3, han])]
      simp only [f6, f5]
      cases hc : st.clear_and_output_next_key_ with
      | false => left; simp
      | true =>
        right
        refine ⟨rfl, by simpa using hb, ⟨ik, rfl⟩, by simp, ?_⟩
        unfold applyRules
        simp [f6, hc]

theorem processParsed_invalid_clear (cfg : Config) (s0 : State) (ik : ParsedInternalKey)
    (hv : s0.valid_ = false)
    (hr : (processParsed cfg s0 ik).1.valid_ = false) :
    (processParsed cfg s0 ik).1.clear_and_output_next_key_ = false := by
  obtain ⟨_, f2, _⟩ := updateCurrentKey_frame cfg s0 ik
  unfold processParsed at hr ⊢
  simp only at hr ⊢
  generalize updateCurrentKey cfg s0 ik = s1 at *
  split_ifs at hr ⊢ with hb
  simp only at hr ⊢
  exact (applyRules_summary cfg _ _ _ (by simp [f2, hv])).2.2.1 hr

theorem body_invalid_clear (cfg : Config) (st : State) (e : Entry) (hv : st.valid_ = false)
    (hc : st.clear_and_output_next_key_ = false)
    (hr : (NextFromInputBody cfg st e).1.valid_ = false) :
    (NextFromInputBody cfg st e).1.clear_and_output_next_key_ = false := by
  cases hp : ParseInternalKey e.key with
  | none =>
    simp only [NextFromInputBody, hp] at hr ⊢
    split_ifs <;> exact hc
  | some ik =>
    simp only [NextFromInputBody, hp] at hr ⊢
    exact processParsed_invalid_clear cfg _ ik hv hr

/-- The record on which the loop of `NextFromInput` ends, when it was entered
with the deferred-output flag clear: it carries the key and the value of a
record of the input. -/
theorem loop_emit_value (cfg : Config) (fl : Flags) (hlaw : cfg.cmp_.Lawful) :
    ∀ (n : Nat) (st st' : State), st.valid_ = false → st.at_next_ = false →
      st.clear_and_output_next_key_ = false →
      NextFromInputLoop cfg fl n st = some st' → st'.valid_ = true →
      ∃ pre e, st.input_.rest = pre ++ e :: st'.pending ∧ st'.key_ = e.key
        ∧ st'.value_ = e.value := by
  intro n
  induction n with
  | zero =>
    intro st st' hv _ _ h hv'
    simp only [NextFromInputLoop] at h
    split_ifs at h
    simp only [Option.some.injEq] at h
    rw [← h, hv] at hv'
    exact absurd hv' (by simp)
  | succ n ih =>
    intro st st' hv han hcl h hv'
    by_cases hc : loopCond fl st = true
    · obtain ⟨_, _, hne, _, _⟩ := loopCond_true hc
      obtain ⟨e, l, hl⟩ := List.exists_cons_of_ne_nil hne
      rw [loop_step cfg fl n st e l hc hl] at h
      obtain ⟨b1, b2⟩ := body_emit cfg hlaw st e l hl hv han
      have hval := body_value cfg st e hv han
      have done : (NextFromInputBody cfg st e).1 = st' →
          ∃ pre e, st.input_.rest = pre ++ e :: st'.pending ∧ st'.key_ = e.key
            ∧ st'.value_ = e.value := by
        intro heq
        rw [heq] at b1 hval
        obtain ⟨k, p⟩ := b1 hv'
        rcases hval with hval | ⟨hh, _⟩
        · exact ⟨[], e, by simp [hl, p], k, hval⟩
        · rw [hcl] at hh; exact absurd hh (by simp)
      split_ifs at h
      · exact done (by simpa using h)
      · by_cases hvv : (NextFromInputBody cfg st e).1.valid_ = true
        · rw [loop_exit cfg fl n _ (loopCond_of_valid fl _ hvv)] at h
          exact done (by simpa using h)
        · simp only [Bool.not_eq_true] at hvv
          obtain ⟨a, b⟩ := b2 hvv
          obtain ⟨pre, e', hp, hk, hval'⟩ := ih _ st' hvv a
            (body_invalid_clear cfg st e hv hcl hvv) h hv'
          rcases b with b | b | b
          · exact ⟨pre, e', by rw [hl, ← b, hp], hk, hval'⟩
          · exact ⟨e :: pre, e', by rw [hl, List.cons_append, ← hp, b], hk, hval'⟩
          · cases l with
            | nil =>
              rw [b] at hp
              simp at hp
            | cons x t =>
              refine ⟨e :: x :: pre, e', ?_, hk, hval'⟩
              rw [hl, List.cons_append, List.cons_append, ← hp, b]
              rfl
    · simp only [Bool.not_eq_true] at hc
      rw [loop_exit cfg fl _ st hc] at h
      simp only [Option.some.injEq] at h
      rw [← h, hv] at hv'
      exact absurd hv' (by simp)

/-- C29: `PrepareOutput` changes nothing, so neither the key, the value, the
validity nor the status. Every pass of the loop leaves in `value_` the value of
the record under the input, unless it runs the deferred-output branch (flag
set, merging enabled, key parsed), which leaves the empty value. And a call of
`SeekToFirst` or `Next` entered with the deferred-output flag clear, when it
returns a record, returns the key and exactly the value bytes of a record of
the input. -/
theorem values_not_rewritten (cfg : Config) (fl : Flags) (hlaw : cfg.cmp_.Lawful) :
    (∀ st : State, PrepareOutput st = st)
      ∧ (∀ (st : State) (e : Entry), st.valid_ = false → st.at_next_ = false →
          (NextFromInputBody cfg st e).1.value_ = e.value
            ∨ (st.clear_and_output_next_key_ = true ∧ cfg.background_disable_merge_ = false
                ∧ (∃ ik, ParseInternalKey e.key = some ik)
                ∧ (NextFromInputBody cfg st e).1.value_ = []
                ∧ (NextFromInputBody cfg st e).1.valid_ = true))
      ∧ (∀ st st' : State, st.clear_and_output_next_key_ = false →
          SeekToFirst cfg fl st = some st' → st'.Valid = true →
          ∃ pre e, st.input_.rest = pre ++ e :: st'.pending ∧ st'.current = e)
      ∧ (∀ st st' : State, st.clear_and_output_next_key_ = false →
          Next cfg fl st = some st' → st'.Valid = true →
          ∃ pre e, st.pending = pre ++ e :: st'.pending ∧ st'.current = e) := by
  have hcall : ∀ st st' : State, st.clear_and_output_next_key_ = false →
      NextFromInput cfg fl st = some st' → st'.valid_ = true →
      ∃ pre e, st.input_.rest = pre ++ e :: st'.pending ∧ st'.current = e := by
    intro st st' hc h hv'
    unfold NextFromInput at h
    simp only [Option.map_eq_some'] at h
    obtain ⟨s, hs, hs'⟩ := h
    obtain ⟨a, b, c, _⟩ := afterLoop_frame cfg fl s
    have hp := afterLoop_pending cfg fl s
    rw [hs'] at a b c hp
    obtain ⟨pre, e, h1, h2, h3⟩ := loop_emit_value cfg fl hlaw _ st.enterLoop s rfl rfl hc hs
      (by rw [← a]; exact hv')
    refine ⟨pre, e, by rw [hp]; exact h1, ?_⟩
    rcases e with ⟨k, v⟩
    simp only [State.current, b, c, h2, h3]
  refine ⟨fun _ => rfl, fun st e hv han => body_value cfg st e hv han, ?_, ?_⟩
  · intro st st' hc h hv'
    rw [SeekToFirst_eq] at h
    exact hcall st st' hc h hv'
  · intro st st' hc h hv'
    rw [Next_advance] at h
    simp only [Option.map_eq_some'] at h
    obtain ⟨s, hs, hs'⟩ := h
    have hsv : s.valid_ = true := by
      rw [← hs'] at hv'
      simp only [State.Valid] at hv'
      split_ifs at hv' with hh
      · exact hh
      · exact hv'
    have hca : st.advance.clear_and_output_next_key_ = false := by
      unfold State.advance
      split_ifs <;> exact hc
    obtain ⟨pre, e, h1, h2⟩ := hcall st.advance s hca hs hsv
    rw [if_pos hsv] at hs'
    subst hs'
    refine ⟨pre, e, ?_, h2⟩
    show st.pending = pre ++ e :: s.pending
    rw [← h1]
    unfold State.pending State.advance
    split_ifs <;> simp_all [InternalIterator.Next]

/-- C29 at the input [Put([1],[8])@3]: `SeekToFirst` returns the Put with its
value. -/
theorem values_not_rewritten_witness :
    ∃ st', SeekToFirst (mkConfig [] 10 0 none) Flags.unset (State.start [mkPut [1] [8] 3])
        = some st' ∧ st'.Valid = true ∧ st'.current = mkPut [1] [8] 3 := by
  obtain ⟨st', h⟩ : ∃ st', SeekToFirst (mkConfig [] 10 0 none) Flags.unset
      (State.start [mkPut [1] [8] 3]) = some st' := ⟨_, rfl⟩
  have hv : st'.Valid = true := by
    have h2 : (SeekToFirst (mkConfig [] 10 0 none) Flags.unset
        (State.start [mkPut [1] [8] 3])).map State.Valid = some true := by decide
    rw [h] at h2
    simpa using h2
  obtain ⟨pre, e, h1, h2⟩ :=
    (values_not_rewritten (mkConfig [] 10 0 none) Flags.unset bytewise_lawful).2.2.1
      (State.start [mkPut [1] [8] 3]) st' rfl h hv
  refine ⟨st', h, hv, ?_⟩
  rw [h2]
  cases pre with
  | nil =>
    simp only [State.start, State.init, List.nil_append, List.cons.injEq] at h1
    exact h1.1.symm
  | cons x t =>
    have := congrArg List.length h1
    simp [State.start, State.init] at this


/-! ## Merging disabled -/

/-- A pass with merging disabled on a record whose key parses: the record is
emitted as it is and no drop counter moves. -/
theorem body_bdm_full (cfg : Config) (hlaw : cfg.cmp_.Lawful)
    (hbdm : cfg.background_disable_merge_ = true) (st : State) (e : Entry)
    (ik : ParsedInternalKey) (hp : ParseInternalKey e.key = some ik) :
    (NextFromInputBody cfg st e).1.valid_ = true
      ∧ (NextFromInputBody cfg st e).1.current = e
      ∧ (NextFromInputBody cfg st e).1.at_next_ = st.at_next_
      ∧ (NextFromInputBody cfg st e).1.input_ = st.input_
      ∧ (NextFromInputBody cfg st e).1.iter_stats_.num_record_drop_hidden
          = st.iter_stats_.num_record_drop_hidden
      ∧ (NextFromInputBody cfg st e).1.iter_stats_.num_record_drop_obsolete
          = st.iter_stats_.num_record_drop_obsolete := by
  obtain ⟨a1, a2, a3, a4, a5⟩ := body_bdm cfg hlaw hbdm st e ik hp
  refine ⟨a1, ?_, a4, a5, ?_⟩
  · rcases e with ⟨k, v⟩
    simp only [State.current, a2, a3]
  · simp only [NextFromInputBody, hp, processParsed, hbdm, if_true]
    rw [(updateCurrentKey_frame cfg _ ik).2.2.2.2.2.2.1]
    exact ⟨(inputStats_frame _ _ _ _).1, (inputStats_frame _ _ _ _).2.1⟩

theorem NextFromInput_bdm (cfg : Config) (fl : Flags) (hlaw : cfg.cmp_.Lawful)
    (hbdm : cfg.background_disable_merge_ = true) (hfl : FlagsUnset cfg fl) (st : State)
    (e : Entry) (l : List Entry) (ik : ParsedInternalKey)
    (hp : ParseInternalKey e.key = some ik) (hin : st.input_.rest = e :: l)
    (hs : st.status_ = Status.kOk) :
    ∃ st1, NextFromInput cfg fl st = some st1 ∧ st1.valid_ = true ∧ st1.current = e
      ∧ st1.at_next_ = false ∧ st1.input_.rest = e :: l
      ∧ st1.iter_stats_.num_record_drop_hidden = st.iter_stats_.num_record_drop_hidden
      ∧ st1.iter_stats_.num_record_drop_obsolete
          = st.iter_stats_.num_record_drop_obsolete := by
  obtain ⟨a1, a2, a3, a4, a5, a6⟩ := body_bdm_full cfg hlaw hbdm
    { st with at_next_ := false, valid_ := false } e ik hp
  exact ⟨_, NextFromInput_first_pass cfg fl hfl st e l hin hs a1, a1, a2, a3,
    by rw [a4]; exact hin, a5, a6⟩

theorem drain_invalid (cfg : Config) (fl : Flags) (n : Nat) (st : State)
    (hv : st.valid_ = false) :
    drain cfg fl n st = some [] ∧ drainState cfg fl n st = some st := by
  cases n <;> simp [drain, drainState, State.Valid, hv]

theorem drain_bdm (cfg : Config) (fl : Flags) (hlaw : cfg.cmp_.Lawful)
    (hbdm : cfg.background_disable_merge_ = true) (hfl : FlagsUnset cfg fl) :
    ∀ (l : List Entry) (n : Nat) (st : State) (e : Entry), st.valid_ = true →
      st.at_next_ = false → st.input_.rest = e :: l → st.current = e →
      (∀ x ∈ l, ∃ ik, ParseInternalKey x.key = some ik) → l.length < n →
      drain cfg fl n st = some (e :: l)
        ∧ ∃ stf, drainState cfg fl n st = some stf
          ∧ stf.iter_stats_.num_record_drop_hidden = st.iter_stats_.num_record_drop_hidden
          ∧ stf.iter_stats_.num_record_drop_obsolete
              = st.iter_stats_.num_record_drop_obsolete := by
  intro l
  induction l with
  | nil =>
    intro n st e hv han hin hcur _ hlen
    obtain ⟨k, rfl⟩ : ∃ k, n = k + 1 := ⟨n - 1, by omega⟩
    have hadv : st.advance = { st with input_ := st.input_.Next, status_ := st.input_.Next.status } := by
      simp [State.advance, han]
    have hN : NextFromInput cfg fl st.advance = some st.advance.enterLoop := by
      unfold NextFromInput
      simp only
      rw [loop_exit cfg fl _ _ (by
        rw [hadv]; simp [loopCond, InternalIterator.Valid, InternalIterator.Next, hin])]
      simp only [Option.map_some', afterLoop_unset cfg fl hfl]
      rfl
    have hnext : Next cfg fl st = some st.advance.enterLoop := by
      rw [Next_advance, hN]
      rfl
    obtain ⟨d1, d2⟩ := drain_invalid cfg fl k st.advance.enterLoop rfl
    refine ⟨by simp [drain, State.Valid, hv, hnext, d1, hcur], st.advance.enterLoop,
      by simp [drainState, State.Valid, hv, hnext, d2], ?_, ?_⟩
    · rw [hadv]; rfl
    · rw [hadv]; rfl
  | cons x t ih =>
    intro n st e hv han hin hcur hpl hlen
    obtain ⟨k, rfl⟩ : ∃ k, n = k + 1 := ⟨n - 1, by simp at hlen; omega⟩
    have hadv : st.advance = { st with input_ := st.input_.Next, status_ := st.input_.Next.status } := by
      simp [State.advance, han]
    have hrest : st.advance.input_.rest = x :: t := by
      rw [hadv]; simp [InternalIterator.Next, hin]
    have hst : st.advance.status_ = Status.kOk := by
      rw [hadv]
      exact status_of_cons _ x t (by simp [InternalIterator.Next, hin])
    obtain ⟨ikx, hpx⟩ := hpl x (List.mem_cons_self _ _)
    obtain ⟨st1, h1, h2, h3, h4, h5, h6, h7⟩ := NextFromInput_bdm cfg fl hlaw hbdm hfl
      st.advance x t ikx hpx hrest hst
    have hnext : Next cfg fl st = some { st1 with has_outputted_key_ := true } := by
      rw [Next_advance, h1]
      simp [h2]
    obtain ⟨i1, stf, i2, i3, i4⟩ := ih k { st1 with has_outputted_key_ := true } x h2 h4 h5 h3
      (fun y hy => hpl y (List.mem_cons_of_mem _ hy)) (by simp at hlen; omega)
    refine ⟨by simp [drain, State.Valid, hv, hnext, i1, hcur], stf,
      by simp [drainState, State.Valid, hv, hnext, i2], ?_, ?_⟩
    · rw [i3]; show st1.iter_stats_.num_record_drop_hidden = _; rw [h6, hadv]
    · rw [i4]; show st1.iter_stats_.num_record_drop_obsolete = _; rw [h7, hadv]

/-- C28: with `background_disable_merge_` true and the shutdown and cancel
flags unset, for every input whose keys all parse, whatever the snapshot set,
the hint and the record types, the run emits every input record, in input
order, with key and value unchanged, and `hidden_drop` and `obsolete_drop` end
at zero. -/
theorem merging_disabled_keeps_all (cfg : Config) (fl : Flags) (input : List Entry)
    (hlaw : cfg.cmp_.Lawful) (hbdm : cfg.background_disable_merge_ = true)
    (hfl : FlagsUnset cfg fl)
    (hparse : ∀ e ∈ input, ∃ ik, ParseInternalKey e.key = some ik) :
    emitted cfg fl input = some input
      ∧ ∃ stf, finalState cfg fl input = some stf
        ∧ stf.iter_stats_.num_record_drop_hidden = 0
        ∧ stf.iter_stats_.num_record_drop_obsolete = 0 := by
  unfold emitted finalState
  rw [SeekToFirst_eq]
  cases input with
  | nil =>
    have hN : NextFromInput cfg fl (State.init { rest := [], end_status := Status.kOk })
        = some (State.init { rest := [], end_status := Status.kOk }).enterLoop := by
      unfold NextFromInput
      simp only
      rw [loop_exit cfg fl _ _ (by simp [loopCond, InternalIterator.Valid, State.init])]
      simp only [Option.map_some', afterLoop_unset cfg fl hfl]
      rfl
    rw [hN]
    obtain ⟨d1, d2⟩ := drain_invalid cfg fl ([].length + 1)
      (State.init { rest := ([] : List Entry), end_status := Status.kOk }).enterLoop rfl
    exact ⟨d1, _, d2, rfl, rfl⟩
  | cons e l =>
    obtain ⟨ik, hp⟩ := hparse e (List.mem_cons_self _ _)
    obtain ⟨st1, h1, h2, h3, h4, h5, h6, h7⟩ := NextFromInput_bdm cfg fl hlaw hbdm hfl
      (State.init { rest := e :: l, end_status := Status.kOk }) e l ik hp rfl rfl
    rw [h1]
    obtain ⟨i1, stf, i2, i3, i4⟩ := drain_bdm cfg fl hlaw hbdm hfl l ((e :: l).length + 1) st1 e
      h2 h4 h5 h3 (fun y hy => hparse y (List.mem_cons_of_mem _ hy))
      (by simp only [List.length_cons]; omega)
    exact ⟨i1, stf, i2, by rw [i3, h6]; rfl, by rw [i4, h7]; rfl⟩

/-- C28 at the input [Put([1],[7])@5, SingleDelete([1])@4, Merge([1],[8])@3,
Delete([1])@2] with snapshot set {4} and the hint [0]. -/
theorem merging_disabled_keeps_all_witness :
    emitted { mkConfig [4] 10 0 (some [0]) with background_disable_merge_ := true }
        Flags.unset
        [mkPut [1] [7] 5, mkSingleDelete [1] 4, mkMerge [1] [8] 3, mkDelete [1] 2]
      = some [mkPut [1] [7] 5, mkSingleDelete [1] 4, mkMerge [1] [8] 3, mkDelete [1] 2] :=
  (merging_disabled_keeps_all
    { mkConfig [4] 10 0 (some [0]) with background_disable_merge_ := true } Flags.unset
    [mkPut [1] [7] 5, mkSingleDelete [1] 4, mkMerge [1] [8] 3, mkDelete [1] 2]
    bytewise_lawful rfl ⟨rfl, rfl, rfl⟩
    (by
      intro e he
      simp only [List.mem_cons, List.mem_singleton, List.not_mem_nil, or_false] at he
      rcases he with rfl | rfl | rfl | rfl <;> exact ⟨_, rfl⟩)).1


/-! ## What a pass of the loop does to the input position -/

theorem applyRules_stay (cfg : Config) (st : State) (last prev : Nat)
    (hv : st.valid_ = false) (han : st.at_next_ = false) (hne : st.input_.rest ≠ []) :
    (applyRules cfg st last prev).valid_ = true
      ∨ (applyRules cfg st last prev).input_.rest.length < st.input_.rest.length
      ∨ (st.ikey_.type = ValueType.kTypeMerge ∧ st.clear_and_output_next_key_ = false
          ∧ applyRules cfg st last prev = st) := by
  obtain ⟨e, l, hl⟩ := List.exists_cons_of_ne_nil hne
  unfold applyRules
  split_ifs with h1 h2 h3 h4 h5
  · simp
  · obtain ⟨_, _, _, c⟩ := singleDeleteBranch_frame cfg st prev hv han
    by_cases hvv : (singleDeleteBranch cfg st prev).valid_ = true
    · exact Or.inl hvv
    · right; left
      simp only [Bool.not_eq_true] at hvv
      rcases (c hvv).2 with h | h <;> rw [h, hl] <;> simp
      omega
  · right; left; simp [hl, InternalIterator.Next]
  · right; left; simp [hl, InternalIterator.Next]
  · right; right; exact ⟨h5, by simpa using h1, rfl⟩
  · simp

/-- A pass, merging enabled and deferred-output flag clear, on a record that is
not a SingleDelete and that the state finds in the class recorded for its user
key: the hidden branch drops it and advances the input. -/
theorem body_hidden_same (cfg : Config) (hbdm : cfg.background_disable_merge_ = false)
    (st : State) (e : Entry) (l : List Entry) (ik : ParsedInternalKey)
    (hin : st.input_.rest = e :: l) (hp : ParseInternalKey e.key = some ik)
    (hc : st.clear_and_output_next_key_ = false)
    (ht : ik.type ≠ ValueType.kTypeSingleDeletion)
    (h1 : st.has_current_user_key_ = true)
    (h2 : cfg.cmp_.Equal ik.user_key st.current_user_key_ = true)
    (h3 : st.current_user_key_snapshot_ = (snapshotOf cfg ik.sequence).1) :
    (NextFromInputBody cfg st e).2 = false
      ∧ (NextFromInputBody cfg st e).1.valid_ = st.valid_
      ∧ (NextFromInputBody cfg st e).1.at_next_ = st.at_next_
      ∧ (NextFromInputBody cfg st e).1.input_.rest = l
      ∧ (NextFromInputBody cfg st e).1.iter_stats_.num_record_drop_hidden
          = st.iter_stats_.num_record_drop_hidden + 1
      ∧ (NextFromInputBody cfg st e).1.iter_stats_.num_record_drop_obsolete
          = st.iter_stats_.num_record_drop_obsolete := by
  simp only [NextFromInputBody, hp, processParsed, hbdm]
  generalize hs0 : ({ st with key_ := e.key, value_ := e.value, iter_stats_ := inputStats { st.iter_stats_ with num_input_records := st.iter_stats_.num_input_records + 1 } ik e.key e.value } : State) = s0
  have c1 : s0.has_current_user_key_ = true := by rw [← hs0]; exact h1
  have c2 : cfg.cmp_.Equal ik.user_key s0.current_user_key_ = true := by rw [← hs0]; exact h2
  have c3 : s0.current_user_key_snapshot_ = (snapshotOf cfg ik.sequence).1 := by
    rw [← hs0]; exact h3
  have c4 : s0.input_ = st.input_ := by rw [← hs0]
  have c5 : s0.valid_ = st.valid_ := by rw [← hs0]
  have c6 : s0.at_next_ = st.at_next_ := by rw [← hs0]
  have c7 : s0.clear_and_output_next_key_ = false := by rw [← hs0]; exact hc
  have c8 : s0.iter_stats_.num_record_drop_hidden = st.iter_stats_.num_record_drop_hidden := by
    rw [← hs0]; exact (inputStats_frame _ _ _ _).1
  have c9 : s0.iter_stats_.num_record_drop_obsolete
      = st.iter_stats_.num_record_drop_obsolete := by
    rw [← hs0]; exact (inputStats_frame _ _ _ _).2.1
  obtain ⟨f1, f2, f3, _, _, f6, f7, _⟩ := updateCurrentKey_frame cfg s0 ik
  obtain ⟨u1, u2⟩ := updateCurrentKey_sequence cfg s0 ik
  obtain ⟨u3, _, _⟩ := updateCurrentKey_same cfg s0 ik c1 c2
  generalize updateCurrentKey cfg s0 ik = s1 at *
  simp only [Bool.false_eq_true, if_false]
  rw [applyRules_plain cfg _ _ _ (by simp [f6, c7]) (by simp [u2, ht])]
  rw [if_pos (by simp [u3, c3, u1])]
  simp [InternalIterator.Next, f1, c4, hin, f2, c5, f3, c6, IterStats.addHidden, f7, c8, c9]

/-- A pass of the loop ends the loop, emits a record or advances the input,
except in the Merge branch, which leaves the state to the next pass, and that
pass drops the same record as hidden and advances. -/
theorem body_cases (cfg : Config) (hrefl : ∀ a, cfg.cmp_.Equal a a = true) (st : State)
    (e : Entry) (l : List Entry) (hin : st.input_.rest = e :: l) (hv : st.valid_ = false)
    (han : st.at_next_ = false) :
    (NextFromInputBody cfg st e).2 = true
      ∨ (NextFromInputBody cfg st e).1.valid_ = true
      ∨ (NextFromInputBody cfg st e).1.input_.rest.length < (e :: l).length
      ∨ (∃ ik, ParseInternalKey e.key = some ik ∧ ik.type = ValueType.kTypeMerge
          ∧ (NextFromInputBody cfg st e).2 = false
          ∧ (NextFromInputBody cfg st e).1.valid_ = false
          ∧ (NextFromInputBody cfg st e).1.at_next_ = false
          ∧ (NextFromInputBody cfg st e).1.input_.rest = e :: l
          ∧ (NextFromInputBody cfg st e).1.status_ = Status.kOk
          ∧ (NextFromInputBody cfg st e).1.iter_stats_.num_record_drop_hidden
              = st.iter_stats_.num_record_drop_hidden
          ∧ (NextFromInputBody cfg (NextFromInputBody cfg st e).1 e).2 = false
          ∧ (NextFromInputBody cfg (NextFromInputBody cfg st e).1 e).1.valid_ = false
          ∧ (NextFromInputBody cfg (NextFromInputBody cfg st e).1 e).1.input_.rest = l
          ∧ (NextFromInputBody cfg (NextFromInputBody cfg st e).1
              e).1.iter_stats_.num_record_drop_hidden
              = st.iter_stats_.num_record_drop_hidden + 1) := by
  cases hp : ParseInternalKey e.key with
  | none =>
    left
    simp only [NextFromInputBody, hp]
    split <;> rfl
  | some ik =>
    cases hbdm : cfg.background_disable_merge_ with
    | true =>
      left
      simp [NextFromInputBody, hp, processParsed, hbdm]
    | false =>
      have key : ∃ s2 : State, ∃ last : Nat,
          NextFromInputBody cfg st e
            = ((applyRules cfg s2 last (snapshotOf cfg ik.sequence).2).syncStatus, false)
          ∧ s2.valid_ = false ∧ s2.at_next_ = false ∧ s2.input_ = st.input_
          ∧ s2.ikey_.type = ik.type ∧ s2.has_current_user_key_ = true
          ∧ cfg.cmp_.Equal ik.user_key s2.current_user_key_ = true
          ∧ s2.current_user_key_snapshot_ = (snapshotOf cfg ik.sequence).1
          ∧ s2.iter_stats_.num_record_drop_hidden
              = st.iter_stats_.num_record_drop_hidden := by
        simp only [NextFromInputBody, hp, processParsed, hbdm]
        generalize hs0 : ({ st with key_ := e.key, value_ := e.value, iter_stats_ := inputStats { st.iter_stats_ with num_input_records := st.iter_stats_.num_input_records + 1 } ik e.key e.value } : State) = s0
        have c4 : s0.input_ = st.input_ := by rw [← hs0]
        have c5 : s0.valid_ = false := by rw [← hs0]; exact hv
        have c6 : s0.at_next_ = false := by rw [← hs0]; exact han
        have c8 : s0.iter_stats_.num_record_drop_hidden
            = st.iter_stats_.num_record_drop_hidden := by
          rw [← hs0]; exact (inputStats_frame _ _ _ _).1
        obtain ⟨f1, f2, f3, _, _, _, f7, f8⟩ := updateCurrentKey_frame cfg s0 ik
        obtain ⟨u1, u2⟩ := updateCurrentKey_sequence cfg s0 ik
        have u3 := updateCurrentKey_equal cfg hrefl s0 ik
        generalize updateCurrentKey cfg s0 ik = s1 at *
        simp only [Bool.false_eq_true, if_false]
        refine ⟨{ s1 with current_user_key_sequence_ := s1.ikey_.sequence,
                          current_user_key_snapshot_ := (snapshotOf cfg s1.ikey_.sequence).1 },
          s1.current_user_key_snapshot_, ?_, ?_⟩
        · rw [u1]; rfl
        · simp only [u1]
          exact ⟨by rw [f2, c5], by rw [f3, c6], by rw [f1, c4], u2, f8, u3, trivial,
            by rw [f7, c8]⟩
      obtain ⟨s2, last, hb, g1, g2, g3, g4, g5, g6, g7, g8⟩ := key
      rcases applyRules_stay cfg s2 last (snapshotOf cfg ik.sequence).2 g1 g2
        (by rw [g3, hin]; simp) with h | h | ⟨h1, h2, h3⟩
      · right; left
        rw [hb]; exact h
      · right; right; left
        rw [hb]
        rw [g3, hin] at h
        exact h
      · right; right; right
        have hr : (NextFromInputBody cfg st e).1 = s2.syncStatus := by rw [hb, h3]
        have hst : s2.syncStatus.status_ = Status.kOk :=
          status_of_cons _ e l (by show s2.input_.rest = e :: l; rw [g3, hin])
        have ht : ik.type = ValueType.kTypeMerge := by rw [← g4]; exact h1
        obtain ⟨b1, b2, _, b4, b5, _⟩ := body_hidden_same cfg hbdm s2.syncStatus e l ik
          (by show s2.input_.rest = e :: l; rw [g3, hin]) hp h2 (by rw [ht]; decide) g5 g6 g7
        have hr2 : (NextFromInputBody cfg st e).2 = false := by rw [hb]
        rw [hr]
        refine ⟨ik, rfl, ht, hr2, g1, g2, by show s2.input_.rest = e :: l; rw [g3, hin], hst, g8, b1,
          by rw [b2]; exact g1, b4, by rw [b5]; show s2.iter_stats_.num_record_drop_hidden + 1 = _; rw [g8]⟩

/-- C26: termination. For every input, every state and every configuration
whose comparator holds a key equal to itself, `SeekToFirst` and `Next` return;
the loop of `NextFromInput` returns within two passes per record left plus one;
and every pass either ends the loop (error, shutdown, or record passed on),
emits a record, or advances the input, except the Merge branch, which leaves
the input position unchanged and the loop condition true: the pass that
follows it drops that same record as hidden and advances. -/
theorem termination (cfg : Config) (fl : Flags) (hrefl : ∀ a, cfg.cmp_.Equal a a = true) :
    (∀ st, ∃ st', SeekToFirst cfg fl st = some st')
      ∧ (∀ st, ∃ st', Next cfg fl st = some st')
      ∧ (∀ st : State, st.at_next_ = false →
          ∃ st', NextFromInputLoop cfg fl (2 * st.input_.rest.length + 2) st = some st')
      ∧ (∀ (st : State) (e : Entry) (l : List Entry), loopCond fl st = true →
          st.at_next_ = false → st.input_.rest = e :: l →
          (NextFromInputBody cfg st e).2 = true
            ∨ (NextFromInputBody cfg st e).1.valid_ = true
            ∨ (NextFromInputBody cfg st e).1.input_.rest.length < (e :: l).length
            ∨ (∃ ik, ParseInternalKey e.key = some ik ∧ ik.type = ValueType.kTypeMerge
                ∧ (NextFromInputBody cfg st e).2 = false
                ∧ (NextFromInputBody cfg st e).1.input_.rest = e :: l
                ∧ loopCond fl (NextFromInputBody cfg st e).1 = true
                ∧ (NextFromInputBody cfg (NextFromInputBody cfg st e).1 e).2 = false
                ∧ (NextFromInputBody cfg (NextFromInputBody cfg st e).1 e).1.valid_ = false
                ∧ (NextFromInputBody cfg (NextFromInputBody cfg st e).1 e).1.input_.rest = l
                ∧ (NextFromInputBody cfg (NextFromInputBody cfg st e).1
                    e).1.iter_stats_.num_record_drop_hidden
                    = st.iter_stats_.num_record_drop_hidden + 1)) := by
  refine ⟨fun st => ?_, fun st => Next_total cfg fl hrefl st, fun st han => ?_,
    fun st e l hc han hin => ?_⟩
  · obtain ⟨s, hs⟩ := NextFromInput_total cfg fl hrefl st
    exact ⟨PrepareOutput s, by simp [SeekToFirst, hs]⟩
  · exact loop_terminates cfg fl hrefl _ st han
      (by simp only [loopMeasure]; split_ifs <;> omega)
  · obtain ⟨hv, _, _, h1, h2⟩ := loopCond_true hc
    rcases body_cases cfg hrefl st e l hin hv han with h | h | h | h
    · exact Or.inl h
    · exact Or.inr (Or.inl h)
    · exact Or.inr (Or.inr (Or.inl h))
    · obtain ⟨ik, hp, ht, a0, a1, _, a3, a4, _, a6, a7, a8, a9⟩ := h
      exact Or.inr (Or.inr (Or.inr ⟨ik, hp, ht, a0, a3,
        loopCond_intro fl _ e l h1 h2 a1 a4 a3, a6, a7, a8, a9⟩))

/-- C26 at the input [Merge(k)@3] with the bytewise comparator: `SeekToFirst`
returns, having visited the record twice and dropped it as hidden. -/
theorem termination_witness :
    ∃ st', SeekToFirst (mkConfig [] 10 0 none) Flags.unset
        (State.start [mkMerge [1] [8] 3]) = some st' :=
  (termination (mkConfig [] 10 0 none) Flags.unset bytewise_lawful.refl).1
    (State.start [mkMerge [1] [8] 3])


/-! ## The fast path against the general path with one watermark -/

theorem snapshotOf_noSnapshot (cfg : Config) (seq : Nat) :
    snapshotOf cfg.noSnapshot seq = (cfg.last_sequence, 0) := by
  simp [snapshotOf, Config.noSnapshot, Config.visible_at_tip_, Config.earliest_snapshot_]

theorem snapshotOf_tipSnapshot (cfg : Config) (seq : Nat) (h : seq ≤ cfg.last_sequence) :
    snapshotOf cfg.tipSnapshot seq = (cfg.last_sequence, 0) := by
  simp [snapshotOf, Config.tipSnapshot, Config.visible_at_tip_, findEarliestVisibleSnapshot,
    findEarliestVisibleSnapshotLoop, h]

theorem beyondHint_tip (cfg : Config) (uk : Slice) (seq : Nat) :
    beyondHint cfg.noSnapshot uk seq = beyondHint cfg.tipSnapshot uk seq := by
  simp [beyondHint, Config.noSnapshot, Config.tipSnapshot, Config.earliest_snapshot_]

theorem matchedSuccessor_tip (cfg : Config) (uk : Slice) (it : InternalIterator) :
    matchedSuccessor cfg.noSnapshot uk it = matchedSuccessor cfg.tipSnapshot uk it := rfl

theorem updateCurrentKey_tip (cfg : Config) (st : State) (ik : ParsedInternalKey) :
    updateCurrentKey cfg.noSnapshot st ik = updateCurrentKey cfg.tipSnapshot st ik := rfl

theorem singleDeleteBranch_tip (cfg : Config) (st : State) (prev : Nat) :
    singleDeleteBranch cfg.noSnapshot st prev = singleDeleteBranch cfg.tipSnapshot st prev := by
  unfold singleDeleteBranch
  simp only [matchedSuccessor_tip, beyondHint_tip]
  rfl

theorem applyRules_tip (cfg : Config) (st : State) (last prev : Nat) :
    applyRules cfg.noSnapshot st last prev = applyRules cfg.tipSnapshot st last prev := by
  unfold applyRules
  simp only [singleDeleteBranch_tip, beyondHint_tip]

theorem processParsed_tip (cfg : Config) (st : State) (ik : ParsedInternalKey)
    (h : ik.sequence ≤ cfg.last_sequence) :
    processParsed cfg.noSnapshot st ik = processParsed cfg.tipSnapshot st ik := by
  unfold processParsed
  simp only [updateCurrentKey_tip, applyRules_tip, snapshotOf_noSnapshot]
  rw [snapshotOf_tipSnapshot cfg _ (by rw [(updateCurrentKey_sequence _ st ik).1]; exact h)]
  rfl

theorem body_tip (cfg : Config) (st : State) (e : Entry)
    (h : ∀ ik, ParseInternalKey e.key = some ik → ik.sequence ≤ cfg.last_sequence) :
    NextFromInputBody cfg.noSnapshot st e = NextFromInputBody cfg.tipSnapshot st e := by
  cases hp : ParseInternalKey e.key with
  | none =>
    simp only [NextFromInputBody, hp]
    rfl
  | some ik =>
    simp only [NextFromInputBody, hp]
    exact processParsed_tip cfg _ ik (h ik hp)

theorem seqBounded_tail {L : Nat} {l : List Entry} (h : SeqBounded L l) :
    SeqBounded L l.tail :=
  fun e he => h e (List.mem_of_mem_tail he)

/-- The input position a pass leaves is the one it found, or one or two records
further. -/
theorem body_rest (cfg : Config) (st : State) (e : Entry) (hv : st.valid_ = false) :
    (NextFromInputBody cfg st e).1.input_.rest = st.input_.rest
      ∨ (NextFromInputBody cfg st e).1.input_.rest = st.input_.rest.tail
      ∨ (NextFromInputBody cfg st e).1.input_.rest = st.input_.rest.tail.tail := by
  cases hp : ParseInternalKey e.key with
  | none =>
    left
    simp only [NextFromInputBody, hp]
    split <;> rfl
  | some ik =>
    simp only [NextFromInputBody, hp, processParsed]
    generalize hs0 : ({ st with key_ := e.key, value_ := e.value, iter_stats_ := inputStats { st.iter_stats_ with num_input_records := st.iter_stats_.num_input_records + 1 } ik e.key e.value } : State) = s0
    have c4 : s0.input_ = st.input_ := by rw [← hs0]
    have c5 : s0.valid_ = false := by rw [← hs0]; exact hv
    obtain ⟨f1, f2, _⟩ := updateCurrentKey_frame cfg s0 ik
    generalize updateCurrentKey cfg s0 ik = s1 at *
    split_ifs
    · left
      show s1.input_.rest = _
      rw [f1, c4]
    · obtain ⟨_, _, _, a⟩ := applyRules_summary cfg { s1 with current_user_key_sequence_ := s1.ikey_.sequence, current_user_key_snapshot_ := (snapshotOf cfg s1.ikey_.sequence).1 } s1.current_user_key_snapshot_ (snapshotOf cfg s1.ikey_.sequence).2 (by show s1.valid_ = false; rw [f2, c5])
      have hin1 : st.input_.rest = s1.input_.rest := by rw [f1, c4]
      simp only at a ⊢
      rw [hin1]
      rcases a with a | a | ⟨_, _, a⟩
      · exact Or.inl a
      · exact Or.inr (Or.inl a)
      · exact Or.inr (Or.inr a)

theorem body_bounded (cfg : Config) (L : Nat) (st : State) (e : Entry)
    (hv : st.valid_ = false) (h : SeqBounded L st.input_.rest) :
    SeqBounded L (NextFromInputBody cfg st e).1.input_.rest := by
  rcases body_rest cfg st e hv with a | a | a <;> rw [a]
  · exact h
  · exact seqBounded_tail h
  · exact seqBounded_tail (seqBounded_tail h)

theorem loop_bounded (cfg : Config) (fl : Flags) (L : Nat) :
    ∀ (n : Nat) (st st' : State), SeqBounded L st.input_.rest →
      NextFromInputLoop cfg fl n st = some st' → SeqBounded L st'.input_.rest := by
  intro n
  induction n with
  | zero =>
    intro st st' hb h
    simp only [NextFromInputLoop] at h
    split_ifs at h
    simp only [Option.some.injEq] at h
    rw [← h]; exact hb
  | succ n ih =>
    intro st st' hb h
    by_cases hc : loopCond fl st = true
    · obtain ⟨hv, _, hne, _, _⟩ := loopCond_true hc
      obtain ⟨e, l, hl⟩ := List.exists_cons_of_ne_nil hne
      rw [loop_step cfg fl n st e l hc hl] at h
      have hb' := body_bounded cfg L st e hv hb
      split_ifs at h
      · simp only [Option.some.injEq] at h
        rw [← h]; exact hb'
      · exact ih _ _ hb' h
    · simp only [Bool.not_eq_true] at hc
      rw [loop_exit cfg fl _ st hc] at h
      simp only [Option.some.injEq] at h
      rw [← h]; exact hb

theorem loop_tip (cfg : Config) (fl : Flags) :
    ∀ (n : Nat) (st : State), SeqBounded cfg.last_sequence st.input_.rest →
      NextFromInputLoop cfg.noSnapshot fl n st = NextFromInputLoop cfg.tipSnapshot fl n st := by
  intro n
  induction n with
  | zero => intro st _; rfl
  | succ n ih =>
    intro st hb
    by_cases hc : loopCond fl st = true
    · obtain ⟨hv, _, hne, _, _⟩ := loopCond_true hc
      obtain ⟨e, l, hl⟩ := List.exists_cons_of_ne_nil hne
      rw [loop_step _ fl n st e l hc hl, loop_step _ fl n st e l hc hl]
      have he := body_tip cfg st e (fun ik hp => hb e (by rw [hl]; simp) ik hp)
      rw [he]
      split_ifs
      · rfl
      · have hb' := body_bounded cfg.noSnapshot cfg.last_sequence st e hv hb
        rw [he] at hb'
        exact ih _ hb'
    · simp only [Bool.not_eq_true] at hc
      rw [loop_exit _ fl _ st hc, loop_exit _ fl _ st hc]

theorem afterLoop_tip (cfg : Config) (fl : Flags) (st : State) :
    afterLoop cfg.noSnapshot fl st = afterLoop cfg.tipSnapshot fl st := rfl

theorem NextFromInput_tip (cfg : Config) (fl : Flags) (st : State)
    (hb : SeqBounded cfg.last_sequence st.input_.rest) :
    NextFromInput cfg.noSnapshot fl st = NextFromInput cfg.tipSnapshot fl st := by
  have h := loop_tip cfg fl (2 * st.input_.rest.length + 2) st.enterLoop hb
  exact congrArg (Option.map (afterLoop cfg.tipSnapshot fl)) h

theorem NextFromInput_bounded (cfg : Config) (fl : Flags) (L : Nat) (st st' : State)
    (hb : SeqBounded L st.input_.rest) (h : NextFromInput cfg fl st = some st') :
    SeqBounded L st'.input_.rest := by
  unfold NextFromInput at h
  simp only [Option.map_eq_some'] at h
  obtain ⟨s, hs, hs'⟩ := h
  rw [← hs', (afterLoop_frame cfg fl s).2.2.2.2.1]
  exact loop_bounded cfg fl L _ st.enterLoop s hb hs

theorem Next_tip (cfg : Config) (fl : Flags) (st : State)
    (hb : SeqBounded cfg.last_sequence st.input_.rest) :
    Next cfg.noSnapshot fl st = Next cfg.tipSnapshot fl st := by
  rw [Next_eq, Next_eq, NextFromInput_tip]
  split_ifs
  · exact seqBounded_tail hb
  · exact hb

theorem Next_bounded (cfg : Config) (fl : Flags) (L : Nat) (st st' : State)
    (hb : SeqBounded L st.input_.rest) (h : Next cfg fl st = some st') :
    SeqBounded L st'.input_.rest := by
  rw [Next_eq] at h
  simp only [Option.map_eq_some'] at h
  obtain ⟨s, hs, hs'⟩ := h
  have := NextFromInput_bounded cfg fl L _ s (by split_ifs; exacts [seqBounded_tail hb, hb]) hs
  rw [← hs']
  split_ifs <;> exact this

theorem drain_tip (cfg : Config) (fl : Flags) :
    ∀ (n : Nat) (st : State), SeqBounded cfg.last_sequence st.input_.rest →
      drain cfg.noSnapshot fl n st = drain cfg.tipSnapshot fl n st
        ∧ drainState cfg.noSnapshot fl n st = drainState cfg.tipSnapshot fl n st := by
  intro n
  induction n with
  | zero => intro st _; exact ⟨rfl, rfl⟩
  | succ n ih =>
    intro st hb
    simp only [drain, drainState]
    rw [Next_tip cfg fl st hb]
    split_ifs
    · cases hn : Next cfg.tipSnapshot fl st with
      | none => exact ⟨rfl, rfl⟩
      | some st' =>
        obtain ⟨a, b⟩ := ih st' (Next_bounded _ fl _ st st' hb hn)
        simp only
        rw [a, b]
        exact ⟨rfl, rfl⟩
    · exact ⟨rfl, rfl⟩

theorem run_tip (cfg : Config) (fl : Flags) (input : List Entry)
    (hb : SeqBounded cfg.last_sequence input) :
    emitted cfg.noSnapshot fl input = emitted cfg.tipSnapshot fl input
      ∧ finalState cfg.noSnapshot fl input = finalState cfg.tipSnapshot fl input := by
  unfold emitted finalState
  rw [SeekToFirst_eq, SeekToFirst_eq, NextFromInput_tip cfg fl _ hb]
  cases hn : NextFromInput cfg.tipSnapshot fl
      (State.init { rest := input, end_status := Status.kOk }) with
  | none => exact ⟨rfl, rfl⟩
  | some st =>
    exact drain_tip cfg fl _ st (NextFromInput_bounded _ fl _ _ st hb hn)

theorem drainState_of_drain (cfg : Config) (fl : Flags) :
    ∀ (n : Nat) (st : State) (out : List Entry), drain cfg fl n st = some out →
      ∃ stf, drainState cfg fl n st = some stf := by
  intro n
  induction n with
  | zero =>
    intro st out h
    simp only [drain] at h
    split_ifs at h with hv
    exact ⟨st, by simp [drainState, hv]⟩
  | succ n ih =>
    intro st out h
    simp only [drain] at h
    simp only [drainState]
    split_ifs at h ⊢ with hv
    · cases hn : Next cfg fl st with
      | none => simp [hn] at h
      | some st' =>
        simp only [hn, Option.map_eq_some'] at h
        obtain ⟨o, ho, _⟩ := h
        exact ih st' o ho
    · exact ⟨st, rfl⟩

/-- The run over any input ends, whatever the flags, when the comparator is
lawful. -/
theorem run_total (cfg : Config) (fl : Flags) (hlaw : cfg.cmp_.Lawful) (input : List Entry) :
    ∃ out stf, emitted cfg fl input = some out ∧ finalState cfg fl input = some stf := by
  unfold emitted finalState
  rw [SeekToFirst_eq]
  obtain ⟨st, hst⟩ := NextFromInput_total cfg fl hlaw.refl
    (State.init { rest := input, end_status := Status.kOk })
  rw [hst]
  simp only
  by_cases hv : st.valid_ = true
  · obtain ⟨pre, e, hp, _⟩ := NextFromInput_emit cfg fl hlaw _ st hst hv
    simp only [State.init] at hp
    have hlen : st.pending.length < input.length + 1 := by
      have := congrArg List.length hp
      simp at this
      omega
    obtain ⟨out, ho, _⟩ := drain_sublist cfg fl hlaw _ st hlen
    obtain ⟨stf, hf⟩ := drainState_of_drain cfg fl _ st out ho
    exact ⟨out, stf, ho, hf⟩
  · simp only [Bool.not_eq_true] at hv
    exact ⟨[], st, by simp [drain, State.Valid, hv], by simp [drainState, State.Valid, hv]⟩

/-- C24: the no-snapshot fast path equals the general path with one watermark.
For every configuration, all flags, and every input whose records with a
parseable key have a sequence number at most `last_sequence`, the run of the
filter built with an empty snapshot set and the run of the filter built with
the snapshot set `[last_sequence]`, the rest of the configuration being the
same, emit the same list of records (keys and values) and end in the same
state, statistics included; the first takes the fast path, the second does
not; and with a lawful comparator both runs end. -/
theorem fast_path_eq_one_watermark (cfg : Config) (fl : Flags) (input : List Entry)
    (hseq : SeqBounded cfg.last_sequence input) :
    emitted { cfg with snapshots_ := [] } fl input
        = emitted { cfg with snapshots_ := [cfg.last_sequence] } fl input
      ∧ finalState { cfg with snapshots_ := [] } fl input
        = finalState { cfg with snapshots_ := [cfg.last_sequence] } fl input
      ∧ ({ cfg with snapshots_ := [] } : Config).visible_at_tip_ = true
      ∧ ({ cfg with snapshots_ := [cfg.last_sequence] } : Config).visible_at_tip_ = false
      ∧ (cfg.cmp_.Lawful →
          ∃ out stf, emitted { cfg with snapshots_ := [] } fl input = some out
            ∧ finalState { cfg with snapshots_ := [] } fl input = some stf) := by
  obtain ⟨e1, e2⟩ := run_tip cfg fl input hseq
  exact ⟨e1, e2, rfl, rfl, fun hlaw => run_total cfg.noSnapshot fl hlaw input⟩

/-- C24 at `last_sequence` 10, write-conflict snapshot 10, hint [0], over
[Put(k)@9, Delete(k)@5, SingleDelete(j)@4, Put(j)@3]: the sequence numbers are
at most 10, the fast path emits [Put(k)@9], and the filter with snapshot set
{10} emits the same and ends in the same state. -/
theorem fast_path_eq_one_watermark_witness :
    SeqBounded 10 [mkPut [1] [7] 9, mkDelete [1] 5, mkSingleDelete [2] 4, mkPut [2] [8] 3]
      ∧ emitted { mkConfig [] 10 10 (some [0]) with snapshots_ := [] } Flags.unset
          [mkPut [1] [7] 9, mkDelete [1] 5, mkSingleDelete [2] 4, mkPut [2] [8] 3]
        = some [mkPut [1] [7] 9]
      ∧ emitted { mkConfig [] 10 10 (some [0]) with snapshots_ := [] } Flags.unset
          [mkPut [1] [7] 9, mkDelete [1] 5, mkSingleDelete [2] 4, mkPut [2] [8] 3]
        = emitted { mkConfig [] 10 10 (some [0]) with snapshots_ := [10] } Flags.unset
          [mkPut [1] [7] 9, mkDelete [1] 5, mkSingleDelete [2] 4, mkPut [2] [8] 3]
      ∧ finalState { mkConfig [] 10 10 (some [0]) with snapshots_ := [] } Flags.unset
          [mkPut [1] [7] 9, mkDelete [1] 5, mkSingleDelete [2] 4, mkPut [2] [8] 3]
        = finalState { mkConfig [] 10 10 (some [0]) with snapshots_ := [10] } Flags.unset
          [mkPut [1] [7] 9, mkDelete [1] 5, mkSingleDelete [2] 4, mkPut [2] [8] 3] := by
  have hseq : SeqBounded 10
      [mkPut [1] [7] 9, mkDelete [1] 5, mkSingleDelete [2] 4, mkPut [2] [8] 3] := by
    intro e he ik hp
    simp only [List.mem_cons, List.mem_singleton, List.not_mem_nil, or_false] at he
    rcases he with rfl | rfl | rfl | rfl <;>
      (simp only [mkPut, mkDelete, mkSingleDelete, ParseInternalKey, Option.some.injEq] at hp
       subst hp
       decide)
  obtain ⟨h1, h2, _⟩ := fast_path_eq_one_watermark (mkConfig [] 10 10 (some [0]))
    Flags.unset [mkPut [1] [7] 9, mkDelete [1] 5, mkSingleDelete [2] 4, mkPut [2] [8] 3] hseq
  exact ⟨hseq, by decide, h1, h2⟩


/-! ## Every record is emitted or counted as dropped -/

theorem singleDeleteBranch_account (cfg : Config) (st : State) (prev : Nat) (e : Entry)
    (l : List Entry) (hv : st.valid_ = false) (hin : st.input_.rest = e :: l) :
    (singleDeleteBranch cfg st prev).dropped + (singleDeleteBranch cfg st prev).remaining
        = st.dropped + (l.length + 1)
      ∧ st.dropped ≤ (singleDeleteBranch cfg st prev).dropped := by
  cases hm : matchedSuccessor cfg st.ikey_.user_key st.input_.Next with
  | none =>
    rw [singleDeleteBranch_none cfg st prev hv hm]
    split_ifs
    · simp [State.dropped, State.remaining, InternalIterator.Next, hin,
        IterStats.addObsolete, IterStats.addFallthru, hv]
      omega
    · simp [State.dropped, State.remaining, State.pending, InternalIterator.Next, hin]
  | some nk =>
    have hl : ∃ nxt t, l = nxt :: t := by
      cases l with
      | nil => simp [matchedSuccessor, InternalIterator.Next, hin] at hm
      | cons nxt t => exact ⟨nxt, t, rfl⟩
    obtain ⟨nxt, t, hl⟩ := hl
    rw [singleDeleteBranch_some cfg st prev nk hv hm]
    split_ifs <;>
      simp [State.dropped, State.remaining, State.pending, InternalIterator.Next, hin, hl,
        IterStats.addObsolete, IterStats.addMismatch, IterStats.addHidden, hv] <;> omega

theorem applyRules_account (cfg : Config) (st : State) (last prev : Nat) (e : Entry)
    (l : List Entry) (hv : st.valid_ = false) (han : st.at_next_ = false)
    (hin : st.input_.rest = e :: l) :
    (applyRules cfg st last prev).dropped + (applyRules cfg st last prev).remaining
        = st.dropped + (l.length + 1)
      ∧ st.dropped ≤ (applyRules cfg st last prev).dropped := by
  unfold applyRules
  split_ifs
  · simp [State.dropped, State.remaining, State.pending, han, hin]
  · exact singleDeleteBranch_account cfg st prev e l hv hin
  · simp [State.dropped, State.remaining, InternalIterator.Next, hin, IterStats.addHidden, hv]
    omega
  · simp [State.dropped, State.remaining, InternalIterator.Next, hin, IterStats.addObsolete,
      hv]
    omega
  · simp [State.dropped, State.remaining, hin, hv]
  · simp [State.dropped, State.remaining, State.pending, han, hin]

/-- A pass of the loop, strict mode off, keeps the sum of the drop counters and
the records still to emit or drop; it never lowers the counters, keeps an OK
status, and leaves through `break` only with a record to read. -/
theorem body_account (cfg : Config) (hnon : cfg.expect_valid_internal_key_ = false)
    (st : State) (e : Entry) (l : List Entry) (hin : st.input_.rest = e :: l)
    (hv : st.valid_ = false) (han : st.at_next_ = false) (hs : st.status_ = Status.kOk)
    (hes : st.input_.end_status = Status.kOk) :
    (NextFromInputBody cfg st e).1.dropped + (NextFromInputBody cfg st e).1.remaining
        = st.dropped + (l.length + 1)
      ∧ st.dropped ≤ (NextFromInputBody cfg st e).1.dropped
      ∧ (NextFromInputBody cfg st e).1.status_ = Status.kOk
      ∧ (NextFromInputBody cfg st e).1.input_.end_status = Status.kOk
      ∧ ((NextFromInputBody cfg st e).2 = true → (NextFromInputBody cfg st e).1.valid_ = true) := by
  cases hp : ParseInternalKey e.key with
  | none =>
    rw [body_corrupt_pass cfg st e hnon hp]
    simp [State.dropped, State.remaining, State.pending, han, hin, hs, hes]
  | some ik =>
    obtain ⟨b1, b2⟩ := body_parsed_status cfg st e ik hp
    have hst : (NextFromInputBody cfg st e).1.status_ = Status.kOk := by
      rw [b1]
      rcases status_cases (NextFromInputBody cfg st e).1.input_ with h | h
      · exact h
      · rw [h, b2, hes]
    refine ⟨?_, ?_, hst, by rw [b2, hes], ?_⟩
    all_goals
      simp only [NextFromInputBody, hp, processParsed]
      generalize hs0 : ({ st with key_ := e.key, value_ := e.value, iter_stats_ := inputStats { st.iter_stats_ with num_input_records := st.iter_stats_.num_input_records + 1 } ik e.key e.value } : State) = s0
      have c4 : s0.input_ = st.input_ := by rw [← hs0]
      have c5 : s0.valid_ = false := by rw [← hs0]; exact hv
      have c6 : s0.at_next_ = false := by rw [← hs0]; exact han
      have c7 : s0.dropped = st.dropped := by
        rw [← hs0]
        simp only [State.dropped]
        rw [(inputStats_frame _ _ _ _).1, (inputStats_frame _ _ _ _).2.1]
      obtain ⟨f1, f2, f3, _, _, _, f7, _⟩ := updateCurrentKey_frame cfg s0 ik
      generalize updateCurrentKey cfg s0 ik = s1 at *
      obtain ⟨a1, a2⟩ := applyRules_account cfg { s1 with current_user_key_sequence_ := s1.ikey_.sequence, current_user_key_snapshot_ := (snapshotOf cfg s1.ikey_.sequence).1 } s1.current_user_key_snapshot_ (snapshotOf cfg s1.ikey_.sequence).2 e l (by show s1.valid_ = false; rw [f2, c5]) (by show s1.at_next_ = false; rw [f3, c6]) (by show s1.input_.rest = e :: l; rw [f1, c4, hin])
      have d1 : s1.dropped = st.dropped := by
        rw [← c7]; simp only [State.dropped]; rw [f7]
      split_ifs
    · simp [State.dropped, State.remaining, State.pending, f3, c6, f1, c4, hin]
      simp only [State.dropped] at d1
      rw [f7]; rw [f7] at d1; omega
    · simp only [State.dropped, State.remaining, State.pending] at a1 d1 ⊢
      omega
    · simp only [State.dropped] at d1 ⊢
      omega
    · simp only [State.dropped] at a2 d1 ⊢
      omega
    · simp
    · simp

theorem loop_account (cfg : Config) (fl : Flags)
    (hnon : cfg.expect_valid_internal_key_ = false) :
    ∀ (n : Nat) (st st' : State), st.valid_ = false → st.at_next_ = false →
      st.status_ = Status.kOk → st.input_.end_status = Status.kOk →
      NextFromInputLoop cfg fl n st = some st' →
      st'.dropped + st'.remaining = st.dropped + st.input_.rest.length
        ∧ st.dropped ≤ st'.dropped
        ∧ st'.status_ = Status.kOk
        ∧ st'.input_.end_status = Status.kOk
        ∧ (st'.valid_ = false → loopCond fl st' = false) := by
  intro n
  induction n with
  | zero =>
    intro st st' hv _ hs hes h
    simp only [NextFromInputLoop] at h
    split_ifs at h with hc
    simp only [Option.some.injEq] at h
    subst h
    exact ⟨by simp [State.remaining, hv], le_refl _, hs, hes, fun _ => by simpa using hc⟩
  | succ n ih =>
    intro st st' hv han hs hes h
    by_cases hc : loopCond fl st = true
    · obtain ⟨_, _, hne, _, _⟩ := loopCond_true hc
      obtain ⟨e, l, hl⟩ := List.exists_cons_of_ne_nil hne
      rw [loop_step cfg fl n st e l hc hl] at h
      obtain ⟨b1, b2, b3, b4, b5⟩ := body_account cfg hnon st e l hl hv han hs hes
      have fin : ∀ s : State, s = (NextFromInputBody cfg st e).1 → s.valid_ = true →
          s.dropped + s.remaining = st.dropped + st.input_.rest.length
            ∧ st.dropped ≤ s.dropped ∧ s.status_ = Status.kOk
            ∧ s.input_.end_status = Status.kOk ∧ (s.valid_ = false → loopCond fl s = false) := by
        intro s hs' hvs
        subst hs'
        refine ⟨by rw [b1, hl]; rfl, b2, b3, b4, fun hf => ?_⟩
        rw [hvs] at hf
        exact absurd hf (by simp)
      split_ifs at h with hb
      · simp only [Option.some.injEq] at h
        exact fin st' h.symm (by rw [← h]; exact b5 hb)
      · by_cases hvv : (NextFromInputBody cfg st e).1.valid_ = true
        · rw [loop_exit cfg fl n _ (loopCond_of_valid fl _ hvv)] at h
          simp only [Option.some.injEq] at h
          exact fin st' h.symm (by rw [← h]; exact hvv)
        · simp only [Bool.not_eq_true] at hvv
          obtain ⟨i1, i2, i3, i4, i5⟩ := ih _ st' hvv (body_at_next cfg st e hv han hvv) b3 b4 h
          refine ⟨?_, le_trans b2 i2, i3, i4, i5⟩
          rw [i1, hl]
          simp only [State.remaining, hvv] at b1
          simp only [List.length_cons]
          simp only [Bool.false_eq_true, if_false] at b1
          omega
    · simp only [Bool.not_eq_true] at hc
      rw [loop_exit cfg fl _ st hc] at h
      simp only [Option.some.injEq] at h
      subst h
      exact ⟨by simp [State.remaining, hv], le_refl _, hs, hes, fun _ => hc⟩

/-- A call of `NextFromInput`, flags unset and strict mode off, from an OK
status over an input source that ends without error: it returns, the drop
counters and the records still to emit or drop add up as before, and without a
record to read the input is exhausted. -/
theorem NextFromInput_account (cfg : Config) (fl : Flags)
    (hrefl : ∀ a, cfg.cmp_.Equal a a = true) (hfl : FlagsUnset cfg fl)
    (hnon : cfg.expect_valid_internal_key_ = false) (st : State)
    (hs : st.status_ = Status.kOk) (hes : st.input_.end_status = Status.kOk) :
    ∃ st', NextFromInput cfg fl st = some st'
      ∧ st'.dropped + st'.remaining = st.dropped + st.input_.rest.length
      ∧ st.dropped ≤ st'.dropped
      ∧ st'.status_ = Status.kOk
      ∧ st'.input_.end_status = Status.kOk
      ∧ (st'.valid_ = false → st'.input_.rest = []) := by
  obtain ⟨st', h⟩ := NextFromInput_total cfg fl hrefl st
  refine ⟨st', h, ?_⟩
  unfold NextFromInput at h
  simp only [Option.map_eq_some'] at h
  obtain ⟨s, hl, hs'⟩ := h
  rw [afterLoop_unset cfg fl hfl s] at hs'
  subst hs'
  obtain ⟨a1, a2, a3, a4, a5⟩ := loop_account cfg fl hnon _ st.enterLoop s rfl rfl hs hes hl
  refine ⟨a1, a2, a3, a4, fun hv => ?_⟩
  have hc := a5 hv
  simp only [loopCond, hv, a3, Status.ok, InternalIterator.Valid, IsShuttingDown, is_bg_stopped,
    hfl.1, hfl.2.1] at hc
  simpa using hc

/-- A call of `Next` on a state with a record to read, under the conditions of
`NextFromInput_account`: the exposed record leaves the count of those still to
emit or drop. -/
theorem Next_account (cfg : Config) (fl : Flags)
    (hrefl : ∀ a, cfg.cmp_.Equal a a = true) (hfl : FlagsUnset cfg fl)
    (hnon : cfg.expect_valid_internal_key_ = false) (st : State) (hv : st.valid_ = true)
    (hs : st.status_ = Status.kOk) (hes : st.input_.end_status = Status.kOk) :
    ∃ st', Next cfg fl st = some st'
      ∧ st'.dropped + st'.remaining + 1 = st.dropped + st.remaining
      ∧ st.dropped ≤ st'.dropped
      ∧ st'.status_ = Status.kOk
      ∧ st'.input_.end_status = Status.kOk
      ∧ (st'.valid_ = false → st'.input_.rest = []) := by
  rw [Next_eq]
  obtain ⟨sA, hsA⟩ : ∃ sA : State, sA = (if st.at_next_ = false then { st with input_ := st.input_.Next, status_ := st.input_.Next.status } else st) := ⟨_, rfl⟩
  rw [← hsA]
  have e1 : sA.status_ = Status.kOk := by
    rw [hsA]
    split_ifs
    · show st.input_.Next.status = Status.kOk
      rcases status_cases st.input_.Next with h | h
      · exact h
      · rw [h]; exact hes
    · exact hs
  have e2 : sA.input_.end_status = Status.kOk := by
    rw [hsA]
    split_ifs
    · exact hes
    · exact hes
  have e3 : sA.input_.rest = st.pending := by
    rw [hsA]
    unfold State.pending
    split_ifs <;> simp_all [InternalIterator.Next]
  have e4 : sA.dropped = st.dropped := by
    rw [hsA]
    split_ifs <;> rfl
  obtain ⟨s, h, a1, a2, a3, a4, a5⟩ := NextFromInput_account cfg fl hrefl hfl hnon sA e1 e2
  rw [h]
  have hrem : st.remaining = st.pending.length + 1 := by simp [State.remaining, hv]
  rw [e3, e4] at a1
  rw [e4] at a2
  cases hvs : s.valid_ with
  | true =>
    refine ⟨{ s with has_outputted_key_ := true }, by simp [hvs], ?_, a2, a3, a4, fun hf => ?_⟩
    · have : ({ s with has_outputted_key_ := true } : State).remaining = s.remaining := rfl
      rw [hrem, this]
      show s.dropped + s.remaining + 1 = _
      omega
    · exact absurd hvs (by simpa using hf)
  | false =>
    exact ⟨s, by simp [hvs], by rw [hrem]; omega, a2, a3, a4, a5⟩

/-- The caller's loop under the conditions of `NextFromInput_account`: it ends
within as many calls as records are still to emit or drop, and the emitted
records and the final drop counters add up to what the state had to account
for. -/
theorem drain_account (cfg : Config) (fl : Flags)
    (hrefl : ∀ a, cfg.cmp_.Equal a a = true) (hfl : FlagsUnset cfg fl)
    (hnon : cfg.expect_valid_internal_key_ = false) :
    ∀ (n : Nat) (st : State), st.remaining ≤ n → st.status_ = Status.kOk →
      st.input_.end_status = Status.kOk → (st.valid_ = false → st.input_.rest = []) →
      ∃ out stf, drain cfg fl n st = some out ∧ drainState cfg fl n st = some stf
        ∧ out.length + stf.dropped = st.dropped + st.remaining := by
  intro n
  induction n with
  | zero =>
    intro st hr _ _ hx
    have hv : st.valid_ = false := by
      cases hvv : st.valid_ with
      | false => rfl
      | true => simp [State.remaining, hvv] at hr
    refine ⟨[], st, by simp [drain, State.Valid, hv], by simp [drainState, State.Valid, hv], ?_⟩
    simp [State.remaining, hv, hx hv]
  | succ n ih =>
    intro st hr hs hes hx
    cases hv : st.valid_ with
    | false =>
      refine ⟨[], st, by simp [drain, State.Valid, hv], by simp [drainState, State.Valid, hv], ?_⟩
      simp [State.remaining, hv, hx hv]
    | true =>
      obtain ⟨st', hn, a1, a2, a3, a4, a5⟩ := Next_account cfg fl hrefl hfl hnon st hv hs hes
      obtain ⟨out, stf, i1, i2, i3⟩ := ih st' (by omega) a3 a4 a5
      refine ⟨st.current :: out, stf, by simp [drain, State.Valid, hv, hn, i1],
        by simp [drainState, State.Valid, hv, hn, i2], ?_⟩
      simp only [List.length_cons]
      omega

/-- C27: drop counters account for every record. With a comparator that holds
a key equal to itself, shutdown and cancel flags unset and strict mode off, the
run (`SeekToFirst`, then `Next` until `Valid()` is false, `ResetRecordCounts`
never called) over any input ends, and the number of emitted records plus
`num_record_drop_hidden` plus `num_record_drop_obsolete` of the final state
equals the number of records of the input. -/
theorem drops_account_for_every_record (cfg : Config) (fl : Flags) (input : List Entry)
    (hrefl : ∀ a, cfg.cmp_.Equal a a = true) (hfl : FlagsUnset cfg fl)
    (hnon : cfg.expect_valid_internal_key_ = false) :
    ∃ out stf, emitted cfg fl input = some out ∧ finalState cfg fl input = some stf
      ∧ out.length + stf.iter_stats_.num_record_drop_hidden
          + stf.iter_stats_.num_record_drop_obsolete = input.length := by
  unfold emitted finalState
  rw [SeekToFirst_eq]
  obtain ⟨st, h, a1, _, a3, a4, a5⟩ := NextFromInput_account cfg fl hrefl hfl hnon
    (State.init { rest := input, end_status := Status.kOk }) rfl rfl
  rw [h]
  have a1' : st.dropped + st.remaining = input.length := by
    rw [a1]
    simp [State.dropped, State.init, IterStats.zero]
  obtain ⟨out, stf, d1, d2, d3⟩ := drain_account cfg fl hrefl hfl hnon (input.length + 1) st
    (by omega) a3 a4 a5
  refine ⟨out, stf, d1, d2, ?_⟩
  simp only [State.dropped] at d3 a1'
  omega

/-- C27 at the input [Put(k)@9, SingleDelete(k)@5, Put(k)@3, Merge(k)@2,
Delete(j)@4] with snapshot set {6} and hint [0]: three records are emitted,
one is counted hidden and one obsolete, five in all. -/
theorem drops_account_for_every_record_witness :
    ∃ out stf,
      emitted (mkConfig [6] 10 0 (some [0])) Flags.unset
          [mkPut [1] [7] 9, mkSingleDelete [1] 5, mkPut [1] [8] 3, mkMerge [1] [9] 2,
            mkDelete [2] 4] = some out
        ∧ finalState (mkConfig [6] 10 0 (some [0])) Flags.unset
          [mkPut [1] [7] 9, mkSingleDelete [1] 5, mkPut [1] [8] 3, mkMerge [1] [9] 2,
            mkDelete [2] 4] = some stf
        ∧ out.length + stf.iter_stats_.num_record_drop_hidden
            + stf.iter_stats_.num_record_drop_obsolete
          = [mkPut [1] [7] 9, mkSingleDelete [1] 5, mkPut [1] [8] 3, mkMerge [1] [9] 2,
              mkDelete [2] 4].length :=
  drops_account_for_every_record (mkConfig [6] 10 0 (some [0])) Flags.unset _
    bytewise_lawful.refl ⟨rfl, rfl, rfl⟩ rfl


/-! ## The loop read as a function on lists, SingleDelete branch included -/

theorem singleDeleteBranch_outputted (cfg : Config) (st : State) (prev : Nat)
    (hv : st.valid_ = false) :
    (singleDeleteBranch cfg st prev).has_outputted_key_ = st.has_outputted_key_ := by
  cases hm : matchedSuccessor cfg st.ikey_.user_key st.input_.Next with
  | none =>
    rw [singleDeleteBranch_none cfg st prev hv hm]
    split_ifs <;> rfl
  | some nk =>
    rw [singleDeleteBranch_some cfg st prev nk hv hm]
    split_ifs <;> rfl

theorem applyRules_outputted (cfg : Config) (st : State) (last prev : Nat)
    (hv : st.valid_ = false) :
    (applyRules cfg st last prev).has_outputted_key_ = st.has_outputted_key_ := by
  unfold applyRules
  split_ifs
  · rfl
  · exact singleDeleteBranch_outputted cfg st prev hv
  · rfl
  · rfl
  · rfl
  · rfl

/-- A pass on a record whose key parses leaves in `has_outputted_key_` the flag
it read for the user key of the record. -/
theorem body_outputted (cfg : Config) (hlaw : cfg.cmp_.Lawful)
    (hbdm : cfg.background_disable_merge_ = false) (st : State) (e : Entry)
    (ik : ParsedInternalKey) (hv : st.valid_ = false)
    (hp : ParseInternalKey e.key = some ik) :
    (NextFromInputBody cfg st e).1.has_outputted_key_ = outputtedFor st ik.user_key := by
  obtain ⟨s2, last, hb, _, g2, _, _, _, _, _, _, _, _, g11, _⟩ :=
    body_rules cfg hlaw hbdm st e ik hp
  rw [hb]
  show (applyRules cfg s2 last (snapshotOf cfg ik.sequence).2).has_outputted_key_ = _
  rw [applyRules_outputted cfg s2 last _ (by rw [g2, hv]), g11]

/-- A pass that finds the deferred-output flag set leaves the per-key members
of the record it emits. -/
theorem body_clear_state (cfg : Config) (hlaw : cfg.cmp_.Lawful)
    (hbdm : cfg.background_disable_merge_ = false) (st : State) (e : Entry)
    (ik : ParsedInternalKey) (hp : ParseInternalKey e.key = some ik)
    (hc : st.clear_and_output_next_key_ = true) :
    (NextFromInputBody cfg st e).2 = false
      ∧ (NextFromInputBody cfg st e).1.has_current_user_key_ = true
      ∧ (NextFromInputBody cfg st e).1.current_user_key_ = ik.user_key
      ∧ (NextFromInputBody cfg st e).1.current_user_key_snapshot_
          = visibilityClass cfg ik.sequence
      ∧ (NextFromInputBody cfg st e).1.has_outputted_key_ = outputtedFor st ik.user_key := by
  obtain ⟨s2, last, hb, _, _, _, _, _, _, g7, g8, g9, g10, g11, _⟩ :=
    body_rules cfg hlaw hbdm st e ik hp
  have e1 : applyRules cfg s2 last (snapshotOf cfg ik.sequence).2
      = { s2 with value_ := [], valid_ := true, clear_and_output_next_key_ := false } := by
    unfold applyRules
    simp [g10, hc]
  rw [hb, e1]
  exact ⟨rfl, g7, g8, g9, g11⟩

theorem outputtedFor_eq (cfg : Config) (st : State) (prev : Option ParsedInternalKey)
    (out : Bool) (k : Slice) (hm : StateMatches cfg st prev)
    (ho : st.has_outputted_key_ = out) : outputtedFor st k = effOut prev out k := by
  cases prev with
  | none =>
    simp only [StateMatches] at hm
    simp [outputtedFor, effOut, hm]
  | some p =>
    obtain ⟨h1, h2, _⟩ := hm
    simp only [outputtedFor, effOut, h1, h2, ho, true_and]
    by_cases hk : p.user_key = k <;> simp [hk]

theorem lastSnapshotFor_eq (cfg : Config) (st : State) (prev : Option ParsedInternalKey)
    (ik : ParsedInternalKey) (hm : StateMatches cfg st prev) :
    lastSnapshotFor cfg prev ik
      = (if st.has_current_user_key_ = true ∧ st.current_user_key_ = ik.user_key
          then st.current_user_key_snapshot_ else 0) := by
  cases prev with
  | none =>
    simp only [StateMatches] at hm
    simp [lastSnapshotFor, hm]
  | some p =>
    obtain ⟨h1, h2, h3⟩ := hm
    simp only [lastSnapshotFor, h1, h2, h3, true_and]

theorem successorOf_none (k : Slice) (ik : ParsedInternalKey) (l : List Entry)
    (hk : ik.user_key = k) (h : successorOf k l = none) : Unmatched ik l := by
  cases l with
  | nil => simp [Unmatched]
  | cons nxt t =>
    simp only [successorOf] at h
    simp only [Unmatched]
    cases hp : ParseInternalKey nxt.key with
    | none => simp
    | some nk =>
      simp only [hp] at h ⊢
      split_ifs at h with hkk
      rw [hk]
      exact hkk

theorem successorOf_some (k : Slice) (nk : ParsedInternalKey) (l : List Entry)
    (h : successorOf k l = some nk) :
    ∃ nxt t, l = nxt :: t ∧ ParseInternalKey nxt.key = some nk ∧ nk.user_key = k := by
  cases l with
  | nil => simp [successorOf] at h
  | cons nxt t =>
    simp only [successorOf] at h
    cases hp : ParseInternalKey nxt.key with
    | none => simp [hp] at h
    | some nk' =>
      simp only [hp] at h
      split_ifs at h with hkk
      simp only [Option.some.injEq] at h
      subst h
      exact ⟨nxt, t, rfl, hp, hkk⟩

theorem emitTo_dropTo (fs : FilterState) (p q : Option ParsedInternalKey) (a b c : Bool) :
    (fs.dropTo p a).emitTo q b c = fs.emitTo q b c := rfl

theorem emitTo_skip (fs : FilterState) (q : Option ParsedInternalKey) (b c s : Bool) :
    ({ fs with skip := s } : FilterState).emitTo q b c = fs.emitTo q b c := rfl

theorem dropTo_dropTo (fs : FilterState) (p q : Option ParsedInternalKey) (a b : Bool) :
    (fs.dropTo p a).dropTo q b = fs.dropTo q b := rfl

theorem loop_emit_step (cfg : Config) (fl : Flags) (n : Nat) (st : State) (e : Entry)
    (l : List Entry) (hc : loopCond fl st = true) (hin : st.input_.rest = e :: l)
    (h2 : (NextFromInputBody cfg st e).2 = false)
    (hv : (NextFromInputBody cfg st e).1.valid_ = true) :
    NextFromInputLoop cfg fl (n + 1) st = some (NextFromInputBody cfg st e).1 := by
  rw [loop_step cfg fl n st e l hc hin, h2]
  simp only [Bool.false_eq_true, if_false]
  exact loop_exit cfg fl n _ (loopCond_of_valid fl _ hv)

theorem loop_drop_step (cfg : Config) (fl : Flags) (n : Nat) (st : State) (e : Entry)
    (l : List Entry) (hc : loopCond fl st = true) (hin : st.input_.rest = e :: l)
    (h2 : (NextFromInputBody cfg st e).2 = false) :
    NextFromInputLoop cfg fl (n + 1) st
      = NextFromInputLoop cfg fl n (NextFromInputBody cfg st e).1 := by
  rw [loop_step cfg fl n st e l hc hin, h2]
  simp

theorem FullPost_of_drop (cfg : Config) (fs fs' : FilterState) (l l' : List Entry)
    (st' : State) (p : Option ParsedInternalKey) (o : Bool) (hfs : fs' = fs.dropTo p o)
    (h : FullPost cfg fs' l' st') (ef : fullFilter cfg fs l = fullFilter cfg fs' l')
    (hlen : l'.length ≤ l.length) : FullPost cfg fs l st' := by
  subst hfs
  rcases h with ⟨a, b⟩ | ⟨a, b, c, d, f, prev', g, h⟩
  · exact Or.inl ⟨a, by rw [ef, b]⟩
  · exact Or.inr ⟨a, b, c, by omega, f, prev', g, by rw [ef, h]; rfl⟩

theorem status_of_rest (st : State) (l : List Entry) (hs : st.status_ = st.input_.status)
    (hin : st.input_.rest = l) : l ≠ [] → st.status_ = Status.kOk := by
  intro hne
  obtain ⟨x, t, hx⟩ := List.exists_cons_of_ne_nil hne
  rw [hs]
  exact status_of_cons _ x t (by rw [hin, hx])

/-- The loop of `NextFromInput` over records whose keys parse, merging enabled:
it ends on the first record `fullFilter` keeps, or at the end of the input. -/
theorem loop_full (cfg : Config) (fl : Flags) (hlaw : cfg.cmp_.Lawful)
    (hbdm : cfg.background_disable_merge_ = false) (hf1 : fl.shutting_down = false)
    (hf2 : fl.bg_stopped = false) :
    ∀ (m : Nat) (l : List Entry) (fs : FilterState) (st : State) (n : Nat),
      l.length ≤ m → AllParse l → st.input_.rest = l → st.valid_ = false →
      st.at_next_ = false → (l ≠ [] → st.status_ = Status.kOk) →
      StateMatches cfg st fs.prev → st.has_outputted_key_ = fs.out →
      st.clear_and_output_next_key_ = fs.clear → fs.skip = false → 2 * l.length < n →
      ∃ st', NextFromInputLoop cfg fl n st = some st' ∧ FullPost cfg fs l st' := by
  intro m
  induction m with
  | zero =>
    intro l fs st n hlen _ hin hv _ _ _ _ _ _ _
    have hl : l = [] := List.length_eq_zero.mp (by omega)
    subst hl
    exact ⟨st, loop_exit cfg fl n st (by simp [loopCond, InternalIterator.Valid, hin]),
      Or.inl ⟨hv, rfl⟩⟩
  | succ m ih =>
    intro l fs st n hlen hpa hin hv han hs hm ho hcl hsk hn
    cases l with
    | nil =>
      exact ⟨st, loop_exit cfg fl n st (by simp [loopCond, InternalIterator.Valid, hin]),
        Or.inl ⟨hv, rfl⟩⟩
    | cons e l =>
      obtain ⟨ik, hp⟩ := hpa e (List.mem_cons_self _ _)
      have hpa' : AllParse l := fun x hx => hpa x (List.mem_cons_of_mem _ hx)
      obtain ⟨k, rfl⟩ : ∃ k, n = k + 1 := ⟨n - 1, by omega⟩
      simp only [List.length_cons] at hlen hn
      have hcond := loopCond_intro fl st e l hf1 hf2 hv (hs (by simp)) hin
      obtain ⟨bs, _⟩ := body_parsed_status cfg st e ik hp
      have bo := body_outputted cfg hlaw hbdm st e ik hv hp
      have hoe := outputtedFor_eq cfg st fs.prev fs.out ik.user_key hm ho
      rw [hoe] at bo
      by_cases hclear : fs.clear = true
      · -- the deferred-output branch emits the record with an empty value
        obtain ⟨c1, c2, c3, _, c5, c6⟩ := body_clear cfg hlaw hbdm st e ik hp
          (by rw [hcl, hclear])
        obtain ⟨d1, d2, d3, d4, _⟩ := body_clear_state cfg hlaw hbdm st e ik hp
          (by rw [hcl, hclear])
        obtain ⟨_, _, _, c4, _, _⟩ := body_clear cfg hlaw hbdm st e ik hp (by rw [hcl, hclear])
        have hpend : (NextFromInputBody cfg st e).1.pending = l := by
          simp [State.pending, c5, han, c6, hin]
        refine ⟨_, loop_emit_step cfg fl k st e l hcond hin d1 c1,
          Or.inr ⟨c1, bs, ?_, ?_, ?_, some ik, ⟨d2, d3, d4⟩, ?_⟩⟩
        · intro _; rw [c6, hin]; simp
        · rw [hpend]; simp
        · rw [hpend]; exact hpa'
        · rw [hpend, bo, c4]
          simp only [State.current, c2, c3]
          simp [fullFilter, hsk, hp, hclear]
      · simp only [Bool.not_eq_true] at hclear
        have hc0 : st.clear_and_output_next_key_ = false := by rw [hcl, hclear]
        by_cases ht : ik.type = ValueType.kTypeSingleDeletion
        · cases hsucc : successorOf ik.user_key l with
          | none =>
            have hun := successorOf_none _ ik l rfl hsucc
            obtain ⟨u1, u2, u3, u4, u5, u6, u7, u8, _⟩ :=
              body_sd_unmatched cfg hlaw hbdm st e l ik hin hv han hc0 hp ht hun
            by_cases hb : beyondHint cfg ik.user_key ik.sequence = true
            · -- unmatched and beyond the hint: dropped
              rw [hb] at u7 u8
              simp only [Bool.not_true] at u7 u8
              rw [loop_drop_step cfg fl k st e l hcond hin u1]
              obtain ⟨st', h1, h2⟩ := ih l (fs.dropTo none (effOut fs.prev fs.out ik.user_key))
                _ k (by omega) hpa' u2 u7 u8 (status_of_rest _ l bs u2) u5 bo u6 rfl (by omega)
              exact ⟨st', h1, FullPost_of_drop cfg fs _ (e :: l) l st' none _ rfl h2
                (by simp [fullFilter, hsk, hp, hclear, ht, hsucc, hb]) (by simp)⟩
            · -- unmatched: emitted
              simp only [Bool.not_eq_true] at hb
              rw [hb] at u7 u8
              simp only [Bool.not_false] at u7 u8
              have hpend : (NextFromInputBody cfg st e).1.pending = l := by
                simp [State.pending, u8, u2]
              refine ⟨_, loop_emit_step cfg fl k st e l hcond hin u1 u7,
                Or.inr ⟨u7, bs, ?_, ?_, ?_, none, u5, ?_⟩⟩
              · intro h; rw [u8] at h; exact absurd h (by simp)
              · rw [hpend]; simp
              · rw [hpend]; exact hpa'
              · rw [hpend, bo, u6]
                simp only [State.current, u3, u4]
                simp [fullFilter, hsk, hp, hclear, ht, hsucc, hb]
          | some nk =>
            obtain ⟨nxt, t, hl, hpn, hk⟩ := successorOf_some _ nk l hsucc
            subst hl
            simp only [List.length_cons] at hlen hn
            by_cases htest : (snapshotOf cfg ik.sequence).2 = 0
                ∨ nk.sequence > (snapshotOf cfg ik.sequence).2
            · by_cases hnt : nk.type = ValueType.kTypeSingleDeletion
              · -- two SingleDeletes in a row: the first is dropped
                obtain ⟨u1, u2, u3, u4, u5, _, u7, u8, u9, _⟩ :=
                  body_sd_double cfg hlaw hbdm st e nxt t ik nk hin hv han hc0 hp ht hpn hk hnt
                    htest
                rw [loop_drop_step cfg fl k st e (nxt :: t) hcond hin u1]
                obtain ⟨st', h1, h2⟩ := ih (nxt :: t)
                  (fs.dropTo (some ik) (effOut fs.prev fs.out ik.user_key))
                  _ k (by simp only [List.length_cons]; omega) hpa' u4 u2 u3
                  (status_of_rest _ _ bs u4) ⟨u7, u8, u9⟩ bo u5 rfl
                  (by simp only [List.length_cons]; omega)
                exact ⟨st', h1, FullPost_of_drop cfg fs _ (e :: nxt :: t) (nxt :: t) st'
                  (some ik) _ rfl h2
                  (by simp [fullFilter, hsk, hp, hclear, ht, hsucc, htest, hnt]) (by simp)⟩
              · obtain ⟨u1, u2, u3, u4, u5, u6, u7, u8⟩ :=
                  body_sd_matched cfg hlaw hbdm st e nxt t ik nk hin hv han hc0 hp ht hpn hk hnt
                    htest
                rw [hoe] at u7 u8
                by_cases hpair : ik.sequence ≤ cfg.earliest_write_conflict_snapshot_
                    ∨ effOut fs.prev fs.out ik.user_key = true
                · -- the pair is dropped
                  obtain ⟨v1, v2, v3, v4, _⟩ := u7 hpair
                  rw [loop_drop_step cfg fl k st e (nxt :: t) hcond hin u1]
                  obtain ⟨st', h1, h2⟩ := ih t
                    (fs.dropTo (some ik) (effOut fs.prev fs.out ik.user_key))
                    _ k (by omega)
                    (fun x hx => hpa' x (List.mem_cons_of_mem _ hx)) v3 v1 v2
                    (status_of_rest _ _ bs v3) ⟨u4, u5, u6⟩ bo v4 rfl
                    (by omega)
                  exact ⟨st', h1, FullPost_of_drop cfg fs _ (e :: nxt :: t) t st'
                    (some ik) _ rfl h2
                    (by
                      simp only [fullFilter, hsk, hp, hclear, ht, hsucc, htest, hnt, hpair,
                        Bool.false_eq_true, if_false, if_true]
                      rfl) (by simp only [List.length_cons]; omega)⟩
                · -- the SingleDelete is emitted and the deferred-output flag set
                  obtain ⟨v1, v2, v3, v4, _⟩ := u8 hpair
                  have hpend : (NextFromInputBody cfg st e).1.pending = nxt :: t := by
                    simp [State.pending, v2, v3]
                  refine ⟨_, loop_emit_step cfg fl k st e (nxt :: t) hcond hin u1 v1,
                    Or.inr ⟨v1, bs, ?_, ?_, ?_, some ik, ⟨u4, u5, u6⟩, ?_⟩⟩
                  · intro h; rw [v2] at h; exact absurd h (by simp)
                  · rw [hpend]; simp
                  · rw [hpend]; exact hpa'
                  · rw [hpend, bo, v4]
                    simp only [State.current, u2, u3]
                    simp [fullFilter, hsk, hp, hclear, ht, hsucc, htest, hnt, hpair]
            · -- the successor is in an older class: the SingleDelete is emitted
              obtain ⟨u1, u2, u3, u4, u5, u6, u7, u8, u9, u10, _⟩ :=
                body_sd_older cfg hlaw hbdm st e nxt t ik nk hin hv hc0 hp ht hpn hk htest
              have hpend : (NextFromInputBody cfg st e).1.pending = nxt :: t := by
                simp [State.pending, u8, u9]
              refine ⟨_, loop_emit_step cfg fl k st e (nxt :: t) hcond hin u1 u7,
                Or.inr ⟨u7, bs, ?_, ?_, ?_, some ik, ⟨u4, u5, u6⟩, ?_⟩⟩
              · intro h; rw [u8] at h; exact absurd h (by simp)
              · rw [hpend]; simp
              · rw [hpend]; exact hpa'
              · rw [hpend, bo, u10]
                simp only [State.current, u2, u3]
                simp [fullFilter, hsk, hp, hclear, ht, hsucc, htest]
        · -- not a SingleDelete
          obtain ⟨b1, b2, b3, b4, b5, b6, _, b8, b9, _, b11, b12⟩ :=
            body_other cfg hlaw hbdm st e l ik (lastSnapshotFor cfg fs.prev ik) hin hv han hc0
              hp ht (lastSnapshotFor_eq cfg st fs.prev ik hm)
          by_cases hh : lastSnapshotFor cfg fs.prev ik = visibilityClass cfg ik.sequence
          · -- hidden
            obtain ⟨v1, v2, _⟩ := b11 hh
            rw [loop_drop_step cfg fl k st e l hcond hin b1]
            obtain ⟨st', h1, h2⟩ := ih l
              (fs.dropTo (some ik) (effOut fs.prev fs.out ik.user_key))
              _ k (by omega) hpa' v2 v1 b2 (status_of_rest _ _ bs v2) ⟨b4, b5, b6⟩ bo b3 rfl
              (by omega)
            exact ⟨st', h1, FullPost_of_drop cfg fs _ (e :: l) l st' (some ik) _ rfl h2
              (by simp [fullFilter, hsk, hp, hclear, ht, plainHidden, hh]) (by simp)⟩
          · obtain ⟨_, v2, v3⟩ := b12 hh
            have hph : plainHidden cfg fs.prev ik = false := by simp [plainHidden, hh]
            by_cases hobs : ik.type = ValueType.kTypeDeletion
                ∧ beyondHint cfg ik.user_key ik.sequence = true
            · -- obsolete Delete
              obtain ⟨w1, w2, _⟩ := v2 hobs
              rw [loop_drop_step cfg fl k st e l hcond hin b1]
              obtain ⟨st', h1, h2⟩ := ih l
                (fs.dropTo (some ik) (effOut fs.prev fs.out ik.user_key))
                _ k (by omega) hpa' w2 w1 b2 (status_of_rest _ _ bs w2) ⟨b4, b5, b6⟩ bo b3 rfl
                (by omega)
              exact ⟨st', h1, FullPost_of_drop cfg fs _ (e :: l) l st' (some ik) _ rfl h2
                (by simp [fullFilter, hsk, hp, hclear, ht, hph, hobs]) (by simp)⟩
            · obtain ⟨w1, _, w3⟩ := v3 hobs
              by_cases hmg : ik.type = ValueType.kTypeMerge
              · -- Merge: left in place, then dropped as hidden by the next pass
                have wv : (NextFromInputBody cfg st e).1.valid_ = false := by
                  rw [w3, hmg]; simp
                rw [loop_drop_step cfg fl k st e l hcond hin b1]
                obtain ⟨k', rfl⟩ : ∃ k', k = k' + 1 := ⟨k - 1, by omega⟩
                have hcond2 := loopCond_intro fl (NextFromInputBody cfg st e).1 e l hf1 hf2 wv
                  (status_of_rest _ _ bs w1 (by simp)) w1
                obtain ⟨s1, hs1⟩ : ∃ s1 : State, s1 = (NextFromInputBody cfg st e).1 := ⟨_, rfl⟩
                rw [← hs1] at b2 b3 b4 b5 b6 bo w1 wv hcond2 ⊢
                obtain ⟨bs2, _⟩ := body_parsed_status cfg s1 e ik hp
                have bo2 := body_outputted cfg hlaw hbdm s1 e ik wv hp
                have hm1 : StateMatches cfg s1 (some ik) := ⟨b4, b5, b6⟩
                rw [outputtedFor_eq cfg s1 (some ik) _ ik.user_key hm1 bo] at bo2
                obtain ⟨c1, c2, c3, c4, c5, c6, _, _, _, _, c11, _⟩ :=
                  body_other cfg hlaw hbdm s1 e l ik (lastSnapshotFor cfg (some ik) ik) w1 wv b2
                    b3 hp ht (lastSnapshotFor_eq cfg s1 (some ik) ik hm1)
                obtain ⟨x1, x2, _⟩ := c11 (by simp [lastSnapshotFor])
                rw [loop_drop_step cfg fl k' s1 e l hcond2 w1 c1]
                obtain ⟨st', h1, h2⟩ := ih l
                  (fs.dropTo (some ik) (effOut fs.prev fs.out ik.user_key))
                  _ k' (by omega) hpa' x2 x1 c2 (status_of_rest _ _ bs2 x2) ⟨c4, c5, c6⟩
                  (by rw [bo2]; simp [effOut, FilterState.dropTo]) c3 rfl (by omega)
                exact ⟨st', h1, FullPost_of_drop cfg fs _ (e :: l) l st' (some ik) _ rfl h2
                  (by simp [fullFilter, hsk, hp, hclear, ht, hph, hobs, hmg]) (by simp)⟩
              · -- kept
                have wv : (NextFromInputBody cfg st e).1.valid_ = true := by
                  rw [w3]; simp [hmg]
                have hpend : (NextFromInputBody cfg st e).1.pending = l := by
                  simp [State.pending, b2, w1]
                refine ⟨_, loop_emit_step cfg fl k st e l hcond hin b1 wv,
                  Or.inr ⟨wv, bs, ?_, ?_, ?_, some ik, ⟨b4, b5, b6⟩, ?_⟩⟩
                · intro _; rw [w1]; simp
                · rw [hpend]; simp
                · rw [hpend]; exact hpa'
                · rw [hpend, bo, b3]
                  simp only [State.current, b8, b9]
                  simp [fullFilter, hsk, hp, hclear, ht, hph, hobs, hmg]

theorem NextFromInput_full (cfg : Config) (fl : Flags) (hlaw : cfg.cmp_.Lawful)
    (hbdm : cfg.background_disable_merge_ = false) (hfl : FlagsUnset cfg fl) (st : State)
    (fs : FilterState) (hpa : AllParse st.input_.rest)
    (hs : st.input_.rest ≠ [] → st.status_ = Status.kOk)
    (hm : StateMatches cfg st fs.prev) (ho : st.has_outputted_key_ = fs.out)
    (hcl : st.clear_and_output_next_key_ = fs.clear) (hsk : fs.skip = false) :
    ∃ st', NextFromInput cfg fl st = some st' ∧ FullPost cfg fs st.input_.rest st' := by
  obtain ⟨s, h1, h2⟩ := loop_full cfg fl hlaw hbdm hfl.1 hfl.2.1 st.input_.rest.length
    st.input_.rest fs st.enterLoop (2 * st.input_.rest.length + 2) (le_refl _) hpa rfl rfl rfl
    hs (by cases hq : fs.prev <;> rw [hq] at hm <;> exact hm) ho hcl hsk (by omega)
  refine ⟨s, ?_, h2⟩
  unfold NextFromInput
  simp only
  have : NextFromInputLoop cfg fl (2 * st.input_.rest.length + 2)
      { st with at_next_ := false, valid_ := false } = some s := h1
  rw [this]
  simp [afterLoop_unset cfg fl hfl s]

theorem CallInv_of_post (cfg : Config) (fs : FilterState) (s st' : State)
    (prev' : Option ParsedInternalKey)
    (hv : s.valid_ = true) (hst : s.status_ = s.input_.status)
    (hne : s.at_next_ = false → s.input_.rest ≠ []) (hpa : AllParse s.pending)
    (hm : StateMatches cfg s prev')
    (e1 : st'.valid_ = s.valid_) (e2 : st'.status_ = s.status_) (e3 : st'.at_next_ = s.at_next_)
    (e4 : st'.input_ = s.input_) (e5 : st'.has_current_user_key_ = s.has_current_user_key_)
    (e6 : st'.current_user_key_ = s.current_user_key_)
    (e7 : st'.current_user_key_snapshot_ = s.current_user_key_snapshot_)
    (e8 : st'.clear_and_output_next_key_ = s.clear_and_output_next_key_)
    (e9 : st'.has_outputted_key_ = if fs.first then s.has_outputted_key_ else true) :
    CallInv cfg st' (fs.emitTo prev' s.has_outputted_key_ s.clear_and_output_next_key_)
      ∧ st'.pending = s.pending := by
  have hp : st'.pending = s.pending := by simp only [State.pending, e3, e4]
  refine ⟨⟨by rw [e1, hv], by rw [e2, e4, hst], by rw [e3, e4]; exact hne, by rw [hp]; exact hpa,
    ?_, by rw [e9]; rfl, by rw [e8]; rfl, rfl, rfl⟩, hp⟩
  show StateMatches cfg st' prev'
  cases prev' with
  | none =>
    simp only [StateMatches] at hm ⊢
    rw [e5, hm]
  | some p =>
    simp only [StateMatches] at hm ⊢
    rw [e5, e6, e7]
    exact hm

theorem Next_full (cfg : Config) (fl : Flags) (hlaw : cfg.cmp_.Lawful)
    (hbdm : cfg.background_disable_merge_ = false) (hfl : FlagsUnset cfg fl) (st : State)
    (fs : FilterState) (hi : CallInv cfg st fs) :
    ∃ st', Next cfg fl st = some st'
      ∧ ((st'.valid_ = false ∧ fullFilter cfg fs st.pending = [])
        ∨ (st'.valid_ = true ∧ ∃ fs', CallInv cfg st' fs'
            ∧ st'.pending.length < st.pending.length
            ∧ fullFilter cfg fs st.pending = st'.current :: fullFilter cfg fs' st'.pending)) := by
  obtain ⟨hv, hst, hne, hpa, hm, ho, hcl, hsk, hfi⟩ := hi
  rw [Next_eq]
  obtain ⟨sA, hsA⟩ : ∃ sA : State, sA = (if st.at_next_ = false then { st with input_ := st.input_.Next, status_ := st.input_.Next.status } else st) := ⟨_, rfl⟩
  rw [← hsA]
  have a1 : sA.input_.rest = st.pending := by
    rw [hsA]
    unfold State.pending
    split_ifs <;> simp_all [InternalIterator.Next]
  have a2 : sA.input_.rest ≠ [] → sA.status_ = Status.kOk := by
    intro h
    have hs' : sA.status_ = sA.input_.status := by
      rw [hsA]
      split_ifs
      · rfl
      · exact hst
    exact status_of_rest sA _ hs' rfl h
  have a3 : StateMatches cfg sA fs.prev := by
    rw [hsA]
    split_ifs
    · cases hq : fs.prev <;> rw [hq] at hm <;> exact hm
    · exact hm
  have a4 : sA.has_outputted_key_ = fs.out := by
    rw [hsA]; split_ifs <;> exact ho
  have a5 : sA.clear_and_output_next_key_ = fs.clear := by
    rw [hsA]; split_ifs <;> exact hcl
  obtain ⟨s, h1, h2⟩ := NextFromInput_full cfg fl hlaw hbdm hfl sA fs (by rw [a1]; exact hpa)
    a2 a3 a4 a5 hsk
  rw [h1, a1] at *
  rcases h2 with ⟨b1, b2⟩ | ⟨b1, b2, b3, b4, b5, prev', b6, b7⟩
  · exact ⟨s, by simp [b1], Or.inl ⟨b1, b2⟩⟩
  · obtain ⟨c1, c2⟩ := CallInv_of_post cfg fs s { s with has_outputted_key_ := true }
      prev' b1 b2 b3 b5 b6 rfl rfl rfl rfl rfl rfl rfl rfl (by rw [hfi]; rfl)
    refine ⟨{ s with has_outputted_key_ := true }, by simp [b1], Or.inr ⟨b1, _, c1, ?_, ?_⟩⟩
    · rw [c2]; exact b4
    · rw [c2, b7]; rfl

theorem drain_full (cfg : Config) (fl : Flags) (hlaw : cfg.cmp_.Lawful)
    (hbdm : cfg.background_disable_merge_ = false) (hfl : FlagsUnset cfg fl) :
    ∀ (n : Nat) (st : State) (fs : FilterState), CallInv cfg st fs → st.pending.length < n →
      drain cfg fl n st = some (st.current :: fullFilter cfg fs st.pending) := by
  intro n
  induction n with
  | zero => intro st fs _ h; omega
  | succ n ih =>
    intro st fs hi hn
    obtain ⟨st', h1, h2⟩ := Next_full cfg fl hlaw hbdm hfl st fs hi
    have hv := hi.1
    simp only [drain, State.Valid, hv, if_true, h1]
    rcases h2 with ⟨a, b⟩ | ⟨a, fs', c, d, f⟩
    · have d1 : drain cfg fl n st' = some [] := by
        cases n <;> simp [drain, State.Valid, a]
      rw [d1, b]
      rfl
    · rw [ih st' fs' c (by omega), f]
      rfl

/-- Over records whose keys parse, with merging enabled, flags unset and a
lawful comparator, the run emits what `fullFilter` keeps. -/
theorem emitted_full (cfg : Config) (fl : Flags) (input : List Entry)
    (hlaw : cfg.cmp_.Lawful) (hbdm : cfg.background_disable_merge_ = false)
    (hfl : FlagsUnset cfg fl) (hpa : AllParse input) :
    emitted cfg fl input = some (fullFilter cfg FilterState.start input) := by
  unfold emitted
  rw [SeekToFirst_eq]
  obtain ⟨st, h1, h2⟩ := NextFromInput_full cfg fl hlaw hbdm hfl
    (State.init { rest := input, end_status := Status.kOk }) FilterState.start hpa
    (fun _ => rfl) rfl rfl rfl rfl
  rw [h1]
  simp only [State.init] at h2 ⊢
  rcases h2 with ⟨b1, b2⟩ | ⟨b1, b2, b3, b4, b5, prev', b6, b7⟩
  · rw [b2]
    simp [drain, State.Valid, b1]
  · obtain ⟨c1, _⟩ := CallInv_of_post cfg FilterState.start st st prev' b1 b2 b3 b5 b6
      rfl rfl rfl rfl rfl rfl rfl rfl rfl
    rw [drain_full cfg fl hlaw hbdm hfl _ st _ c1 (by omega), b7]


/-! ## Filtering the emitted records again -/

theorem fullFilter_skip (cfg : Config) (fs : FilterState) (e : Entry) (l : List Entry)
    (hsk : fs.skip = true) :
    fullFilter cfg fs (e :: l) = fullFilter cfg { fs with skip := false } l := by
  simp [fullFilter, hsk]

theorem fullFilter_clear (cfg : Config) (fs : FilterState) (e : Entry) (l : List Entry)
    (ik : ParsedInternalKey) (hsk : fs.skip = false) (hp : ParseInternalKey e.key = some ik)
    (hc : fs.clear = true) :
    fullFilter cfg fs (e :: l)
      = { e with value := [] }
          :: fullFilter cfg (fs.emitTo (some ik) (effOut fs.prev fs.out ik.user_key) false) l := by
  simp [fullFilter, hsk, hp, hc]

theorem fullFilter_sd_none (cfg : Config) (fs : FilterState) (e : Entry) (l : List Entry)
    (ik : ParsedInternalKey) (hsk : fs.skip = false) (hp : ParseInternalKey e.key = some ik)
    (hc : fs.clear = false) (ht : ik.type = ValueType.kTypeSingleDeletion)
    (hs : successorOf ik.user_key l = none) :
    fullFilter cfg fs (e :: l)
      = if beyondHint cfg ik.user_key ik.sequence then
          fullFilter cfg (fs.dropTo none (effOut fs.prev fs.out ik.user_key)) l
        else
          e :: fullFilter cfg (fs.emitTo none (effOut fs.prev fs.out ik.user_key) false) l := by
  simp [fullFilter, hsk, hp, hc, ht, hs]

theorem fullFilter_sd_some (cfg : Config) (fs : FilterState) (e : Entry) (l : List Entry)
    (ik nk : ParsedInternalKey) (hsk : fs.skip = false)
    (hp : ParseInternalKey e.key = some ik) (hc : fs.clear = false)
    (ht : ik.type = ValueType.kTypeSingleDeletion)
    (hs : successorOf ik.user_key l = some nk) :
    fullFilter cfg fs (e :: l)
      = if (snapshotOf cfg ik.sequence).2 = 0
            ∨ nk.sequence > (snapshotOf cfg ik.sequence).2 then
          if nk.type = ValueType.kTypeSingleDeletion then
            fullFilter cfg (fs.dropTo (some ik) (effOut fs.prev fs.out ik.user_key)) l
          else if ik.sequence ≤ cfg.earliest_write_conflict_snapshot_
              ∨ effOut fs.prev fs.out ik.user_key = true then
            fullFilter cfg
              { fs.dropTo (some ik) (effOut fs.prev fs.out ik.user_key) with skip := true } l
          else
            e :: fullFilter cfg
              (fs.emitTo (some ik) (effOut fs.prev fs.out ik.user_key) true) l
        else
          e :: fullFilter cfg (fs.emitTo (some ik) (effOut fs.prev fs.out ik.user_key) false) l := by
  simp only [fullFilter, hsk, hp, hc, ht, hs, Bool.false_eq_true, if_false, if_true]

theorem fullFilter_other (cfg : Config) (fs : FilterState) (e : Entry) (l : List Entry)
    (ik : ParsedInternalKey) (hsk : fs.skip = false) (hp : ParseInternalKey e.key = some ik)
    (hc : fs.clear = false) (ht : ik.type ≠ ValueType.kTypeSingleDeletion) :
    fullFilter cfg fs (e :: l)
      = if plainHidden cfg fs.prev ik = true
            ∨ (ik.type = ValueType.kTypeDeletion
                ∧ beyondHint cfg ik.user_key ik.sequence = true)
            ∨ ik.type = ValueType.kTypeMerge then
          fullFilter cfg (fs.dropTo (some ik) (effOut fs.prev fs.out ik.user_key)) l
        else
          e :: fullFilter cfg (fs.emitTo (some ik) (effOut fs.prev fs.out ik.user_key) false) l := by
  simp only [fullFilter, hsk, hp, hc, ht, Bool.false_eq_true, if_false]
  by_cases h1 : plainHidden cfg fs.prev ik = true
  · simp [h1]
  · by_cases h2 : ik.type = ValueType.kTypeDeletion
        ∧ beyondHint cfg ik.user_key ik.sequence = true
    · simp [h1, h2]
    · by_cases h3 : ik.type = ValueType.kTypeMerge
      · simp [h1, h2, h3]
      · simp [h1, h2, h3]

/-- What `fullFilter` does with the first record: it drops it, keeps it, keeps
it with an empty value, or stops on a key that does not parse. -/
theorem fullFilter_shape (cfg : Config) (fs : FilterState) (e : Entry) (l : List Entry) :
    ∃ fs', fullFilter cfg fs (e :: l) = fullFilter cfg fs' l
      ∨ fullFilter cfg fs (e :: l) = e :: fullFilter cfg fs' l
      ∨ fullFilter cfg fs (e :: l) = { e with value := [] } :: fullFilter cfg fs' l
      ∨ fullFilter cfg fs (e :: l) = [] := by
  by_cases hsk : fs.skip = true
  · exact ⟨_, Or.inl (fullFilter_skip cfg fs e l hsk)⟩
  · simp only [Bool.not_eq_true] at hsk
    cases hp : ParseInternalKey e.key with
    | none => exact ⟨fs, Or.inr (Or.inr (Or.inr (by simp [fullFilter, hsk, hp])))⟩
    | some ik =>
      by_cases hc : fs.clear = true
      · exact ⟨_, Or.inr (Or.inr (Or.inl (fullFilter_clear cfg fs e l ik hsk hp hc)))⟩
      · simp only [Bool.not_eq_true] at hc
        by_cases ht : ik.type = ValueType.kTypeSingleDeletion
        · cases hs : successorOf ik.user_key l with
          | none =>
            rw [fullFilter_sd_none cfg fs e l ik hsk hp hc ht hs]
            split_ifs
            · exact ⟨_, Or.inl rfl⟩
            · exact ⟨_, Or.inr (Or.inl rfl)⟩
          | some nk =>
            rw [fullFilter_sd_some cfg fs e l ik nk hsk hp hc ht hs]
            split_ifs
            · exact ⟨_, Or.inl rfl⟩
            · exact ⟨_, Or.inl rfl⟩
            · exact ⟨_, Or.inr (Or.inl rfl)⟩
            · exact ⟨_, Or.inr (Or.inl rfl)⟩
        · rw [fullFilter_other cfg fs e l ik hsk hp hc ht]
          split_ifs
          · exact ⟨_, Or.inl rfl⟩
          · exact ⟨_, Or.inr (Or.inl rfl)⟩

/-- Every record `fullFilter` keeps has the key of a record of the input. -/
theorem fullFilter_mem_key (cfg : Config) :
    ∀ (l : List Entry) (fs : FilterState) (x : Entry), x ∈ fullFilter cfg fs l →
      ∃ y ∈ l, y.key = x.key := by
  intro l
  induction l with
  | nil => intro fs x hx; simp [fullFilter] at hx
  | cons e l ih =>
    intro fs x hx
    obtain ⟨fs', h | h | h | h⟩ := fullFilter_shape cfg fs e l
    · rw [h] at hx
      obtain ⟨y, hy, hk⟩ := ih fs' x hx
      exact ⟨y, List.mem_cons_of_mem _ hy, hk⟩
    · rw [h] at hx
      rcases List.mem_cons.mp hx with rfl | hx
      · exact ⟨x, List.mem_cons_self _ _, rfl⟩
      · obtain ⟨y, hy, hk⟩ := ih fs' x hx
        exact ⟨y, List.mem_cons_of_mem _ hy, hk⟩
    · rw [h] at hx
      rcases List.mem_cons.mp hx with rfl | hx
      · exact ⟨e, List.mem_cons_self _ _, rfl⟩
      · obtain ⟨y, hy, hk⟩ := ih fs' x hx
        exact ⟨y, List.mem_cons_of_mem _ hy, hk⟩
    · rw [h] at hx
      simp at hx

theorem keyOrder_congr (cmp : Comparator) (a b a' b' : Entry) (ha : a'.key = a.key)
    (hb : b'.key = b.key) (h : keyOrder cmp a b) : keyOrder cmp a' b' := by
  unfold keyOrder at h ⊢
  rw [ha, hb]
  exact h

/-- The records `fullFilter` keeps from a sorted input are sorted. -/
theorem fullFilter_sorted (cfg : Config) :
    ∀ (l : List Entry) (fs : FilterState), InputSorted cfg.cmp_ l →
      InputSorted cfg.cmp_ (fullFilter cfg fs l) := by
  intro l
  induction l with
  | nil => intro fs _; simp [fullFilter, InputSorted]
  | cons e l ih =>
    intro fs hs
    have hs' : InputSorted cfg.cmp_ l := (List.pairwise_cons.mp hs).2
    have hhead : ∀ (e' : Entry) (fs' : FilterState), e'.key = e.key →
        InputSorted cfg.cmp_ (e' :: fullFilter cfg fs' l) := by
      intro e' fs' hk
      refine List.pairwise_cons.mpr ⟨fun x hx => ?_, ih fs' hs'⟩
      obtain ⟨y, hy, hky⟩ := fullFilter_mem_key cfg l fs' x hx
      exact keyOrder_congr cfg.cmp_ e y e' x hk hky.symm ((List.pairwise_cons.mp hs).1 y hy)
    obtain ⟨fs', h | h | h | h⟩ := fullFilter_shape cfg fs e l
    · rw [h]; exact ih fs' hs'
    · rw [h]; exact hhead e fs' rfl
    · rw [h]; exact hhead _ fs' rfl
    · rw [h]; simp [InputSorted]

theorem fullFilter_parses (cfg : Config) (l : List Entry) (fs : FilterState)
    (h : ∀ e ∈ l, e.Parses) : ∀ x ∈ fullFilter cfg fs l, x.Parses := by
  intro x hx
  obtain ⟨y, hy, hk⟩ := fullFilter_mem_key cfg l fs x hx
  obtain ⟨ik, h1, h2⟩ := h y hy
  exact ⟨ik, by rw [← hk]; exact h1, h2⟩

theorem precedes_filter {cfg : Config} {p : ParsedInternalKey} {l : List Entry}
    (h : Precedes cfg.cmp_ p l) (fs : FilterState) :
    Precedes cfg.cmp_ p (fullFilter cfg fs l) := by
  intro x hx xk hxk
  obtain ⟨y, hy, hk⟩ := fullFilter_mem_key cfg l fs x hx
  exact h y hy xk (by rw [hk]; exact hxk)

theorem precedes_tail {cmp : Comparator} {p : ParsedInternalKey} {e : Entry} {l : List Entry}
    (h : Precedes cmp p (e :: l)) : Precedes cmp p l :=
  fun x hx => h x (List.mem_cons_of_mem _ hx)

theorem precedes_of_sorted (cmp : Comparator) (e : Entry) (l : List Entry)
    (ik : ParsedInternalKey) (hs : InputSorted cmp (e :: l))
    (hp : ParseInternalKey e.key = some ik) : Precedes cmp ik l := by
  intro x hx xk hxk
  exact keyOrder_parsed ((List.pairwise_cons.mp hs).1 x hx) hp hxk

/-- A record with a previous snapshot is newer than the earliest snapshot, so
the hint does not reach it. -/
theorem beyondHint_of_prev (cfg : Config) (hasc : SnapshotsAscending cfg.snapshots_)
    (k : Slice) (seq : Nat) (hb : seq ≤ kMaxSequenceNumber)
    (h : (snapshotOf cfg seq).2 ≠ 0) : beyondHint cfg k seq = false := by
  rcases prev_snapshot_cases cfg hasc seq hb with ⟨h0, _⟩ | ⟨hm, hlt, _⟩
  · exact absurd h0 h
  · cases hbh : beyondHint cfg k seq with
    | false => rfl
    | true =>
      exfalso
      obtain ⟨_, _, h2, _⟩ := (beyondHint_iff cfg k seq).mp hbh
      have hne : cfg.snapshots_ ≠ [] := List.ne_nil_of_mem hm
      obtain ⟨w, t, hw⟩ := List.exists_cons_of_ne_nil hne
      have he : cfg.earliest_snapshot_ = w := by
        simp [Config.earliest_snapshot_, hw]
      have hle : w ≤ (snapshotOf cfg seq).2 := by
        rw [hw] at hm
        rcases List.mem_cons.mp hm with h1 | h1
        · omega
        · have := hasc
          unfold SnapshotsAscending at this
          rw [hw] at this
          exact (List.pairwise_cons.mp this).1 _ h1
      omega

theorem FilterRel_same (cfg : Config) (fs : FilterState) (l : List Entry)
    (hsk : fs.skip = false)
    (hp : ∀ d, fs.prev = some d → Precedes cfg.cmp_ d l ∧ d.sequence ≤ kMaxSequenceNumber) :
    FilterRel cfg fs fs l := by
  refine ⟨rfl, rfl, hsk, hp, fun p hpp => ?_, fun _ _ _ _ => rfl⟩
  obtain ⟨a, b⟩ := hp p hpp
  refine ⟨a, b, fun d hd => ?_, fun hn => ?_⟩
  · rw [hpp] at hd
    exact Or.inl (Option.some.inj hd)
  · rw [hpp] at hn
    exact absurd hn (by simp)

theorem FilterRel_skip (cfg : Config) (fs1 fs2 : FilterState) (e : Entry) (l : List Entry)
    (h : FilterRel cfg fs1 fs2 (e :: l)) (hsk : fs1.skip = true) :
    FilterRel cfg { fs1 with skip := false } fs2 l := by
  obtain ⟨a, b, c, d, f, g⟩ := h
  refine ⟨a, b, c, fun x hx => ⟨precedes_tail (d x hx).1, (d x hx).2⟩, fun p hp => ?_, ?_⟩
  · obtain ⟨f1, f2, f3, f4⟩ := f p hp
    exact ⟨precedes_tail f1, f2, f3, fun hn x hx => f4 hn x (List.mem_cons_of_mem _ hx)⟩
  · intro x hx xk hxk
    exact g x (by rw [fullFilter_skip cfg fs1 e l hsk]; exact hx) xk hxk

/-- In a sorted input whose keys parse, a record whose successor has another
user key is the last of its user key. -/
theorem unmatched_keys (cmp : Comparator) (hlaw : cmp.Lawful) (e : Entry) (l : List Entry)
    (ik : ParsedInternalKey) (hs : InputSorted cmp (e :: l))
    (hp : ParseInternalKey e.key = some ik) (hpar : ∀ x ∈ l, x.Parses)
    (hn : successorOf ik.user_key l = none) :
    ∀ x ∈ l, ∀ xk, ParseInternalKey x.key = some xk → xk.user_key ≠ ik.user_key := by
  cases l with
  | nil => intro x hx; simp at hx
  | cons nxt t =>
    obtain ⟨nk, hpn, _⟩ := hpar nxt (List.mem_cons_self _ _)
    have hne : nk.user_key ≠ ik.user_key := by
      intro hk
      simp [successorOf, hpn, hk] at hn
    intro x hx xk hxk hk
    rcases List.mem_cons.mp hx with rfl | hxt
    · rw [hpn] at hxk
      exact hne (by rw [Option.some.inj hxk]; exact hk)
    · have o1 : ikOrder cmp ik nk := precedes_of_sorted cmp e _ ik hs hp nxt
        (List.mem_cons_self _ _) nk hpn
      have o2 : ikOrder cmp nk xk :=
        precedes_of_sorted cmp nxt t nk (List.pairwise_cons.mp hs).2 hpn x hxt xk hxk
      exact hne (ikOrder_contiguous cmp hlaw ik nk xk o1 o2 hk)

theorem successorOf_none_of_keys (k : Slice) (l : List Entry)
    (h : ∀ x ∈ l, ∀ xk, ParseInternalKey x.key = some xk → xk.user_key ≠ k) :
    successorOf k l = none := by
  cases l with
  | nil => rfl
  | cons y t =>
    simp only [successorOf]
    cases hp : ParseInternalKey y.key with
    | none => rfl
    | some yk =>
      simp only
      rw [if_neg (h y (List.mem_cons_self _ _) yk hp)]

theorem keys_of_filter (cfg : Config) (fs : FilterState) (l : List Entry) (k : Slice)
    (h : ∀ x ∈ l, ∀ xk, ParseInternalKey x.key = some xk → xk.user_key ≠ k) :
    ∀ x ∈ fullFilter cfg fs l, ∀ xk, ParseInternalKey x.key = some xk → xk.user_key ≠ k := by
  intro x hx xk hxk
  obtain ⟨y, hy, hk⟩ := fullFilter_mem_key cfg l fs x hx
  exact h y hy xk (by rw [hk]; exact hxk)

/-- The relation survives a record the first run drops while it keeps the
record as its current user key. -/
theorem FilterRel_drop (cfg : Config) (hlaw : cfg.cmp_.Lawful) (fs1 fs1' fs2 : FilterState)
    (e : Entry) (l : List Entry) (ik : ParsedInternalKey)
    (hs : InputSorted cfg.cmp_ (e :: l)) (hp : ParseInternalKey e.key = some ik)
    (hb : ik.sequence ≤ kMaxSequenceNumber)
    (h : FilterRel cfg fs1 fs2 (e :: l)) (hc : fs1.clear = false)
    (e1 : fs1'.first = fs1.first) (e2 : fs1'.clear = false) (e3 : fs1'.prev = some ik)
    (e4 : fs1'.out = effOut fs1.prev fs1.out ik.user_key)
    (hF : fullFilter cfg fs1 (e :: l) = fullFilter cfg fs1' l) :
    FilterRel cfg fs1' fs2 l := by
  obtain ⟨a, b, c, d, f, g⟩ := h
  have hprec := precedes_of_sorted cfg.cmp_ e l ik hs hp
  refine ⟨by rw [e1, a], by rw [e2, ← b, hc], c, fun x hx => ?_, fun p hpp => ?_, ?_⟩
  · rw [e3] at hx
    rw [← Option.some.inj hx]
    exact ⟨hprec, hb⟩
  · obtain ⟨f1, f2, _, _⟩ := f p hpp
    refine ⟨precedes_tail f1, f2, fun x hx => ?_, fun hn => ?_⟩
    · rw [e3] at hx
      rw [← Option.some.inj hx]
      exact Or.inr (f1 e (List.mem_cons_self _ _) ik hp)
    · rw [e3] at hn
      exact absurd hn (by simp)
  · intro x hx xk hxk
    have hx' : x ∈ fullFilter cfg fs1 (e :: l) := by rw [hF]; exact hx
    have hg := g x hx' xk hxk
    rw [e3, e4]
    by_cases hk : ik.user_key = xk.user_key
    · rw [← hg, ← hk]
      simp [effOut]
    · rw [← hg]
      have h1 : effOut (some ik) (effOut fs1.prev fs1.out ik.user_key) xk.user_key = false := by
        simp [effOut, hk]
      rw [h1]
      cases hq : fs1.prev with
      | none => rfl
      | some q =>
        by_cases hqk : q.user_key = xk.user_key
        · exfalso
          obtain ⟨y, hy, hyk⟩ := fullFilter_mem_key cfg l fs1' x hx
          have o1 : ikOrder cfg.cmp_ q ik := (d q hq).1 e (List.mem_cons_self _ _) ik hp
          have o2 : ikOrder cfg.cmp_ ik xk := hprec y hy xk (by rw [hyk]; exact hxk)
          exact hk (ikOrder_contiguous cfg.cmp_ hlaw q ik xk o1 o2 hqk.symm ▸ hqk)
        · simp [effOut, hqk]

/-- The relation survives an unmatched SingleDelete the first run drops. -/
theorem FilterRel_drop_none (cfg : Config) (hlaw : cfg.cmp_.Lawful)
    (fs1 fs1' fs2 : FilterState) (e : Entry) (l : List Entry) (ik : ParsedInternalKey)
    (hs : InputSorted cfg.cmp_ (e :: l)) (hp : ParseInternalKey e.key = some ik)
    (h : FilterRel cfg fs1 fs2 (e :: l)) (hc : fs1.clear = false)
    (hU : ∀ x ∈ l, ∀ xk, ParseInternalKey x.key = some xk → xk.user_key ≠ ik.user_key)
    (e1 : fs1'.first = fs1.first) (e2 : fs1'.clear = false) (e3 : fs1'.prev = none)
    (hF : fullFilter cfg fs1 (e :: l) = fullFilter cfg fs1' l) :
    FilterRel cfg fs1' fs2 l := by
  obtain ⟨a, b, c, d, f, g⟩ := h
  have hprec := precedes_of_sorted cfg.cmp_ e l ik hs hp
  have hnot : ∀ (q : ParsedInternalKey), ikOrder cfg.cmp_ q ik → ∀ x ∈ l, ∀ xk,
      ParseInternalKey x.key = some xk → xk.user_key ≠ q.user_key := by
    intro q o1 x hx xk hxk hk
    have o2 : ikOrder cfg.cmp_ ik xk := hprec x hx xk hxk
    exact hU x hx xk hxk ((ikOrder_contiguous cfg.cmp_ hlaw q ik xk o1 o2 hk).symm ▸ hk)
  refine ⟨by rw [e1, a], by rw [e2, ← b, hc], c, fun x hx => ?_, fun p hpp => ?_, ?_⟩
  · rw [e3] at hx
    exact absurd hx (by simp)
  · obtain ⟨f1, f2, _, _⟩ := f p hpp
    refine ⟨precedes_tail f1, f2, fun x hx => ?_, fun _ => ?_⟩
    · rw [e3] at hx
      exact absurd hx (by simp)
    · exact hnot p (f1 e (List.mem_cons_self _ _) ik hp)
  · intro x hx xk hxk
    have hx' : x ∈ fullFilter cfg fs1 (e :: l) := by rw [hF]; exact hx
    have hg := g x hx' xk hxk
    rw [e3, ← hg]
    obtain ⟨y, hy, hyk⟩ := fullFilter_mem_key cfg l fs1' x hx
    cases hq : fs1.prev with
    | none => rfl
    | some q =>
      have := hnot q ((d q hq).1 e (List.mem_cons_self _ _) ik hp) y hy xk
        (by rw [hyk]; exact hxk)
      simp [effOut, Ne.symm this]

theorem emitTo_congr (fs1 fs2 : FilterState) (p : Option ParsedInternalKey) (o1 o2 c : Bool)
    (hfi : fs1.first = fs2.first) (ho : o1 = o2) :
    fs2.emitTo p o2 c = fs1.emitTo p o1 c := by
  simp [FilterState.emitTo, hfi, ho]

theorem plainHidden_rel (cfg : Config) (hlaw : cfg.cmp_.Lawful)
    (hasc : SnapshotsAscending cfg.snapshots_) (hpos : WatermarksPositive cfg)
    (fs1 fs2 : FilterState) (e : Entry) (l : List Entry) (ik : ParsedInternalKey)
    (hp : ParseInternalKey e.key = some ik)
    (h : FilterRel cfg fs1 fs2 (e :: l))
    (h1 : plainHidden cfg fs1.prev ik = false) : plainHidden cfg fs2.prev ik = false := by
  obtain ⟨_, _, _, s1, f, _⟩ := h
  have hcp := visibilityClass_pos cfg hpos ik.sequence
  cases hq : fs2.prev with
  | none =>
    simp only [plainHidden, lastSnapshotFor, decide_eq_false_iff_not]
    omega
  | some p =>
    obtain ⟨f1, f2, f3, f4⟩ := f p hq
    have op : ikOrder cfg.cmp_ p ik := f1 e (List.mem_cons_self _ _) ik hp
    by_cases hk : p.user_key = ik.user_key
    · have hlt := ikOrder_same_key cfg.cmp_ hlaw p ik op hk.symm
      cases hd : fs1.prev with
      | none => exact absurd hk.symm (f4 hd e (List.mem_cons_self _ _) ik hp)
      | some d =>
        obtain ⟨d1, d2⟩ := s1 d hd
        have od : ikOrder cfg.cmp_ d ik := d1 e (List.mem_cons_self _ _) ik hp
        rw [hd] at h1
        rcases f3 d hd with rfl | opd
        · exact h1
        · have hdk : d.user_key = p.user_key :=
            ikOrder_contiguous cfg.cmp_ hlaw p d ik opd od hk.symm
          have hlt1 := ikOrder_same_key cfg.cmp_ hlaw p d opd hdk
          have hlt2 := ikOrder_same_key cfg.cmp_ hlaw d ik od (by rw [hdk, hk])
          have m1 := visibilityClass_mono cfg hasc ik.sequence d.sequence (by omega) d2
          have m2 := visibilityClass_mono cfg hasc d.sequence p.sequence (by omega) f2
          simp only [plainHidden, lastSnapshotFor, hdk, hk, if_true,
            decide_eq_false_iff_not] at h1 ⊢
          omega
    · simp only [plainHidden, lastSnapshotFor, hk, if_false, decide_eq_false_iff_not]
      omega

/-- Filtering what `fullFilter` keeps from a sorted input keeps all of it: the
second run, in a loop state related to that of the first, emits each record the
first run emits. -/
theorem fullFilter_idem_aux (cfg : Config) (hlaw : cfg.cmp_.Lawful)
    (hasc : SnapshotsAscending cfg.snapshots_) (hpos : WatermarksPositive cfg) :
    ∀ (l : List Entry) (fs1 fs2 : FilterState), InputSorted cfg.cmp_ l →
      (∀ e ∈ l, e.Parses) → FilterRel cfg fs1 fs2 l →
      fullFilter cfg fs2 (fullFilter cfg fs1 l) = fullFilter cfg fs1 l := by
  intro l
  induction l with
  | nil => intro fs1 fs2 _ _ _; simp [fullFilter]
  | cons e l ih =>
    intro fs1 fs2 hs hpar hrel
    have hs' : InputSorted cfg.cmp_ l := (List.pairwise_cons.mp hs).2
    have hpar' : ∀ x ∈ l, x.Parses := fun x hx => hpar x (List.mem_cons_of_mem _ hx)
    by_cases hsk : fs1.skip = true
    · rw [fullFilter_skip cfg fs1 e l hsk]
      exact ih _ fs2 hs' hpar' (FilterRel_skip cfg fs1 fs2 e l hrel hsk)
    · simp only [Bool.not_eq_true] at hsk
      obtain ⟨ik, hp, hb⟩ := hpar e (List.mem_cons_self _ _)
      have hprec := precedes_of_sorted cfg.cmp_ e l ik hs hp
      obtain ⟨hfi, hcl, hsk2, S1, S2, O⟩ := id hrel
      -- both runs in the same loop state after an emission
      have hsame : ∀ (p : Option ParsedInternalKey) (o1 o2 c : Bool), o1 = o2 →
          (p = some ik ∨ p = none) →
          fullFilter cfg (fs2.emitTo p o2 c) (fullFilter cfg (fs1.emitTo p o1 c) l)
            = fullFilter cfg (fs1.emitTo p o1 c) l := by
        intro p o1 o2 c ho hpp
        rw [emitTo_congr fs1 fs2 p o1 o2 c hfi ho]
        apply ih _ _ hs' hpar'
        apply FilterRel_same cfg _ l rfl
        intro d hd
        rcases hpp with rfl | rfl
        · have : d = ik := (Option.some.inj hd).symm
          rw [this]
          exact ⟨hprec, hb⟩
        · exact absurd hd (by simp [FilterState.emitTo])
      by_cases hc : fs1.clear = true
      · -- deferred output in both runs
        have hc2 : fs2.clear = true := by rw [← hcl, hc]
        have hF := fullFilter_clear cfg fs1 e l ik hsk hp hc
        have hO := O { e with value := [] } (by rw [hF]; exact List.mem_cons_self _ _) ik hp
        rw [hF, fullFilter_clear cfg fs2 { e with value := [] } _ ik hsk2 hp hc2]
        rw [hsame (some ik) _ _ false hO (Or.inl rfl)]
      · simp only [Bool.not_eq_true] at hc
        have hc2 : fs2.clear = false := by rw [← hcl, hc]
        by_cases ht : ik.type = ValueType.kTypeSingleDeletion
        · cases hsucc : successorOf ik.user_key l with
          | none =>
            have hU := unmatched_keys cfg.cmp_ hlaw e l ik hs hp hpar' hsucc
            have hF := fullFilter_sd_none cfg fs1 e l ik hsk hp hc ht hsucc
            by_cases hbh : beyondHint cfg ik.user_key ik.sequence = true
            · rw [if_pos hbh] at hF
              rw [hF]
              exact ih _ fs2 hs' hpar' (FilterRel_drop_none cfg hlaw fs1 _ fs2 e l ik hs hp
                hrel hc hU rfl rfl rfl hF)
            · rw [if_neg hbh] at hF
              have hO := O e (by rw [hF]; exact List.mem_cons_self _ _) ik hp
              rw [hF, fullFilter_sd_none cfg fs2 e _ ik hsk2 hp hc2 ht
                (successorOf_none_of_keys _ _ (keys_of_filter cfg _ l _ hU)), if_neg hbh]
              rw [hsame none _ _ false hO (Or.inr rfl)]
          | some nk =>
            obtain ⟨nxt, t, hl, hpn, hk⟩ := successorOf_some _ nk l hsucc
            have hF := fullFilter_sd_some cfg fs1 e l ik nk hsk hp hc ht hsucc
            by_cases htest : (snapshotOf cfg ik.sequence).2 = 0
                ∨ nk.sequence > (snapshotOf cfg ik.sequence).2
            · rw [if_pos htest] at hF
              by_cases hnt : nk.type = ValueType.kTypeSingleDeletion
              · rw [if_pos hnt] at hF
                rw [hF]
                exact ih _ fs2 hs' hpar' (FilterRel_drop cfg hlaw fs1 _ fs2 e l ik hs hp hb
                  hrel hc rfl rfl rfl rfl hF)
              · rw [if_neg hnt] at hF
                by_cases hpair : ik.sequence ≤ cfg.earliest_write_conflict_snapshot_
                    ∨ effOut fs1.prev fs1.out ik.user_key = true
                · rw [if_pos hpair] at hF
                  rw [hF]
                  exact ih _ fs2 hs' hpar' (FilterRel_drop cfg hlaw fs1 _ fs2 e l ik hs hp hb
                    hrel hc rfl rfl rfl rfl hF)
                · rw [if_neg hpair] at hF
                  have hO := O e (by rw [hF]; exact List.mem_cons_self _ _) ik hp
                  have hR : successorOf ik.user_key (fullFilter cfg
                      (fs1.emitTo (some ik) (effOut fs1.prev fs1.out ik.user_key) true) l)
                      = some nk := by
                    rw [hl, fullFilter_clear cfg _ nxt t nk rfl hpn rfl]
                    simp [successorOf, hpn, hk]
                  rw [hF, fullFilter_sd_some cfg fs2 e _ ik nk hsk2 hp hc2 ht hR, if_pos htest,
                    if_neg hnt, if_neg (by rw [← hO]; exact hpair)]
                  rw [hsame (some ik) _ _ true hO (Or.inl rfl)]
            · -- the successor is in an older class
              rw [if_neg htest] at hF
              have hO := O e (by rw [hF]; exact List.mem_cons_self _ _) ik hp
              rw [hF]
              cases hR : successorOf ik.user_key (fullFilter cfg
                  (fs1.emitTo (some ik) (effOut fs1.prev fs1.out ik.user_key) false) l) with
              | some yk =>
                obtain ⟨y, r, hyr, hpy, hyk⟩ := successorOf_some _ yk _ hR
                have hy : y ∈ fullFilter cfg
                    (fs1.emitTo (some ik) (effOut fs1.prev fs1.out ik.user_key) false) l := by
                  rw [hyr]; exact List.mem_cons_self _ _
                obtain ⟨y0, hy0, hky⟩ := fullFilter_mem_key cfg l _ y hy
                have hpy0 : ParseInternalKey y0.key = some yk := by rw [hky]; exact hpy
                have hle : yk.sequence ≤ nk.sequence := by
                  rw [hl] at hy0
                  rcases List.mem_cons.mp hy0 with rfl | hyt
                  · rw [hpn] at hpy0
                    rw [Option.some.inj hpy0]
                  · rw [hl] at hs'
                    have o := precedes_of_sorted cfg.cmp_ nxt t nk hs' hpn y0 hyt yk hpy0
                    have := ikOrder_same_key cfg.cmp_ hlaw nk yk o (by rw [hyk, hk])
                    omega
                rw [fullFilter_sd_some cfg fs2 e _ ik yk hsk2 hp hc2 ht hR,
                  if_neg (by
                    intro hx
                    apply htest
                    rcases hx with hx | hx
                    · exact Or.inl hx
                    · exact Or.inr (by omega))]
                rw [hsame (some ik) _ _ false hO (Or.inl rfl)]
              | none =>
                have hbh : beyondHint cfg ik.user_key ik.sequence = false :=
                  beyondHint_of_prev cfg hasc ik.user_key ik.sequence hb
                    (fun h0 => htest (Or.inl h0))
                rw [fullFilter_sd_none cfg fs2 e _ ik hsk2 hp hc2 ht hR, hbh]
                simp only [Bool.false_eq_true, if_false]
                congr 1
                -- the second run has lost the user key; the first drops what is left of it
                have hsortedR := fullFilter_sorted cfg l
                  (fs1.emitTo (some ik) (effOut fs1.prev fs1.out ik.user_key) false) hs'
                have hprecR : Precedes cfg.cmp_ ik (fullFilter cfg
                    (fs1.emitTo (some ik) (effOut fs1.prev fs1.out ik.user_key) false) l) :=
                  precedes_filter hprec _
                have hparR := fullFilter_parses cfg l
                  (fs1.emitTo (some ik) (effOut fs1.prev fs1.out ik.user_key) false) hpar'
                have hUR : ∀ x ∈ fullFilter cfg
                    (fs1.emitTo (some ik) (effOut fs1.prev fs1.out ik.user_key) false) l,
                    ∀ xk, ParseInternalKey x.key = some xk → xk.user_key ≠ ik.user_key := by
                  generalize fullFilter cfg
                    (fs1.emitTo (some ik) (effOut fs1.prev fs1.out ik.user_key) false) l = R
                    at hR hsortedR hprecR hparR
                  cases R with
                  | nil => intro x hx; simp at hx
                  | cons y r =>
                    obtain ⟨yk, hpy, _⟩ := hparR y (List.mem_cons_self _ _)
                    have hne : yk.user_key ≠ ik.user_key := by
                      intro hk'
                      simp [successorOf, hpy, hk'] at hR
                    intro x hx xk hxk hkx
                    rcases List.mem_cons.mp hx with rfl | hxr
                    · rw [hpy] at hxk
                      exact hne (by rw [Option.some.inj hxk]; exact hkx)
                    · have o1 : ikOrder cfg.cmp_ ik yk := hprecR y (List.mem_cons_self _ _) yk hpy
                      have o2 : ikOrder cfg.cmp_ yk xk :=
                        precedes_of_sorted cfg.cmp_ y r yk hsortedR hpy x hxr xk hxk
                      exact hne (ikOrder_contiguous cfg.cmp_ hlaw ik yk xk o1 o2 hkx)
                apply ih _ _ hs' hpar'
                refine ⟨by simp [FilterState.emitTo], rfl, rfl, fun d hd => ?_,
                  fun p hpp => ?_, fun x hx xk hxk => ?_⟩
                · have : d = ik := (Option.some.inj hd).symm
                  rw [this]
                  exact ⟨hprec, hb⟩
                · exact absurd hpp (by simp [FilterState.emitTo])
                · have := hUR x hx xk hxk
                  simp [FilterState.emitTo, effOut, Ne.symm this]
        · -- not a SingleDelete
          have hF := fullFilter_other cfg fs1 e l ik hsk hp hc ht
          by_cases hdrop : plainHidden cfg fs1.prev ik = true
              ∨ (ik.type = ValueType.kTypeDeletion
                  ∧ beyondHint cfg ik.user_key ik.sequence = true)
              ∨ ik.type = ValueType.kTypeMerge
          · rw [if_pos hdrop] at hF
            rw [hF]
            exact ih _ fs2 hs' hpar' (FilterRel_drop cfg hlaw fs1 _ fs2 e l ik hs hp hb
              hrel hc rfl rfl rfl rfl hF)
          · rw [if_neg hdrop] at hF
            have hO := O e (by rw [hF]; exact List.mem_cons_self _ _) ik hp
            have hh1 : plainHidden cfg fs1.prev ik = false := by
              cases hq : plainHidden cfg fs1.prev ik with
              | false => rfl
              | true => exact absurd (Or.inl hq) hdrop
            have hh2 := plainHidden_rel cfg hlaw hasc hpos fs1 fs2 e l ik hp hrel hh1
            have hdrop2 : ¬ (plainHidden cfg fs2.prev ik = true
                ∨ (ik.type = ValueType.kTypeDeletion
                    ∧ beyondHint cfg ik.user_key ik.sequence = true)
                ∨ ik.type = ValueType.kTypeMerge) := by
              intro hx
              rcases hx with hx | hx
              · rw [hh2] at hx; exact absurd hx (by simp)
              · exact hdrop (Or.inr hx)
            rw [hF, fullFilter_other cfg fs2 e _ ik hsk2 hp hc2 ht, if_neg hdrop2]
            rw [hsame (some ik) _ _ false hO (Or.inl rfl)]

/-- With merging disabled, flags unset and keys that parse, the run emits its
input. -/
theorem emitted_bdm (cfg : Config) (fl : Flags) (input : List Entry)
    (hlaw : cfg.cmp_.Lawful) (hbdm : cfg.background_disable_merge_ = true)
    (hfl : FlagsUnset cfg fl) (hparse : AllParse input) :
    emitted cfg fl input = some input := by
  unfold emitted
  rw [SeekToFirst_eq]
  cases input with
  | nil =>
    have hN : NextFromInput cfg fl (State.init { rest := [], end_status := Status.kOk })
        = some (State.init { rest := [], end_status := Status.kOk }).enterLoop := by
      unfold NextFromInput
      simp only
      rw [loop_exit cfg fl _ _ (by simp [loopCond, InternalIterator.Valid, State.init])]
      simp only [Option.map_some', afterLoop_unset cfg fl hfl]
      rfl
    rw [hN]
    exact (drain_invalid cfg fl ([].length + 1)
      (State.init { rest := ([] : List Entry), end_status := Status.kOk }).enterLoop rfl).1
  | cons e l =>
    obtain ⟨ik, hp⟩ := hparse e (List.mem_cons_self _ _)
    obtain ⟨st1, h1, h2, h3, h4, h5, _, _⟩ := NextFromInput_bdm cfg fl hlaw hbdm hfl
      (State.init { rest := e :: l, end_status := Status.kOk }) e l ik hp rfl rfl
    rw [h1]
    exact (drain_bdm cfg fl hlaw hbdm hfl l ((e :: l).length + 1) st1 e
      h2 h4 h5 h3 (fun y hy => hparse y (List.mem_cons_of_mem _ hy))
      (by simp only [List.length_cons]; omega)).1

/-- C25: filtering is idempotent. For every configuration with a lawful
comparator and an ascending list of positive watermarks (positive
`last_sequence` when the list is empty), shutdown and cancel flags unset, and
every sorted input whose keys parse, the run of the filter ends, and the run of
the same filter over the list of records it emitted (keys and values as
emitted) ends and emits exactly that list again. -/
theorem filtering_idempotent (cfg : Config) (fl : Flags) (input : List Entry)
    (hlaw : cfg.cmp_.Lawful) (hasc : SnapshotsAscending cfg.snapshots_)
    (hpos : WatermarksPositive cfg) (hfl : FlagsUnset cfg fl)
    (hsorted : InputSorted cfg.cmp_ input) (hparse : ∀ e ∈ input, e.Parses) :
    ∃ out, emitted cfg fl input = some out ∧ emitted cfg fl out = some out := by
  have hpa : AllParse input := fun x hx => by
    obtain ⟨ik, h, _⟩ := hparse x hx
    exact ⟨ik, h⟩
  cases hbdm : cfg.background_disable_merge_ with
  | true =>
    have h := emitted_bdm cfg fl input hlaw hbdm hfl hpa
    exact ⟨input, h, h⟩
  | false =>
    refine ⟨fullFilter cfg FilterState.start input,
      emitted_full cfg fl input hlaw hbdm hfl hpa, ?_⟩
    have hpa2 : AllParse (fullFilter cfg FilterState.start input) := fun x hx => by
      obtain ⟨ik, h, _⟩ := fullFilter_parses cfg input FilterState.start hparse x hx
      exact ⟨ik, h⟩
    rw [emitted_full cfg fl _ hlaw hbdm hfl hpa2]
    rw [fullFilter_idem_aux cfg hlaw hasc hpos input FilterState.start FilterState.start
      hsorted hparse
      (FilterRel_same cfg FilterState.start input rfl (fun d hd => by
        simp [FilterState.start] at hd))]

/-- C25 at the input [Put(j)@9, SingleDelete(k)@8, Put(k)@7, Merge(k)@6,
SingleDelete(k)@4, Delete(k)@3, Put(k)@1] with snapshot set {5}: the run emits
[Put(j)@9, SingleDelete(k)@8, Put(k)@7 with an empty value], and the run over
that list emits it again. -/
theorem filtering_idempotent_witness :
    emitted (mkConfig [5] 10 0 (some [0])) Flags.unset
        [mkPut [1] [7] 9, mkSingleDelete [2] 8, mkPut [2] [8] 7, mkMerge [2] [9] 6,
          mkSingleDelete [2] 4, mkDelete [2] 3, mkPut [2] [6] 1]
      = some [mkPut [1] [7] 9, mkSingleDelete [2] 8, mkPut [2] [] 7]
    ∧ emitted (mkConfig [5] 10 0 (some [0])) Flags.unset
        [mkPut [1] [7] 9, mkSingleDelete [2] 8, mkPut [2] [] 7]
      = some [mkPut [1] [7] 9, mkSingleDelete [2] 8, mkPut [2] [] 7] := by
  obtain ⟨out, h1, h2⟩ := filtering_idempotent (mkConfig [5] 10 0 (some [0])) Flags.unset
    [mkPut [1] [7] 9, mkSingleDelete [2] 8, mkPut [2] [8] 7, mkMerge [2] [9] 6,
      mkSingleDelete [2] 4, mkDelete [2] 3, mkPut [2] [6] 1]
    bytewise_lawful (mkConfig_ascending_single 5 10 0 (some [0]))
    ⟨by intro w hw; simp [mkConfig] at hw; omega, by intro h; simp [mkConfig] at h⟩
    ⟨rfl, rfl, rfl⟩
    (by simp [InputSorted, keyOrder, ikOrder, mkPut, mkDelete, mkSingleDelete, mkMerge,
          ParseInternalKey, mkConfig, BytewiseComparator, bytewiseCompare])
    (by
      intro e he
      simp only [List.mem_cons, List.mem_singleton, List.not_mem_nil, or_false] at he
      rcases he with rfl | rfl | rfl | rfl | rfl | rfl | rfl <;> exact ⟨_, rfl, by decide⟩)
  have ho : emitted (mkConfig [5] 10 0 (some [0])) Flags.unset
      [mkPut [1] [7] 9, mkSingleDelete [2] 8, mkPut [2] [8] 7, mkMerge [2] [9] 6,
        mkSingleDelete [2] 4, mkDelete [2] 3, mkPut [2] [6] 1]
      = some [mkPut [1] [7] 9, mkSingleDelete [2] 8, mkPut [2] [] 7] := by decide
  rw [ho] at h1
  have := Option.some.inj h1
  subst this
  exact ⟨ho, h2⟩


/-! ## What `has_outputted_key_` records, in terms of the records emitted -/

theorem effOut_false (p : Option ParsedInternalKey) (k : Slice) : effOut p false k = false := by
  cases p <;> simp [effOut]

theorem ikOrder_irrefl (cmp : Comparator) (hlaw : cmp.Lawful) (a : ParsedInternalKey) :
    ¬ ikOrder cmp a a := by
  intro h
  have := ikOrder_same_key cmp hlaw a a h rfl
  omega

/-- In a sorted input, no record emitted before a record of another user key
than `k` has user key `k`, when a record of `k` is still to come. -/
theorem no_output_of_key (cfg : Config) (hlaw : cfg.cmp_.Lawful) (k : Slice)
    (A : List Entry) (e : Entry) (L : List Entry) (ek : ParsedInternalKey)
    (hs : InputSorted cfg.cmp_ (e :: L)) (hp : ParseInternalKey e.key = some ek)
    (hne : ek.user_key ≠ k)
    (hA : ∀ x ∈ A, ∀ xk, ParseInternalKey x.key = some xk → Precedes cfg.cmp_ xk (e :: L))
    (hk : ∃ s ∈ L, ∃ sk, ParseInternalKey s.key = some sk ∧ sk.user_key = k) :
    ∀ x ∈ A, ∀ xk, ParseInternalKey x.key = some xk → xk.user_key ≠ k := by
  obtain ⟨s, hsL, sk, hsp, hsk⟩ := hk
  intro x hx xk hxk hxu
  have o1 : ikOrder cfg.cmp_ xk ek := hA x hx xk hxk e (List.mem_cons_self _ _) ek hp
  have o2 : ikOrder cfg.cmp_ ek sk := precedes_of_sorted cfg.cmp_ e L ek hs hp s hsL sk hsp
  have := ikOrder_contiguous cfg.cmp_ hlaw xk ek sk o1 o2 (by rw [hsk, hxu])
  exact hne (by rw [this, hxu])

theorem PrefixInv_skip (cfg : Config) (k : Slice) (fs : FilterState) (A : List Entry)
    (e : Entry) (L : List Entry) (h : PrefixInv cfg k fs A (e :: L)) (hsk : fs.skip = true) :
    PrefixInv cfg k { fs with skip := false } A L := by
  obtain ⟨i1, i2, i0, _, i3, i4⟩ := h
  refine ⟨i1, i2, fun hx => absurd hx (by simp), fun hx => ?_, i3,
    fun x hx xk hxk => precedes_tail (i4 x hx xk hxk)⟩
  rcases hx with hx | hx
  · have := i0 hsk
    rw [this] at hx
    exact absurd hx (by simp)
  · exact absurd hx (by simp)

/-- The invariant survives a record that is dropped. -/
theorem PrefixInv_drop (cfg : Config) (hlaw : cfg.cmp_.Lawful) (k : Slice)
    (fs fs1 : FilterState) (A : List Entry) (e : Entry) (L : List Entry)
    (ek : ParsedInternalKey) (hs : InputSorted cfg.cmp_ (e :: L))
    (hp : ParseInternalKey e.key = some ek)
    (hk : ∃ s ∈ L, ∃ sk, ParseInternalKey s.key = some sk ∧ sk.user_key = k)
    (h : PrefixInv cfg k fs A (e :: L))
    (e1 : fs1.first = fs.first)
    (e2 : fs1.prev = some ek ∨ (fs1.prev = none ∧ ek.user_key ≠ k))
    (e3 : fs1.out = effOut fs.prev fs.out ek.user_key) (e4 : fs1.clear = false)
    (e5 : fs1.skip = true → ∃ e' l ek', L = e' :: l ∧ ParseInternalKey e'.key = some ek'
        ∧ ek'.type ≠ ValueType.kTypeSingleDeletion) :
    PrefixInv cfg k fs1 A L := by
  obtain ⟨i1, i2, _, _, i3, i4⟩ := h
  refine ⟨fun hf => ?_, fun hf => i2 (by rw [← e1, hf]), fun _ => e4, fun hx => ?_, ?_,
    fun x hx xk hxk => precedes_tail (i4 x hx xk hxk)⟩
  · obtain ⟨a, b⟩ := i1 (by rw [← e1, hf])
    exact ⟨a, by rw [e3, b, effOut_false]⟩
  · rcases hx with hx | hx
    · rw [e4] at hx
      exact absurd hx (by simp)
    · exact e5 hx
  · have hno : ek.user_key ≠ k → ¬ OutputByNext A k := by
      intro hne ⟨x, hx, xk, hxk, hxu⟩
      exact no_output_of_key cfg hlaw k A e L ek hs hp hne i4 hk x (List.mem_of_mem_tail hx)
        xk hxk hxu
    rcases e2 with e2 | ⟨e2, hne⟩
    · rw [e2, e3]
      by_cases hku : ek.user_key = k
      · rw [← i3, ← hku]
        simp [effOut]
      · constructor
        · intro hx
          simp [effOut, hku] at hx
        · intro hx
          exact absurd hx (hno hku)
    · rw [e2]
      constructor
      · intro hx
        simp [effOut] at hx
      · intro hx
        exact absurd hx (hno hne)

/-- The invariant survives a record that is emitted. -/
theorem PrefixInv_emit (cfg : Config) (hlaw : cfg.cmp_.Lawful) (k : Slice)
    (fs : FilterState) (A : List Entry) (e e' : Entry) (L : List Entry)
    (ek : ParsedInternalKey) (p : Option ParsedInternalKey) (c : Bool)
    (hs : InputSorted cfg.cmp_ (e :: L))
    (hp : ParseInternalKey e.key = some ek) (hkey : e'.key = e.key)
    (hk : ∃ s ∈ L, ∃ sk, ParseInternalKey s.key = some sk ∧ sk.user_key = k)
    (h : PrefixInv cfg k fs A (e :: L))
    (e2 : p = some ek ∨ (p = none ∧ ek.user_key ≠ k))
    (e5 : c = true → ∃ e1 l ek', L = e1 :: l ∧ ParseInternalKey e1.key = some ek'
        ∧ ek'.type ≠ ValueType.kTypeSingleDeletion) :
    PrefixInv cfg k (fs.emitTo p (effOut fs.prev fs.out ek.user_key) c) (A ++ [e']) L := by
  obtain ⟨i1, i2, _, _, i3, i4⟩ := h
  have hp' : ParseInternalKey e'.key = some ek := by rw [hkey]; exact hp
  refine ⟨fun hf => absurd hf (by simp [FilterState.emitTo]), fun _ => by simp,
    fun hx => absurd hx (by simp [FilterState.emitTo]), fun hx => ?_, ?_, ?_⟩
  · rcases hx with hx | hx
    · exact e5 hx
    · exact absurd hx (by simp [FilterState.emitTo])
  · have hno : ek.user_key ≠ k → ¬ OutputByNext (A ++ [e']) k := by
      intro hne ⟨x, hx, xk, hxk, hxu⟩
      rcases List.mem_append.mp (List.mem_of_mem_tail hx) with hxa | hxe
      · exact no_output_of_key cfg hlaw k A e L ek hs hp hne i4 hk x hxa xk hxk hxu
      · simp only [List.mem_singleton] at hxe
        rw [hxe, hp'] at hxk
        exact hne (by rw [Option.some.inj hxk]; exact hxu)
    rcases e2 with e2 | ⟨e2, hne⟩
    · rw [e2]
      by_cases hku : ek.user_key = k
      · cases hf : fs.first with
        | true =>
          obtain ⟨a, b⟩ := i1 hf
          have hv : effOut (fs.emitTo (some ek) (effOut fs.prev fs.out ek.user_key) c).prev
              (fs.emitTo (some ek) (effOut fs.prev fs.out ek.user_key) c).out k = false := by
            simp [FilterState.emitTo, hf, b, effOut_false]
          rw [hv]
          constructor
          · intro hx
            exact absurd hx (by simp)
          · rintro ⟨x, hx, _⟩
            rw [a] at hx
            simp at hx
        | false =>
          have hA := i2 hf
          constructor
          · intro _
            refine ⟨e', ?_, ek, hp', hku⟩
            obtain ⟨a, t, hat⟩ := List.exists_cons_of_ne_nil hA
            rw [hat]
            simp
          · intro _
            simp [FilterState.emitTo, effOut, hf, hku]
      · constructor
        · intro hx
          simp [FilterState.emitTo, effOut, hku] at hx
        · intro hx
          exact absurd hx (hno hku)
    · rw [e2]
      constructor
      · intro hx
        simp [FilterState.emitTo, effOut] at hx
      · intro hx
        exact absurd hx (hno hne)
  · intro x hx xk hxk
    rcases List.mem_append.mp hx with hxa | hxe
    · exact precedes_tail (i4 x hxa xk hxk)
    · simp only [List.mem_singleton] at hxe
      rw [hxe, hp'] at hxk
      rw [← Option.some.inj hxk]
      exact precedes_of_sorted cfg.cmp_ e L ek hs hp

/-- One record of the input: `fullFilter` drops or emits it, and the invariant
holds again. -/
theorem prefix_step (cfg : Config) (hlaw : cfg.cmp_.Lawful) (k : Slice) (fs : FilterState)
    (A : List Entry) (e : Entry) (L : List Entry) (hs : InputSorted cfg.cmp_ (e :: L))
    (hpar : ∀ x ∈ e :: L, x.Parses)
    (hk : ∃ s ∈ L, ∃ sk, ParseInternalKey s.key = some sk ∧ sk.user_key = k)
    (h : PrefixInv cfg k fs A (e :: L)) :
    ∃ B fs', fullFilter cfg fs (e :: L) = B ++ fullFilter cfg fs' L
      ∧ PrefixInv cfg k fs' (A ++ B) L := by
  have hpar' : ∀ x ∈ L, x.Parses := fun x hx => hpar x (List.mem_cons_of_mem _ hx)
  have hnone : ∀ fs1, PrefixInv cfg k fs1 A L → PrefixInv cfg k fs1 (A ++ []) L := by
    intro fs1 h1
    rw [List.append_nil]
    exact h1
  by_cases hsk : fs.skip = true
  · exact ⟨[], _, by rw [fullFilter_skip cfg fs e L hsk]; rfl,
      hnone _ (PrefixInv_skip cfg k fs A e L h hsk)⟩
  · simp only [Bool.not_eq_true] at hsk
    obtain ⟨ek, hp, _⟩ := hpar e (List.mem_cons_self _ _)
    by_cases hc : fs.clear = true
    · exact ⟨[{ e with value := [] }], _, by rw [fullFilter_clear cfg fs e L ek hsk hp hc]; rfl,
        PrefixInv_emit cfg hlaw k fs A e _ L ek (some ek) false hs hp rfl hk h (Or.inl rfl)
          (fun hx => absurd hx (by simp))⟩
    · simp only [Bool.not_eq_true] at hc
      by_cases ht : ek.type = ValueType.kTypeSingleDeletion
      · cases hsucc : successorOf ek.user_key L with
        | none =>
          have hU := unmatched_keys cfg.cmp_ hlaw e L ek hs hp hpar' hsucc
          have hne : ek.user_key ≠ k := by
            obtain ⟨s, hsL, sk, hsp, hsk'⟩ := hk
            intro hx
            exact hU s hsL sk hsp (by rw [hsk', hx])
          rw [fullFilter_sd_none cfg fs e L ek hsk hp hc ht hsucc]
          by_cases hbh : beyondHint cfg ek.user_key ek.sequence = true
          · rw [if_pos hbh]
            exact ⟨[], _, rfl, hnone _ (PrefixInv_drop cfg hlaw k fs _ A e L ek hs hp hk h rfl
              (Or.inr ⟨rfl, hne⟩) rfl rfl (fun hx => absurd hx (by simp [FilterState.dropTo])))⟩
          · rw [if_neg hbh]
            exact ⟨[e], _, rfl, PrefixInv_emit cfg hlaw k fs A e e L ek none false hs hp rfl hk h
              (Or.inr ⟨rfl, hne⟩) (fun hx => absurd hx (by simp))⟩
        | some nk =>
          obtain ⟨nxt, t, hl, hpn, _⟩ := successorOf_some _ nk L hsucc
          rw [fullFilter_sd_some cfg fs e L ek nk hsk hp hc ht hsucc]
          by_cases htest : (snapshotOf cfg ek.sequence).2 = 0
              ∨ nk.sequence > (snapshotOf cfg ek.sequence).2
          · rw [if_pos htest]
            by_cases hnt : nk.type = ValueType.kTypeSingleDeletion
            · rw [if_pos hnt]
              exact ⟨[], _, rfl, hnone _ (PrefixInv_drop cfg hlaw k fs _ A e L ek hs hp hk h rfl
                (Or.inl rfl) rfl rfl (fun hx => absurd hx (by simp [FilterState.dropTo])))⟩
            · rw [if_neg hnt]
              by_cases hpair : ek.sequence ≤ cfg.earliest_write_conflict_snapshot_
                  ∨ effOut fs.prev fs.out ek.user_key = true
              · rw [if_pos hpair]
                exact ⟨[], _, rfl, hnone _ (PrefixInv_drop cfg hlaw k fs _ A e L ek hs hp hk h
                  rfl (Or.inl rfl) rfl rfl (fun _ => ⟨nxt, t, nk, hl, hpn, hnt⟩))⟩
              · rw [if_neg hpair]
                exact ⟨[e], _, rfl, PrefixInv_emit cfg hlaw k fs A e e L ek (some ek) true hs hp
                  rfl hk h (Or.inl rfl) (fun _ => ⟨nxt, t, nk, hl, hpn, hnt⟩)⟩
          · rw [if_neg htest]
            exact ⟨[e], _, rfl, PrefixInv_emit cfg hlaw k fs A e e L ek (some ek) false hs hp rfl
              hk h (Or.inl rfl) (fun hx => absurd hx (by simp))⟩
      · rw [fullFilter_other cfg fs e L ek hsk hp hc ht]
        split_ifs
        · exact ⟨[], _, rfl, hnone _ (PrefixInv_drop cfg hlaw k fs _ A e L ek hs hp hk h rfl
            (Or.inl rfl) rfl rfl (fun hx => absurd hx (by simp [FilterState.dropTo])))⟩
        · exact ⟨[e], _, rfl, PrefixInv_emit cfg hlaw k fs A e e L ek (some ek) false hs hp rfl
            hk h (Or.inl rfl) (fun hx => absurd hx (by simp))⟩

/-- The records before a record of user key `k`: `fullFilter` emits some of
them and reaches that record in a state whose flag tells whether a call of
`Next` returned a record of `k`. -/
theorem prefix_run (cfg : Config) (hlaw : cfg.cmp_.Lawful) (k : Slice) (T : List Entry)
    (hk : ∃ s ∈ T, ∃ sk, ParseInternalKey s.key = some sk ∧ sk.user_key = k) :
    ∀ (pre : List Entry) (fs : FilterState) (A : List Entry),
      InputSorted cfg.cmp_ (pre ++ T) → (∀ x ∈ pre ++ T, x.Parses) →
      PrefixInv cfg k fs A (pre ++ T) →
      ∃ B fs', fullFilter cfg fs (pre ++ T) = B ++ fullFilter cfg fs' T
        ∧ PrefixInv cfg k fs' (A ++ B) T := by
  intro pre
  induction pre with
  | nil =>
    intro fs A _ _ h
    exact ⟨[], fs, rfl, by rw [List.append_nil]; exact h⟩
  | cons e pre ih =>
    intro fs A hs hpar h
    have hk' : ∃ s ∈ pre ++ T, ∃ sk, ParseInternalKey s.key = some sk ∧ sk.user_key = k := by
      obtain ⟨s, hsT, r⟩ := hk
      exact ⟨s, List.mem_append_right _ hsT, r⟩
    obtain ⟨B1, fs1, h1, h2⟩ := prefix_step cfg hlaw k fs A e (pre ++ T) hs hpar hk' h
    obtain ⟨B2, fs2, h3, h4⟩ := ih fs1 (A ++ B1) (List.pairwise_cons.mp hs).2
      (fun x hx => hpar x (List.mem_cons_of_mem _ hx)) h2
    refine ⟨B1 ++ B2, fs2, ?_, by rw [← List.append_assoc]; exact h4⟩
    show fullFilter cfg fs (e :: (pre ++ T)) = _
    rw [h1, h3, List.append_assoc]

theorem mem_tail_append (x : Entry) (B R : List Entry) (h : x ∈ (B ++ R).tail) :
    x ∈ B.tail ∨ x ∈ R := by
  cases B with
  | nil => exact Or.inr (List.mem_of_mem_tail h)
  | cons b t =>
    simp only [List.cons_append, List.tail_cons] at h ⊢
    exact List.mem_append.mp h

theorem mem_tail_append_left (x : Entry) (B R : List Entry) (h : x ∈ B.tail) :
    x ∈ (B ++ R).tail := by
  cases B with
  | nil => simp at h
  | cons b t =>
    simp only [List.cons_append, List.tail_cons] at h ⊢
    exact List.mem_append_left _ h

/-- What `has_outputted_key_` amounts to in a run, for the pair test of the
SingleDelete branch: over a sorted input whose keys parse (flags unset, merging
enabled, ascending snapshot list), for a SingleDelete that is immediately
followed by a record of the same user key, in the same visibility class, that
is not a SingleDelete, both records are dropped (no emitted record has the key
of either) if and only if the sequence of the SingleDelete is at most
`earliest_write_conflict_snapshot_` or a call of `Next` has returned a record of
that user key before, whatever its visibility class: a record of the tail of
the emitted list, the head being what `SeekToFirst` returned, with that user
key and a sequence above that of the SingleDelete. Otherwise the SingleDelete
is emitted. -/
theorem singleDelete_pair_run (cfg : Config) (fl : Flags) (pre post : List Entry)
    (sd nxt : Entry) (ik nk : ParsedInternalKey) (hlaw : cfg.cmp_.Lawful)
    (hbdm : cfg.background_disable_merge_ = false) (hfl : FlagsUnset cfg fl)
    (hasc : SnapshotsAscending cfg.snapshots_)
    (hsorted : InputSorted cfg.cmp_ (pre ++ sd :: nxt :: post))
    (hparse : ∀ e ∈ pre ++ sd :: nxt :: post, e.Parses)
    (hp : ParseInternalKey sd.key = some ik) (ht : ik.type = ValueType.kTypeSingleDeletion)
    (hpn : ParseInternalKey nxt.key = some nk) (hk : nk.user_key = ik.user_key)
    (hnt : nk.type ≠ ValueType.kTypeSingleDeletion)
    (hcls : visibilityClass cfg nk.sequence = visibilityClass cfg ik.sequence) :
    ∃ out, emitted cfg fl (pre ++ sd :: nxt :: post) = some out
      ∧ ((∀ x ∈ out, x.key ≠ sd.key ∧ x.key ≠ nxt.key)
          ↔ (ik.sequence ≤ cfg.earliest_write_conflict_snapshot_ ∨ OutputBefore out ik))
      ∧ (¬ (ik.sequence ≤ cfg.earliest_write_conflict_snapshot_ ∨ OutputBefore out ik) →
          sd ∈ out) := by
  have hpa : AllParse (pre ++ sd :: nxt :: post) := fun x hx => by
    obtain ⟨xk, h, _⟩ := hparse x hx
    exact ⟨xk, h⟩
  refine ⟨_, emitted_full cfg fl _ hlaw hbdm hfl hpa, ?_⟩
  have hsdT : sd ∈ sd :: nxt :: post := List.mem_cons_self _ _
  have hnxT : nxt ∈ sd :: nxt :: post := List.mem_cons_of_mem _ (List.mem_cons_self _ _)
  obtain ⟨B, fs', h1, hinv⟩ := prefix_run cfg hlaw ik.user_key (sd :: nxt :: post)
    ⟨sd, hsdT, ik, hp, rfl⟩ pre FilterState.start [] hsorted hparse
    ⟨fun _ => ⟨rfl, rfl⟩, fun hx => absurd hx (by simp [FilterState.start]),
      fun hx => absurd hx (by simp [FilterState.start]),
      fun hx => absurd hx (by simp [FilterState.start]),
      ⟨fun hx => absurd hx (by simp [FilterState.start, effOut]),
        fun ⟨x, hx, _⟩ => absurd hx (by simp)⟩,
      fun x hx => absurd hx (by simp)⟩
  rw [List.nil_append] at hinv
  obtain ⟨_, _, _, i2, i3, i4⟩ := hinv
  have hnoflag : ¬ (fs'.clear = true ∨ fs'.skip = true) := by
    intro hx
    obtain ⟨e, l, ek, hl, hpe, hte⟩ := i2 hx
    simp only [List.cons.injEq] at hl
    rw [← hl.1, hp] at hpe
    exact hte (by rw [← Option.some.inj hpe]; exact ht)
  have hclear : fs'.clear = false := by
    cases hq : fs'.clear with
    | false => rfl
    | true => exact absurd (Or.inl hq) hnoflag
  have hskip : fs'.skip = false := by
    cases hq : fs'.skip with
    | false => rfl
    | true => exact absurd (Or.inr hq) hnoflag
  obtain ⟨_, hp', hb⟩ := hparse sd (List.mem_append_right _ hsdT)
  rw [hp] at hp'
  have hb' : ik.sequence ≤ kMaxSequenceNumber := by rw [Option.some.inj hp']; exact hb
  have htest := same_class_test cfg hasc nk.sequence ik.sequence hb' hcls
  have hsucc : successorOf ik.user_key (nxt :: post) = some nk := by
    simp [successorOf, hpn, hk]
  have hT := fullFilter_sd_some cfg fs' sd (nxt :: post) ik nk hskip hp hclear ht hsucc
  rw [if_pos htest, if_neg hnt] at hT
  have hsT : InputSorted cfg.cmp_ (sd :: nxt :: post) := (List.pairwise_append.mp hsorted).2.1
  have hprec_sd : Precedes cfg.cmp_ ik (nxt :: post) :=
    precedes_of_sorted cfg.cmp_ sd _ ik hsT hp
  have hprec_nxt : Precedes cfg.cmp_ nk post :=
    precedes_of_sorted cfg.cmp_ nxt _ nk (List.pairwise_cons.mp hsT).2 hpn
  have hBkeys : ∀ x ∈ B, x.key ≠ sd.key ∧ x.key ≠ nxt.key := by
    intro x hx
    constructor
    · intro hkx
      exact ikOrder_irrefl cfg.cmp_ hlaw ik (i4 x hx ik (by rw [hkx]; exact hp) sd hsdT ik hp)
    · intro hkx
      exact ikOrder_irrefl cfg.cmp_ hlaw nk (i4 x hx nk (by rw [hkx]; exact hpn) nxt hnxT nk hpn)
  have hlater : ∀ (fs1 : FilterState) (x : Entry), x ∈ fullFilter cfg fs1 (nxt :: post) →
      ∀ xk, ParseInternalKey x.key = some xk → xk.user_key = ik.user_key →
      xk.sequence < ik.sequence := by
    intro fs1 x hx xk hxk hxu
    obtain ⟨y, hy, hyk⟩ := fullFilter_mem_key cfg _ fs1 x hx
    exact ikOrder_same_key cfg.cmp_ hlaw ik xk (hprec_sd y hy xk (by rw [hyk]; exact hxk)) hxu
  rw [h1, hT]
  by_cases hpair : ik.sequence ≤ cfg.earliest_write_conflict_snapshot_
      ∨ effOut fs'.prev fs'.out ik.user_key = true
  · rw [if_pos hpair, fullFilter_skip cfg _ nxt post rfl]
    have hC : ik.sequence ≤ cfg.earliest_write_conflict_snapshot_
        ∨ OutputBefore (B ++ fullFilter cfg
          { fs'.dropTo (some ik) (effOut fs'.prev fs'.out ik.user_key) with skip := false }
          post) ik := by
      rcases hpair with hx | hx
      · exact Or.inl hx
      · obtain ⟨x, hxt, xk, hxk, hxu⟩ := i3.mp hx
        refine Or.inr ⟨x, mem_tail_append_left x B _ hxt, xk, hxk, hxu, ?_⟩
        exact ikOrder_same_key cfg.cmp_ hlaw xk ik
          (i4 x (List.mem_of_mem_tail hxt) xk hxk sd hsdT ik hp) hxu.symm
    refine ⟨⟨fun _ => hC, fun _ x hx => ?_⟩, fun hn => absurd hC hn⟩
    rcases List.mem_append.mp hx with hxb | hxr
    · exact hBkeys x hxb
    · obtain ⟨y, hy, hyk⟩ := fullFilter_mem_key cfg post _ x hxr
      constructor
      · intro hkx
        exact ikOrder_irrefl cfg.cmp_ hlaw ik
          (hprec_sd y (List.mem_cons_of_mem _ hy) ik (by rw [hyk, hkx]; exact hp))
      · intro hkx
        exact ikOrder_irrefl cfg.cmp_ hlaw nk
          (hprec_nxt y hy nk (by rw [hyk, hkx]; exact hpn))
  · rw [if_neg hpair]
    have hsd : sd ∈ B ++ sd :: fullFilter cfg
        (fs'.emitTo (some ik) (effOut fs'.prev fs'.out ik.user_key) true) (nxt :: post) :=
      List.mem_append_right _ (List.mem_cons_self _ _)
    have hnC : ¬ (ik.sequence ≤ cfg.earliest_write_conflict_snapshot_
        ∨ OutputBefore (B ++ sd :: fullFilter cfg
          (fs'.emitTo (some ik) (effOut fs'.prev fs'.out ik.user_key) true) (nxt :: post))
          ik) := by
      rintro (hx | ⟨x, hxt, xk, hxk, hxu, hlt⟩)
      · exact hpair (Or.inl hx)
      · rcases mem_tail_append x B _ hxt with hxb | hxr
        · exact hpair (Or.inr (i3.mpr ⟨x, hxb, xk, hxk, hxu⟩))
        · rcases List.mem_cons.mp hxr with rfl | hxr'
          · rw [hp] at hxk
            rw [← Option.some.inj hxk] at hlt
            omega
          · have := hlater _ x hxr' xk hxk hxu
            omega
    exact ⟨⟨fun hall => absurd rfl (hall sd hsd).1, fun hC => absurd hC hnC⟩, fun _ => hsd⟩

/-- The run over [Put(j)@1, Put(k)@10, SingleDelete(k)@5, Put(k)@3] with
snapshot set {2, 7} and `earliest_write_conflict_snapshot` 2: `Next` has
returned Put(k)@10 when the SingleDelete is reached. -/
theorem singleDelete_pair_run_witness :
    ∃ out, emitted (mkConfig [2, 7] 10 2 none) Flags.unset
        ([mkPut [0] [1] 1, mkPut [1] [9] 10] ++ mkSingleDelete [1] 5 :: mkPut [1] [8] 3 :: [])
        = some out
      ∧ ((∀ x ∈ out, x.key ≠ (mkSingleDelete [1] 5).key ∧ x.key ≠ (mkPut [1] [8] 3).key)
          ↔ ((5 : Nat) ≤ (mkConfig [2, 7] 10 2 none).earliest_write_conflict_snapshot_
              ∨ OutputBefore out
                  { user_key := [1], sequence := 5, type := ValueType.kTypeSingleDeletion }))
      ∧ (¬ ((5 : Nat) ≤ (mkConfig [2, 7] 10 2 none).earliest_write_conflict_snapshot_
              ∨ OutputBefore out
                  { user_key := [1], sequence := 5, type := ValueType.kTypeSingleDeletion }) →
          mkSingleDelete [1] 5 ∈ out) :=
  singleDelete_pair_run (mkConfig [2, 7] 10 2 none) Flags.unset
    [mkPut [0] [1] 1, mkPut [1] [9] 10] [] (mkSingleDelete [1] 5) (mkPut [1] [8] 3)
    { user_key := [1], sequence := 5, type := ValueType.kTypeSingleDeletion }
    { user_key := [1], sequence := 3, type := ValueType.kTypeValue }
    bytewise_lawful rfl ⟨rfl, rfl, rfl⟩ (by simp [SnapshotsAscending, mkConfig])
    (by simp [InputSorted, keyOrder, ikOrder, mkPut, mkSingleDelete, ParseInternalKey, mkConfig,
          BytewiseComparator, bytewiseCompare])
    (by
      intro e he
      simp only [List.cons_append, List.nil_append, List.mem_cons, List.mem_singleton,
        List.not_mem_nil, or_false] at he
      rcases he with rfl | rfl | rfl | rfl <;> exact ⟨_, rfl, by decide⟩)
    rfl rfl rfl rfl (by decide) (by decide)

end smartengine
